import Mathlib

/-!
# scopehal protocol decoders: a verification development

Shallow embedding of the decoder code under `scopeprotocols/` and proofs about it.

Conventions of the embedding:
* `uint8_t`, `uint16_t`, `uint32_t`, `uint64_t` and `size_t` values are natural numbers,
  reduced `% 2 ^ w` wherever the C++ arithmetic can leave the width;
* `int64_t` timestamps are integers (the decoders never rely on signed wrap-around);
* `std::vector` is `List`; reads use `getD` and a comment says where the C++ read would be
  out of range;
* loops are structural recursions, over the data when the loop is a `for` over a vector,
  over an explicit bound otherwise; the theorems name the result of a run, so each shows for
  its inputs that the bound was enough.

Part I holds the definitions, Part II the theorems.
-/

set_option linter.unusedVariables false
set_option linter.unusedTactic false
set_option linter.unreachableTactic false

/-! # Part I: definitions -/


/-- Bounded universal check: `allBelow n p` holds when `p i` holds for every `i < n`. -/
def allBelow : Nat → (Nat → Bool) → Bool
  | 0, _ => true
  | n + 1, p => p n && allBelow n p

/-! ## `USB2PacketDecoder.cpp`: the two CRC routines -/

namespace USB2PacketDecoder

/-- The array `table4` of `VerifyCRC5`. -/
def table4 : List Nat :=
  [0x00, 0x0e, 0x1c, 0x12, 0x11, 0x1f, 0x0d, 0x03, 0x0b, 0x05, 0x17, 0x19, 0x1a, 0x14, 0x06, 0x08]

/-- The array `table0` of `VerifyCRC5`. -/
def table0 : List Nat :=
  [0x00, 0x16, 0x05, 0x13, 0x0a, 0x1c, 0x0f, 0x19, 0x14, 0x02, 0x11, 0x07, 0x1e, 0x08, 0x1b, 0x0d]

/-- The expression `table4[b & 0xf] ^ table0[(b >> 4) & 0xf]`, stored into a `uint8_t`. -/
def crc5Lookup (b : Nat) : Nat :=
  (table4.getD (b &&& 0xf) 0 ^^^ table0.getD ((b >>> 4) &&& 0xf) 0) % 256

/-- One iteration of the loop of `VerifyCRC5`: `b = data[i] ^ crc` (a `uint8_t`), then the
table lookup. -/
def crc5Update (crc d : Nat) : Nat :=
  crc5Lookup ((d ^^^ crc) % 256)

/-- `USB2PacketDecoder::VerifyCRC5(uint8_t* data)`; the two bytes read are `data[0]` and
`data[1]`. -/
def VerifyCRC5 (data0 data1 : Nat) : Bool :=
  crc5Update (crc5Update 0x1f data0) data1 == 6

/-- The body of the inner loop of `CalculateCRC16`, for bit `i` of byte `d`; `crc` is a
`uint16_t`. -/
def crc16Bit (d crc i : Nat) : Nat :=
  let b := ((crc ^^^ (d >>> i)) &&& 1) != 0
  let crc := crc >>> 1
  if b then (crc ^^^ 0xa001) % 65536 else crc

/-- The inner loop `for(int i=0; i<8; i++)` of `CalculateCRC16`. -/
def crc16Byte (crc d : Nat) : Nat :=
  (List.range 8).foldl (crc16Bit d) crc

/-- `USB2PacketDecoder::CalculateCRC16`. In the return expression `crc` is promoted to a
32-bit `int`, so `~` is the 32-bit complement, and the result is cut to `uint16_t`. -/
def CalculateCRC16 (data : List Nat) : Nat :=
  let crc := data.foldl crc16Byte 0xffff
  (2 ^ 32 - 1 - ((crc <<< 8) ||| ((crc >>> 8) &&& 0xff))) % 65536

end USB2PacketDecoder

/-! ## The USB CRCs as the USB specification words them

A bit-serial CRC: a shift register holding the coefficients of the remainder, highest power
first; every data bit is compared with the bit leaving the register and, when they differ, the
generator is added. The register is preset to all ones, the bytes go in least significant bit
first and the complemented register is sent highest power first. -/

namespace UsbSpec

/-- The `n` low bits of `v`, least significant first (the order USB sends them). -/
def bitsLsbFirst (n v : Nat) : List Bool := (List.range n).map v.testBit

/-- The number whose bits, least significant first, are the given list: the value a receiver
stores when the bits arrive in this order. -/
def packLsbFirst : List Bool → Nat
  | [] => 0
  | b :: bs => b.toNat + 2 * packLsbFirst bs

/-- Coefficients below `x ^ width` of a generator polynomial, highest power first; `exps`
lists the exponents present. -/
def generator (width : Nat) (exps : List Nat) : List Bool :=
  (List.range width).map fun i => decide (width - 1 - i ∈ exps)

/-- One step of the bit-serial division: shift the register up by one place and add the
generator when the bit shifted out differs from the data bit. -/
def crcShift (gen reg : List Bool) (d : Bool) : List Bool :=
  let sh := reg.tail ++ [false]
  if reg.headD false != d then List.zipWith xor sh gen else sh

/-- The register after a sequence of data bits. -/
def crcBits (gen reg bits : List Bool) : List Bool := bits.foldl (crcShift gen) reg

/-- Generator `x^5 + x^2 + 1`. -/
def gen5 : List Bool := generator 5 [2, 0]

/-- Generator `x^16 + x^15 + x^2 + 1`. -/
def gen16 : List Bool := generator 16 [15, 2, 0]

/-- USB token CRC5 of a bit sequence, as the five bits on the wire in the order sent:
register preset to `0x1F`, result complemented, highest power first. -/
def usbCrc5 (bits : List Bool) : List Bool :=
  (crcBits gen5 (List.replicate 5 true) bits).map not

/-- USB data CRC16 of a byte sequence, as the sixteen bits on the wire in the order sent:
register preset to `0xFFFF`, every byte least significant bit first, result complemented,
highest power first. -/
def usbCrc16 (data : List Nat) : List Bool :=
  (crcBits gen16 (List.replicate 16 true) (data.flatMap (bitsLsbFirst 8))).map not

/-- The value known as CRC-16/USB: the sixteen wire bits stored least significant first. -/
def crc16Usb (data : List Nat) : Nat := packLsbFirst (usbCrc16 data)

/-- Exchange the two bytes of a 16-bit value. -/
def swapBytes16 (v : Nat) : Nat := (v % 256) * 256 + (v / 256) % 256

end UsbSpec


/-! ## `PacketDecoder.h` and `EthernetProtocolDecoder.cpp` -/

/-- Conversion of a 64-bit unsigned value to `int64_t` (two's complement). -/
def toInt64 (n : Nat) : Int :=
  if n % 2 ^ 64 < 2 ^ 63 then ((n % 2 ^ 64 : Nat) : Int) else ((n % 2 ^ 64 : Nat) : Int) - 2 ^ 64

/-- Conversion of an `int64_t` to `uint64_t`. -/
def toUInt64 (z : Int) : Nat := (z % 2 ^ 64).toNat

/-- `Gdk::Color`: built from a colour string, taken from the table
`PacketDecoder::m_backgroundColors` (indexed by `PacketColor`), or default-constructed. -/
inductive PacketColor where
  | PROTO_COLOR_DEFAULT
  | PROTO_COLOR_ERROR
  | PROTO_COLOR_STATUS
  | PROTO_COLOR_CONTROL
  | PROTO_COLOR_DATA_READ
  | PROTO_COLOR_DATA_WRITE
  | PROTO_COLOR_COMMAND
  deriving DecidableEq, Repr

inductive Color where
  | unset
  | named (s : String)
  | background (c : PacketColor)
  deriving DecidableEq, Repr

/-- `class Packet` of `PacketDecoder.h`. -/
structure Packet where
  m_offset : Int
  m_len : Int
  m_headers : List (String × String)
  m_data : List Nat
  m_displayForegroundColor : Color
  m_displayBackgroundColor : Color
  deriving DecidableEq, Repr

/-- `m_headers[key] = value` on a `std::map`: replace the entry of `key`, or add one. -/
def setHeader (key value : String) : List (String × String) → List (String × String)
  | [] => [(key, value)]
  | (k, v) :: rest => if k = key then (key, value) :: rest else (k, v) :: setHeader key value rest

def hexDigit (n : Nat) : Char := "0123456789abcdef".toList.getD n '0'

/-- `%02x` of a byte. -/
def hex2 (b : Nat) : String := String.mk [hexDigit (b / 16 % 16), hexDigit (b % 16)]

namespace EthernetProtocolDecoder

inductive SegmentType where
  | TYPE_INVALID
  | TYPE_INBAND_STATUS
  | TYPE_NO_CARRIER
  | TYPE_PREAMBLE
  | TYPE_SFD
  | TYPE_DST_MAC
  | TYPE_SRC_MAC
  | TYPE_ETHERTYPE
  | TYPE_VLAN_TAG
  | TYPE_PAYLOAD
  | TYPE_FCS_GOOD
  | TYPE_FCS_BAD
  deriving DecidableEq, Repr

open SegmentType

structure EthernetFrameSegment where
  m_type : SegmentType
  m_data : List Nat
  deriving DecidableEq, Repr

structure EthernetWaveform where
  m_timescale : Int
  m_startTimestamp : Int
  m_startFemtoseconds : Int
  m_offsets : List Int
  m_durations : List Int
  m_samples : List EthernetFrameSegment
  deriving DecidableEq, Repr

/-- One record written to the capture file: the four 32-bit fields and the frame bytes. -/
structure PcapRecord where
  sec : Nat
  us : Nat
  caplen : Nat
  origlen : Nat
  data : List Nat
  deriving DecidableEq, Repr

/-- The local variables of `BytesToFrames` together with what it writes to: the output
waveform `cap`, and the capture file (the records appended when `m_fpOut` is open). -/
structure FrameState where
  segment : EthernetFrameSegment
  start : Nat
  crcstart : Nat
  crc_expected : Nat
  crc_actual : Nat
  pack : Packet
  cap : EthernetWaveform
  pcap : List PcapRecord
  deriving DecidableEq, Repr

/-- What `BytesToFrames` does not define itself: `Filter::CRC32(bytes, first, last)`, the macro
`FS_PER_SECOND`, and whether the capture file `m_fpOut` is open. -/
structure Env where
  CRC32 : List Nat → Nat → Nat → Nat
  FS_PER_SECOND : Nat
  fileOpen : Bool

def pushOffset (cap : EthernetWaveform) (v : Nat) : EthernetWaveform :=
  { cap with m_offsets := cap.m_offsets ++ [toInt64 v] }

def pushDuration (cap : EthernetWaveform) (v : Nat) : EthernetWaveform :=
  { cap with m_durations := cap.m_durations ++ [toInt64 v] }

def pushSample (cap : EthernetWaveform) (s : EthernetFrameSegment) : EthernetWaveform :=
  { cap with m_samples := cap.m_samples ++ [s] }

/-- `x / cap->m_timescale` for a `uint64_t` `x`: the `int64_t` scale is converted to unsigned. -/
def scaled (cap : EthernetWaveform) (x : Nat) : Nat := x / toUInt64 cap.m_timescale

/-- `a - b` on `uint64_t`. -/
def sub64 (a b : Nat) : Nat := (a + 2 ^ 64 - b % 2 ^ 64) % 2 ^ 64

/-- `(crc << 8) | b` on `uint32_t`. -/
def shiftIn32 (crc b : Nat) : Nat := ((crc <<< 8) ||| b) % 2 ^ 32

/-- The `snprintf` of a MAC address. -/
def formatMac (d : List Nat) : String :=
  String.intercalate ":" ((List.range 6).map fun k => hex2 (d.getD k 0))

/-- The record written when the SFD is found at index `i` and the file is open. -/
def pcapRecord (env : Env) (bytes : List Nat) (i : Nat) (cap : EthernetWaveform) (start : Nat) :
    PcapRecord :=
  let fs0 := toInt64 (toUInt64 cap.m_startFemtoseconds + start)
  let carry := decide (fs0 ≥ (env.FS_PER_SECOND : Int))
  let tstart := if carry then cap.m_startTimestamp + Int.tdiv fs0 env.FS_PER_SECOND
    else cap.m_startTimestamp
  let fs := if carry then Int.tmod fs0 env.FS_PER_SECOND else fs0
  let packet_len := (bytes.length + 2 ^ 32 - (i + 1) % 2 ^ 32) % 2 ^ 32
  { sec := (tstart % 2 ^ 32).toNat
    us := ((Int.tdiv fs 1000000000) % 2 ^ 32).toNat
    caplen := packet_len
    origlen := packet_len
    data := (bytes.drop (i + 1)).take packet_len }

/-- The headers and colours set when the Ethertype field completes at index `i`. -/
def ethertypeHeaders (bytes : List Nat) (i : Nat) (d : List Nat) (pack : Packet) : Packet :=
  let ethertype := ((d.getD 0 0 <<< 8) ||| d.getD 1 0) % 65536
  let set (name bg fg : String) (p : Packet) : Packet :=
    { p with m_headers := setHeader "Ethertype" name p.m_headers
             m_displayBackgroundColor := Color.named bg
             m_displayForegroundColor := Color.named fg }
  if ethertype < 1500 then
    let p := set "LLC" "#33a02c" "#000000" pack
    if i + 1 < bytes.length ∧ bytes.getD (i + 1) 0 = 0x42 then
      set "STP" "#fdbf6f" "#000000" p
    else p
  else if ethertype = 0x0800 then set "IPv4" "#a6cee3" "#000000" pack
  else if ethertype = 0x0806 then set "ARP" "#ffff99" "#000000" pack
  else if ethertype = 0x8100 then set "802.1q" "#b2df8a" "#000000" pack
  else if ethertype = 0x86DD then set "IPv6" "#1f78b4" "#ffffff" pack
  else set (hex2 (d.getD 0 0) ++ hex2 (d.getD 1 0)) "#fb9a99" "#000000" pack

/-- Result of one pass through the loop body: go on with the next byte, or `return`. -/
inductive Step where
  | next (s : FrameState)
  | done (s : FrameState)

/-- A field of fixed size `size` (`TYPE_DST_MAC`, `TYPE_SRC_MAC`, `TYPE_ETHERTYPE`,
`TYPE_VLAN_TAG`): record the start at the first byte, add the byte, and when the field is
complete emit it and let `finish` set up the next field. -/
def fixedField (starts ends : List Nat) (i b size : Nat) (s : FrameState)
    (finish : List Nat → FrameState → FrameState) : FrameState :=
  let s1 : FrameState :=
    if s.segment.m_data.isEmpty then
      { s with start := starts.getD i 0, cap := pushOffset s.cap (scaled s.cap (starts.getD i 0)) }
    else s
  let seg : EthernetFrameSegment := { s1.segment with m_data := s1.segment.m_data ++ [b] }
  let s2 : FrameState := { s1 with segment := seg }
  if seg.m_data.length = size then
    let cap := pushSample (pushDuration s2.cap (scaled s2.cap (sub64 (ends.getD i 0) s2.start))) seg
    finish seg.m_data { s2 with cap := cap }
  else s2

/-- The body of the `for` loop of `BytesToFrames` at index `i`, where `b = bytes[i]`. -/
def step (env : Env) (bytes starts ends : List Nat) (i b : Nat) (s : FrameState) : Step :=
  match s.segment.m_type with
  | TYPE_INVALID =>
    if b ≠ 0x55 then .next s
    else .next { s with
      start := starts.getD i 0
      segment := ⟨TYPE_PREAMBLE, [0x55]⟩
      pack := { s.pack with m_offset := toInt64 (starts.getD i 0) } }
  | TYPE_PREAMBLE =>
    if b = 0xd5 then
      let cap := pushOffset s.cap (scaled s.cap s.start)
      let cap := pushDuration cap (scaled cap (sub64 (starts.getD i 0) s.start))
      let cap := pushSample cap s.segment
      let start := starts.getD i 0
      let cap := pushOffset cap (scaled cap start)
      let cap := pushDuration cap (scaled cap (sub64 (ends.getD i 0) (starts.getD i 0)))
      let cap := pushSample cap ⟨TYPE_SFD, [0xd5]⟩
      .next { s with
        start := start
        cap := cap
        segment := ⟨TYPE_DST_MAC, []⟩
        crcstart := i + 1
        pcap := if env.fileOpen then s.pcap ++ [pcapRecord env bytes i cap start] else s.pcap }
    else if b = 0x55 then
      .next { s with segment := { s.segment with m_data := s.segment.m_data ++ [0x55] } }
    else .next s
  | TYPE_DST_MAC =>
    .next (fixedField starts ends i b 6 s fun d s =>
      { s with
        pack := { s.pack with m_headers := setHeader "Dest MAC" (formatMac d) s.pack.m_headers }
        segment := ⟨TYPE_SRC_MAC, []⟩ })
  | TYPE_SRC_MAC =>
    .next (fixedField starts ends i b 6 s fun d s =>
      { s with
        pack := { s.pack with m_headers := setHeader "Src MAC" (formatMac d) s.pack.m_headers }
        segment := ⟨TYPE_ETHERTYPE, []⟩ })
  | TYPE_ETHERTYPE =>
    .next (fixedField starts ends i b 2 s fun d s =>
      let ethertype := ((d.getD 0 0 <<< 8) ||| d.getD 1 0) % 65536
      { s with
        pack := ethertypeHeaders bytes i d s.pack
        segment := ⟨if ethertype = 0x8100 then TYPE_VLAN_TAG else TYPE_PAYLOAD, []⟩ })
  | TYPE_VLAN_TAG =>
    .next (fixedField starts ends i b 2 s fun d s =>
      let tag := ((d.getD 0 0 <<< 8) ||| d.getD 1 0) % 65536
      { s with
        segment := ⟨TYPE_ETHERTYPE, []⟩
        pack := { s.pack with m_headers := setHeader "VLAN" (toString (tag &&& 0xfff)) s.pack.m_headers } })
  | TYPE_PAYLOAD =>
    let start := starts.getD i 0
    let cap := pushOffset s.cap (scaled s.cap start)
    let cap := pushDuration cap (scaled cap (sub64 (ends.getD i 0) start))
    let cap := pushSample cap ⟨TYPE_PAYLOAD, [b]⟩
    if i = sub64 bytes.length 5 then
      .next { s with start := start, cap := cap, segment := ⟨TYPE_FCS_GOOD, []⟩ }
    else
      .next { s with
        start := start
        cap := cap
        segment := ⟨TYPE_PAYLOAD, [b]⟩
        pack := { s.pack with m_data := s.pack.m_data ++ [b] } }
  | TYPE_FCS_GOOD =>
    let s1 : FrameState :=
      if s.segment.m_data.isEmpty then
        { s with
          crc_expected := env.CRC32 bytes s.crcstart (sub64 i 1)
          start := starts.getD i 0
          cap := pushOffset s.cap (scaled s.cap (starts.getD i 0)) }
      else s
    let data := s1.segment.m_data ++ [b]
    let crc_actual := shiftIn32 s1.crc_actual b
    if data.length = 4 then
      let bad := decide (crc_actual ≠ s1.crc_expected)
      let seg : EthernetFrameSegment := ⟨if bad then TYPE_FCS_BAD else TYPE_FCS_GOOD, data⟩
      let pack : Packet :=
        if bad then
          { s1.pack with
            m_displayBackgroundColor := Color.background PacketColor.PROTO_COLOR_ERROR
            m_displayForegroundColor := Color.named "#ffffff" }
        else s1.pack
      let cap := pushSample (pushDuration s1.cap (scaled s1.cap (sub64 (ends.getD i 0) s1.start))) seg
      let pack := { pack with m_len := toInt64 (sub64 (ends.getD i 0) (toUInt64 pack.m_offset)) }
      .done { s1 with segment := seg, crc_actual := crc_actual, pack := pack, cap := cap }
    else
      .next { s1 with segment := ⟨TYPE_FCS_GOOD, data⟩, crc_actual := crc_actual }
  | _ => .next s

/-- The `for` loop of `BytesToFrames` from index `i` on; `rest` holds `bytes[i], bytes[i+1], ...`.
The flag of the result says whether the loop was left by `return`. -/
def loop (env : Env) (bytes starts ends : List Nat) : List Nat → Nat → FrameState → FrameState × Bool
  | [], _, s => (s, false)
  | b :: rest, i, s =>
    match step env bytes starts ends i b s with
    | .done s' => (s', true)
    | .next s' => loop env bytes starts ends rest (i + 1) s'

/-- The state in which the loop starts: a fresh `Packet`, `segment.m_type = TYPE_INVALID`. -/
def initState (cap : EthernetWaveform) (pcap : List PcapRecord) : FrameState :=
  { segment := ⟨TYPE_INVALID, []⟩
    start := 0
    crcstart := 0
    crc_expected := 0
    crc_actual := 0
    pack := ⟨0, 0, [], [], Color.unset, Color.unset⟩
    cap := cap
    pcap := pcap }

/-- What `BytesToFrames` leaves behind: the output waveform, the decoder's packet list and the
capture file. -/
structure Output where
  cap : EthernetWaveform
  m_packets : List Packet
  pcap : List PcapRecord
  deriving DecidableEq, Repr

/-- `EthernetProtocolDecoder::BytesToFrames(bytes, starts, ends, cap)`. The packet is kept only
when the loop is left by the `return` of the check field; otherwise it is deleted. -/
def BytesToFrames (env : Env) (bytes starts ends : List Nat) (cap : EthernetWaveform)
    (m_packets : List Packet) (pcap : List PcapRecord) : Output :=
  let r := loop env bytes starts ends bytes 0 (initState cap pcap)
  { cap := r.1.cap
    m_packets := if r.2 then m_packets ++ [r.1.pack] else m_packets
    pcap := r.1.pcap }

end EthernetProtocolDecoder


/-! ## Ethernet frames and the notions the statements about `BytesToFrames` use -/

/-- An Ethernet frame as a byte sequence: `n` preamble bytes `0x55`, the SFD `0xD5`, destination
and source MAC, the two Ethertype bytes, the payload and the frame check. -/
structure Frame where
  n : Nat
  dst : List Nat
  src : List Nat
  e0 : Nat
  e1 : Nat
  payload : List Nat
  fcs : List Nat
  deriving DecidableEq, Repr

namespace Frame

/-- The bytes of the frame in the order sent. -/
def bytes (f : Frame) : List Nat :=
  List.replicate f.n 0x55 ++ ([0xd5] ++ (f.dst ++ (f.src ++ ([f.e0, f.e1] ++ (f.payload ++ f.fcs)))))

/-- The Ethertype of the frame as a 16-bit number. -/
def ethertype (f : Frame) : Nat := f.e0 * 256 + f.e1

/-- The conditions on the parts of a frame: at least one preamble byte, 6-byte addresses, at
least one payload byte, four check bytes, every byte a `uint8_t`, and a length that a `size_t`
can hold. -/
def WellFormed (f : Frame) : Prop :=
  1 ≤ f.n ∧ f.dst.length = 6 ∧ f.src.length = 6 ∧ f.e0 < 256 ∧ f.e1 < 256
    ∧ 1 ≤ f.payload.length ∧ f.fcs.length = 4
    ∧ (∀ x ∈ f.dst, x < 256) ∧ (∀ x ∈ f.src, x < 256)
    ∧ (∀ x ∈ f.payload, x < 256) ∧ (∀ x ∈ f.fcs, x < 256)
    ∧ f.bytes.length < 2 ^ 64

instance (f : Frame) : Decidable f.WellFormed := by
  unfold WellFormed; infer_instance

end Frame

namespace EthernetProtocolDecoder
open SegmentType

/-- Four bytes read as a big-endian 32-bit value. -/
def be32 (l : List Nat) : Nat :=
  l.getD 0 0 * 2 ^ 24 + l.getD 1 0 * 2 ^ 16 + l.getD 2 0 * 2 ^ 8 + l.getD 3 0

/-- The symbols of a frame, in order, the check symbol having type `fcsType`. -/
def frameSymbols (f : Frame) (fcsType : SegmentType) : List EthernetFrameSegment :=
  [⟨TYPE_PREAMBLE, List.replicate f.n 0x55⟩, ⟨TYPE_SFD, [0xd5]⟩, ⟨TYPE_DST_MAC, f.dst⟩,
    ⟨TYPE_SRC_MAC, f.src⟩, ⟨TYPE_ETHERTYPE, [f.e0, f.e1]⟩]
  ++ f.payload.map (fun b => ⟨TYPE_PAYLOAD, [b]⟩) ++ [⟨fcsType, f.fcs⟩]

/-- What the proofs follow from one state of the loop to a later one: the field being
assembled, the samples and payload bytes added, and the CRC bookkeeping. -/
structure Tracks (s s' : FrameState) (seg : EthernetFrameSegment)
    (samples : List EthernetFrameSegment) (data : List Nat) : Prop where
  segment : s'.segment = seg
  samples : s'.cap.m_samples = s.cap.m_samples ++ samples
  data : s'.pack.m_data = s.pack.m_data ++ data
  crcstart : s'.crcstart = s.crcstart
  crc_actual : s'.crc_actual = s.crc_actual

/-- The loop runs over `xs` from index `i` and state `s` without returning, and ends as
described. -/
def Runs (env : Env) (bytes starts ends xs : List Nat) (i : Nat) (s : FrameState)
    (seg : EthernetFrameSegment) (samples : List EthernetFrameSegment) (data : List Nat) : Prop :=
  (loop env bytes starts ends xs i s).2 = false
    ∧ Tracks s (loop env bytes starts ends xs i s).1 seg samples data

/-- `crc_actual` is zero until the first check byte has been shifted in. -/
def CrcFresh (s : FrameState) : Prop :=
  (s.segment.m_type = TYPE_FCS_GOOD ∧ s.segment.m_data ≠ []) ∨ s.crc_actual = 0

/-- The loop of `BytesToFrames` after the first `k` bytes, started in state `s0`. -/
def stateAfter (env : Env) (bytes starts ends : List Nat) (s0 : FrameState) (k : Nat) :
    FrameState × Bool :=
  loop env bytes starts ends (bytes.take k) 0 s0

/-- The byte at index `j` is consumed as the SFD: the loop reaches it in the preamble state and
the byte is `0xD5`. -/
def SfdAt (env : Env) (bytes starts ends : List Nat) (s0 : FrameState) (j : Nat) : Prop :=
  (stateAfter env bytes starts ends s0 j).2 = false
    ∧ (stateAfter env bytes starts ends s0 j).1.segment.m_type = TYPE_PREAMBLE
    ∧ bytes.getD j 0 = 0xd5

/-- A lower bound on the number of bytes, counted from the last preamble byte, that the loop
has consumed when it is in state `s`. -/
def progress (s : FrameState) : Nat :=
  match s.segment.m_type with
  | TYPE_INVALID => 0
  | TYPE_PREAMBLE => 1
  | TYPE_DST_MAC => 2 + s.segment.m_data.length
  | TYPE_SRC_MAC => 8 + s.segment.m_data.length
  | TYPE_ETHERTYPE => 14 + s.segment.m_data.length
  | TYPE_VLAN_TAG => 14 + s.segment.m_data.length
  | TYPE_PAYLOAD => 16
  | TYPE_FCS_GOOD => 17 + s.segment.m_data.length
  | _ => 0

/-- An environment for the examples: a CRC32 that is constantly zero, no capture file. -/
def exampleEnv : Env := ⟨fun _ _ _ => 0, 10 ^ 15, false⟩

/-- An empty output waveform with a time scale of one. -/
def exampleCap : EthernetWaveform := ⟨1, 0, 0, [], [], []⟩

/-- A frame with two preamble bytes, Ethertype `0x0800`, three payload bytes and a check field
that the CRC32 of `exampleEnv` accepts. -/
def exampleFrame : Frame :=
  ⟨2, [1, 2, 3, 4, 5, 6], [7, 8, 9, 10, 11, 12], 0x08, 0x00, [0xaa, 0xbb, 0xcc], [0, 0, 0, 0]⟩

end EthernetProtocolDecoder

/-! ## `SPIDecoder.cpp` -/

namespace SPIDecoder

/-- A digital input waveform (`DigitalWaveform`): sample offsets and durations in time-scale
units and one logic level per sample. -/
structure DigitalWaveform where
  m_timescale : Int
  m_startTimestamp : Int
  m_startFemtoseconds : Int
  m_triggerPhase : Int
  m_offsets : List Int
  m_durations : List Int
  m_samples : List Bool
  deriving DecidableEq, Repr

inductive SymbolType where
  | TYPE_SELECT
  | TYPE_DESELECT
  | TYPE_DATA
  | TYPE_ERROR
  deriving DecidableEq, Repr

open SymbolType

/-- `SPISymbol(type, data)`; `m_data` is a `uint8_t`. -/
structure SPISymbol where
  m_stype : SymbolType
  m_data : Nat
  deriving DecidableEq, Repr

/-- The output waveform `SPIWaveform`. -/
structure SPIWaveform where
  m_timescale : Int
  m_startTimestamp : Int
  m_startFemtoseconds : Int
  m_triggerPhase : Int
  m_offsets : List Int
  m_durations : List Int
  m_samples : List SPISymbol
  deriving DecidableEq, Repr

/-- The `enum` of `Refresh`. -/
inductive State where
  | STATE_IDLE
  | STATE_DESELECTED
  | STATE_SELECTED_CLKLO
  | STATE_SELECTED_CLKHI
  deriving DecidableEq, Repr

open State

/-- The variables of `Refresh` that the `switch` reads and writes. -/
structure Machine where
  state : State
  current_byte : Nat
  bitcount : Nat
  bytestart : Int
  first : Bool
  cap : SPIWaveform
  deriving DecidableEq, Repr

/-- Append one output sample. -/
def emit (cap : SPIWaveform) (offset duration : Int) (s : SPISymbol) : SPIWaveform :=
  { cap with
    m_offsets := cap.m_offsets ++ [offset]
    m_durations := cap.m_durations ++ [duration]
    m_samples := cap.m_samples ++ [s] }

/-- The block "Extend the last byte until this edge": when the last output sample is a
`TYPE_DATA`, its duration becomes `timestamp - offset`. -/
def extendLast (cap : SPIWaveform) (timestamp : Int) : SPIWaveform :=
  if cap.m_samples.isEmpty then cap
  else
    let ilast := cap.m_samples.length - 1
    if (cap.m_samples.getD ilast ⟨TYPE_ERROR, 0⟩).m_stype = TYPE_DATA then
      { cap with m_durations := cap.m_durations.set ilast (timestamp - cap.m_offsets.getD ilast 0) }
    else cap

/-- The shift of `current_byte`: `1 | (current_byte << 1)` when the data line is high,
`current_byte << 1` otherwise, stored into a `uint8_t`. -/
def shiftIn (current_byte : Nat) (cur_data : Bool) : Nat :=
  if cur_data then (1 ||| (current_byte <<< 1)) % 256 else (current_byte <<< 1) % 256

/-- The `if(cur_clk)` block of `STATE_SELECTED_CLKLO`: what a clock edge does. -/
def clockEdge (timestamp : Int) (cur_data : Bool) (m : Machine) : Machine :=
  let m1 : Machine :=
    if m.bitcount = 0 then
      if m.first then
        { m with
          cap := emit m.cap m.bytestart (timestamp - m.bytestart) ⟨TYPE_SELECT, 0⟩
          first := false
          bytestart := timestamp }
      else
        { m with cap := extendLast m.cap timestamp, bytestart := timestamp }
    else m
  let bitcount := (m1.bitcount + 1) % 256
  let current_byte := shiftIn m1.current_byte cur_data
  if bitcount = 8 then
    { m1 with
      state := STATE_SELECTED_CLKHI
      cap := emit m1.cap m1.bytestart (timestamp - m1.bytestart) ⟨TYPE_DATA, current_byte⟩
      bitcount := 0
      current_byte := 0
      bytestart := timestamp }
  else
    { m1 with state := STATE_SELECTED_CLKHI, bitcount := bitcount, current_byte := current_byte }

/-- The "end of packet" block of the two selected states. -/
def deselect (timestamp : Int) (m : Machine) : Machine :=
  { m with
    cap := emit m.cap m.bytestart (timestamp - m.bytestart) ⟨TYPE_DESELECT, 0⟩
    bytestart := timestamp
    state := STATE_DESELECTED }

/-- The `switch(state)` of the loop body, for the current samples and time stamp. -/
def step (timestamp : Int) (cur_cs cur_clk cur_data : Bool) (m : Machine) : Machine :=
  match m.state with
  | STATE_IDLE => if cur_cs then { m with state := STATE_DESELECTED } else m
  | STATE_DESELECTED =>
    if !cur_cs then
      { m with
        state := STATE_SELECTED_CLKLO
        current_byte := 0
        bitcount := 0
        bytestart := timestamp
        first := true }
    else m
  | STATE_SELECTED_CLKLO =>
    if cur_clk then clockEdge timestamp cur_data m
    else if cur_cs then deselect timestamp m
    else m
  | STATE_SELECTED_CLKHI =>
    if !cur_clk then { m with state := STATE_SELECTED_CLKLO }
    else if cur_cs then deselect timestamp m
    else m

/-- Modelled from the spec: `Filter::GetNextEventTimestamp`, which is not among the sources.
The time stamp of the next sample of the waveform, or the current time stamp when the cursor
is at the last sample ("not found" at the end of the trace, §4.1). -/
def GetNextEventTimestamp (wfm : DigitalWaveform) (i len : Nat) (timestamp : Int) : Int :=
  if i + 1 < len then wfm.m_offsets.getD (i + 1) 0 else timestamp

/-- Modelled from the spec: `Filter::AdvanceToTimestamp`, which is not among the sources.
Moves the cursor forward, never back, to the last sample that starts at or before
`timestamp` (§4.1: the cursor is monotonic). The recursion is over the number of samples. -/
def AdvanceToTimestamp (wfm : DigitalWaveform) (len : Nat) (timestamp : Int) : Nat → Nat → Nat
  | 0, i => i
  | fuel + 1, i =>
    if i + 1 < len ∧ wfm.m_offsets.getD (i + 1) 0 ≤ timestamp then
      AdvanceToTimestamp wfm len timestamp fuel (i + 1)
    else i

/-- The cursors and the time stamp of the loop of `Refresh`. -/
structure Cursor where
  ics : Nat
  iclk : Nat
  idata : Nat
  timestamp : Int
  deriving DecidableEq, Repr

/-- The `while(true)` loop of `Refresh`. Every pass that does not `break` moves `ics` or `iclk`
forward, so `fuel = cslen + clklen` passes are enough; `none` stands for a loop that has not
ended within `fuel` passes. -/
def loop (clk csn data : DigitalWaveform) : Nat → Cursor → Machine → Option Machine
  | 0, _, _ => none
  | fuel + 1, c, m =>
    let clklen := clk.m_samples.length
    let cslen := csn.m_samples.length
    let datalen := data.m_samples.length
    let cur_cs := csn.m_samples.getD c.ics false
    let cur_clk := clk.m_samples.getD c.iclk false
    let cur_data := data.m_samples.getD c.idata false
    let m' := step c.timestamp cur_cs cur_clk cur_data m
    let next_cs := GetNextEventTimestamp csn c.ics cslen c.timestamp
    let next_clk := GetNextEventTimestamp clk c.iclk clklen c.timestamp
    let next_timestamp := min next_clk next_cs
    if next_timestamp = c.timestamp then some m'
    else
      loop clk csn data fuel
        { ics := AdvanceToTimestamp csn cslen next_timestamp cslen c.ics
          iclk := AdvanceToTimestamp clk clklen next_timestamp clklen c.iclk
          idata := AdvanceToTimestamp data datalen next_timestamp datalen c.idata
          timestamp := next_timestamp } m'

/-- What `Refresh` passes to `SetData`: `NULL`, or the capture. -/
inductive Output where
  | null
  | data (cap : SPIWaveform)
  deriving DecidableEq, Repr

/-- `SPIDecoder::Refresh`. `inputsOK` is the result of `VerifyAllInputsOK()`. The result is
`none` only if the loop did not end within its bound. -/
def Refresh (inputsOK : Bool) (clk csn data : DigitalWaveform) : Option Output :=
  if !inputsOK then some Output.null
  else
    let cap : SPIWaveform :=
      { m_timescale := clk.m_timescale
        m_startTimestamp := clk.m_startTimestamp
        m_startFemtoseconds := clk.m_startFemtoseconds
        m_triggerPhase := clk.m_triggerPhase
        m_offsets := []
        m_durations := []
        m_samples := [] }
    (loop clk csn data (csn.m_samples.length + clk.m_samples.length + 1) ⟨0, 0, 0, 0⟩
      ⟨STATE_IDLE, 0, 0, 0, false, cap⟩).map fun m => Output.data m.cap

end SPIDecoder

/-! ## Three-channel captures for the statements about `SPIDecoder` -/

namespace SPIDecoder
open SymbolType State

/-- One sampling instant of a three-channel capture: the time and the three levels. -/
structure Sample where
  t : Int
  cs : Bool
  clk : Bool
  data : Bool
  deriving DecidableEq, Repr

/-- A channel of a capture sampled at common instants. -/
def channel (samples : List Sample) (level : Sample → Bool) : DigitalWaveform :=
  { m_timescale := 1
    m_startTimestamp := 0
    m_startFemtoseconds := 0
    m_triggerPhase := 0
    m_offsets := samples.map Sample.t
    m_durations := samples.map fun _ => 1
    m_samples := samples.map level }

/-- The sampling instants are not negative and strictly increase. -/
def Increasing : List Sample → Prop
  | [] => True
  | [a] => 0 ≤ a.t
  | a :: b :: rest => 0 ≤ a.t ∧ a.t < b.t ∧ Increasing (b :: rest)

instance : (l : List Sample) → Decidable (Increasing l)
  | [] => isTrue trivial
  | [a] => by unfold Increasing; infer_instance
  | a :: b :: rest =>
    have := instDecidableIncreasing (b :: rest)
    by unfold Increasing; infer_instance

/-- The samples at which the clock rises: the clock is high and was low at the sample before
(`prev` is the level before the first sample). -/
def risingEdges (prev : Bool) : List Sample → List Sample
  | [] => []
  | s :: rest => if s.clk ∧ !prev then s :: risingEdges s.clk rest else risingEdges s.clk rest

/-- The level of the clock at the last sample (`prev` when there is none). -/
def lastClk (prev : Bool) : List Sample → Bool
  | [] => prev
  | s :: rest => lastClk s.clk rest

/-- Bits assembled most significant first. -/
def msbFirst (bits : List Bool) : Nat := bits.foldl (fun acc b => 2 * acc + b.toNat) 0

/-- A capture with one chip-select window: `pre` (CS# high, at least one sample), the sample
`fall` at which CS# is first low, `low` (CS# still low), the sample `rise` at which CS# is high
again, and `post` (CS# stays high). -/
structure Capture where
  pre : List Sample
  fall : Sample
  low : List Sample
  rise : Sample
  post : List Sample
  deriving DecidableEq, Repr

namespace Capture

/-- All samples of the capture in time order. -/
def samples (c : Capture) : List Sample := c.pre ++ (c.fall :: c.low) ++ (c.rise :: c.post)

/-- The clock edges that occur while CS# is low. -/
def edges (c : Capture) : List Sample := risingEdges c.fall.clk c.low

/-- The shape the claim describes: CS# is high on `pre` (not empty), low on `fall` and `low`,
high on `rise` and `post`; exactly 8 rising clock edges occur while CS# is low. -/
def OneByte (c : Capture) : Prop :=
  c.pre ≠ [] ∧ (∀ s ∈ c.pre, s.cs = true) ∧ c.fall.cs = false ∧ (∀ s ∈ c.low, s.cs = false)
    ∧ c.rise.cs = true ∧ (∀ s ∈ c.post, s.cs = true)
    ∧ Increasing c.samples ∧ c.edges.length = 8

instance (c : Capture) : Decidable c.OneByte := by
  unfold OneByte; infer_instance

/-- What the decoder needs in addition: the clock is low at the sample where CS# falls, and at
the sample where CS# rises the clock is at the level of the sample before. -/
def Mode0 (c : Capture) : Prop :=
  c.fall.clk = false ∧ c.rise.clk = lastClk c.fall.clk c.low

instance (c : Capture) : Decidable c.Mode0 := by
  unfold Mode0; infer_instance

end Capture

/-- The output of `Refresh` on a capture sampled at common instants. -/
def decode (c : Capture) : Option Output :=
  Refresh true (channel c.samples Sample.clk) (channel c.samples Sample.cs)
    (channel c.samples Sample.data)

/-- A clock pulse of the examples: one low and one high sample. -/
def pulse (t : Int) (d : Bool) : List Sample := [⟨t, false, false, d⟩, ⟨t + 1, false, true, d⟩]

/-- Example: clock idle low, the byte `0xA5` clocked in, one sample per half period. -/
def exampleCapture : Capture :=
  { pre := [⟨0, true, false, false⟩]
    fall := ⟨1, false, false, true⟩
    low := pulse 2 true ++ pulse 4 false ++ pulse 6 true ++ pulse 8 false ++ pulse 10 false
      ++ pulse 12 true ++ pulse 14 false ++ pulse 16 true ++ [⟨18, false, false, false⟩]
    rise := ⟨19, true, false, false⟩
    post := [] }

/-- Example: the same byte with a clock that idles high (SPI mode 3). While CS# is low the
clock rises exactly 8 times (at the second sample of every pulse). -/
def idleHighCapture : Capture :=
  { pre := [⟨0, true, true, false⟩]
    fall := ⟨1, false, true, false⟩
    low := [⟨2, false, true, false⟩] ++ pulse 3 true ++ pulse 5 false ++ pulse 7 true
      ++ pulse 9 false ++ pulse 11 false ++ pulse 13 true ++ pulse 15 false ++ pulse 17 true
    rise := ⟨19, true, true, false⟩
    post := [] }

end SPIDecoder

/-! ## `EyePattern.cpp`: `RecalculateUIWidth` -/

namespace EyePattern

/-- The values of the parameter "Bit Rate Mode". -/
inductive RateMode where
  | MODE_AUTO
  | MODE_FIXED
  deriving DecidableEq, Repr

/-- What `RecalculateUIWidth` reads: the rate mode, the configured bit rate, and the clock
edges. `clock_edges` is `none` when there is no clock input, and otherwise the vector filled by
`FindRisingEdges`, `FindFallingEdges` or `FindZeroCrossings` (none of them among the sources)
for the configured polarity. -/
structure Inputs where
  rateMode : RateMode
  rate : Int
  clock_edges : Option (List Int)

/-- The loop "Find width of each UI" over a non-empty vector of edges. -/
def uiWidths (clock_edges : List Int) : List Int :=
  (List.range (clock_edges.length - 1)).map fun i =>
    clock_edges.getD (i + 1) 0 - clock_edges.getD i 0

/-- The loop `for(size_t i = nuis/10; i <= nuis*9/10; i++)`: the pair `(total, navg)`. Sums of
`int64_t` are not reduced (signed overflow is undefined). -/
def sumWindow (ui_widths : List Int) (nuis : Nat) : Int × Nat :=
  (List.range' (nuis / 10) (nuis * 9 / 10 + 1 - nuis / 10)).foldl
    (fun acc i => (acc.1 + ui_widths.getD i 0, acc.2 + 1)) (0, 0)

/-- `EyePattern::RecalculateUIWidth()`: the new value of `cap->m_uiWidth`, where `m_uiWidth` is
the value the waveform has when the function starts (zero for the waveform that
`ReallocateWaveform` creates). `FS_PER_SECOND` is not among the sources and is a parameter.
The quotients are rational numbers: the rounding of `double` and `float` is not modelled.
`std::sort` is the insertion sort of the library, which gives the same vector. -/
def RecalculateUIWidth (FS_PER_SECOND : Nat) (inp : Inputs) (m_uiWidth : ℚ) : ℚ :=
  if inp.rateMode = RateMode.MODE_FIXED then (FS_PER_SECOND : ℚ) / (inp.rate : ℚ)
  else
    match inp.clock_edges with
    | none => m_uiWidth
    | some clock_edges =>
      if clock_edges.isEmpty then m_uiWidth
      else
        let ui_widths := uiWidths clock_edges
        let nuis := ui_widths.length
        if nuis > 10 then
          let sorted := ui_widths.insertionSort (· ≤ ·)
          let r := sumWindow sorted nuis
          (r.1 : ℚ) / (r.2 : ℚ)
        else m_uiWidth

/-- The trimmed mean in the words of the specification: the deltas are sorted, the `k` lowest
and the `k` highest are discarded, and the rest is averaged. -/
def trimmedMean (deltas : List Int) (k : Nat) : ℚ :=
  let kept := ((deltas.insertionSort (· ≤ ·)).drop k).take (deltas.length - 2 * k)
  (kept.sum : ℚ) / (kept.length : ℚ)

/-- The inter-edge deltas of a vector of edges. -/
def deltas (edges : List Int) : List Int :=
  List.zipWith (fun a b => b - a) edges edges.tail

/-- Ten edges, 10 apart. -/
def tenEdges : List Int := [0, 10, 20, 30, 40, 50, 60, 70, 80, 90]

/-- Twenty-one edges whose deltas are 1, 2, ..., 20. -/
def twentyOneEdges : List Int :=
  [0, 1, 3, 6, 10, 15, 21, 28, 36, 45, 55, 66, 78, 91, 105, 120, 136, 153, 171, 190, 210]

/-- Twelve edges whose deltas are 1, 2, ..., 11. -/
def twelveEdges : List Int := [0, 1, 3, 6, 10, 15, 21, 28, 36, 45, 55, 66]

end EyePattern

/-! ## `DeEmbedFilter.cpp`: `MainLoop` and `MainLoopAVX2`

The `float` values are rational numbers: the two loops are compared over exact arithmetic. -/

namespace DeEmbedFilter

/-- The members the two loops use: the interleaved frequency buffer and the two tables. -/
structure Buffers where
  m_forwardOutBuf : List ℚ
  m_resampledSparamSines : List ℚ
  m_resampledSparamCosines : List ℚ
  deriving DecidableEq

/-- The two stores of the scalar loop body for bin `i`. -/
def storeBin (buf : List ℚ) (i : Nat) (re im : ℚ) : List ℚ :=
  (buf.set (i * 2 + 0) re).set (i * 2 + 1) im

/-- The body of the `for` loop of `MainLoop`. The variable named `cosval` is read from the sine
table and the variable named `sinval` from the cosine table. -/
def mainStep (b : Buffers) (i : Nat) : Buffers :=
  let cosval := b.m_resampledSparamSines.getD i 0
  let sinval := b.m_resampledSparamCosines.getD i 0
  let real_orig := b.m_forwardOutBuf.getD (i * 2 + 0) 0
  let imag_orig := b.m_forwardOutBuf.getD (i * 2 + 1) 0
  let real := real_orig * cosval - imag_orig * sinval
  let imag := real_orig * sinval + imag_orig * cosval
  { b with m_forwardOutBuf := storeBin b.m_forwardOutBuf i real imag }

/-- `DeEmbedFilter::MainLoop(nouts)`. -/
def MainLoop (nouts : Nat) (b : Buffers) : Buffers :=
  (List.range nouts).foldl mainStep b

/-- `_mm256_load_ps(&a[i])`: the eight values from index `i`. -/
def load_ps (a : List ℚ) (i : Nat) : List ℚ :=
  (List.range 8).map fun j => a.getD (i + j) 0

/-- `_mm256_store_ps(&a[i], v)`. -/
def store_ps (a : List ℚ) (i : Nat) (v : List ℚ) : List ℚ :=
  (List.range 8).foldl (fun a j => a.set (i + j) (v.getD j 0)) a

/-- `_mm256_permute_ps(v, imm8)`: in each 128-bit lane, element `j` is the element of that lane
selected by bits `2j+1:2j` of `imm8`. -/
def permute_ps (v : List ℚ) (imm8 : Nat) : List ℚ :=
  (List.range 8).map fun j => v.getD (j / 4 * 4 + ((imm8 >>> (2 * (j % 4))) &&& 3)) 0

/-- `_mm256_permute4x64_epi64(v, imm8)`: 64-bit element `j` (two floats) is the 64-bit element
selected by bits `2j+1:2j` of `imm8`. -/
def permute4x64_epi64 (v : List ℚ) (imm8 : Nat) : List ℚ :=
  (List.range 8).map fun j => v.getD (2 * ((imm8 >>> (2 * (j / 2))) &&& 3) + j % 2) 0

/-- One 128-bit half as `_mm256_permute2x128_si256` selects it with a 4-bit control: zero when
bit 3 is set, otherwise the low or high half of `a` or of `b`. -/
def select128 (a b : List ℚ) (control : Nat) : List ℚ :=
  if control &&& 8 ≠ 0 then List.replicate 4 0
  else if control &&& 3 = 0 then a.take 4
  else if control &&& 3 = 1 then a.drop 4
  else if control &&& 3 = 2 then b.take 4
  else b.drop 4

/-- `_mm256_permute2x128_si256(a, b, imm8)`. -/
def permute2x128_si256 (a b : List ℚ) (imm8 : Nat) : List ℚ :=
  select128 a b (imm8 &&& 0xf) ++ select128 a b ((imm8 >>> 4) &&& 0xf)

def mul_ps (a b : List ℚ) : List ℚ := List.zipWith (· * ·) a b

def add_ps (a b : List ℚ) : List ℚ := List.zipWith (· + ·) a b

def sub_ps (a b : List ℚ) : List ℚ := List.zipWith (· - ·) a b

/-- The body of the vectorised loop of `MainLoopAVX2` for the eight bins from `i`. -/
def avxStep (b : Buffers) (i : Nat) : Buffers :=
  let sinval := load_ps b.m_resampledSparamSines i
  let cosval := load_ps b.m_resampledSparamCosines i
  let din0 := load_ps b.m_forwardOutBuf (i * 2)
  let din1 := load_ps b.m_forwardOutBuf (i * 2 + 8)
  let din0 := permute_ps din0 0xd8
  let din1 := permute_ps din1 0xd8
  let block0 := permute4x64_epi64 din0 0xd8
  let block1 := permute4x64_epi64 din1 0xd8
  let real := permute2x128_si256 block0 block1 0x20
  let imag := permute2x128_si256 block0 block1 0x31
  let real_sin := mul_ps real sinval
  let real_cos := mul_ps real cosval
  let imag_sin := mul_ps imag sinval
  let imag_cos := mul_ps imag cosval
  let real := sub_ps real_cos imag_sin
  let imag := add_ps real_sin imag_cos
  let block0 := permute2x128_si256 real imag 0x20
  let block1 := permute2x128_si256 real imag 0x31
  let block0 := permute4x64_epi64 block0 0xd8
  let block1 := permute4x64_epi64 block1 0xd8
  let din0 := permute_ps block0 0xd8
  let din1 := permute_ps block1 0xd8
  { b with m_forwardOutBuf := store_ps (store_ps b.m_forwardOutBuf (i * 2) din0) (i * 2 + 8) din1 }

/-- The body of the loop "Do any leftovers" of `MainLoopAVX2`. -/
def leftoverStep (b : Buffers) (i : Nat) : Buffers :=
  let cosval := b.m_resampledSparamCosines.getD i 0
  let sinval := b.m_resampledSparamSines.getD i 0
  let real_orig := b.m_forwardOutBuf.getD (i * 2 + 0) 0
  let imag_orig := b.m_forwardOutBuf.getD (i * 2 + 1) 0
  let real := real_orig * cosval - imag_orig * sinval
  let imag := real_orig * sinval + imag_orig * cosval
  { b with m_forwardOutBuf := storeBin b.m_forwardOutBuf i real imag }

/-- `DeEmbedFilter::MainLoopAVX2(nouts)`; `end_` is the `unsigned int` named `end`. -/
def MainLoopAVX2 (nouts : Nat) (b : Buffers) : Buffers :=
  let end_ := (nouts - nouts % 8) % 2 ^ 32
  let b := ((List.range (end_ / 8)).map (· * 8)).foldl avxStep b
  (List.range' end_ (nouts - end_)).foldl leftoverStep b

/-- The correction in the words of the specification: every bin `(re, im)` of the first `nouts`
is replaced by `(re * cos_i - im * sin_i, re * sin_i + im * cos_i)`. -/
def rotated (nouts : Nat) (b : Buffers) : List ℚ :=
  (List.range b.m_forwardOutBuf.length).map fun k =>
    let i := k / 2
    let re := b.m_forwardOutBuf.getD (i * 2) 0
    let im := b.m_forwardOutBuf.getD (i * 2 + 1) 0
    let c := b.m_resampledSparamCosines.getD i 0
    let s := b.m_resampledSparamSines.getD i 0
    if i < nouts then (if k % 2 = 0 then re * c - im * s else re * s + im * c)
    else b.m_forwardOutBuf.getD k 0

/-- One bin `(1, 0)` with sine 0 and cosine 1 (no rotation). -/
def oneBin : Buffers := ⟨[1, 0], [0], [1]⟩

/-- Nine bins `(1, 2), (3, 4), ..., (17, 18)` with sines 1 to 9 and cosines 11 to 19. -/
def nineBins : Buffers :=
  ⟨[1, 2, 3, 4, 5, 6, 7, 8, 9, 10, 11, 12, 13, 14, 15, 16, 17, 18],
    [1, 2, 3, 4, 5, 6, 7, 8, 9], [11, 12, 13, 14, 15, 16, 17, 18, 19]⟩

end DeEmbedFilter

/-! ## `Ethernet10BaseTDecoder.cpp` -/

namespace Ethernet10BaseTDecoder
open EthernetProtocolDecoder

/-- The analog input waveform (`AnalogWaveform`). The `float` samples are rational numbers: the
decoder only compares them with the constants `-1` and `1`. -/
structure AnalogWaveform where
  m_timescale : Int
  m_startTimestamp : Int
  m_startFemtoseconds : Int
  m_offsets : List Int
  m_durations : List Int
  m_samples : List ℚ

/-- The constants of `Refresh`, in femtoseconds. -/
def ui_width : Int := 100000 * 1000

def ui_halfwidth : Int := 50000 * 1000

def jitter_tol : Int := 10000 * 1000

def eye_start : Int := ui_halfwidth - jitter_tol

def eye_end : Int := ui_halfwidth + jitter_tol

/-- The `while(j < len)` loop of `FindFallingEdge`, from index `j`; `fuel` bounds the number of
passes. -/
def findFallingFrom (cap : AnalogWaveform) : Nat → Nat → Option Nat
  | 0, _ => none
  | fuel + 1, j =>
    if j < cap.m_samples.length then
      if cap.m_samples.getD j 0 < -1 then some j else findFallingFrom cap fuel (j + 1)
    else none

/-- `Ethernet10BaseTDecoder::FindFallingEdge(i, cap)`: `some j` when it returns `true` with `i`
set to `j`, `none` when it returns `false` (and leaves `i` as it is). -/
def FindFallingEdge (i : Nat) (cap : AnalogWaveform) : Option Nat :=
  findFallingFrom cap (cap.m_samples.length - i) i

/-- The `while(j < len)` loop of `FindRisingEdge`. -/
def findRisingFrom (cap : AnalogWaveform) : Nat → Nat → Option Nat
  | 0, _ => none
  | fuel + 1, j =>
    if j < cap.m_samples.length then
      if cap.m_samples.getD j 0 > 1 then some j else findRisingFrom cap fuel (j + 1)
    else none

/-- `Ethernet10BaseTDecoder::FindRisingEdge(i, cap)`. -/
def FindRisingEdge (i : Nat) (cap : AnalogWaveform) : Option Nat :=
  findRisingFrom cap (cap.m_samples.length - i) i

/-- Modelled from the spec: `Ethernet10BaseTDecoder::FindEdge(i, cap, polarity)`, which is
declared in the header and is not among the sources. It finds the next edge of the requested
direction (§4.1): a rising edge when `polarity` is true, a falling edge otherwise. -/
def FindEdge (i : Nat) (cap : AnalogWaveform) (polarity : Bool) : Option Nat :=
  if polarity then FindRisingEdge i cap else FindFallingEdge i cap

/-- `din->m_offsets[i] * cap->m_timescale` (the time scale of `cap` is that of `din`); `none`
when `i` is not an index of `m_offsets`. -/
def timeAt (din : AnalogWaveform) (i : Nat) : Option Int :=
  if i < din.m_offsets.length then some (din.m_offsets.getD i 0 * din.m_timescale) else none

/-- The variables of the inner loop of `Refresh`. -/
structure BitState where
  i : Nat
  current_byte : Nat
  bitcount : Nat
  bytes : List Nat
  starts : List Nat
  ends : List Nat
  current_state : Bool
  ui_start : Int
  byte_start : Int
  deriving DecidableEq, Repr

/-- How one pass through the inner loop ends: at the end of the body (`next`), by `break` with
the flag `done` as given (`frameEnd`), or by a read of `m_offsets` past its end (`outOfRange`),
which the C++ code does not guard against. -/
inductive BitStep where
  | next (s : BitState)
  | frameEnd (s : BitState) (done : Bool)
  | outOfRange
  deriving DecidableEq, Repr

/-- The loop "Move back until we're about half a UI after the center edge of this bit". -/
def seekTarget (din : AnalogWaveform) (target : Int) : Nat → Nat → Nat
  | 0, i => i
  | fuel + 1, i =>
    if i < din.m_samples.length then
      if din.m_offsets.getD i 0 * din.m_timescale ≥ target then i
      else seekTarget din target fuel (i + 1)
    else i

/-- The part of the inner loop after the edge in the middle of the bit has been accepted:
the bit is shifted in (least significant bit first, a rising edge is a 1) and a byte is saved
every 8 bits. -/
def shiftBit (s : BitState) : BitState :=
  let byte_start := if s.bitcount = 0 then s.ui_start else s.byte_start
  let current_byte :=
    if !s.current_state then ((s.current_byte >>> 1) ||| 0x80) % 256 else s.current_byte >>> 1
  let bitcount := s.bitcount + 1
  if bitcount = 8 then
    { s with
      byte_start := byte_start
      bytes := s.bytes ++ [current_byte]
      starts := s.starts ++ [toUInt64 byte_start]
      ends := s.ends ++ [toUInt64 (s.ui_start + ui_width)]
      current_byte := 0
      bitcount := 0 }
  else
    { s with byte_start := byte_start, current_byte := current_byte, bitcount := bitcount }

/-- The body of the inner `while(i < len)` loop of `Refresh`. -/
def bitStep (din : AnalogWaveform) (s : BitState) : BitStep :=
  match FindEdge s.i din (!s.current_state) with
  | none => .frameEnd s true
  | some i1 =>
    match timeAt din i1 with
    | none => .outOfRange
    | some edgepos =>
      let delta := edgepos - s.ui_start
      if delta > 10 * ui_width then .frameEnd { s with i := i1 + 1 } false
      else if delta < eye_start ∨ delta > eye_end then
        match timeAt din (i1 + 1) with
        | none => .outOfRange
        | some t =>
          .next { s with i := i1 + 1, ui_start := t, current_state := !s.current_state }
      else
        let i_middle := i1
        let ui_middle := edgepos
        let s1 := shiftBit { s with i := i1 }
        match FindEdge i1 din s.current_state with
        | none => .frameEnd s1 true
        | some i2 =>
          match timeAt din i2 with
          | none => .outOfRange
          | some edgepos2 =>
            let delta2 := edgepos2 - ui_middle
            if delta2 > 10 * ui_width then .frameEnd { s1 with i := i2 + 1 } false
            else if delta2 > eye_end then
              let i3 := seekTarget din (ui_middle + ui_halfwidth) (din.m_samples.length - i_middle)
                i_middle
              match timeAt din i3 with
              | none => .outOfRange
              | some t =>
                .next { s1 with i := i3, current_state := !s.current_state, ui_start := t }
            else
              .next { s1 with i := i2, ui_start := edgepos2 }

/-- What the inner loop leaves behind. -/
inductive BitsResult where
  | frame (s : BitState) (done : Bool)
  | outOfRange
  | outOfFuel
  deriving DecidableEq, Repr

/-- The inner `while(i < len)` loop: "Recover the Manchester bitstream". Every pass moves `i`
forward, so `fuel = len` passes are enough. -/
def recoverBits (din : AnalogWaveform) : Nat → BitState → BitsResult
  | 0, _ => .outOfFuel
  | fuel + 1, s =>
    if s.i < din.m_samples.length then
      match bitStep din s with
      | .next s' => recoverBits din fuel s'
      | .frameEnd s' done => .frame s' done
      | .outOfRange => .outOfRange
    else .frame s false

/-- The decoder object as far as `Refresh` touches it: the output passed to `SetData` (`none`
for `NULL`), the packet list and the capture file. -/
structure Decoder where
  data : Option EthernetWaveform
  m_packets : List Packet
  pcap : List PcapRecord
  deriving DecidableEq, Repr

/-- What `Refresh` does: it returns with the decoder as given, or it reads `m_offsets` past its
end, or (never, see the theorems) runs out of the loop bound. -/
inductive Outcome where
  | ok (d : Decoder)
  | outOfRange
  | outOfFuel
  deriving DecidableEq, Repr

/-- The outer `while(i < len)` loop of `Refresh`: find the falling edge that starts a frame,
recover its bits, and hand the bytes to `BytesToFrames`. -/
def frames (env : Env) (din : AnalogWaveform) :
    Nat → Nat → Bool → EthernetWaveform → List Packet → List PcapRecord → Outcome
  | 0, _, _, _, _, _ => .outOfFuel
  | fuel + 1, i, done, cap, pk, pc =>
    if i < din.m_samples.length then
      if done then .ok ⟨some cap, pk, pc⟩
      else
        match FindFallingEdge i din with
        | none => .ok ⟨some cap, pk, pc⟩
        | some i0 =>
          match timeAt din i0 with
          | none => .outOfRange
          | some ui_start =>
            match recoverBits din (din.m_samples.length + 1)
                ⟨i0, 0, 0, [], [], [], false, ui_start, ui_start⟩ with
            | .outOfRange => .outOfRange
            | .outOfFuel => .outOfFuel
            | .frame s done' =>
              let out := BytesToFrames env s.bytes s.starts s.ends cap pk pc
              frames env din fuel s.i done' out.cap out.m_packets out.pcap
    else .ok ⟨some cap, pk, pc⟩

/-- The output waveform `Refresh` creates: empty, with the time scale and start time of the
input. -/
def newCapture (din : AnalogWaveform) : EthernetWaveform :=
  { m_timescale := din.m_timescale
    m_startTimestamp := din.m_startTimestamp
    m_startFemtoseconds := din.m_startFemtoseconds
    m_offsets := []
    m_durations := []
    m_samples := [] }

/-- `Ethernet10BaseTDecoder::Refresh`. `inputsOK` is the result of
`VerifyAllInputsOKAndAnalog()`; `pcap` is the capture file so far. -/
def Refresh (env : Env) (inputsOK : Bool) (din : AnalogWaveform) (d : Decoder) : Outcome :=
  if !inputsOK then .ok { d with data := none, m_packets := [] }
  else
    frames env din (din.m_samples.length + 1) 0 false (newCapture din) [] d.pcap

end Ethernet10BaseTDecoder

/-! ## Manchester-coded traces for the statements about `Ethernet10BaseTDecoder` -/

namespace Manchester
open Ethernet10BaseTDecoder

/-- The bits of a byte sequence in the order Ethernet sends them: bytes in order, each byte
least significant bit first. -/
def bitsOfBytes (bytes : List Nat) : List Bool :=
  bytes.flatMap fun b => (List.range 8).map b.testBit

/-- The two half-bit levels of one bit: a 1 is a rising edge in the middle of the bit (low,
then high), a 0 a falling edge. -/
def halves (hi lo : ℚ) (bit : Bool) : List ℚ := if bit then [lo, hi] else [hi, lo]

/-- The voltage samples of a bit sequence, `k` samples for every half bit. -/
def levels (k : Nat) (hi lo : ℚ) (bits : List Bool) : List ℚ :=
  bits.flatMap fun b => (halves hi lo b).flatMap fun v => List.replicate k v

/-- A trace: the given samples at evenly spaced instants (sample `j` at offset `j`). -/
def traceOf (timescale : Int) (samples : List ℚ) : AnalogWaveform :=
  { m_timescale := timescale
    m_startTimestamp := 0
    m_startFemtoseconds := 0
    m_offsets := (List.range samples.length).map Int.ofNat
    m_durations := (List.range samples.length).map fun _ => 1
    m_samples := samples }

/-- The parameters of a 10BASE-T trace: `k` samples for every half bit of 50 ns, taken every
`timescale` femtoseconds, levels `hi` and `lo` beyond +1 V and -1 V, and `lead` and `trail`
samples of an idle line (0 V) before and after the frame. -/
structure Sampling where
  k : Nat
  timescale : Int
  hi : ℚ
  lo : ℚ
  lead : Nat
  trail : Nat

/-- The sampling is one of a 100 ns unit interval with levels beyond plus or minus 1 V. -/
def Sampling.Valid (p : Sampling) : Prop :=
  1 ≤ p.k ∧ (p.k : Int) * p.timescale = 50000000 ∧ 1 < p.hi ∧ p.lo < -1

/-- The Manchester-coded 10BASE-T trace of a byte sequence. -/
def encode (p : Sampling) (bytes : List Nat) : AnalogWaveform :=
  traceOf p.timescale
    (List.replicate p.lead 0 ++ levels p.k p.hi p.lo (bitsOfBytes bytes) ++ List.replicate p.trail 0)

/-- One sample for every half bit, levels plus or minus 2 V, no idle samples. -/
def exampleSampling : Sampling := ⟨1, 50000000, 2, -2, 0, 0⟩

end Manchester

namespace Manchester
open Ethernet10BaseTDecoder EthernetProtocolDecoder

instance (p : Sampling) : Decidable p.Valid := by
  unfold Sampling.Valid; infer_instance

/-- A frame with one preamble byte, Ethertype `0x8100`, one payload byte and a check field that
the CRC32 of `exampleEnv` accepts. -/
def vlanFrame : Frame :=
  ⟨1, [1, 2, 3, 4, 5, 6], [7, 8, 9, 10, 11, 12], 0x81, 0x00, [0xaa], [0, 0, 0, 0]⟩

/-- A decoder that has not run yet. -/
def freshDecoder : Decoder := ⟨none, [], []⟩

/-- The bytes held by the symbols of an output waveform, in order. -/
def symbolBytes (cap : EthernetWaveform) : List Nat :=
  cap.m_samples.flatMap EthernetFrameSegment.m_data

/-- The symbol types of an output waveform, in order. -/
def symbolTypes (cap : EthernetWaveform) : List SegmentType :=
  cap.m_samples.map EthernetFrameSegment.m_type

/-- The symbols of the output waveform `Refresh` has set, if it returned and set one. -/
def symbolsOf : Outcome → Option (List EthernetFrameSegment)
  | .ok ⟨some cap, _, _⟩ => some cap.m_samples
  | _ => none

/-- The packets of the decoder after `Refresh`, if it returned. -/
def packetsOf : Outcome → Option (List Packet)
  | .ok d => some d.m_packets
  | _ => none

end Manchester

namespace Manchester
open Ethernet10BaseTDecoder EthernetProtocolDecoder

/-- The samples of one bit whose mid-bit edge comes `d` samples late. -/
def lateBit (k d : Nat) (hi lo : ℚ) (bit : Bool) : List ℚ :=
  List.replicate (k + d) (if bit then lo else hi) ++ List.replicate (k - d) (if bit then hi else lo)

/-- The Manchester trace of a byte sequence in which the mid-bit edge of bit number `j` (and no
other edge) comes `d` samples late. -/
def lateTrace (p : Sampling) (d : Nat) (bytes : List Nat) (j : Nat) : AnalogWaveform :=
  traceOf p.timescale
    (List.replicate p.lead 0 ++ levels p.k p.hi p.lo ((bitsOfBytes bytes).take j)
      ++ lateBit p.k d p.hi p.lo ((bitsOfBytes bytes).getD j false)
      ++ levels p.k p.hi p.lo ((bitsOfBytes bytes).drop (j + 1)) ++ List.replicate p.trail 0)

/-- Five samples for every half bit (one sample every 10 ns), levels plus or minus 2 V, no idle
samples. -/
def fineSampling : Sampling := ⟨5, 10000000, 2, -2, 0, 0⟩

/-- The state in which `Refresh` enters the inner loop after `FindFallingEdge` has found the
sample `i0` at time `ui_start`. -/
def startState (i0 : Nat) (ui_start : Int) : BitState :=
  ⟨i0, 0, 0, [], [], [], false, ui_start, ui_start⟩

end Manchester

/-! ## `USB2PacketDecoder.cpp`: the framing loop of `Refresh` and `FindPackets` -/

namespace USB2PacketDecoder

/-- Modelled from the spec: the symbol types of `USB2PCSSymbol`, whose header is not among the
sources. `Refresh` tells `TYPE_SYNC`, `TYPE_DATA` and `TYPE_EOP` from the rest. -/
inductive PCSType where
  | TYPE_IDLE
  | TYPE_SYNC
  | TYPE_EOP
  | TYPE_RESET
  | TYPE_DATA
  | TYPE_ERROR
  deriving DecidableEq, Repr

/-- A symbol of the input waveform (`USB2PCSSymbol`); `m_data` is a `uint8_t`. -/
structure USB2PCSSymbol where
  m_type : PCSType
  m_data : Nat
  deriving DecidableEq, Repr

/-- The input waveform (`USB2PCSWaveform`). -/
structure USB2PCSWaveform where
  m_timescale : Int
  m_startTimestamp : Int
  m_startFemtoseconds : Int
  m_offsets : List Int
  m_durations : List Int
  m_samples : List USB2PCSSymbol
  deriving DecidableEq, Repr

/-- Modelled from the spec: the symbol types of `USB2PacketSymbol`, whose header is not among
the sources; these are the ones `USB2PacketDecoder.cpp` names. -/
inductive SymbolType where
  | TYPE_PID
  | TYPE_ADDR
  | TYPE_ENDP
  | TYPE_CRC5_GOOD
  | TYPE_CRC5_BAD
  | TYPE_CRC16_GOOD
  | TYPE_CRC16_BAD
  | TYPE_NFRAME
  | TYPE_DATA
  | TYPE_ERROR
  deriving DecidableEq, Repr

/-- A symbol of the output waveform (`USB2PacketSymbol`); `m_data` is a `uint16_t`. -/
structure USB2PacketSymbol where
  m_type : SymbolType
  m_data : Nat
  deriving DecidableEq, Repr

/-- The output waveform (`USB2PacketWaveform`). -/
structure USB2PacketWaveform where
  m_timescale : Int
  m_startTimestamp : Int
  m_startFemtoseconds : Int
  m_offsets : List Int
  m_durations : List Int
  m_samples : List USB2PacketSymbol
  deriving DecidableEq, Repr

/-! Modelled from the spec: the enumerators `USB2PacketSymbol::PID_*` of the absent header, with
the values of the PID table of the USB 2.0 specification. -/

def PID_RESERVED : Nat := 0x0
def PID_OUT : Nat := 0x1
def PID_ACK : Nat := 0x2
def PID_DATA0 : Nat := 0x3
def PID_PING : Nat := 0x4
def PID_SOF : Nat := 0x5
def PID_NYET : Nat := 0x6
def PID_DATA2 : Nat := 0x7
def PID_SPLIT : Nat := 0x8
def PID_IN : Nat := 0x9
def PID_NAK : Nat := 0xa
def PID_DATA1 : Nat := 0xb
def PID_PRE_ERR : Nat := 0xc
def PID_SETUP : Nat := 0xd
def PID_STALL : Nat := 0xe
def PID_MDATA : Nat := 0xf

/-- The states of the framing loop of `Refresh`. -/
inductive State where
  | STATE_IDLE
  | STATE_PID
  | STATE_END
  | STATE_TOKEN_0
  | STATE_TOKEN_1
  | STATE_SOF_0
  | STATE_SOF_1
  | STATE_DATA
  deriving DecidableEq, Repr

open SymbolType State

/-- The local variables of `Refresh` and the output waveform `cap`. `last` and the two bytes of
`crc5_in` are `uint8_t`, `last_offset` is a `uint64_t`. -/
structure Machine where
  state : State
  last : Nat
  last_offset : Nat
  crc5_in0 : Nat
  crc5_in1 : Nat
  packet_crc5 : Nat
  packet_data : List Nat
  cap : USB2PacketWaveform
  deriving DecidableEq, Repr

/-- The three `push_back` calls that add one symbol to `cap`. -/
def emit (cap : USB2PacketWaveform) (off dur : Int) (t : SymbolType) (data : Nat) :
    USB2PacketWaveform :=
  { cap with
    m_offsets := cap.m_offsets ++ [off]
    m_durations := cap.m_durations ++ [dur]
    m_samples := cap.m_samples ++ [⟨t, data⟩] }

/-- How one pass of the framing loop ends: normally, or with undefined behaviour: an index into
the vectors of `cap` that is not below their size (`size() - 2` on a `size_t` wraps around), or
`pop_back()` on an empty `packet_data`. -/
inductive Outcome where
  | ok (m : Machine)
  | outOfRange
  | popEmpty
  deriving DecidableEq, Repr

/-- The end of the loop body: "EOP always returns us to idle state". -/
def afterEop (sin : USB2PCSSymbol) (m : Machine) : Machine :=
  if sin.m_type = PCSType.TYPE_EOP then { m with state := STATE_IDLE } else m

/-- The `switch(sin.m_data & 0xf)` of `STATE_PID`. A value that is no case label leaves the
state as it is. -/
def afterPid (pid : Nat) (m : Machine) : Machine :=
  if pid = PID_ACK ∨ pid = PID_STALL ∨ pid = PID_NAK ∨ pid = PID_NYET then
    { m with state := STATE_END }
  else if pid = PID_PRE_ERR then { m with state := STATE_END }
  else if pid = PID_IN ∨ pid = PID_OUT ∨ pid = PID_SETUP ∨ pid = PID_PING ∨ pid = PID_SPLIT then
    { m with state := STATE_TOKEN_0 }
  else if pid = PID_SOF then { m with state := STATE_SOF_0 }
  else if pid = PID_DATA0 ∨ pid = PID_DATA1 ∨ pid = PID_DATA2 ∨ pid = PID_MDATA then
    { m with state := STATE_DATA, packet_data := [] }
  else m

/-- The CRC5 symbol pushed in `STATE_TOKEN_1` and `STATE_SOF_1`. -/
def crc5Symbol (m : Machine) : SymbolType :=
  if VerifyCRC5 m.crc5_in0 m.crc5_in1 then TYPE_CRC5_GOOD else TYPE_CRC5_BAD

/-- The branch of `STATE_DATA` for an EOP: "Last two bytes were actually the CRC! Merge them
into the first one and delete the second". -/
def mergeCrc16 (m : Machine) : Outcome :=
  let size := m.cap.m_samples.length
  if size < 2 then .outOfRange
  else
    let firstoff := size - 2
    let secondoff := size - 1
    let first := m.cap.m_samples.getD firstoff ⟨TYPE_ERROR, 0⟩
    let second := m.cap.m_samples.getD secondoff ⟨TYPE_ERROR, 0⟩
    let crc16 := ((first.m_data <<< 8) ||| second.m_data) % 65536
    if m.packet_data.length < 2 then .popEmpty
    else
      let packet_data := m.packet_data.dropLast.dropLast
      let crc16_calculated := CalculateCRC16 packet_data
      let durations := m.cap.m_durations.set firstoff
        (m.cap.m_durations.getD firstoff 0 + m.cap.m_durations.getD secondoff 0)
      let t := if crc16 = crc16_calculated then TYPE_CRC16_GOOD else TYPE_CRC16_BAD
      let samples := m.cap.m_samples.set firstoff ⟨t, crc16⟩
      .ok { m with
        packet_data := packet_data
        cap := { m.cap with
          m_offsets := m.cap.m_offsets.take secondoff
          m_durations := durations.take secondoff
          m_samples := samples.take secondoff } }

/-- The body of the `for` loop of `Refresh` for the input symbol `sin` with offset `off` and
duration `dur`. Offsets and durations are `int64_t`; sums of them are not reduced (signed
overflow is undefined). In `STATE_SOF_1` the duration `m_offsets[i] - last_offset + halfdur` is
computed in `uint64_t`, as `last_offset` is one. -/
def step (sin : USB2PCSSymbol) (off dur : Int) (m : Machine) : Outcome :=
  let halfdur := Int.tdiv dur 2
  match m.state with
  | STATE_IDLE =>
    match sin.m_type with
    | PCSType.TYPE_SYNC => .ok (afterEop sin { m with state := STATE_PID })
    | _ => .ok (afterEop sin { m with cap := emit m.cap off dur TYPE_ERROR 0 })
  | STATE_PID =>
    if sin.m_type ≠ PCSType.TYPE_DATA then
      .ok { m with cap := emit m.cap off dur TYPE_ERROR 0, state := STATE_IDLE }
    else if sin.m_data >>> 4 ≠ 0xf &&& (2 ^ 32 - 1 - sin.m_data) then
      .ok { m with cap := emit m.cap off dur TYPE_ERROR 0, state := STATE_IDLE }
    else
      .ok (afterEop sin (afterPid (sin.m_data &&& 0xf)
        { m with cap := emit m.cap off dur TYPE_PID sin.m_data }))
  | STATE_END =>
    if sin.m_type ≠ PCSType.TYPE_EOP then
      .ok (afterEop sin { m with cap := emit m.cap off dur TYPE_ERROR 0 })
    else .ok (afterEop sin m)
  | STATE_TOKEN_0 =>
    .ok (afterEop sin { m with
      cap := emit m.cap off dur TYPE_ADDR (sin.m_data &&& 0x7f)
      crc5_in0 := sin.m_data
      last := sin.m_data
      state := STATE_TOKEN_1 })
  | STATE_TOKEN_1 =>
    let cap1 := emit m.cap off halfdur TYPE_ENDP ((m.last >>> 7) ||| ((sin.m_data &&& 0x7) <<< 1))
    let m1 := { m with crc5_in1 := sin.m_data, packet_crc5 := sin.m_data >>> 3 }
    .ok (afterEop sin { m1 with
      cap := emit cap1 (off + halfdur) halfdur (crc5Symbol m1) m1.packet_crc5
      state := STATE_END })
  | STATE_SOF_0 =>
    .ok (afterEop sin { m with
      last := sin.m_data
      last_offset := toUInt64 off
      crc5_in0 := sin.m_data
      state := STATE_SOF_1 })
  | STATE_SOF_1 =>
    let cap1 := emit m.cap (toInt64 m.last_offset)
      (toInt64 ((toUInt64 off + 2 ^ 64 - m.last_offset % 2 ^ 64 + toUInt64 halfdur) % 2 ^ 64))
      TYPE_NFRAME (((sin.m_data &&& 0x7) <<< 8) ||| m.last)
    let m1 := { m with crc5_in1 := sin.m_data, packet_crc5 := sin.m_data >>> 3 }
    .ok (afterEop sin { m1 with
      cap := emit cap1 (off + halfdur) halfdur (crc5Symbol m1) m1.packet_crc5
      state := STATE_END })
  | STATE_DATA =>
    if sin.m_type = PCSType.TYPE_DATA then
      .ok (afterEop sin { m with
        cap := emit m.cap off dur TYPE_DATA sin.m_data
        packet_data := m.packet_data ++ [sin.m_data] })
    else if sin.m_type = PCSType.TYPE_EOP then
      match mergeCrc16 m with
      | .ok m1 => .ok (afterEop sin m1)
      | r => r
    else .ok (afterEop sin m)

/-- One input symbol with its offset and its duration. -/
structure Entry where
  sym : USB2PCSSymbol
  off : Int
  dur : Int
  deriving DecidableEq, Repr

/-- The input symbols in order, each with `m_offsets[i]` and `m_durations[i]` (the three vectors
of a waveform have the same length). -/
def entries (din : USB2PCSWaveform) : List Entry :=
  List.zipWith3 (fun s o d => ⟨s, o, d⟩) din.m_samples din.m_offsets din.m_durations

/-- The `for` loop of `Refresh` over the input symbols. -/
def framing : List Entry → Machine → Outcome
  | [], m => .ok m
  | e :: rest, m =>
    match step e.sym e.off e.dur m with
    | .ok m1 => framing rest m1
    | r => r

/-- The state in which the loop starts: `STATE_IDLE`, an empty output waveform with the time
scale and start time of the input. -/
def initMachine (din : USB2PCSWaveform) : Machine :=
  { state := STATE_IDLE
    last := 0
    last_offset := 0
    crc5_in0 := 0
    crc5_in1 := 0
    packet_crc5 := 0
    packet_data := []
    cap :=
      { m_timescale := din.m_timescale
        m_startTimestamp := din.m_startTimestamp
        m_startFemtoseconds := din.m_startFemtoseconds
        m_offsets := []
        m_durations := []
        m_samples := [] } }

end USB2PacketDecoder

/-! ## Notions the proofs use -/

namespace SPIDecoder
open SymbolType State

/-- The `switch` applied to the samples of a capture one after the other, each with its own
time stamp. -/
def foldSamples (l : List Sample) (m : Machine) : Machine :=
  l.foldl (fun m s => step s.t s.cs s.clk s.data m) m

/-- The clock edges of a window applied in order. -/
def applyEdges (es : List Sample) (m : Machine) : Machine :=
  es.foldl (fun m e => clockEdge e.t e.data m) m

end SPIDecoder

namespace Ethernet10BaseTDecoder
open EthernetProtocolDecoder

/-- The level test of `FindEdge`: above +1 V for a rising edge, below -1 V for a falling one. -/
def atLevel (polarity : Bool) (v : ℚ) : Prop := if polarity then v > 1 else v < -1

end Ethernet10BaseTDecoder

namespace Manchester
open Ethernet10BaseTDecoder EthernetProtocolDecoder

/-- The level of the first half of a bit. -/
def firstLevel (hi lo : ℚ) (b : Bool) : ℚ := if b then lo else hi

/-- The level of the second half of a bit. -/
def secondLevel (hi lo : ℚ) (b : Bool) : ℚ := if b then hi else lo

/-- The partial byte after one more bit: Ethernet sends the least significant bit first. -/
def shiftRightIn (cb : Nat) (bit : Bool) : Nat :=
  if bit then ((cb >>> 1) ||| 0x80) % 256 else cb >>> 1

/-- What `shiftBit` does to the partial byte, the bit counter and the recovered bytes when the
bit decoded is `bit`. -/
def accBit (a : Nat × Nat × List Nat) (bit : Bool) : Nat × Nat × List Nat :=
  let cb := shiftRightIn a.1 bit
  if a.2.1 + 1 = 8 then (0, 0, a.2.2 ++ [cb]) else (cb, a.2.1 + 1, a.2.2)

end Manchester

namespace USB2PacketDecoder
open SymbolType

/-- `new Packet`: no headers, no data, default colours; the two times are not initialised and
are taken as zero. -/
def newPacket : Packet := ⟨0, 0, [], [], Color.unset, Color.unset⟩

/-- `%d`, `%u` and `%zu` of a non-negative number. -/
def dec (n : Nat) : String := toString n

/-- `%x` of a number. -/
def hex (n : Nat) : String := String.mk (Nat.toDigits 16 n)

/-- What a helper of `FindPackets` leaves behind: the cursor `i` and the packet list; `none`
when it reads a vector of `cap` at an index that is not below its size. -/
abbrev Scan := Option (Nat × List Packet)

/-- `USB2PacketDecoder::DecodeSof(cap, istart, i)`. -/
def DecodeSof (cap : USB2PacketWaveform) (istart i : Nat) (pk : List Packet) : Scan :=
  if i + 1 ≥ cap.m_samples.length then some (i, pk)
  else
    match cap.m_samples[i]?, cap.m_samples[i + 1]? with
    | some snframe, some scrc =>
      let icrc := i + 1
      if snframe.m_type ≠ TYPE_NFRAME then some (i + 2, pk)
      else if scrc.m_type ≠ TYPE_CRC5_GOOD then some (i + 2, pk)
      else
        match cap.m_offsets[istart]?, cap.m_offsets[icrc]?, cap.m_durations[icrc]? with
        | some o0, some oc, some dc =>
          let m_offset := o0 * cap.m_timescale
          let h := setHeader "Type" "SOF" []
          let h := setHeader "Details" ("Sequence = " ++ dec snframe.m_data) h
          let h := setHeader "Device" "--" h
          let h := setHeader "Endpoint" "--" h
          let h := setHeader "Length" "2" h
          some (i + 2, pk ++ [{ newPacket with
            m_offset := m_offset
            m_headers := h
            m_len := (oc + dc) * cap.m_timescale - m_offset }])
        | _, _, _ => none
    | _, _ => none

/-- The loop `for(int j=0; j<8; j++)` of `DecodeSetup`: the cursor afterwards and the eight
values, or no values when a symbol is not `TYPE_DATA`. -/
def setupData (cap : USB2PacketWaveform) : Nat → Nat → List Nat → Option (Nat × Option (List Nat))
  | 0, i, acc => some (i, some acc)
  | n + 1, i, acc =>
    match cap.m_samples[i]? with
    | none => none
    | some sdat =>
      if sdat.m_type ≠ TYPE_DATA then some (i + 1, none)
      else setupData cap n (i + 1) (acc ++ [sdat.m_data])

/-- The text of the "Details" header of a SETUP packet. -/
def setupDetails (data : List Nat) (ack : String) : String :=
  let bmRequestType := data.getD 0 0 % 256
  let bRequest := data.getD 1 0 % 256
  let wValue := ((data.getD 3 0 <<< 8) ||| data.getD 2 0) % 65536
  let wIndex := ((data.getD 5 0 <<< 8) ||| data.getD 4 0) % 65536
  let wLength := ((data.getD 7 0 <<< 8) ||| data.getD 6 0) % 65536
  let out := bmRequestType >>> 7 ≠ 0
  let type := (bmRequestType >>> 5) &&& 3
  let dest := bmRequestType &&& 0x1f
  let stype := if type = 0 then "Standard" else if type = 1 then "Class"
    else if type = 2 then "Vendor" else "Reserved"
  let sdest := if dest = 0 then "device" else if dest = 1 then "interface"
    else if dest = 2 then "endpoint" else "reserved"
  (if out then "Host:" else "Dev:") ++ " " ++ stype ++ " req to " ++ sdest
    ++ " bRequest=" ++ hex bRequest ++ " wValue=" ++ hex wValue ++ " wIndex=" ++ hex wIndex
    ++ " wLength=" ++ dec wLength ++ " " ++ ack

/-- `USB2PacketDecoder::DecodeSetup(cap, istart, i)`. -/
def DecodeSetup (cap : USB2PacketWaveform) (istart i : Nat) (pk : List Packet) : Scan :=
  if i + 2 ≥ cap.m_samples.length then some (i, pk)
  else
    match cap.m_samples[i]?, cap.m_samples[i + 1]?, cap.m_samples[i + 2]? with
    | some saddr, some sendp, some scrc =>
      let i := i + 3
      if saddr.m_type ≠ TYPE_ADDR then some (i, pk)
      else if sendp.m_type ≠ TYPE_ENDP then some (i, pk)
      else if scrc.m_type ≠ TYPE_CRC5_GOOD then some (i, pk)
      else if i + 9 ≥ cap.m_samples.length then some (i, pk)
      else
        match cap.m_samples[i]? with
        | none => none
        | some sdatpid =>
          let i := i + 1
          if sdatpid.m_type ≠ TYPE_PID then some (i, pk)
          else if sdatpid.m_data &&& 0xf ≠ PID_DATA0 then some (i, pk)
          else
            match setupData cap 8 i [] with
            | none => none
            | some (i, none) => some (i, pk)
            | some (i, some data) =>
              let idcrc := i
              let i := i + 1
              match cap.m_samples[idcrc]? with
              | none => none
              | some sdcrc =>
                if sdcrc.m_type ≠ TYPE_CRC16_GOOD then some (i, pk)
                else if i ≥ cap.m_samples.length then some (i, pk)
                else
                  match cap.m_samples[i]?, cap.m_offsets[istart]?, cap.m_offsets[idcrc]?,
                    cap.m_durations[idcrc]? with
                  | some sack, some o0, some oc, some dc =>
                    let ack :=
                      if sack.m_type = TYPE_PID then
                        if sack.m_data &&& 0xf = PID_ACK then "ACK"
                        else if sack.m_data &&& 0xf = PID_NAK then "NAK"
                        else "Unknown end PID"
                      else ""
                    let m_offset := o0 * cap.m_timescale
                    let h := setHeader "Type" "SETUP" []
                    let h := setHeader "Device" (dec saddr.m_data) h
                    let h := setHeader "Endpoint" (dec sendp.m_data) h
                    let h := setHeader "Length" "8" h
                    let h := setHeader "Details" (setupDetails data ack) h
                    some (i + 1, pk ++ [{ newPacket with
                      m_offset := m_offset
                      m_headers := h
                      m_displayBackgroundColor := Color.background PacketColor.PROTO_COLOR_CONTROL
                      m_len := (oc + dc) * cap.m_timescale - m_offset }])
                  | _, _, _, _ => none
    | _, _, _ => none

/-- The loop "Read the data" of `DecodeData`: the cursor afterwards, the bytes added to
`pack->m_data` (a vector of `uint8_t`) and whether a `TYPE_CRC16_BAD` symbol ended it. -/
def readData (cap : USB2PacketWaveform) : Nat → Nat → List Nat → Option (Nat × List Nat × Bool)
  | 0, i, acc => some (i, acc, false)
  | n + 1, i, acc =>
    if i < cap.m_samples.length then
      match cap.m_samples[i]? with
      | none => none
      | some s =>
        if s.m_type = TYPE_DATA then readData cap n (i + 1) (acc ++ [s.m_data % 256])
        else if s.m_type = TYPE_CRC16_GOOD then some (i + 1, acc, false)
        else if s.m_type = TYPE_CRC16_BAD then some (i + 1, acc, true)
        else readData cap n (i + 1) acc
    else some (i, acc, false)

/-- The headers and the colour that `DecodeData` gives a packet from the token: "IN" when the
PID at `istart` is `PID_IN`, "OUT" otherwise. -/
def tokenPacket (m_offset : Int) (pidData : Nat) (saddr sendp : USB2PacketSymbol) : Packet :=
  let isIn := pidData &&& 0xf = PID_IN
  let h := setHeader "Type" (if isIn then "IN" else "OUT") []
  let h := setHeader "Device" (dec saddr.m_data) h
  let h := setHeader "Endpoint" (dec sendp.m_data) h
  { newPacket with
    m_offset := m_offset
    m_headers := h
    m_displayBackgroundColor := Color.background
      (if isIn then PacketColor.PROTO_COLOR_DATA_READ else PacketColor.PROTO_COLOR_DATA_WRITE) }

/-- The part of `DecodeData` after the PID that follows the token has been looked at: `i` is
the cursor and `sdatpid` the symbol the code holds in the variable of that name. -/
def decodeDataBody (cap : USB2PacketWaveform) (istart i : Nat) (pk : List Packet)
    (saddr sendp sdatpid : USB2PacketSymbol) : Scan :=
  match cap.m_offsets[istart]?, cap.m_samples[istart]? with
  | some o0, some spid =>
    let m_offset := o0 * cap.m_timescale
    if sdatpid.m_data &&& 0xf ≠ PID_DATA0 ∧ sdatpid.m_data &&& 0xf ≠ PID_DATA1 then
      some (i, pk ++ [{ newPacket with
        m_offset := m_offset
        m_headers := setHeader "Details" "ERROR" []
        m_displayBackgroundColor := Color.background PacketColor.PROTO_COLOR_ERROR }])
    else
      let pack := tokenPacket m_offset spid.m_data saddr sendp
      match readData cap (cap.m_samples.length - i + 1) i [] with
      | none => none
      | some (i, data, bad) =>
        let pack := { pack with
          m_data := data
          m_displayBackgroundColor :=
            if bad then Color.background PacketColor.PROTO_COLOR_ERROR
            else pack.m_displayBackgroundColor }
        if i ≥ cap.m_samples.length then some (i, pk)
        else
          match cap.m_samples[i]?, cap.m_offsets[i]?, cap.m_durations[i]? with
          | some sack, some oi, some di =>
            let ack :=
              if sack.m_type = TYPE_PID then
                if sack.m_data &&& 0xf = PID_ACK then ""
                else if sack.m_data &&& 0xf = PID_NAK then "NAK"
                else "Unknown end PID"
              else "Not a PID"
            let details := String.join (data.map fun b => hex2 b ++ " ") ++ ack
            let h := setHeader "Details" details pack.m_headers
            let h := setHeader "Length" (dec data.length) h
            some (i + 1, pk ++ [{ pack with
              m_len := (oi + di) * cap.m_timescale - m_offset
              m_headers := h }])
          | _, _, _ => none
  | _, _ => none

/-- `USB2PacketDecoder::DecodeData(cap, istart, i)`. -/
def DecodeData (cap : USB2PacketWaveform) (istart i : Nat) (pk : List Packet) : Scan :=
  if i + 2 ≥ cap.m_samples.length then some (i, pk)
  else
    match cap.m_samples[i]?, cap.m_samples[i + 1]?, cap.m_samples[i + 2]? with
    | some saddr, some sendp, some scrc =>
      let i := i + 3
      if saddr.m_type ≠ TYPE_ADDR then some (i, pk)
      else if sendp.m_type ≠ TYPE_ENDP then some (i, pk)
      else if scrc.m_type ≠ TYPE_CRC5_GOOD then some (i, pk)
      else if i ≥ cap.m_samples.length then some (i, pk)
      else
        match cap.m_samples[i]? with
        | none => none
        | some sdatpid =>
          if sdatpid.m_type ≠ TYPE_PID then some (i, pk)
          else if sdatpid.m_data &&& 0xf = PID_SOF then
            match DecodeSof cap i i pk with
            | none => none
            | some (i, pk) =>
              match cap.m_samples[i]? with
              | none => none
              | some sdatpid => decodeDataBody cap istart i pk saddr sendp sdatpid
          else if sdatpid.m_data &&& 0xf = PID_NAK then
            let i := i + 1
            match cap.m_offsets[istart]?, cap.m_samples[istart]?, cap.m_offsets[i]?,
              cap.m_durations[i]? with
            | some o0, some spid, some oi, some di =>
              let m_offset := o0 * cap.m_timescale
              let pack := tokenPacket m_offset spid.m_data saddr sendp
              some (i, pk ++ [{ pack with
                m_headers := setHeader "Details" "NAK" pack.m_headers
                m_len := (oi + di) * cap.m_timescale - m_offset }])
            | _, _, _, _ => none
          else decodeDataBody cap istart (i + 1) pk saddr sendp sdatpid
    | _, _, _ => none

/-- What `FindPackets` and `Refresh` end with: normally, or by a read of a vector at an index
that is not below its size, or by `pop_back()` on an empty vector; `outOfFuel` is the bound of
the model's loops. -/
inductive Run (α : Type) where
  | ok (a : α)
  | outOfRange
  | popEmpty
  | outOfFuel
  deriving DecidableEq, Repr

/-- The loop `for(size_t i=0; i<cap->m_samples.size() - 2;)` of `FindPackets`; it is entered
only when there are at least two symbols. -/
def findLoop (cap : USB2PacketWaveform) : Nat → Nat → List Packet → Run (List Packet)
  | 0, _, _ => .outOfFuel
  | fuel + 1, i, pk =>
    if i < cap.m_samples.length - 2 then
      let istart := i
      match cap.m_samples[i]? with
      | none => .outOfRange
      | some psample =>
        if psample.m_type ≠ TYPE_PID then findLoop cap fuel (i + 1) pk
        else
          let pid := (psample.m_data &&& 0xf) % 256
          let i := i + 1
          let r : Scan :=
            if pid = PID_SOF then DecodeSof cap istart i pk
            else if pid = PID_SETUP then DecodeSetup cap istart i pk
            else if pid = PID_IN ∨ pid = PID_OUT then DecodeData cap istart i pk
            else some (i, pk)
          match r with
          | none => .outOfRange
          | some (i, pk) => findLoop cap fuel i pk
    else .ok pk

/-- `USB2PacketDecoder::FindPackets(cap)`: the packet list afterwards. `ClearPackets()` comes
first, so the list before the call does not matter. -/
def FindPackets (cap : USB2PacketWaveform) : Run (List Packet) :=
  if cap.m_samples.length < 2 then .ok []
  else findLoop cap (cap.m_samples.length + 1) 0 []

/-- The decoder object as far as `Refresh` touches it: the output passed to `SetData` (`none`
for `NULL`) and the packet list. -/
structure Decoder where
  data : Option USB2PacketWaveform
  m_packets : List Packet
  deriving DecidableEq, Repr

/-- `USB2PacketDecoder::Refresh`. `inputsOK` is the result of `VerifyAllInputsOK()`. With
invalid input the function returns right after `SetData(NULL, 0)`. -/
def Refresh (inputsOK : Bool) (din : USB2PCSWaveform) (d : Decoder) : Run Decoder :=
  if !inputsOK then .ok { d with data := none }
  else
    match framing (entries din) (initMachine din) with
    | .outOfRange => .outOfRange
    | .popEmpty => .popEmpty
    | .ok m =>
      match FindPackets m.cap with
      | .ok pk => .ok { data := some m.cap, m_packets := pk }
      | .outOfRange => .outOfRange
      | .popEmpty => .popEmpty
      | .outOfFuel => .outOfFuel

end USB2PacketDecoder

namespace USB2PacketDecoder
open SymbolType State

/-- The check on a PID byte as the USB specification words it: the high nibble is the bitwise
complement of the low nibble. -/
def PidCheckOk (b : Nat) : Prop := b >>> 4 = 0xf ^^^ (b &&& 0xf)

instance (b : Nat) : Decidable (PidCheckOk b) := by
  unfold PidCheckOk; infer_instance

/-- An input symbol of type `TYPE_DATA` with offset and duration. -/
def dataEntry (b : Nat) (off dur : Int) : Entry := ⟨⟨PCSType.TYPE_DATA, b⟩, off, dur⟩

/-- The symbols `TYPE_DATA` that `STATE_DATA` emits for a list of data entries. -/
def dataSymbols (body : List Entry) : List USB2PacketSymbol :=
  body.map fun e => ⟨TYPE_DATA, e.sym.m_data⟩

/-- A data packet cut short: SYNC, the PID `DATA0` (`0xC3`), EOP. -/
def shortDataPacket : USB2PCSWaveform :=
  { m_timescale := 1, m_startTimestamp := 0, m_startFemtoseconds := 0
    m_offsets := [0, 8, 16]
    m_durations := [8, 8, 8]
    m_samples := [⟨PCSType.TYPE_SYNC, 0⟩, ⟨PCSType.TYPE_DATA, 0xc3⟩, ⟨PCSType.TYPE_EOP, 0⟩] }

/-- A symbol outside a packet, then a data packet with one byte after the PID. -/
def oneByteDataPacket : USB2PCSWaveform :=
  { m_timescale := 1, m_startTimestamp := 0, m_startFemtoseconds := 0
    m_offsets := [0, 8, 16, 24, 32]
    m_durations := [8, 8, 8, 8, 8]
    m_samples := [⟨PCSType.TYPE_DATA, 0⟩, ⟨PCSType.TYPE_SYNC, 0⟩, ⟨PCSType.TYPE_DATA, 0xc3⟩,
      ⟨PCSType.TYPE_DATA, 0x12⟩, ⟨PCSType.TYPE_EOP, 0⟩] }

/-- A decoder that holds one packet from an earlier run. -/
def usedDecoder : Decoder := ⟨none, [{ newPacket with m_headers := [("Type", "SOF")] }]⟩

/-- The three vectors of the output waveform have the same length. -/
def Parallel (cap : USB2PacketWaveform) : Prop :=
  cap.m_offsets.length = cap.m_samples.length ∧ cap.m_durations.length = cap.m_samples.length

instance (cap : USB2PacketWaveform) : Decidable (Parallel cap) := by
  unfold Parallel; infer_instance

/-- A machine in `STATE_PID` with an empty output waveform. -/
def pidMachine : Machine :=
  { initMachine shortDataPacket with state := STATE_PID }

end USB2PacketDecoder

namespace Manchester
open Ethernet10BaseTDecoder EthernetProtocolDecoder

/-- A trace sampled every 10 ns whose last sample is an edge outside the eye window: the line
goes low at 0 ns, is idle, and goes high at 70 ns, the last sample. -/
def lateEdgeAtEnd : AnalogWaveform := traceOf 10000000 [-2, 0, 0, 0, 0, 0, 0, 2]

/-- A trace sampled every 10 ns that ends 20 ns after a mid-bit edge: low from 0 ns, high from
50 ns to the last sample at 60 ns. -/
def endsAfterMidBit : AnalogWaveform := traceOf 10000000 [-2, -2, -2, -2, -2, 2, 2]

/-- Whether `Refresh` ended by a read of `m_offsets` past its end. -/
def readsPastEnd : Outcome → Bool
  | .outOfRange => true
  | _ => false

end Manchester

namespace EthernetProtocolDecoder

/-- An environment with an open capture file: a CRC32 that is constantly zero and
`FS_PER_SECOND = 10^15`. -/
def openEnv : Env := ⟨fun _ _ _ => 0, 10 ^ 15, true⟩

/-- An empty output waveform that starts 1 µs before a full second. -/
def timedCap : EthernetWaveform := ⟨1, 1600000000, 999999000000000, [], [], []⟩

end EthernetProtocolDecoder

/-! ## `DramRowColumnLatencyMeasurement.cpp` -/

namespace DramRowColumnLatencyMeasurement

/-- Modelled from the spec: the command types of `SDRAMSymbol`, whose header is not among the
sources. `Refresh` tells `TYPE_ACT`, `TYPE_WR`, `TYPE_WRA`, `TYPE_RD` and `TYPE_RDA` from the
rest. -/
inductive SType where
  | TYPE_MRS
  | TYPE_REF
  | TYPE_PRE
  | TYPE_PREA
  | TYPE_ACT
  | TYPE_WR
  | TYPE_WRA
  | TYPE_RD
  | TYPE_RDA
  | TYPE_STOP
  | TYPE_ERROR
  deriving DecidableEq, Repr

open SType

/-- Modelled from the spec: a symbol of the input waveform (`SDRAMSymbol`): the command and the
bank number, a signed integer (the code tests `m_bank < 0`). -/
structure SDRAMSymbol where
  m_stype : SType
  m_bank : Int
  deriving DecidableEq, Repr

/-- The input waveform (`SDRAMWaveform`). -/
structure SDRAMWaveform where
  m_timescale : Int
  m_startTimestamp : Int
  m_startFemtoseconds : Int
  m_offsets : List Int
  m_durations : List Int
  m_samples : List SDRAMSymbol
  deriving DecidableEq, Repr

/-- The output waveform (`AnalogWaveform`). Its samples are the latencies, which the code
computes as `int64_t` and stores as `float`; the model keeps the integers. -/
structure LatencyWaveform where
  m_timescale : Int
  m_startTimestamp : Int
  m_startFemtoseconds : Int
  m_offsets : List Int
  m_durations : List Int
  m_samples : List Int
  deriving DecidableEq, Repr

/-- The variables of the loop of `Refresh`: the table `int64_t lastAct[8]`, `tlast` and the
three vectors of `cap`. (`fmin` and `fmax`, which only feed the display range, are left out.) -/
structure LoopState where
  lastAct : List Int
  tlast : Int
  m_offsets : List Int
  m_durations : List Int
  m_samples : List Int
  deriving DecidableEq, Repr

/-- How a pass of the loop ends: normally, or with an access to `lastAct` at an index that is
not one of its 8 entries (undefined behaviour); the index is recorded. -/
inductive Outcome (α : Type) where
  | ok (a : α)
  | outOfRange (index : Int)
  deriving DecidableEq, Repr

/-- The read `lastAct[bank]`. -/
def readAct (lastAct : List Int) (bank : Int) : Option Int :=
  if 0 ≤ bank ∧ bank < 8 then lastAct[bank.toNat]? else none

/-- The write `lastAct[bank] = v`. -/
def writeAct (lastAct : List Int) (bank : Int) (v : Int) : Option (List Int) :=
  if 0 ≤ bank ∧ bank < 8 then some (lastAct.set bank.toNat v) else none

/-- The body of the `for` loop of `Refresh` for the sample `sample` with offset `off`. -/
def step (timescale : Int) (sample : SDRAMSymbol) (off : Int) (s : LoopState) :
    Outcome LoopState :=
  let tnow := off * timescale
  if sample.m_bank < 0 ∨ sample.m_bank > 8 then .ok s
  else if sample.m_stype = TYPE_ACT then
    match writeAct s.lastAct sample.m_bank tnow with
    | none => .outOfRange sample.m_bank
    | some t => .ok { s with lastAct := t }
  else if sample.m_stype = TYPE_WR ∨ sample.m_stype = TYPE_WRA ∨ sample.m_stype = TYPE_RD
      ∨ sample.m_stype = TYPE_RDA then
    let tcol := tnow
    match readAct s.lastAct sample.m_bank with
    | none => .outOfRange sample.m_bank
    | some tact =>
      if tact = 0 then .ok s
      else
        let latency := tcol - tact
        match writeAct s.lastAct sample.m_bank 0 with
        | none => .outOfRange sample.m_bank
        | some t =>
          .ok { lastAct := t
                tlast := tnow
                m_offsets := s.m_offsets ++ [s.tlast]
                m_durations := s.m_durations ++ [tnow - s.tlast]
                m_samples := s.m_samples ++ [latency] }
  else .ok s

/-- The `for` loop of `Refresh` over the samples, each with `m_offsets[i]`. -/
def loop (timescale : Int) : List (SDRAMSymbol × Int) → LoopState → Outcome LoopState
  | [], s => .ok s
  | e :: rest, s =>
    match step timescale e.1 e.2 s with
    | .ok s1 => loop timescale rest s1
    | .outOfRange k => .outOfRange k

/-- `DramRowColumnLatencyMeasurement::Refresh`: what is passed to `SetData` (`none` for
`NULL`). `inputsOK` is the result of `VerifyAllInputsOK()`. -/
def Refresh (inputsOK : Bool) (din : SDRAMWaveform) : Outcome (Option LatencyWaveform) :=
  if !inputsOK then .ok none
  else
    match loop din.m_timescale (din.m_samples.zip din.m_offsets)
        ⟨[0, 0, 0, 0, 0, 0, 0, 0], 0, [], [], []⟩ with
    | .outOfRange k => .outOfRange k
    | .ok s =>
      if s.m_samples.isEmpty then .ok none
      else
        .ok (some
          { m_timescale := 1
            m_startTimestamp := din.m_startTimestamp
            m_startFemtoseconds := din.m_startFemtoseconds
            m_offsets := s.m_offsets
            m_durations := s.m_durations
            m_samples := s.m_samples })

/-- A command sequence with the given commands at offsets 0, 10, 20, ... and time scale 1. -/
def commands (l : List SDRAMSymbol) : SDRAMWaveform :=
  { m_timescale := 1, m_startTimestamp := 0, m_startFemtoseconds := 0
    m_offsets := (List.range l.length).map fun k => ((10 * k : Nat) : Int)
    m_durations := l.map fun _ => 10
    m_samples := l }

end DramRowColumnLatencyMeasurement

/-! ## `PRBSGeneratorFilter.cpp` -/

namespace PRBSGeneratorFilter

/-- Modelled from the spec: the enumerators of the "Polynomial" parameter, declared in the
header, which is not among the sources. -/
inductive Polynomials where
  | POLY_PRBS7
  | POLY_PRBS15
  | POLY_PRBS23
  | POLY_PRBS31
  deriving DecidableEq, Repr

open Polynomials

/-- A digital output waveform (`DigitalWaveform`) as far as `Refresh` fills it in. -/
structure DigitalWaveform where
  m_timescale : Nat
  m_triggerPhase : Nat
  m_offsets : List Int
  m_durations : List Int
  m_samples : List Bool
  deriving DecidableEq, Repr

/-- The `switch(poly)` of the loop body: the bit `next` for the register `prbs` (a
`uint32_t`). -/
def nextBit (poly : Polynomials) (prbs : Nat) : Nat :=
  match poly with
  | POLY_PRBS7 => ((prbs >>> 7) ^^^ (prbs >>> 6)) &&& 1
  | POLY_PRBS15 => ((prbs >>> 15) ^^^ (prbs >>> 14)) &&& 1
  | POLY_PRBS23 => ((prbs >>> 23) ^^^ (prbs >>> 18)) &&& 1
  | POLY_PRBS31 => ((prbs >>> 31) ^^^ (prbs >>> 28)) &&& 1

/-- The update `prbs = (prbs << 1) | next` on a `uint32_t`. -/
def shiftIn (prbs next : Nat) : Nat := ((prbs <<< 1) ||| next) % 2 ^ 32

/-- The data samples the loop of `Refresh` writes: `depth` passes from register `prbs`, each
storing `(bool)next`. -/
def dataBits (poly : Polynomials) : Nat → Nat → List Bool
  | 0, _ => []
  | depth + 1, prbs =>
    let next := nextBit poly prbs
    decide (next ≠ 0) :: dataBits poly depth (shiftIn prbs next)

/-- The clock samples the loop writes: `lastclk`, then its complement, and so on. -/
def clockBits : Nat → Bool → List Bool
  | 0, _ => []
  | depth + 1, lastclk => lastclk :: clockBits depth (!lastclk)

/-- `PRBSGeneratorFilter::Refresh`: the data and the clock waveform. The parameters are the
depth, the baud rate and the polynomial; `seed` is the value `rand()` returns, stored into a
`uint32_t`, and `FS_PER_SECOND` the macro of that name. The start time, read from the clock of
the machine, is left out. -/
def Refresh (FS_PER_SECOND : Nat) (depth baudrate : Nat) (poly : Polynomials) (seed : Nat) :
    DigitalWaveform × DigitalWaveform :=
  let samplePeriod := FS_PER_SECOND / baudrate
  let offsets := (List.range depth).map fun i => (i : Int)
  let durations := (List.range depth).map fun _ => (1 : Int)
  ({ m_timescale := samplePeriod
     m_triggerPhase := 0
     m_offsets := offsets
     m_durations := durations
     m_samples := dataBits poly depth (seed % 2 ^ 32) },
   { m_timescale := samplePeriod
     m_triggerPhase := samplePeriod / 2
     m_offsets := offsets
     m_durations := durations
     m_samples := clockBits depth false })

/-- The data bit `s[n]` of a run of `Refresh` with the polynomial parameter set to PRBS-7. -/
def prbs7Bit (depth seed n : Nat) : Bool :=
  (Refresh (10 ^ 15) depth 10312500000 POLY_PRBS7 seed).1.m_samples.getD n false

/-- The register after `n` passes of the loop. -/
def registerAt (poly : Polynomials) (prbs : Nat) : Nat → Nat
  | 0 => prbs
  | n + 1 => registerAt poly (shiftIn prbs (nextBit poly prbs)) n

end PRBSGeneratorFilter

/-! ## Single-bit errors in the two bytes given to `VerifyCRC5` -/

namespace USB2PacketDecoder

/-- The byte pair with bit `k` of its 16 bits flipped: bits 0 to 7 are those of `data[0]`,
bits 8 to 15 those of `data[1]`. -/
def flipBit (data : Nat × Nat) (k : Nat) : Nat × Nat :=
  if k < 8 then (data.1 ^^^ 2 ^ k, data.2) else (data.1, data.2 ^^^ 2 ^ (k - 8))

end USB2PacketDecoder

/-! ## Examples for the statements about truncated tokens and NAKed transactions -/

namespace USB2PacketDecoder
open SymbolType State

/-- An input waveform with the given symbols, each 8 time units long, one after the other. -/
def pcsTrace (l : List USB2PCSSymbol) : USB2PCSWaveform :=
  { m_timescale := 1, m_startTimestamp := 0, m_startFemtoseconds := 0
    m_offsets := (List.range l.length).map fun k => ((8 * k : Nat) : Int)
    m_durations := l.map fun _ => 8
    m_samples := l }

/-- A token cut short: SYNC, the PID `IN` (`0x69`), EOP. -/
def truncatedToken : USB2PCSWaveform :=
  pcsTrace [⟨PCSType.TYPE_SYNC, 0⟩, ⟨PCSType.TYPE_DATA, 0x69⟩, ⟨PCSType.TYPE_EOP, 0⟩]

/-- A token cut short after its first byte: SYNC, the PID `IN`, one data byte, EOP. -/
def truncatedTokenSecond : USB2PCSWaveform :=
  pcsTrace [⟨PCSType.TYPE_SYNC, 0⟩, ⟨PCSType.TYPE_DATA, 0x69⟩, ⟨PCSType.TYPE_DATA, 0x15⟩,
    ⟨PCSType.TYPE_EOP, 0⟩]

/-- A start of frame cut short after its first byte: SYNC, the PID `SOF` (`0xA5`), one data
byte, EOP. -/
def truncatedSof : USB2PCSWaveform :=
  pcsTrace [⟨PCSType.TYPE_SYNC, 0⟩, ⟨PCSType.TYPE_DATA, 0xa5⟩, ⟨PCSType.TYPE_DATA, 0x01⟩,
    ⟨PCSType.TYPE_EOP, 0⟩]

/-- The symbols of the output waveform after the framing loop, if it ends normally. -/
def framedSymbols (din : USB2PCSWaveform) : Option (List USB2PacketSymbol) :=
  match framing (entries din) (initMachine din) with
  | .ok m => some m.cap.m_samples
  | _ => none

/-- The machine after the framing loop has read the first `k` input symbols. -/
def machineAfter (din : USB2PCSWaveform) (k : Nat) : Outcome :=
  framing ((entries din).take k) (initMachine din)

/-- The states in which the loop expects a byte of a token or of a frame number. -/
def ExpectsTokenByte (s : State) : Prop :=
  s = STATE_TOKEN_0 ∨ s = STATE_TOKEN_1 ∨ s = STATE_SOF_0 ∨ s = STATE_SOF_1

instance (s : State) : Decidable (ExpectsTokenByte s) := by
  unfold ExpectsTokenByte; infer_instance

/-- A machine in `STATE_TOKEN_0`: the PID of a token has just been read. -/
def tokenMachine : Machine :=
  { pidMachine with state := STATE_TOKEN_0, cap := emit pidMachine.cap 8 8 TYPE_PID 0x69 }

/-- A packet-symbol waveform with time scale `ts`. -/
def packetTrace (ts : Int) (offsets durations : List Int) (l : List USB2PacketSymbol) :
    USB2PacketWaveform :=
  { m_timescale := ts, m_startTimestamp := 0, m_startFemtoseconds := 0
    m_offsets := offsets, m_durations := durations, m_samples := l }

/-- An IN token (device 5, endpoint 1) answered by a NAK, followed by the PID of the next
token: the NAK lasts from 40 to 48, the symbol after it from 100 to 108. -/
def nakTransaction : USB2PacketWaveform :=
  packetTrace 1000 [0, 8, 16, 20, 40, 100] [8, 8, 4, 4, 8, 8]
    [⟨TYPE_PID, 0x69⟩, ⟨TYPE_ADDR, 5⟩, ⟨TYPE_ENDP, 1⟩, ⟨TYPE_CRC5_GOOD, 0x1d⟩, ⟨TYPE_PID, 0x5a⟩,
      ⟨TYPE_PID, 0x69⟩]

/-- The same transaction at the end of the symbol list: the NAK is the last symbol. -/
def nakAtEnd : USB2PacketWaveform :=
  packetTrace 1000 [0, 8, 16, 20, 40] [8, 8, 4, 4, 8]
    [⟨TYPE_PID, 0x69⟩, ⟨TYPE_ADDR, 5⟩, ⟨TYPE_ENDP, 1⟩, ⟨TYPE_CRC5_GOOD, 0x1d⟩, ⟨TYPE_PID, 0x5a⟩]

/-- An IN token followed by a SOF PID one symbol before the end of the list. -/
def sofBeforeEnd : USB2PacketWaveform :=
  packetTrace 1000 [0, 8, 16, 20, 40, 48] [8, 8, 4, 4, 8, 8]
    [⟨TYPE_PID, 0x69⟩, ⟨TYPE_ADDR, 5⟩, ⟨TYPE_ENDP, 1⟩, ⟨TYPE_CRC5_GOOD, 0x1d⟩, ⟨TYPE_PID, 0xa5⟩,
      ⟨TYPE_NFRAME, 1⟩]

/-- The first packet of a packet list, if there is one. -/
def firstPacket : Run (List Packet) → Option Packet
  | .ok (p :: _) => some p
  | _ => none

end USB2PacketDecoder

/-! ## Fields of a frame and their time stamps, for the statements about `BytesToFrames` -/

namespace EthernetProtocolDecoder
open SegmentType

/-- The value `x / cap->m_timescale` as it is pushed on `m_offsets` or `m_durations`: the
quotient of the `uint64_t` `x` by the time scale, stored as an `int64_t`. -/
def ticks (timescale : Int) (x : Nat) : Int := toInt64 (x / toUInt64 timescale)

/-- The input bytes with indices `f` to `l`. -/
def slice (bytes : List Nat) (f l : Nat) : List Nat := (bytes.drop f).take (l + 1 - f)

/-- The output sample (offset `o`, duration `d`, symbol `seg`) is a field made of the input
bytes `f..l` with the time stamps of those bytes. A preamble runs from a byte `0x55` at `f` to
the byte before the first `0xD5` and lasts until the start of that `0xD5`; every other field
holds the bytes `f..l` and lasts from the start of byte `f` to the end of byte `l`. The
differences are those of `uint64_t`. -/
def IsField (bytes starts ends : List Nat) (timescale : Int) (o d : Int)
    (seg : EthernetFrameSegment) : Prop :=
  ∃ f l, f ≤ l ∧ l < bytes.length ∧ o = ticks timescale (starts.getD f 0) ∧
    if seg.m_type = TYPE_PREAMBLE then
      l + 1 < bytes.length ∧ bytes.getD f 0 = 0x55 ∧ bytes.getD (l + 1) 0 = 0xd5
        ∧ (∀ j, f ≤ j → j ≤ l → bytes.getD j 0 ≠ 0xd5)
        ∧ d = ticks timescale (sub64 (starts.getD (l + 1) 0) (starts.getD f 0))
    else
      seg.m_data = slice bytes f l
        ∧ d = ticks timescale (sub64 (ends.getD l 0) (starts.getD f 0))

/-- Offsets, durations and symbols of a sequence of fields. -/
inductive Fields (bytes starts ends : List Nat) (timescale : Int) :
    List Int → List Int → List EthernetFrameSegment → Prop where
  | nil : Fields bytes starts ends timescale [] [] []
  | snoc {O D : List Int} {S : List EthernetFrameSegment} {o d : Int}
      {seg : EthernetFrameSegment} :
      Fields bytes starts ends timescale O D S → IsField bytes starts ends timescale o d seg →
      Fields bytes starts ends timescale (O ++ [o]) (D ++ [d]) (S ++ [seg])

/-- The fields whose offset is pushed at their first byte and whose duration and symbol are
pushed at their last byte. -/
def isFixed (t : SegmentType) : Bool :=
  t = TYPE_DST_MAC ∨ t = TYPE_SRC_MAC ∨ t = TYPE_ETHERTYPE ∨ t = TYPE_VLAN_TAG ∨ t = TYPE_FCS_GOOD

/-- The loop is inside such a field: its offset has been pushed, its duration and symbol have
not. -/
def Pending (s : FrameState) : Prop := isFixed s.segment.m_type = true ∧ s.segment.m_data ≠ []

instance (s : FrameState) : Decidable (Pending s) := by
  unfold Pending; infer_instance

/-- The offset pushed for a field that is not complete yet. -/
def pendingOffsets (timescale : Int) (s : FrameState) : List Int :=
  if Pending s then [ticks timescale s.start] else []

/-- The waveform `cap` is `cap0` with a sequence of fields appended and then the offsets
`pend`. -/
def CapInv (bytes starts ends : List Nat) (cap0 cap : EthernetWaveform) (pend : List Int) :
    Prop :=
  cap.m_timescale = cap0.m_timescale ∧
  ∃ O D S, Fields bytes starts ends cap0.m_timescale O D S
    ∧ cap.m_offsets = cap0.m_offsets ++ O ++ pend
    ∧ cap.m_durations = cap0.m_durations ++ D
    ∧ cap.m_samples = cap0.m_samples ++ S

/-- What holds of the state of the loop before the byte at index `i` is looked at. -/
structure Inv (bytes starts ends : List Nat) (cap0 : EthernetWaveform) (i : Nat)
    (s : FrameState) : Prop where
  cap : CapInv bytes starts ends cap0 s.cap (pendingOffsets cap0.m_timescale s)
  pending : Pending s →
    ∃ f, f < i ∧ s.start = starts.getD f 0 ∧ s.segment.m_data = slice bytes f (i - 1)
  preamble : s.segment.m_type = TYPE_PREAMBLE →
    ∃ f, f < i ∧ s.start = starts.getD f 0 ∧ bytes.getD f 0 = 0x55
      ∧ ∀ j, f ≤ j → j < i → bytes.getD j 0 ≠ 0xd5

/-- A frame cut short inside the destination address: preamble, SFD and one more byte. -/
def cutInField : List Nat := [0x55, 0xd5, 0x01]

/-- An empty output waveform with a time scale of 100. -/
def coarseCap : EthernetWaveform := ⟨100, 0, 0, [], [], []⟩

/-- The lengths of the three vectors of a waveform: offsets, durations, samples. -/
def lengths (cap : EthernetWaveform) : Nat × Nat × Nat :=
  (cap.m_offsets.length, cap.m_durations.length, cap.m_samples.length)

end EthernetProtocolDecoder

/-! ## The bits decoded by the inner loop of `Ethernet10BaseTDecoder::Refresh` and their bytes -/

namespace Ethernet10BaseTDecoder
open EthernetProtocolDecoder

/-- A pass of the inner loop from state `s` decodes a bit: the edge in the middle of the bit is
found and lies in the eye window ("Edge is in the right spot! Decode it"). -/
def decodesBit (din : AnalogWaveform) (s : BitState) : Bool :=
  match FindEdge s.i din (!s.current_state) with
  | none => false
  | some i1 =>
    match timeAt din i1 with
    | none => false
    | some edgepos =>
      let delta := edgepos - s.ui_start
      !decide (delta > 10 * ui_width) && !decide (delta < eye_start ∨ delta > eye_end)

/-- The bits the inner loop decodes from state `s` on, in order, each with the start of its
unit interval: a pass that decodes a bit decodes a 1 when the edge in the middle is rising
(`current_state` false). -/
def decodedBits (din : AnalogWaveform) : Nat → BitState → List (Bool × Int)
  | 0, _ => []
  | fuel + 1, s =>
    if s.i < din.m_samples.length then
      let here := if decodesBit din s then [(!s.current_state, s.ui_start)] else []
      match bitStep din s with
      | .next s' => here ++ decodedBits din fuel s'
      | _ => here
    else []

/-- A recovered byte with its two time stamps (the entries of `bytes`, `starts`, `ends`). -/
structure ByteSpan where
  value : Nat
  first : Nat
  last : Nat
  deriving DecidableEq, Repr

/-- Bytes assembled from bits as the amended statement words it: every 8 bits give one byte,
least significant bit first, from the start of the unit interval of its first bit to the start
of the unit interval of its eighth bit plus one unit interval; fewer than 8 bits at the end
give nothing. -/
def assemble : List (Bool × Int) → List ByteSpan
  | b0 :: b1 :: b2 :: b3 :: b4 :: b5 :: b6 :: b7 :: rest =>
    ⟨UsbSpec.packLsbFirst [b0.1, b1.1, b2.1, b3.1, b4.1, b5.1, b6.1, b7.1], toUInt64 b0.2,
      toUInt64 (b7.2 + ui_width)⟩ :: assemble rest
  | _ => []

/-- The state in which `Refresh` enters the inner loop at the falling edge found at index `i0`
with time stamp `t0`. -/
def frameStart (i0 : Nat) (t0 : Int) : BitState := ⟨i0, 0, 0, [], [], [], false, t0, t0⟩

/-- The variables of the inner loop that `shiftBit` writes. -/
def byteFields (s : BitState) : Nat × Nat × Int × List Nat × List Nat × List Nat :=
  (s.current_byte, s.bitcount, s.byte_start, s.bytes, s.starts, s.ends)

/-- What `shiftBit` does to those variables for the bit `bit` whose unit interval starts at
`ui`. -/
def shiftFields (a : Nat × Nat × Int × List Nat × List Nat × List Nat) (b : Bool × Int) :
    Nat × Nat × Int × List Nat × List Nat × List Nat :=
  let byte_start := if a.2.1 = 0 then b.2 else a.2.2.1
  let current_byte := Manchester.shiftRightIn a.1 b.1
  if a.2.1 + 1 = 8 then
    (0, 0, byte_start, a.2.2.2.1 ++ [current_byte], a.2.2.2.2.1 ++ [toUInt64 byte_start],
      a.2.2.2.2.2 ++ [toUInt64 (b.2 + ui_width)])
  else (current_byte, a.2.1 + 1, byte_start, a.2.2.2.1, a.2.2.2.2.1, a.2.2.2.2.2)

end Ethernet10BaseTDecoder

namespace Manchester
open Ethernet10BaseTDecoder EthernetProtocolDecoder

/-- One byte, `0x55`, Manchester coded with one sample for every half bit. -/
def oneByteTrace : AnalogWaveform := encode exampleSampling [0x55]

/-- What the inner loop recovers from a trace entered at its first sample: the vectors
`bytes`, `starts` and `ends`. -/
def recovered (din : AnalogWaveform) : Option (List Nat × List Nat × List Nat) :=
  match recoverBits din (din.m_samples.length + 1) (frameStart 0 0) with
  | .frame s _ => some (s.bytes, s.starts, s.ends)
  | _ => none

end Manchester

/-! ## Time order of the output of `SPIDecoder` -/

namespace SPIDecoder
open SymbolType State

/-- The symbols of an output waveform are in time order and do not overlap: the three vectors
have the same length, no duration is negative, every symbol ends at or before the start of the
next one, and exactly at its start unless the symbol is a `TYPE_DESELECT` (the last symbol of
a chip-select window, so that the next one belongs to a later window). -/
def Ordered (cap : SPIWaveform) : Prop :=
  cap.m_offsets.length = cap.m_samples.length
  ∧ cap.m_durations.length = cap.m_samples.length
  ∧ (∀ k, k < cap.m_samples.length → 0 ≤ cap.m_durations.getD k 0)
  ∧ ∀ k, k + 1 < cap.m_samples.length →
      cap.m_offsets.getD k 0 + cap.m_durations.getD k 0 ≤ cap.m_offsets.getD (k + 1) 0
      ∧ ((cap.m_samples.getD k ⟨TYPE_ERROR, 0⟩).m_stype ≠ TYPE_DESELECT →
          cap.m_offsets.getD k 0 + cap.m_durations.getD k 0 = cap.m_offsets.getD (k + 1) 0)

/-- The end of the last symbol of a waveform. -/
def lastEnd (cap : SPIWaveform) : Int :=
  cap.m_offsets.getD (cap.m_samples.length - 1) 0
    + cap.m_durations.getD (cap.m_samples.length - 1) 0

/-- The type of the last symbol of a waveform. -/
def lastType (cap : SPIWaveform) : SymbolType :=
  (cap.m_samples.getD (cap.m_samples.length - 1) ⟨TYPE_ERROR, 0⟩).m_stype

/-- The waveform is empty or ends, at or before `t`, with a `TYPE_DESELECT`. -/
def Closed (cap : SPIWaveform) (t : Int) : Prop :=
  cap.m_samples.length = 0 ∨ (lastEnd cap ≤ t ∧ lastType cap = TYPE_DESELECT)

/-- What holds of the variables of `Refresh` while the chip is selected, at time `t`: before
the first clock edge of the window nothing of the window has been emitted; afterwards the
waveform ends at `bytestart`, and with a `TYPE_DATA` when no bit of the next byte has been
seen. -/
def Selected (m : Machine) (t : Int) : Prop :=
  m.bytestart ≤ t ∧ m.bitcount < 8 ∧
    if m.first then m.bitcount = 0 ∧ Closed m.cap m.bytestart
    else 0 < m.cap.m_samples.length ∧ lastEnd m.cap = m.bytestart
      ∧ (m.bitcount = 0 → lastType m.cap = TYPE_DATA)

/-- What holds of the variables of `Refresh` once the `switch` has run at time `t`. -/
def MInv (m : Machine) (t : Int) : Prop :=
  Ordered m.cap ∧
  match m.state with
  | STATE_IDLE => Closed m.cap t
  | STATE_DESELECTED => Closed m.cap t
  | STATE_SELECTED_CLKLO => Selected m t
  | STATE_SELECTED_CLKHI => Selected m t

/-- The first half of `clockEdge`: the block `if(bitcount == 0)`. -/
def edgeHead (timestamp : Int) (m : Machine) : Machine :=
  if m.bitcount = 0 then
    if m.first then
      { m with
        cap := emit m.cap m.bytestart (timestamp - m.bytestart) ⟨TYPE_SELECT, 0⟩
        first := false
        bytestart := timestamp }
    else
      { m with cap := extendLast m.cap timestamp, bytestart := timestamp }
  else m

/-- The second half of `clockEdge`: the bit is shifted in and a byte is emitted every 8
bits. -/
def edgeTail (timestamp : Int) (cur_data : Bool) (m1 : Machine) : Machine :=
  let bitcount := (m1.bitcount + 1) % 256
  let current_byte := shiftIn m1.current_byte cur_data
  if bitcount = 8 then
    { m1 with
      state := STATE_SELECTED_CLKHI
      cap := emit m1.cap m1.bytestart (timestamp - m1.bytestart) ⟨TYPE_DATA, current_byte⟩
      bitcount := 0
      current_byte := 0
      bytestart := timestamp }
  else
    { m1 with state := STATE_SELECTED_CLKHI, bitcount := bitcount, current_byte := current_byte }

/-- The cursor `i` of a channel is at the last sample that starts at or before `t`: the next
sample, if there is one, starts after `t`. -/
def CursorAt (w : DigitalWaveform) (len i : Nat) (t : Int) : Prop :=
  i + 1 < len → t < w.m_offsets.getD (i + 1) 0

/-- The sampling instants never decrease. -/
def NonDecreasing : List Sample → Prop
  | [] => True
  | [_] => True
  | a :: b :: rest => a.t ≤ b.t ∧ NonDecreasing (b :: rest)

instance : (l : List Sample) → Decidable (NonDecreasing l)
  | [] => isTrue trivial
  | [_] => isTrue trivial
  | a :: b :: rest =>
    have := instDecidableNonDecreasing (b :: rest)
    by unfold NonDecreasing; infer_instance

end SPIDecoder

/-! ## Frames with 802.1q tags -/

namespace EthernetProtocolDecoder
open SegmentType

/-- Whether the bytes between an Ethertype `e` and the check field hold a payload as
`BytesToFrames` reads them: after an Ethertype `0x8100` come a 2-byte tag and another 2-byte
Ethertype, and at least one byte is left after the last Ethertype. -/
def tagsFit (e : Nat) : List Nat → Bool
  | t0 :: t1 :: e0 :: e1 :: rest =>
    if e = 0x8100 then tagsFit (e0 * 256 + e1) rest else true
  | l => decide (e ≠ 0x8100) && !l.isEmpty

/-- The symbols of the bytes between an Ethertype `e` and the check field: a VLAN_TAG and an
ETHERTYPE symbol of two bytes each after every Ethertype `0x8100`, then one PAYLOAD symbol for
every byte. -/
def fieldSymbols (e : Nat) : List Nat → List EthernetFrameSegment
  | t0 :: t1 :: e0 :: e1 :: rest =>
    if e = 0x8100 then
      ⟨TYPE_VLAN_TAG, [t0, t1]⟩ :: ⟨TYPE_ETHERTYPE, [e0, e1]⟩ :: fieldSymbols (e0 * 256 + e1) rest
    else (t0 :: t1 :: e0 :: e1 :: rest).map (fun b => ⟨TYPE_PAYLOAD, [b]⟩)
  | l => l.map (fun b => ⟨TYPE_PAYLOAD, [b]⟩)

/-- The symbols of a frame whose Ethertype may be `0x8100`, in order, the check symbol having
type `fcsType`. For any other Ethertype these are the symbols of `frameSymbols`. -/
def taggedFrameSymbols (f : Frame) (fcsType : SegmentType) : List EthernetFrameSegment :=
  [⟨TYPE_PREAMBLE, List.replicate f.n 0x55⟩, ⟨TYPE_SFD, [0xd5]⟩, ⟨TYPE_DST_MAC, f.dst⟩,
    ⟨TYPE_SRC_MAC, f.src⟩, ⟨TYPE_ETHERTYPE, [f.e0, f.e1]⟩]
  ++ fieldSymbols f.ethertype f.payload ++ [⟨fcsType, f.fcs⟩]

/-- No symbol of the list is a check symbol. -/
def NoCheck (l : List EthernetFrameSegment) : Prop :=
  ∀ x ∈ l, x.m_type ≠ TYPE_FCS_GOOD ∧ x.m_type ≠ TYPE_FCS_BAD

/-- A frame with one preamble byte, Ethertype `0x8100`, the tag `00 05`, the inner Ethertype
`0x0800`, one payload byte and a check field that the CRC32 of `exampleEnv` accepts. -/
def taggedFrame : Frame :=
  ⟨1, [1, 2, 3, 4, 5, 6], [7, 8, 9, 10, 11, 12], 0x81, 0x00, [0x00, 0x05, 0x08, 0x00, 0xaa],
    [0, 0, 0, 0]⟩

/-- A frame with two tags, one inside the other, and two payload bytes. -/
def doubleTaggedFrame : Frame :=
  ⟨1, [1, 2, 3, 4, 5, 6], [7, 8, 9, 10, 11, 12], 0x81, 0x00,
    [0x00, 0x05, 0x81, 0x00, 0x00, 0x07, 0x08, 0x06, 0xaa, 0xbb], [0, 0, 0, 0]⟩

end EthernetProtocolDecoder

/-! # Part II: theorems -/

theorem allBelow_spec {n : Nat} {p : Nat → Bool} (h : allBelow n p = true) :
    ∀ i, i < n → p i = true := by
  induction n with
  | zero => intro i hi; omega
  | succ k ih =>
    intro i hi
    simp only [allBelow, Bool.and_eq_true] at h
    rcases Nat.lt_succ_iff_lt_or_eq.mp hi with h1 | h1
    · exact ih h.2 i h1
    · subst h1; exact h.1

/-! ## CRC5 -/

section CRC5
open USB2PacketDecoder UsbSpec

/-- After the first byte the table-driven register holds the bit-serial register, lowest bit
of the byte register = highest power. -/
theorem crc5_first_byte (b0 : Nat) (h : b0 < 256) :
    crcBits gen5 (List.replicate 5 true) (bitsLsbFirst 8 b0) = bitsLsbFirst 5 (crc5Update 0x1f b0)
      ∧ crc5Update 0x1f b0 < 32 := by
  have key : allBelow 256 (fun b =>
      (crcBits gen5 (List.replicate 5 true) (bitsLsbFirst 8 b) == bitsLsbFirst 5 (crc5Update 0x1f b))
        && decide (crc5Update 0x1f b < 32)) = true := by decide!
  have := allBelow_spec key b0 h
  simpa using this

/-- Data bits may be added into the register before they are shifted through. -/
theorem crc5_xor_in (c x : Nat) (hc : c < 32) (hx : x < 8) :
    crcBits gen5 (bitsLsbFirst 5 c) (bitsLsbFirst 3 x)
      = crcBits gen5 (bitsLsbFirst 5 (c ^^^ x)) [false, false, false] := by
  have key : allBelow 32 (fun c => allBelow 8 fun x =>
      crcBits gen5 (bitsLsbFirst 5 c) (bitsLsbFirst 3 x)
        == crcBits gen5 (bitsLsbFirst 5 (c ^^^ x)) [false, false, false]) = true := by decide!
  have := allBelow_spec (allBelow_spec key c hc) x hx
  simpa using this

/-- The table lookup leaves the residual 6 exactly when the five high bits of the byte are the
complement of the register after three more shifts. -/
theorem crc5_residual (hi c : Nat) (hh : hi < 32) (hc : c < 32) :
    (crc5Lookup ((hi * 8) ^^^ c) == 6)
      = (bitsLsbFirst 5 hi == (crcBits gen5 (bitsLsbFirst 5 c) [false, false, false]).map not) := by
  have key : allBelow 32 (fun hi => allBelow 32 fun c =>
      (crc5Lookup ((hi * 8) ^^^ c) == 6)
        == (bitsLsbFirst 5 hi
              == (crcBits gen5 (bitsLsbFirst 5 c) [false, false, false]).map not)) = true := by
    decide!
  have := allBelow_spec (allBelow_spec key hi hh) c hc
  simpa using this

theorem byte_split (b : Nat) (h : b < 256) :
    b = ((b >>> 3) * 8) ^^^ (b % 8) ∧ bitsLsbFirst 3 b = bitsLsbFirst 3 (b % 8)
      ∧ (bitsLsbFirst 8 b).drop 3 = bitsLsbFirst 5 (b >>> 3) ∧ b >>> 3 < 32 := by
  have key : allBelow 256 (fun b =>
      (b == ((b >>> 3) * 8) ^^^ (b % 8)) && (bitsLsbFirst 3 b == bitsLsbFirst 3 (b % 8))
      && ((bitsLsbFirst 8 b).drop 3 == bitsLsbFirst 5 (b >>> 3)) && decide (b >>> 3 < 32)) = true := by
    decide!
  have := allBelow_spec key b h
  simpa [and_assoc] using this

theorem VerifyCRC5_eq (b0 b1 : Nat) (h0 : b0 < 256) (h1 : b1 < 256) :
    VerifyCRC5 b0 b1
      = ((bitsLsbFirst 8 b1).drop 3 == usbCrc5 (bitsLsbFirst 8 b0 ++ bitsLsbFirst 3 b1)) := by
  obtain ⟨hA, hr⟩ := crc5_first_byte b0 h0
  obtain ⟨hs, hb3, hd, hhi⟩ := byte_split b1 h1
  have hx : b1 % 8 < 8 := Nat.mod_lt _ (by norm_num)
  have hc : crc5Update 0x1f b0 ^^^ b1 % 8 < 32 := by
    have : crc5Update 0x1f b0 ^^^ b1 % 8 < 2 ^ 5 :=
      Nat.xor_lt_two_pow (by norm_num; omega) (by norm_num; omega)
    simpa using this
  have hlt : b1 ^^^ crc5Update 0x1f b0 < 256 := by
    have : b1 ^^^ crc5Update 0x1f b0 < 2 ^ 8 :=
      Nat.xor_lt_two_pow (by norm_num; omega) (by norm_num; omega)
    simpa using this
  have e1 : (b1 ^^^ crc5Update 0x1f b0) % 256
      = ((b1 >>> 3) * 8) ^^^ (crc5Update 0x1f b0 ^^^ b1 % 8) := by
    rw [Nat.mod_eq_of_lt hlt]
    conv_lhs => rw [hs]
    rw [Nat.xor_assoc, Nat.xor_comm (b1 % 8)]
  have e2 : usbCrc5 (bitsLsbFirst 8 b0 ++ bitsLsbFirst 3 b1)
      = (crcBits gen5 (bitsLsbFirst 5 (crc5Update 0x1f b0 ^^^ b1 % 8))
          [false, false, false]).map not := by
    unfold usbCrc5
    rw [← crc5_xor_in _ _ hr hx, ← hb3, ← hA]
    simp [crcBits]
  unfold VerifyCRC5
  rw [e2, hd, ← crc5_residual _ _ hhi hc, ← e1]
  rfl

/-- C1. For all bytes `b0`, `b1`, `VerifyCRC5` accepts exactly when the five bits `b1[7:3]`,
in the order they are sent (bit 3 first), are the USB token CRC5 (generator `x^5+x^2+1`,
preset `0x1F`, data least significant bit first, complemented, highest power first) of the
eleven bits `b0[7:0]`, `b1[2:0]`; and the SOF token of frame 1, bytes `0x01 0xE8`, is
accepted. -/
theorem C1_VerifyCRC5_iff_usbCrc5 :
    (∀ b0 b1 : Nat, b0 < 256 → b1 < 256 →
      (VerifyCRC5 b0 b1 = true ↔
        (bitsLsbFirst 8 b1).drop 3 = usbCrc5 (bitsLsbFirst 8 b0 ++ bitsLsbFirst 3 b1)))
    ∧ VerifyCRC5 0x01 0xE8 = true := by
  refine ⟨fun b0 b1 h0 h1 => ?_, by decide⟩
  rw [VerifyCRC5_eq b0 b1 h0 h1]
  simp

/-- C1, at the SOF token of frame 1: the bits `b1[7:3]` of `0xE8` are the CRC5 of the eleven
bits of frame number 1. -/
theorem C1_VerifyCRC5_iff_usbCrc5_witness :
    (1 < 256 ∧ 0xE8 < 256) ∧
    (VerifyCRC5 0x01 0xE8 = true ↔
      (bitsLsbFirst 8 0xE8).drop 3 = usbCrc5 (bitsLsbFirst 8 0x01 ++ bitsLsbFirst 3 0xE8)) :=
  ⟨by decide, C1_VerifyCRC5_iff_usbCrc5.1 0x01 0xE8 (by decide) (by decide)⟩

end CRC5


/-! ## CRC16 -/

section CRC16
open USB2PacketDecoder UsbSpec

theorem packLsbFirst_cons (b : Bool) (l : List Bool) :
    packLsbFirst (b :: l) = Nat.bit b (packLsbFirst l) := by
  rw [Nat.bit_val]; simp only [packLsbFirst]; omega

theorem packLsbFirst_zipWith_xor : ∀ (l1 l2 : List Bool), l1.length = l2.length →
    packLsbFirst (List.zipWith xor l1 l2) = packLsbFirst l1 ^^^ packLsbFirst l2
  | [], [], _ => by simp [packLsbFirst]
  | [], _ :: _, h => by simp at h
  | _ :: _, [], h => by simp at h
  | a :: l1, b :: l2, h => by
    have ih := packLsbFirst_zipWith_xor l1 l2 (by simpa using h)
    rw [List.zipWith_cons_cons, packLsbFirst_cons, packLsbFirst_cons, packLsbFirst_cons,
      Nat.xor_bit, ih]

theorem packLsbFirst_append (l1 l2 : List Bool) :
    packLsbFirst (l1 ++ l2) = packLsbFirst l1 + 2 ^ l1.length * packLsbFirst l2 := by
  induction l1 with
  | nil => simp [packLsbFirst]
  | cons a l ih =>
    have e : packLsbFirst (a :: l ++ l2) = a.toNat + 2 * packLsbFirst (l ++ l2) := rfl
    have e2 : packLsbFirst (a :: l) = a.toNat + 2 * packLsbFirst l := rfl
    rw [e, e2, ih, List.length_cons, pow_succ]
    ring

theorem packLsbFirst_lt (l : List Bool) : packLsbFirst l < 2 ^ l.length := by
  induction l with
  | nil => simp [packLsbFirst]
  | cons a l ih =>
    simp only [packLsbFirst, List.length_cons, pow_succ]
    cases a <;> simp <;> omega

theorem packLsbFirst_map_not (l : List Bool) :
    packLsbFirst (l.map not) + packLsbFirst l + 1 = 2 ^ l.length := by
  induction l with
  | nil => simp [packLsbFirst]
  | cons a l ih =>
    simp only [List.map_cons, packLsbFirst, List.length_cons, pow_succ]
    cases a <;> simp <;> omega

theorem packLsbFirst_snoc_false (l : List Bool) :
    packLsbFirst (l ++ [false]) = packLsbFirst l := by
  rw [packLsbFirst_append]; simp [packLsbFirst]

theorem crcShift_length (gen reg : List Bool) (d : Bool) (h : reg.length = gen.length)
    (hpos : 0 < reg.length) : (crcShift gen reg d).length = gen.length := by
  unfold crcShift
  have hl : (reg.tail ++ [false]).length = gen.length := by
    simp only [List.length_append, List.length_tail, List.length_singleton]; omega
  split
  · simp [List.length_zipWith, hl]
  · exact hl

/-- One pass of the inner loop of `CalculateCRC16` is one step of the bit-serial division, the
`uint16_t` holding the register with the highest power in bit 0. -/
theorem crc16Bit_pack (reg : List Bool) (d i : Nat) (h : reg.length = 16) :
    crc16Bit d (packLsbFirst reg) i = packLsbFirst (crcShift gen16 reg (d.testBit i)) := by
  match reg, h with
  | a :: l, h =>
    have hb : (((packLsbFirst (a :: l) ^^^ (d >>> i)) &&& 1) != 0) = (a != d.testBit i) := by
      have e : (packLsbFirst (a :: l) ^^^ (d >>> i)) &&& 1
          = ((a != d.testBit i) : Bool).toNat := by
        have t := Nat.toNat_testBit d i
        rw [Nat.and_one_is_mod, Nat.xor_mod_two_eq, Nat.shiftRight_eq_div_pow]
        simp only [packLsbFirst]
        cases a <;> cases hd : d.testBit i <;> simp [hd] at t ⊢ <;> omega
      rw [e]; cases (a != d.testBit i) <;> rfl
    have hs : packLsbFirst (a :: l) >>> 1 = packLsbFirst (l ++ [false]) := by
      rw [packLsbFirst_snoc_false, Nat.shiftRight_one]
      simp only [packLsbFirst]
      cases a <;> simp
      omega
    have hg : packLsbFirst gen16 = 0xa001 := by decide
    have hlen : (l ++ [false]).length = gen16.length := by
      have : gen16.length = 16 := by decide
      simp only [List.length_append, List.length_singleton, this]
      simpa using h
    unfold crc16Bit crcShift
    simp only [hb, hs, List.headD_cons, List.tail_cons]
    split
    · have h16 : packLsbFirst (l ++ [false]) < 2 ^ 16 := by
        have := packLsbFirst_lt (l ++ [false])
        rwa [hlen] at this
      have hx : packLsbFirst (l ++ [false]) ^^^ 0xa001 < 2 ^ 16 :=
        Nat.xor_lt_two_pow h16 (by norm_num)
      rw [packLsbFirst_zipWith_xor _ _ hlen, hg]
      exact Nat.mod_eq_of_lt hx
    · rfl

theorem crc16Byte_pack (reg : List Bool) (d : Nat) (h : reg.length = 16) :
    crc16Byte (packLsbFirst reg) d = packLsbFirst (crcBits gen16 reg (bitsLsbFirst 8 d))
      ∧ (crcBits gen16 reg (bitsLsbFirst 8 d)).length = 16 := by
  unfold crc16Byte crcBits bitsLsbFirst
  rw [List.foldl_map]
  generalize List.range 8 = is
  induction is generalizing reg with
  | nil => exact ⟨rfl, h⟩
  | cons i is ih =>
    simp only [List.foldl_cons]
    rw [crc16Bit_pack reg d i h]
    exact ih _ (crcShift_length gen16 reg _ (by rw [h]; rfl) (by omega))

theorem crc16_fold_pack (data : List Nat) (reg : List Bool) (h : reg.length = 16) :
    data.foldl crc16Byte (packLsbFirst reg)
        = packLsbFirst (crcBits gen16 reg (data.flatMap (bitsLsbFirst 8)))
      ∧ (crcBits gen16 reg (data.flatMap (bitsLsbFirst 8))).length = 16 := by
  induction data generalizing reg with
  | nil => exact ⟨rfl, h⟩
  | cons d ds ih =>
    obtain ⟨e, hl⟩ := crc16Byte_pack reg d h
    simp only [List.foldl_cons, List.flatMap_cons, e]
    have := ih _ hl
    unfold crcBits at this ⊢
    rw [List.foldl_append]
    exact this

/-- The return expression of `CalculateCRC16`: complement, first wire byte in bits 15..8. -/
theorem crc16_output (reg : List Bool) (h : reg.length = 16) :
    (2 ^ 32 - 1 - ((packLsbFirst reg <<< 8) ||| ((packLsbFirst reg >>> 8) &&& 0xff))) % 65536
      = swapBytes16 (packLsbFirst (reg.map not)) := by
  have hsplit := List.take_append_drop 8 reg
  have hl1 : (reg.take 8).length = 8 := by simp [h]
  have hl2 : (reg.drop 8).length = 8 := by simp [h]
  have hp : packLsbFirst reg = packLsbFirst (reg.take 8) + 256 * packLsbFirst (reg.drop 8) := by
    conv_lhs => rw [← hsplit]
    rw [packLsbFirst_append, hl1]
    norm_num
  have hq : packLsbFirst (reg.map not)
      = packLsbFirst ((reg.take 8).map not) + 256 * packLsbFirst ((reg.drop 8).map not) := by
    conv_lhs => rw [← hsplit]
    rw [List.map_append, packLsbFirst_append, List.length_map, hl1]
    norm_num
  have b1 := packLsbFirst_lt (reg.take 8)
  have b2 := packLsbFirst_lt (reg.drop 8)
  have n1 := packLsbFirst_map_not (reg.take 8)
  have n2 := packLsbFirst_map_not (reg.drop 8)
  rw [hl1] at b1 n1
  rw [hl2] at b2 n2
  unfold swapBytes16
  rw [hq]
  generalize packLsbFirst (reg.take 8) = lo at *
  generalize packLsbFirst (reg.drop 8) = hi at *
  generalize packLsbFirst ((reg.take 8).map not) = nlo at *
  generalize packLsbFirst ((reg.drop 8).map not) = nhi at *
  have hsr : (packLsbFirst reg >>> 8) &&& 0xff = hi := by
    rw [hp, Nat.shiftRight_eq_div_pow]
    have : (0xff : Nat) = 2 ^ 8 - 1 := by norm_num
    rw [this, Nat.and_pow_two_sub_one_eq_mod]
    omega
  have hor : (packLsbFirst reg <<< 8) ||| hi = 2 ^ 8 * packLsbFirst reg + hi := by
    rw [Nat.shiftLeft_eq, Nat.mul_comm]
    exact (Nat.mul_add_lt_is_or (by omega) _).symm
  rw [hsr, hor, hp]
  norm_num at n1 n2 b1 b2 ⊢
  clear hsr hor hp hq hsplit hl1 hl2 h
  have e1 : nlo % 256 = nlo := Nat.mod_eq_of_lt (by omega)
  have e2 : (nlo + 256 * nhi) / 256 % 256 = nhi := by omega
  have e3 : 4294967295 - (256 * (lo + 256 * hi) + hi)
      = 65536 * (65535 - hi) + (256 * nlo + nhi) := by omega
  rw [e1, e2, e3]
  omega

/-- C2. For every byte sequence `d`, `CalculateCRC16 d` is the USB data CRC16 of `d`
(generator `x^16+x^15+x^2+1`, preset `0xFFFF`, bytes least significant bit first, complemented;
as a number CRC-16/USB) with its two bytes exchanged, the first byte on the wire in bits
15..8; it is `0x0000` on the empty sequence and `0xC8B4` on the ASCII bytes of "123456789". -/
theorem C2_CalculateCRC16_eq_usbCrc16 :
    (∀ d : List Nat, CalculateCRC16 d = swapBytes16 (crc16Usb d))
    ∧ CalculateCRC16 [] = 0x0000
    ∧ CalculateCRC16 [0x31, 0x32, 0x33, 0x34, 0x35, 0x36, 0x37, 0x38, 0x39] = 0xC8B4 := by
  refine ⟨fun d => ?_, by decide!, by decide!⟩
  have hones : packLsbFirst (List.replicate 16 true) = 0xffff := by decide
  obtain ⟨e, hl⟩ := crc16_fold_pack d (List.replicate 16 true) (by simp)
  unfold CalculateCRC16 crc16Usb usbCrc16
  simp only
  rw [← hones, e, crc16_output _ hl]

end CRC16

/-! ## `EthernetProtocolDecoder::BytesToFrames` -/

namespace EthernetProtocolDecoder
open SegmentType

theorem loop_append (env : Env) (bytes starts ends : List Nat) (xs ys : List Nat) (i : Nat)
    (s : FrameState) :
    loop env bytes starts ends (xs ++ ys) i s =
      if (loop env bytes starts ends xs i s).2 then loop env bytes starts ends xs i s
      else loop env bytes starts ends ys (i + xs.length) (loop env bytes starts ends xs i s).1 := by
  induction xs generalizing i s with
  | nil => simp [loop]
  | cons b xs ih =>
    simp only [List.cons_append, loop, List.length_cons]
    cases h : step env bytes starts ends i b s with
    | done s' => simp
    | next s' =>
      simp only
      change loop env bytes starts ends (xs ++ ys) (i + 1) s' = _
      rw [ih]
      have : i + 1 + xs.length = i + (xs.length + 1) := by omega
      rw [this]

theorem preamble_more (env : Env) (bytes starts ends : List Nat) (m i : Nat) (s : FrameState)
    (d : List Nat) (hs : s.segment = ⟨TYPE_PREAMBLE, d⟩) :
    Runs env bytes starts ends (List.replicate m 0x55) i s
      ⟨TYPE_PREAMBLE, d ++ List.replicate m 0x55⟩ [] [] := by
  induction m generalizing i s d with
  | zero => exact ⟨rfl, by simpa using hs, by simp [loop], by simp [loop], rfl, rfl⟩
  | succ m ih =>
    obtain ⟨h1, a, b, c, e, f⟩ := ih (i + 1)
      { s with segment := { s.segment with m_data := s.segment.m_data ++ [0x55] } }
      (d ++ [0x55]) (by simp [hs])
    have hl : loop env bytes starts ends (List.replicate (m + 1) 0x55) i s
        = loop env bytes starts ends (List.replicate m 0x55) (i + 1)
          { s with segment := { s.segment with m_data := s.segment.m_data ++ [0x55] } } := by
      rw [List.replicate_succ]
      simp [loop, step, hs]
    unfold Runs
    rw [hl]
    exact ⟨h1, by simpa [List.replicate_succ] using a, b, c, e, f⟩

theorem preamble_phase (env : Env) (bytes starts ends : List Nat) (n i : Nat) (s : FrameState)
    (hn : 1 ≤ n) (hs : s.segment.m_type = TYPE_INVALID) :
    Runs env bytes starts ends (List.replicate n 0x55) i s
      ⟨TYPE_PREAMBLE, List.replicate n 0x55⟩ [] [] := by
  obtain ⟨m, rfl⟩ : ∃ m, n = m + 1 := ⟨n - 1, by omega⟩
  obtain ⟨h1, a, b, c, e, f⟩ := preamble_more env bytes starts ends m (i + 1)
    { s with
      start := starts.getD i 0
      segment := ⟨TYPE_PREAMBLE, [0x55]⟩
      pack := { s.pack with m_offset := toInt64 (starts.getD i 0) } } [0x55] rfl
  have hl : loop env bytes starts ends (List.replicate (m + 1) 0x55) i s
      = loop env bytes starts ends (List.replicate m 0x55) (i + 1)
        { s with
          start := starts.getD i 0
          segment := ⟨TYPE_PREAMBLE, [0x55]⟩
          pack := { s.pack with m_offset := toInt64 (starts.getD i 0) } } := by
    rw [List.replicate_succ]
    simp [loop, step, hs]
  unfold Runs
  rw [hl]
  exact ⟨h1, by simpa [List.replicate_succ] using a, b, c, e, f⟩

theorem sfd_step (env : Env) (bytes starts ends : List Nat) (i : Nat) (s : FrameState)
    (d : List Nat) (hs : s.segment = ⟨TYPE_PREAMBLE, d⟩) :
    (loop env bytes starts ends [0xd5] i s).2 = false
      ∧ (loop env bytes starts ends [0xd5] i s).1.segment = ⟨TYPE_DST_MAC, []⟩
      ∧ (loop env bytes starts ends [0xd5] i s).1.cap.m_samples
          = s.cap.m_samples ++ [⟨TYPE_PREAMBLE, d⟩, ⟨TYPE_SFD, [0xd5]⟩]
      ∧ (loop env bytes starts ends [0xd5] i s).1.pack.m_data = s.pack.m_data
      ∧ (loop env bytes starts ends [0xd5] i s).1.crcstart = i + 1
      ∧ (loop env bytes starts ends [0xd5] i s).1.crc_actual = s.crc_actual := by
  simp [loop, step, hs, pushSample, pushOffset, pushDuration]

theorem fixed_six (env : Env) (bytes starts ends : List Nat) (i : Nat) (s : FrameState)
    (l : List Nat) (hl : l.length = 6) (t t' : SegmentType)
    (ht : (t = TYPE_DST_MAC ∧ t' = TYPE_SRC_MAC) ∨ (t = TYPE_SRC_MAC ∧ t' = TYPE_ETHERTYPE))
    (hs : s.segment = ⟨t, []⟩) :
    Runs env bytes starts ends l i s ⟨t', []⟩ [⟨t, l⟩] [] := by
  match l, hl with
  | [a, b, c, d, e, f], _ =>
    rcases ht with ⟨rfl, rfl⟩ | ⟨rfl, rfl⟩ <;>
    · unfold Runs
      refine ⟨?_, ?_, ?_, ?_, ?_, ?_⟩ <;>
        simp [loop, step, hs, fixedField, pushSample, pushOffset, pushDuration]

theorem ethertypeHeaders_data (bytes : List Nat) (i : Nat) (d : List Nat) (p : Packet) :
    (ethertypeHeaders bytes i d p).m_data = p.m_data := by
  unfold ethertypeHeaders
  simp only
  split_ifs <;> rfl

theorem ethertype_phase (env : Env) (bytes starts ends : List Nat) (i : Nat) (s : FrameState)
    (e0 e1 : Nat) (hne : ((e0 <<< 8) ||| e1) % 65536 ≠ 0x8100)
    (hs : s.segment = ⟨TYPE_ETHERTYPE, []⟩) :
    Runs env bytes starts ends [e0, e1] i s ⟨TYPE_PAYLOAD, []⟩ [⟨TYPE_ETHERTYPE, [e0, e1]⟩] [] := by
  unfold Runs
  refine ⟨?_, ?_, ?_, ?_, ?_, ?_⟩ <;>
    simp [loop, step, hs, fixedField, pushSample, pushOffset, pushDuration, hne,
      ethertypeHeaders_data]

theorem payload_phase (env : Env) (bytes starts ends : List Nat) (q : List Nat) (i : Nat)
    (s : FrameState) (hs : s.segment.m_type = TYPE_PAYLOAD)
    (hi : ∀ j, j < q.length → i + j ≠ sub64 bytes.length 5) :
    (loop env bytes starts ends q i s).2 = false
      ∧ (loop env bytes starts ends q i s).1.segment.m_type = TYPE_PAYLOAD
      ∧ (loop env bytes starts ends q i s).1.cap.m_samples
          = s.cap.m_samples ++ q.map (fun b => ⟨TYPE_PAYLOAD, [b]⟩)
      ∧ (loop env bytes starts ends q i s).1.pack.m_data = s.pack.m_data ++ q
      ∧ (loop env bytes starts ends q i s).1.crcstart = s.crcstart
      ∧ (loop env bytes starts ends q i s).1.crc_actual = s.crc_actual := by
  induction q generalizing i s with
  | nil => simp [loop, hs]
  | cons b q ih =>
    have h0 : i ≠ sub64 bytes.length 5 := by simpa using hi 0 (by simp)
    obtain ⟨s1, hs1⟩ : ∃ s1 : FrameState, s1 = { s with
            start := starts.getD i 0
            cap := pushSample (pushDuration (pushOffset s.cap (scaled s.cap (starts.getD i 0)))
              (scaled (pushOffset s.cap (scaled s.cap (starts.getD i 0)))
                (sub64 (ends.getD i 0) (starts.getD i 0)))) ⟨TYPE_PAYLOAD, [b]⟩
            segment := ⟨TYPE_PAYLOAD, [b]⟩
            pack := { s.pack with m_data := s.pack.m_data ++ [b] } } := ⟨_, rfl⟩
    have hstep : loop env bytes starts ends (b :: q) i s
        = loop env bytes starts ends q (i + 1) s1 := by
      simp [loop, step, hs, h0, hs1]
    rw [hstep]
    obtain ⟨a1, a2, a3, a4, a5, a6⟩ := ih (i + 1) s1 (by rw [hs1]) (fun j hj => by
      have := hi (j + 1) (by simpa using hj)
      omega)
    refine ⟨a1, a2, ?_, ?_, ?_, ?_⟩
    · rw [a3, hs1]; simp [pushSample, pushDuration, pushOffset]
    · rw [a4, hs1]; simp
    · rw [a5, hs1]
    · rw [a6, hs1]

theorem last_payload_step (env : Env) (bytes starts ends : List Nat) (b i : Nat)
    (s : FrameState) (hs : s.segment.m_type = TYPE_PAYLOAD)
    (hi : i = sub64 bytes.length 5) :
    Runs env bytes starts ends [b] i s ⟨TYPE_FCS_GOOD, []⟩ [⟨TYPE_PAYLOAD, [b]⟩] [] := by
  unfold Runs
  refine ⟨?_, ?_, ?_, ?_, ?_, ?_⟩ <;>
    simp [loop, step, hs, ← hi, pushSample, pushOffset, pushDuration]

theorem shl8_or (x b : Nat) (hb : b < 256) : (x <<< 8) ||| b = 256 * x + b := by
  rw [Nat.shiftLeft_eq, Nat.mul_comm]
  exact (Nat.mul_add_lt_is_or (i := 8) (by simpa using hb) x).symm

theorem fcs_phase (env : Env) (bytes starts ends : List Nat) (i : Nat) (s : FrameState)
    (f : List Nat) (hf : f.length = 4) (hb : ∀ x ∈ f, x < 256)
    (hs : s.segment = ⟨TYPE_FCS_GOOD, []⟩) (hc : s.crc_actual = 0) :
    let r := loop env bytes starts ends f i s
    let good := be32 f = env.CRC32 bytes s.crcstart (sub64 i 1)
    r.2 = true
      ∧ r.1.cap.m_samples
          = s.cap.m_samples ++ [⟨if good then TYPE_FCS_GOOD else TYPE_FCS_BAD, f⟩]
      ∧ r.1.pack.m_data = s.pack.m_data
      ∧ (¬ good → r.1.pack.m_displayBackgroundColor
            = Color.background PacketColor.PROTO_COLOR_ERROR) := by
  match f, hf with
  | [a, b, c, d], _ =>
    have ha : a < 256 := hb a (by simp)
    have hb' : b < 256 := hb b (by simp)
    have hc' : c < 256 := hb c (by simp)
    have hd : d < 256 := hb d (by simp)
    have e : shiftIn32 (shiftIn32 (shiftIn32 (shiftIn32 0 a) b) c) d = be32 [a, b, c, d] := by
      unfold shiftIn32
      rw [shl8_or _ _ ha]
      have e1 : (256 * 0 + a) % 2 ^ 32 = a := by omega
      rw [e1, shl8_or _ _ hb']
      have e2 : (256 * a + b) % 2 ^ 32 = 256 * a + b := by omega
      rw [e2, shl8_or _ _ hc']
      have e3 : (256 * (256 * a + b) + c) % 2 ^ 32 = 256 * (256 * a + b) + c := by omega
      rw [e3, shl8_or _ _ hd]
      simp [be32]; omega
    simp [loop, step, hs, hc, e, pushSample, pushOffset, pushDuration]
    constructor
    · split <;> rfl
    · intro h; simp [h]

theorem loop_then (env : Env) (bytes starts ends xs ys : List Nat) (i : Nat) (s : FrameState)
    (h : (loop env bytes starts ends xs i s).2 = false) :
    loop env bytes starts ends (xs ++ ys) i s
      = loop env bytes starts ends ys (i + xs.length) (loop env bytes starts ends xs i s).1 := by
  rw [loop_append, h]; simp

theorem Frame_length (f : Frame) (h : f.WellFormed) :
    f.bytes.length = f.n + 15 + f.payload.length + 4 := by
  obtain ⟨_, h1, h2, _, _, _, h3, _⟩ := h
  simp [Frame.bytes, h1, h2, h3]; omega

theorem ethertype_code (e0 e1 : Nat) (h0 : e0 < 256) (h1 : e1 < 256) :
    ((e0 <<< 8) ||| e1) % 65536 = e0 * 256 + e1 := by
  rw [shl8_or _ _ h1]; omega

/-- The run of the loop over a well-formed frame whose Ethertype is not `0x8100`. -/
theorem frame_run (env : Env) (f : Frame) (starts ends : List Nat) (s : FrameState)
    (hf : f.WellFormed) (he : f.ethertype ≠ 0x8100)
    (hs : s.segment.m_type = TYPE_INVALID) (hc : s.crc_actual = 0) :
    let r := loop env f.bytes starts ends f.bytes 0 s
    let good := be32 f.fcs = env.CRC32 f.bytes (f.n + 1) (f.n + 14 + f.payload.length)
    r.2 = true
      ∧ r.1.cap.m_samples
          = s.cap.m_samples ++ frameSymbols f (if good then TYPE_FCS_GOOD else TYPE_FCS_BAD)
      ∧ r.1.pack.m_data = s.pack.m_data ++ f.payload.dropLast
      ∧ (¬ good → r.1.pack.m_displayBackgroundColor
            = Color.background PacketColor.PROTO_COLOR_ERROR) := by
  have hlen := Frame_length f hf
  obtain ⟨hn, hd, hsr, h0, h1, hp, hfl, _, _, _, hfb, hL⟩ := hf
  obtain ⟨q, last, hq⟩ : ∃ q last, f.payload = q ++ [last] :=
    ⟨f.payload.dropLast, f.payload.getLast (by intro h; simp [h] at hp),
      (List.dropLast_append_getLast _).symm⟩
  have hpl : f.payload.length = q.length + 1 := by simp [hq]
  have h5 : sub64 f.bytes.length 5 = f.n + 15 + q.length := by
    unfold sub64; omega
  generalize hB : f.bytes = B at *
  have hBs : B = List.replicate f.n 0x55 ++ ([0xd5] ++ (f.dst ++ (f.src ++ ([f.e0, f.e1]
      ++ (q ++ ([last] ++ f.fcs)))))) := by
    rw [← hB, Frame.bytes, hq]; simp
  intro r good
  have hr : r = loop env B starts ends B 0 s := rfl
  have chain : ∀ (xs ys : List Nat) (i j : Nat) (t : FrameState),
      (loop env B starts ends xs i t).2 = false → j = i + xs.length →
      loop env B starts ends (xs ++ ys) i t
        = loop env B starts ends ys j (loop env B starts ends xs i t).1 := by
    intro xs ys i j t h hj
    rw [hj]; exact loop_then env B starts ends xs ys i t h
  -- preamble
  obtain ⟨p1, pa, pb, pc, pd, pe⟩ := preamble_phase env B starts ends f.n 0 s hn hs
  generalize ht1 : (loop env B starts ends (List.replicate f.n 0x55) 0 s).1 = t1 at *
  -- SFD
  obtain ⟨s1, s2, s3, s4, s5, s6⟩ := sfd_step env B starts ends f.n t1 _ pa
  generalize ht2 : (loop env B starts ends [0xd5] f.n t1).1 = t2 at *
  -- addresses
  obtain ⟨d1, da, db, dc, dd, de⟩ := fixed_six env B starts ends (f.n + 1) t2 f.dst hd
    TYPE_DST_MAC TYPE_SRC_MAC (Or.inl ⟨rfl, rfl⟩) s2
  generalize ht3 : (loop env B starts ends f.dst (f.n + 1) t2).1 = t3 at *
  obtain ⟨a1, aa, ab, ac, ad, ae⟩ := fixed_six env B starts ends (f.n + 7) t3 f.src hsr
    TYPE_SRC_MAC TYPE_ETHERTYPE (Or.inr ⟨rfl, rfl⟩) da
  generalize ht4 : (loop env B starts ends f.src (f.n + 7) t3).1 = t4 at *
  -- Ethertype
  have hne : ((f.e0 <<< 8) ||| f.e1) % 65536 ≠ 0x8100 := by
    rw [ethertype_code _ _ h0 h1]; exact he
  obtain ⟨e1', ea, eb, ec, ed, ee⟩ := ethertype_phase env B starts ends (f.n + 13) t4 f.e0 f.e1
    hne aa
  generalize ht5 : (loop env B starts ends [f.e0, f.e1] (f.n + 13) t4).1 = t5 at *
  -- payload
  obtain ⟨q1, qa, qb, qc, qd, qe⟩ := payload_phase env B starts ends q (f.n + 15) t5
    (by rw [ea]) (fun j hj => by rw [h5]; omega)
  generalize ht6 : (loop env B starts ends q (f.n + 15) t5).1 = t6 at *
  obtain ⟨l1, la, lb, lc, ld, le⟩ := last_payload_step env B starts ends last
    (f.n + 15 + q.length) t6 qa h5.symm
  generalize ht7 : (loop env B starts ends [last] (f.n + 15 + q.length) t6).1 = t7 at *
  -- frame check
  have hcrc : t7.crc_actual = 0 := by rw [le, qe, ee, ae, de, s6, pe, hc]
  obtain ⟨f1, f2, f3, f4⟩ := fcs_phase env B starts ends (f.n + 15 + q.length + 1) t7 f.fcs hfl hfb
    la hcrc
  have hrun' : loop env B starts ends (List.replicate f.n 0x55 ++ ([0xd5] ++ (f.dst ++ (f.src
      ++ ([f.e0, f.e1] ++ (q ++ ([last] ++ f.fcs))))))) 0 s
      = loop env B starts ends f.fcs (f.n + 15 + q.length + 1) t7 := by
    rw [chain _ _ 0 f.n s p1 (by simp), ht1, chain _ _ f.n (f.n + 1) t1 s1 (by simp), ht2,
      chain _ _ (f.n + 1) (f.n + 7) t2 d1 (by rw [hd]), ht3,
      chain _ _ (f.n + 7) (f.n + 13) t3 a1 (by rw [hsr]), ht4,
      chain _ _ (f.n + 13) (f.n + 15) t4 e1' (by simp), ht5,
      chain _ _ (f.n + 15) (f.n + 15 + q.length) t5 q1 rfl, ht6,
      chain _ _ (f.n + 15 + q.length) (f.n + 15 + q.length + 1) t6 l1 (by simp), ht7]
  have hrun : r = loop env B starts ends f.fcs (f.n + 15 + q.length + 1) t7 := by
    rw [hr]
    exact (congrArg (fun X => loop env B starts ends X 0 s) hBs).trans hrun'
  have hcs : t7.crcstart = f.n + 1 := by rw [ld, qd, ed, ad, dd, s5]
  have hidx : sub64 (f.n + 15 + q.length + 1) 1 = f.n + 14 + f.payload.length := by
    unfold sub64; omega
  rw [hcs, hidx] at f2 f4
  refine ⟨by rw [hrun]; exact f1, ?_, ?_, ?_⟩
  · rw [hrun, f2, lb, qb, eb, ab, db, s3, pb]
    simp [frameSymbols, hq, good]
  · rw [hrun, f3, lc, qc, ec, ac, dc, s4, pc]
    simp [hq]
  · intro hg
    rw [hrun]
    exact f4 hg

/-- The check field is entered only from the payload state, at index `size - 5`. -/
theorem step_enters_fcs (env : Env) (bytes starts ends : List Nat) (i b : Nat)
    (s s' : FrameState) (h : step env bytes starts ends i b s = .next s')
    (h' : s'.segment = ⟨TYPE_FCS_GOOD, []⟩) :
    s.segment.m_type = TYPE_PAYLOAD ∧ i = sub64 bytes.length 5
      ∧ s'.cap.m_samples = s.cap.m_samples ++ [⟨TYPE_PAYLOAD, [b]⟩]
      ∧ s'.crcstart = s.crcstart ∧ s'.crc_actual = s.crc_actual := by
  obtain ⟨⟨ty, data⟩, st, cs, ce, ca, pack, cap, pcap⟩ := s
  cases ty <;> simp only [step, fixedField] at h <;> (try split_ifs at h) <;>
    first
    | (cases h; simp at h'; done)
    | (cases h; simp_all [pushSample, pushOffset, pushDuration])

theorem step_crcFresh (env : Env) (bytes starts ends : List Nat) (i b : Nat)
    (s s' : FrameState) (h : step env bytes starts ends i b s = .next s')
    (hi : CrcFresh s) : CrcFresh s' := by
  obtain ⟨⟨ty, data⟩, st, cs, ce, ca, pack, cap, pcap⟩ := s
  unfold CrcFresh at hi ⊢
  cases ty <;> simp only [step, fixedField] at h <;> (try split_ifs at h) <;>
    (cases h; simp_all)

/-- Leaving the states before the SFD happens only on the byte `0xD5` in the preamble state,
which sets `crcstart`; afterwards `crcstart` is not written again. -/
theorem step_crcstart (env : Env) (bytes starts ends : List Nat) (i b : Nat)
    (s s' : FrameState) (h : step env bytes starts ends i b s = .next s')
    (h' : s'.segment.m_type ≠ TYPE_INVALID ∧ s'.segment.m_type ≠ TYPE_PREAMBLE) :
    (s.segment.m_type = TYPE_PREAMBLE ∧ b = 0xd5 ∧ s'.crcstart = i + 1)
      ∨ ((s.segment.m_type ≠ TYPE_INVALID ∧ s.segment.m_type ≠ TYPE_PREAMBLE)
          ∧ s'.crcstart = s.crcstart) := by
  obtain ⟨⟨ty, data⟩, st, cs, ce, ca, pack, cap, pcap⟩ := s
  cases ty <;> simp only [step, fixedField] at h <;> (try split_ifs at h) <;>
    (cases h; simp_all)


theorem stateAfter_succ (env : Env) (bytes starts ends : List Nat) (s0 : FrameState) (k : Nat)
    (hk : k < bytes.length) (h : (stateAfter env bytes starts ends s0 k).2 = false) :
    stateAfter env bytes starts ends s0 (k + 1)
      = match step env bytes starts ends k (bytes.getD k 0)
          (stateAfter env bytes starts ends s0 k).1 with
        | .done s' => (s', true)
        | .next s' => (s', false) := by
  unfold stateAfter at h ⊢
  have e : bytes.take (k + 1) = bytes.take k ++ [bytes.getD k 0] := by
    rw [List.take_succ, List.getD_eq_getElem?_getD, List.getElem?_eq_getElem hk]
    rfl
  rw [e, loop_then _ _ _ _ _ _ _ _ h]
  have hl : (bytes.take k).length = k := by
    rw [List.length_take]; omega
  rw [hl, Nat.zero_add]
  simp only [loop]

theorem stateAfter_running (env : Env) (bytes starts ends : List Nat) (s0 : FrameState)
    (k j : Nat) (hk : k ≤ bytes.length) (hj : j ≤ k)
    (h : (stateAfter env bytes starts ends s0 k).2 = false) :
    (stateAfter env bytes starts ends s0 j).2 = false := by
  unfold stateAfter at h ⊢
  have e : bytes.take k = bytes.take j ++ (bytes.take k).drop j := by
    have := List.take_append_drop j (bytes.take k)
    rw [List.take_take, Nat.min_eq_left hj] at this
    exact this.symm
  rw [e, loop_append] at h
  by_contra hc
  simp only [Bool.not_eq_false] at hc
  rw [hc] at h
  simp [hc] at h


theorem stateAfter_inv (env : Env) (bytes starts ends : List Nat) (s0 : FrameState)
    (h0 : s0.segment.m_type = TYPE_INVALID) (hc : s0.crc_actual = 0) (k : Nat)
    (hk : k ≤ bytes.length) (h : (stateAfter env bytes starts ends s0 k).2 = false) :
    CrcFresh (stateAfter env bytes starts ends s0 k).1
      ∧ (((stateAfter env bytes starts ends s0 k).1.segment.m_type ≠ TYPE_INVALID
          ∧ (stateAfter env bytes starts ends s0 k).1.segment.m_type ≠ TYPE_PREAMBLE) →
        ∃ j, j < k ∧ j + 1 = (stateAfter env bytes starts ends s0 k).1.crcstart
          ∧ SfdAt env bytes starts ends s0 j) := by
  induction k with
  | zero =>
    have e : stateAfter env bytes starts ends s0 0 = (s0, false) := by
      simp [stateAfter, loop]
    rw [e]
    exact ⟨Or.inr hc, fun hh => absurd h0 hh.1⟩
  | succ k ih =>
    have hk' : k < bytes.length := by omega
    have hrun := stateAfter_running env bytes starts ends s0 (k + 1) k hk (by omega) h
    obtain ⟨i1, i2⟩ := ih (by omega) hrun
    have e := stateAfter_succ env bytes starts ends s0 k hk' hrun
    cases hs : step env bytes starts ends k (bytes.getD k 0)
        (stateAfter env bytes starts ends s0 k).1 with
    | done s' => rw [e, hs] at h; simp at h
    | next s' =>
      rw [hs] at e
      rw [e]
      refine ⟨step_crcFresh _ _ _ _ _ _ _ _ hs i1, fun hh => ?_⟩
      rcases step_crcstart _ _ _ _ _ _ _ _ hs hh with ⟨a, b, c⟩ | ⟨a, c⟩
      · exact ⟨k, by omega, c.symm, hrun, a, b⟩
      · obtain ⟨j, j1, j2, j3⟩ := i2 a
        exact ⟨j, by omega, by simp only; rw [c]; exact j2, j3⟩

theorem step_progress (env : Env) (bytes starts ends : List Nat) (i b : Nat)
    (s s' : FrameState) (h : step env bytes starts ends i b s = .next s') :
    progress s' ≤ progress s + 1 := by
  obtain ⟨⟨ty, data⟩, st, cs, ce, ca, pack, cap, pcap⟩ := s
  cases ty <;> simp only [step, fixedField] at h <;> (try split_ifs at h) <;>
    (cases h; simp_all [progress] <;> (try split_ifs) <;> (try simp) <;> (try omega))

theorem step_done_progress (env : Env) (bytes starts ends : List Nat) (i b : Nat)
    (s s' : FrameState) (h : step env bytes starts ends i b s = .done s') :
    progress s = 20 := by
  obtain ⟨⟨ty, data⟩, st, cs, ce, ca, pack, cap, pcap⟩ := s
  cases ty <;> simp only [step, fixedField] at h <;> (try split_ifs at h) <;>
    (try (cases h; done))
  all_goals (simp_all [progress] <;> omega)

theorem loop_short (env : Env) (bytes starts ends : List Nat) (xs : List Nat) (i : Nat)
    (s : FrameState) (h : progress s + xs.length ≤ 20) :
    (loop env bytes starts ends xs i s).2 = false := by
  induction xs generalizing i s with
  | nil => rfl
  | cons b xs ih =>
    simp only [loop]
    cases hs : step env bytes starts ends i b s with
    | done s' =>
      have := step_done_progress _ _ _ _ _ _ _ _ hs
      simp at h; omega
    | next s' =>
      have := step_progress _ _ _ _ _ _ _ _ hs
      simp only
      apply ih
      simp at h; omega

end EthernetProtocolDecoder

/-! ## Claims about `BytesToFrames` -/

namespace EthernetProtocolDecoder
open SegmentType

/-- `BytesToFrames` on a well-formed frame whose Ethertype is not `0x8100`: the symbols, the
packet, its payload buffer and its colour on a check mismatch. -/
theorem BytesToFrames_frame (env : Env) (f : Frame) (starts ends : List Nat)
    (cap : EthernetWaveform) (pk : List Packet) (pc : List PcapRecord)
    (hf : f.WellFormed) (he : f.ethertype ≠ 0x8100) :
    let out := BytesToFrames env f.bytes starts ends cap pk pc
    let good := be32 f.fcs = env.CRC32 f.bytes (f.n + 1) (f.n + 14 + f.payload.length)
    out.cap.m_samples
        = cap.m_samples ++ frameSymbols f (if good then TYPE_FCS_GOOD else TYPE_FCS_BAD)
      ∧ ∃ pack, out.m_packets = pk ++ [pack] ∧ pack.m_data = f.payload.dropLast
          ∧ (¬ good → pack.m_displayBackgroundColor
                = Color.background PacketColor.PROTO_COLOR_ERROR) := by
  obtain ⟨r1, r2, r3, r4⟩ := frame_run env f starts ends (initState cap pc) hf he rfl rfl
  intro out good
  refine ⟨r2, (loop env f.bytes starts ends f.bytes 0 (initState cap pc)).1.pack, ?_, ?_, r4⟩
  · show (if (loop env f.bytes starts ends f.bytes 0 (initState cap pc)).2 then _ else _) = _
    rw [r1]; simp
  · rw [r3]; simp [initState]

/-- C6. For every byte sequence made of `n >= 1` bytes `0x55`, the byte `0xD5`, 6 destination
bytes, 6 source bytes, a 2-byte Ethertype other than `0x8100`, `p >= 1` payload bytes and 4
check bytes, `BytesToFrames` appends to the output waveform exactly the symbols PREAMBLE (the
`n` bytes), SFD, DST_MAC, SRC_MAC, ETHERTYPE, `p` PAYLOAD symbols of one byte each and one
FCS_GOOD or FCS_BAD symbol holding the 4 check bytes, in this order, and appends exactly one
Packet. -/
theorem C6_BytesToFrames_symbols (env : Env) (f : Frame) (starts ends : List Nat)
    (cap : EthernetWaveform) (pk : List Packet) (pc : List PcapRecord)
    (hf : f.WellFormed) (he : f.ethertype ≠ 0x8100) :
    (∃ t, (t = TYPE_FCS_GOOD ∨ t = TYPE_FCS_BAD)
        ∧ (BytesToFrames env f.bytes starts ends cap pk pc).cap.m_samples
            = cap.m_samples ++
              ([⟨TYPE_PREAMBLE, List.replicate f.n 0x55⟩, ⟨TYPE_SFD, [0xd5]⟩,
                ⟨TYPE_DST_MAC, f.dst⟩, ⟨TYPE_SRC_MAC, f.src⟩, ⟨TYPE_ETHERTYPE, [f.e0, f.e1]⟩]
              ++ f.payload.map (fun b => ⟨TYPE_PAYLOAD, [b]⟩) ++ [⟨t, f.fcs⟩]))
      ∧ ∃ pack, (BytesToFrames env f.bytes starts ends cap pk pc).m_packets = pk ++ [pack] := by
  obtain ⟨h1, pack, h2, _⟩ := BytesToFrames_frame env f starts ends cap pk pc hf he
  refine ⟨⟨_, ?_, h1⟩, pack, h2⟩
  split
  · exact Or.inl rfl
  · exact Or.inr rfl

/-- C6 at `exampleFrame`. -/
theorem C6_BytesToFrames_symbols_witness :
    (exampleFrame.WellFormed ∧ exampleFrame.ethertype ≠ 0x8100)
    ∧ ((∃ t, (t = TYPE_FCS_GOOD ∨ t = TYPE_FCS_BAD)
        ∧ (BytesToFrames exampleEnv exampleFrame.bytes [] [] exampleCap [] []).cap.m_samples
            = exampleCap.m_samples ++
              ([⟨TYPE_PREAMBLE, List.replicate exampleFrame.n 0x55⟩, ⟨TYPE_SFD, [0xd5]⟩,
                ⟨TYPE_DST_MAC, exampleFrame.dst⟩, ⟨TYPE_SRC_MAC, exampleFrame.src⟩,
                ⟨TYPE_ETHERTYPE, [exampleFrame.e0, exampleFrame.e1]⟩]
              ++ exampleFrame.payload.map (fun b => ⟨TYPE_PAYLOAD, [b]⟩)
              ++ [⟨t, exampleFrame.fcs⟩]))
      ∧ ∃ pack, (BytesToFrames exampleEnv exampleFrame.bytes [] [] exampleCap [] []).m_packets
          = [] ++ [pack]) :=
  ⟨⟨by decide, by decide⟩,
    C6_BytesToFrames_symbols exampleEnv exampleFrame [] [] exampleCap [] [] (by decide) (by decide)⟩

/-- C7 fails on the code. On `exampleFrame`, whose payload is `0xAA 0xBB 0xCC`, the one Packet
that `BytesToFrames` emits has the payload buffer `0xAA 0xBB`: the last payload byte, which is
emitted as a PAYLOAD symbol, is not copied into `m_data`. -/
theorem C7_payload_buffer_misses_last_byte :
    exampleFrame.WellFormed
    ∧ exampleFrame.payload = [0xaa, 0xbb, 0xcc]
    ∧ (BytesToFrames exampleEnv exampleFrame.bytes [] [] exampleCap [] []).m_packets.map
        Packet.m_data = [[0xaa, 0xbb]] := by
  obtain ⟨_, pack, h2, h3, _⟩ :=
    BytesToFrames_frame exampleEnv exampleFrame [] [] exampleCap [] [] (by decide) (by decide)
  refine ⟨by decide, rfl, ?_⟩
  rw [h2]
  simp [h3, exampleFrame]

/-- C8. For every byte sequence in which `BytesToFrames` reaches the check field (after `k`
bytes the loop is in the state `TYPE_FCS_GOOD` with an empty buffer): four bytes are left; the
byte before `crcstart` was consumed as the SFD and the byte at `k - 1` was emitted as the last
PAYLOAD symbol; the check symbol appended is FCS_GOOD exactly when the four check bytes, read
big-endian, equal `CRC32(bytes, crcstart, k - 1)`, and FCS_BAD otherwise; in both cases exactly
one Packet is appended, and on a mismatch it has the error background colour. -/
theorem C8_check_field (env : Env) (bytes starts ends : List Nat) (cap : EthernetWaveform)
    (pk : List Packet) (pc : List PcapRecord) (k : Nat)
    (hL : bytes.length < 2 ^ 64) (hb : ∀ x ∈ bytes, x < 256) (hk : k ≤ bytes.length)
    (hrun : (stateAfter env bytes starts ends (initState cap pc) k).2 = false)
    (hfcs : (stateAfter env bytes starts ends (initState cap pc) k).1.segment
      = ⟨TYPE_FCS_GOOD, []⟩) :
    let s := (stateAfter env bytes starts ends (initState cap pc) k).1
    let out := BytesToFrames env bytes starts ends cap pk pc
    let good := be32 (bytes.drop k) = env.CRC32 bytes s.crcstart (k - 1)
    (bytes.drop k).length = 4
    ∧ (∃ j, j + 1 = s.crcstart ∧ j < k ∧ SfdAt env bytes starts ends (initState cap pc) j)
    ∧ (∃ earlier, s.cap.m_samples = earlier ++ [⟨TYPE_PAYLOAD, [bytes.getD (k - 1) 0]⟩])
    ∧ out.cap.m_samples
        = s.cap.m_samples ++ [⟨if good then TYPE_FCS_GOOD else TYPE_FCS_BAD, bytes.drop k⟩]
    ∧ ∃ pack, out.m_packets = pk ++ [pack]
        ∧ (¬ good → pack.m_displayBackgroundColor
              = Color.background PacketColor.PROTO_COLOR_ERROR) := by
  intro s out good
  have hk1 : 1 ≤ k := by
    rcases Nat.eq_zero_or_pos k with h | h
    · subst h
      have e : stateAfter env bytes starts ends (initState cap pc) 0 = (initState cap pc, false) := by
        simp [stateAfter, loop]
      rw [e] at hfcs
      simp [initState] at hfcs
    · exact h
  obtain ⟨m, rfl⟩ : ∃ m, k = m + 1 := ⟨k - 1, by omega⟩
  have hrun' := stateAfter_running env bytes starts ends (initState cap pc) (m + 1) m hk
    (by omega) hrun
  have e := stateAfter_succ env bytes starts ends (initState cap pc) m (by omega) hrun'
  have hstep : step env bytes starts ends m (bytes.getD m 0)
      (stateAfter env bytes starts ends (initState cap pc) m).1 = .next s := by
    cases hs : step env bytes starts ends m (bytes.getD m 0)
        (stateAfter env bytes starts ends (initState cap pc) m).1 with
    | done s' => rw [e, hs] at hrun; simp at hrun
    | next s' =>
      have : s = s' := by
        show (stateAfter env bytes starts ends (initState cap pc) (m + 1)).1 = s'
        rw [e, hs]
      rw [this]
  obtain ⟨_, hm, hsm, _, _⟩ := step_enters_fcs _ _ _ _ _ _ _ _ hstep hfcs
  have hlen : bytes.length = m + 5 := by
    unfold sub64 at hm
    omega
  have hdl : (bytes.drop (m + 1)).length = 4 := by
    rw [List.length_drop]; omega
  obtain ⟨i1, i2⟩ := stateAfter_inv env bytes starts ends (initState cap pc) rfl rfl (m + 1) hk hrun
  have hcrc : s.crc_actual = 0 := by
    rcases i1 with ⟨_, h⟩ | h
    · exact absurd (by rw [hfcs] : (stateAfter env bytes starts ends (initState cap pc)
        (m + 1)).1.segment.m_data = []) h
    · exact h
  obtain ⟨j, j1, j2, j3⟩ := i2 (by rw [hfcs]; simp)
  obtain ⟨f1, f2, f3, f4⟩ := fcs_phase env bytes starts ends (m + 1) s (bytes.drop (m + 1)) hdl
    (fun x hx => hb x (List.mem_of_mem_drop hx)) hfcs hcrc
  have hidx : sub64 (m + 1) 1 = m + 1 - 1 := by unfold sub64; omega
  rw [hidx] at f2 f4
  have hloop : loop env bytes starts ends bytes 0 (initState cap pc)
      = loop env bytes starts ends (bytes.drop (m + 1)) (m + 1) s := by
    have hsplit : bytes = bytes.take (m + 1) ++ bytes.drop (m + 1) :=
      (List.take_append_drop _ _).symm
    have ht : (bytes.take (m + 1)).length = m + 1 := by rw [List.length_take]; omega
    have := loop_then env bytes starts ends (bytes.take (m + 1)) (bytes.drop (m + 1)) 0
      (initState cap pc) hrun
    rw [ht, Nat.zero_add, ← hsplit] at this
    exact this
  refine ⟨hdl, ⟨j, j2, j1, j3⟩, ⟨_, hsm⟩, ?_, ?_⟩
  · show (loop env bytes starts ends bytes 0 (initState cap pc)).1.cap.m_samples = _
    rw [hloop]; exact f2
  · refine ⟨(loop env bytes starts ends bytes 0 (initState cap pc)).1.pack, ?_, ?_⟩
    · show (if (loop env bytes starts ends bytes 0 (initState cap pc)).2 then _ else _) = _
      rw [hloop, f1]; simp
    · rw [hloop]; exact f4

/-- C8 at `exampleFrame`: the check field is reached after 20 bytes. -/
theorem C8_check_field_witness :
    (exampleFrame.bytes.length < 2 ^ 64 ∧ (∀ x ∈ exampleFrame.bytes, x < 256)
      ∧ 20 ≤ exampleFrame.bytes.length
      ∧ (stateAfter exampleEnv exampleFrame.bytes [] [] (initState exampleCap []) 20).2 = false
      ∧ (stateAfter exampleEnv exampleFrame.bytes [] [] (initState exampleCap []) 20).1.segment
          = ⟨TYPE_FCS_GOOD, []⟩)
    ∧ (exampleFrame.bytes.drop 20).length = 4 :=
  ⟨⟨by decide, by decide, by decide, by decide, by decide⟩,
    (C8_check_field exampleEnv exampleFrame.bytes [] [] exampleCap [] [] 20 (by decide) (by decide)
      (by decide) (by decide) (by decide)).1⟩

/-- C9 as stated fails: the first 23 bytes of the 24-byte `exampleFrame` are a proper prefix, and
`BytesToFrames` appends a Packet for them. -/
theorem C9_counterexample :
    exampleFrame.WellFormed ∧ 23 < exampleFrame.bytes.length
    ∧ (BytesToFrames exampleEnv (exampleFrame.bytes.take 23) [] [] exampleCap [] []).m_packets.length
        = 1 := by
  decide

theorem take_frame_bytes (f : Frame) (m : Nat) (hm : f.n ≤ m) :
    f.bytes.take m = List.replicate f.n 0x55
      ++ ([0xd5] ++ (f.dst ++ (f.src ++ ([f.e0, f.e1] ++ (f.payload ++ f.fcs))))).take (m - f.n) := by
  unfold Frame.bytes
  rw [List.take_append_eq_append_take, List.take_replicate, Nat.min_eq_right hm,
    List.length_replicate]

/-- A prefix of a frame that is at least `n + 20` bytes long is a frame of its own. -/
theorem prefix_is_frame (f : Frame) (m : Nat) (hf : f.WellFormed) (hm : m < f.bytes.length)
    (hlong : f.n + 20 ≤ m) :
    ∃ g : Frame, g.bytes = f.bytes.take m ∧ g.WellFormed ∧ g.ethertype = f.ethertype
      ∧ g.fcs = (f.bytes.take m).drop (m - 4) := by
  have hlen := Frame_length f hf
  obtain ⟨hn, hd, hsr, h0, h1, hp, hfl, bd, bs, bp, bf, hL⟩ := hf
  let rest := (f.payload ++ f.fcs).take (m - f.n - 15)
  have hrl : rest.length = m - f.n - 15 := by
    simp only [rest, List.length_take, List.length_append]; omega
  have hhdr : ∀ x : List Nat, [0xd5] ++ (f.dst ++ (f.src ++ ([f.e0, f.e1] ++ x)))
      = ([0xd5] ++ f.dst ++ f.src ++ [f.e0, f.e1]) ++ x := by
    intro x; simp
  have hhl : ([0xd5] ++ f.dst ++ f.src ++ [f.e0, f.e1]).length = 15 := by
    simp [hd, hsr]
  have hbytes : f.bytes.take m = List.replicate f.n 0x55
      ++ ([0xd5] ++ (f.dst ++ (f.src ++ ([f.e0, f.e1] ++ rest)))) := by
    rw [take_frame_bytes f m (by omega), hhdr, hhdr]
    congr 1
    have e : m - f.n = ([0xd5] ++ f.dst ++ f.src ++ [f.e0, f.e1]).length + (m - f.n - 15) := by
      rw [hhl]; omega
    rw [e, List.take_append]
  have hrb : ∀ x ∈ rest, x < 256 := by
    intro x hx
    have := List.mem_of_mem_take hx
    rcases List.mem_append.mp this with h | h
    · exact bp x h
    · exact bf x h
  refine ⟨⟨f.n, f.dst, f.src, f.e0, f.e1, rest.take (rest.length - 4), rest.drop (rest.length - 4)⟩,
    ?_, ?_, rfl, ?_⟩
  · simp only [Frame.bytes, List.take_append_drop]
    exact hbytes.symm
  · refine ⟨hn, hd, hsr, h0, h1, ?_, ?_, bd, bs, ?_, ?_, ?_⟩
    · simp only [List.length_take]; omega
    · simp only [List.length_drop]; omega
    · exact fun x hx => hrb x (List.mem_of_mem_take hx)
    · exact fun x hx => hrb x (List.mem_of_mem_drop hx)
    · simp only [Frame.bytes, List.take_append_drop]
      rw [← hbytes, List.length_take]
      omega
  · simp only
    rw [hbytes]
    rw [hhdr]
    have e : m - 4 = (List.replicate f.n 0x55).length
        + (([0xd5] ++ f.dst ++ f.src ++ [f.e0, f.e1]).length + (rest.length - 4)) := by
      rw [hhl, List.length_replicate]; omega
    rw [e, List.drop_append, List.drop_append]

/-- A prefix shorter than `n + 20` bytes never reaches the `return` of the check field. -/
theorem short_prefix_runs (env : Env) (f : Frame) (starts ends : List Nat) (s : FrameState)
    (m : Nat) (hf : f.WellFormed) (hs : s.segment.m_type = TYPE_INVALID) (hm : m < f.n + 20)
    (B : List Nat) :
    (loop env B starts ends (f.bytes.take m) 0 s).2 = false := by
  rcases Nat.lt_or_ge m f.n with h | h
  · have e : f.bytes.take m = List.replicate m 0x55 := by
      unfold Frame.bytes
      rw [List.take_append_of_le_length (by simp; omega), List.take_replicate,
        Nat.min_eq_left (by omega)]
    rw [e]
    rcases Nat.eq_zero_or_pos m with h0 | h0
    · subst h0; rfl
    · exact (preamble_phase env B starts ends m 0 s h0 hs).1
  · rw [take_frame_bytes f m h]
    obtain ⟨p1, pa, _⟩ := preamble_phase env B starts ends f.n 0 s hf.1 hs
    rw [loop_then _ _ _ _ _ _ _ _ p1]
    apply loop_short
    have hp : progress (loop env B starts ends (List.replicate f.n 0x55) 0 s).1 = 1 := by
      simp [progress, pa]
    rw [hp, List.length_take]
    omega

/-- C9, amended. For every well-formed frame and every proper prefix of its byte sequence:
when the prefix has fewer than `n + 20` bytes (`n` preamble bytes), `BytesToFrames` appends no
Packet; a longer prefix is handled as a complete frame: if the Ethertype is not `0x8100`,
exactly one Packet is appended and the last symbol is a check symbol holding the last four
bytes of the prefix. -/
theorem C9_truncated_frame (env : Env) (f : Frame) (starts ends : List Nat)
    (cap : EthernetWaveform) (pk : List Packet) (pc : List PcapRecord) (m : Nat)
    (hf : f.WellFormed) (hm : m < f.bytes.length) :
    (m < f.n + 20 →
      (BytesToFrames env (f.bytes.take m) starts ends cap pk pc).m_packets = pk)
    ∧ (f.n + 20 ≤ m → f.ethertype ≠ 0x8100 →
      ∃ pack t earlier,
        (BytesToFrames env (f.bytes.take m) starts ends cap pk pc).m_packets = pk ++ [pack]
        ∧ (t = TYPE_FCS_GOOD ∨ t = TYPE_FCS_BAD)
        ∧ (BytesToFrames env (f.bytes.take m) starts ends cap pk pc).cap.m_samples
            = earlier ++ [⟨t, (f.bytes.take m).drop (m - 4)⟩]) := by
  constructor
  · intro hshort
    have := short_prefix_runs env f starts ends (initState cap pc) m hf rfl hshort
      (f.bytes.take m)
    show (if (loop env (f.bytes.take m) starts ends (f.bytes.take m) 0 (initState cap pc)).2
      then _ else _) = _
    rw [this]; simp
  · intro hlong he
    obtain ⟨g, hg, hgw, hge, hgf⟩ := prefix_is_frame f m hf hm hlong
    obtain ⟨h1, pack, h2, _⟩ := BytesToFrames_frame env g starts ends cap pk pc hgw
      (by rw [hge]; exact he)
    rw [hg] at h1 h2
    refine ⟨pack,
      if be32 g.fcs = env.CRC32 (f.bytes.take m) (g.n + 1) (g.n + 14 + g.payload.length)
        then TYPE_FCS_GOOD else TYPE_FCS_BAD,
      cap.m_samples ++ ([⟨TYPE_PREAMBLE, List.replicate g.n 0x55⟩, ⟨TYPE_SFD, [0xd5]⟩,
        ⟨TYPE_DST_MAC, g.dst⟩, ⟨TYPE_SRC_MAC, g.src⟩, ⟨TYPE_ETHERTYPE, [g.e0, g.e1]⟩]
        ++ g.payload.map (fun b => ⟨TYPE_PAYLOAD, [b]⟩)), h2, ?_, ?_⟩
    · split
      · exact Or.inl rfl
      · exact Or.inr rfl
    · rw [h1, frameSymbols, hgf, ← List.append_assoc]

/-- C9, amended, at `exampleFrame` (24 bytes, two of them preamble): a prefix of 21 bytes gives
no Packet, and the hypotheses of the second part hold for the prefix of 23 bytes. -/
theorem C9_truncated_frame_witness :
    (exampleFrame.WellFormed ∧ 21 < exampleFrame.bytes.length ∧ 21 < exampleFrame.n + 20)
    ∧ (BytesToFrames exampleEnv (exampleFrame.bytes.take 21) [] [] exampleCap [] []).m_packets
        = [] :=
  ⟨⟨by decide, by decide, by decide⟩,
    (C9_truncated_frame exampleEnv exampleFrame [] [] exampleCap [] [] 21 (by decide)
      (by decide)).1 (by decide)⟩

end EthernetProtocolDecoder

/-! ## `SPIDecoder::Refresh` -/

namespace SPIDecoder
open SymbolType State

theorem increasing_tail (a : Sample) (l : List Sample) (h : Increasing (a :: l)) :
    Increasing l := by
  cases l with
  | nil => trivial
  | cons b rest => exact h.2.2

theorem increasing_getD (l : List Sample) (h : Increasing l) (j : Nat) (hj : j + 1 < l.length)
    (d : Int) :
    (l.map Sample.t).getD j d < (l.map Sample.t).getD (j + 1) d := by
  induction l generalizing j with
  | nil => simp at hj
  | cons a l ih =>
    cases l with
    | nil => simp at hj
    | cons b rest =>
      cases j with
      | zero => simpa using h.2.1
      | succ j =>
        have := ih h.2.2 j (by simpa using hj)
        simpa using this

theorem increasing_nonneg (l : List Sample) (h : Increasing l) (j : Nat) (hj : j < l.length)
    (d : Int) : 0 ≤ (l.map Sample.t).getD j d := by
  induction l generalizing j with
  | nil => simp at hj
  | cons a l ih =>
    cases j with
    | zero =>
      cases l with
      | nil => simpa using h
      | cons b rest => simpa using h.1
    | succ j =>
      have := ih (increasing_tail a l h) j (by simpa using hj)
      simpa using this

theorem advance_step (w : DigitalWaveform) (len : Nat) (ts : Int) (fuel i : Nat)
    (h1 : i + 1 < len) (h2 : w.m_offsets.getD (i + 1) 0 ≤ ts)
    (h3 : i + 2 < len → ts < w.m_offsets.getD (i + 2) 0) :
    AdvanceToTimestamp w len ts (fuel + 2) i = i + 1 := by
  have c1 : i + 1 < len ∧ w.m_offsets.getD (i + 1) 0 ≤ ts := ⟨h1, h2⟩
  have c2 : ¬ (i + 1 + 1 < len ∧ w.m_offsets.getD (i + 1 + 1) 0 ≤ ts) := by
    rintro ⟨a, b⟩
    have := h3 a
    rw [show i + 1 + 1 = i + 2 from rfl] at b
    omega
  rw [AdvanceToTimestamp, if_pos c1, AdvanceToTimestamp, if_neg c2]

/-- On a channel of a capture with increasing sampling instants, advancing from sample `j` to
the time of sample `j + 1` moves the cursor by one. -/
theorem advance_one (l : List Sample) (level : Sample → Bool) (h : Increasing l) (j : Nat)
    (hj : j + 1 < l.length) :
    AdvanceToTimestamp (channel l level) l.length ((l.map Sample.t).getD (j + 1) 0) l.length j
      = j + 1 := by
  obtain ⟨n, hn⟩ : ∃ n, l.length = n + 2 := ⟨l.length - 2, by omega⟩
  have := advance_step (channel l level) l.length ((l.map Sample.t).getD (j + 1) 0) n j hj
    (le_refl _) (fun h2 => increasing_getD l h (j + 1) h2 0)
  rw [← hn] at this
  exact this

theorem getD_of_drop {α : Type} (l : List Sample) (j : Nat) (s : Sample) (rest : List Sample)
    (h : l.drop j = s :: rest) (f : Sample → α) (d : α) : (l.map f).getD j d = f s := by
  have h0 : (l.drop j)[0]? = some s := by rw [h]; simp
  rw [List.getElem?_drop] at h0
  rw [List.getD_eq_getElem?_getD, List.getElem?_map]
  simp only [Nat.add_zero] at h0
  rw [h0]; rfl

theorem length_of_drop (l : List Sample) (j : Nat) (s : Sample) (rest : List Sample)
    (h : l.drop j = s :: rest) : l.length = j + 1 + rest.length := by
  have := congrArg List.length h
  rw [List.length_drop, List.length_cons] at this
  omega

theorem drop_succ_of_drop (l : List Sample) (j : Nat) (s : Sample) (rest : List Sample)
    (h : l.drop j = s :: rest) : l.drop (j + 1) = rest := by
  have : l.drop (j + 1) = (l.drop j).drop 1 := by rw [List.drop_drop]
  rw [this, h]; rfl

/-- On a capture sampled at common instants the loop of `Refresh` visits the samples one after
the other: from sample `j` on it applies the `switch` to every remaining sample, and it ends
within the bound. -/
theorem loop_sync (l : List Sample) (h : Increasing l) (fuel j : Nat) (τ : Int) (m : Machine)
    (s : Sample) (rest : List Sample) (hd : l.drop j = s :: rest) (hf : rest.length < fuel)
    (hτ : ∀ s', rest.head? = some s' → τ < s'.t) :
    loop (channel l Sample.clk) (channel l Sample.cs) (channel l Sample.data) fuel ⟨j, j, j, τ⟩ m
      = some (foldSamples rest (step τ s.cs s.clk s.data m)) := by
  induction fuel generalizing j τ m s rest with
  | zero => omega
  | succ fuel ih =>
    have hlen := length_of_drop l j s rest hd
    have hcs : (channel l Sample.cs).m_samples.getD j false = s.cs :=
      getD_of_drop l j s rest hd Sample.cs false
    have hclk : (channel l Sample.clk).m_samples.getD j false = s.clk :=
      getD_of_drop l j s rest hd Sample.clk false
    have hdata : (channel l Sample.data).m_samples.getD j false = s.data :=
      getD_of_drop l j s rest hd Sample.data false
    have hl : ∀ level, (channel l level).m_samples.length = l.length := by
      intro level; simp [channel]
    have ho : ∀ level, (channel l level).m_offsets = l.map Sample.t := fun _ => rfl
    rw [loop]
    simp only [hcs, hclk, hdata, hl, GetNextEventTimestamp, ho]
    cases rest with
    | nil =>
      have c : ¬ (j + 1 < l.length) := by simp at hlen; omega
      simp [c, foldSamples]
    | cons s' rest' =>
      have c : j + 1 < l.length := by simp at hlen; omega
      have hd' := drop_succ_of_drop l j s _ hd
      have ht : (l.map Sample.t).getD (j + 1) 0 = s'.t := getD_of_drop l (j + 1) s' rest' hd' _ 0
      have hlt : τ < s'.t := hτ s' rfl
      have hne : ¬ (s'.t = τ) := by omega
      simp only [c, if_true, ht, min_self, hne, if_false]
      have a1 := advance_one l Sample.cs h j c
      have a2 := advance_one l Sample.clk h j c
      have a3 := advance_one l Sample.data h j c
      rw [ht] at a1 a2 a3
      rw [a1, a2, a3]
      rw [ih (j + 1) s'.t _ s' rest' hd' (by simp at hf; omega)]
      · rfl
      · intro s'' hs''
        have hd'' := drop_succ_of_drop l (j + 1) s' _ hd'
        cases rest' with
        | nil => simp at hs''
        | cons x r =>
          simp at hs''; subst hs''
          have e1 := getD_of_drop l (j + 1 + 1) x r hd'' Sample.t 0
          have := increasing_getD l h (j + 1) (by simp at hlen; omega) 0
          rw [ht, e1] at this
          exact this

theorem clockEdge_state (t : Int) (d : Bool) (m : Machine) :
    (clockEdge t d m).state = STATE_SELECTED_CLKHI := by
  unfold clockEdge
  simp only
  split_ifs <;> rfl

theorem clockEdge_setState (t : Int) (d : Bool) (m : Machine) (x : State) :
    clockEdge t d { m with state := x } = clockEdge t d m := by
  unfold clockEdge
  simp only
  split_ifs <;> rfl

theorem applyEdges_setState (es : List Sample) (m : Machine) (x y : State) :
    { applyEdges es { m with state := x } with state := y }
      = { applyEdges es m with state := y } := by
  cases es with
  | nil => rfl
  | cons e es =>
    simp only [applyEdges, List.foldl_cons, clockEdge_setState]

/-- While CS# is high and the decoder is deselected nothing happens. -/
theorem fold_deselected (l : List Sample) (m : Machine) (hl : ∀ s ∈ l, s.cs = true)
    (hm : m.state = STATE_DESELECTED) : foldSamples l m = m := by
  induction l with
  | nil => rfl
  | cons s l ih =>
    have hs : s.cs = true := hl s (by simp)
    have e : step s.t s.cs s.clk s.data m = m := by simp [step, hm, hs]
    simp only [foldSamples, List.foldl_cons, e]
    exact ih (fun x hx => hl x (by simp [hx]))

/-- While CS# is low the decoder acts on the rising clock edges only; in between it only
follows the clock level. -/
theorem fold_selected (l : List Sample) (m : Machine) (prev : Bool)
    (hl : ∀ s ∈ l, s.cs = false)
    (hm : m.state = if prev then STATE_SELECTED_CLKHI else STATE_SELECTED_CLKLO) :
    foldSamples l m
      = { applyEdges (risingEdges prev l) m with
          state := if lastClk prev l then STATE_SELECTED_CLKHI else STATE_SELECTED_CLKLO } := by
  induction l generalizing m prev with
  | nil =>
    simp only [foldSamples, List.foldl_nil, risingEdges, applyEdges, lastClk]
    rw [← hm]
  | cons s l ih =>
    have hs : s.cs = false := hl s (by simp)
    have hl' : ∀ x ∈ l, x.cs = false := fun x hx => hl x (by simp [hx])
    have hlast : lastClk prev (s :: l) = lastClk s.clk l := rfl
    rw [hlast]
    have hfold : foldSamples (s :: l) m = foldSamples l (step s.t s.cs s.clk s.data m) := rfl
    rw [hfold]
    rcases Bool.eq_false_or_eq_true prev with hp | hp <;>
      rcases Bool.eq_false_or_eq_true s.clk with hc | hc <;>
      simp only [hp, Bool.false_eq_true, if_false, if_true] at hm
    · -- high, stays high
      have e : step s.t s.cs s.clk s.data m = m := by simp [step, hm, hs, hc]
      rw [e, ih m s.clk hl' (by simp [hm, hc])]
      simp [risingEdges, hc, hp]
    · -- falling edge
      have e : step s.t s.cs s.clk s.data m = { m with state := STATE_SELECTED_CLKLO } := by
        simp [step, hm, hc]
      rw [e, ih { m with state := STATE_SELECTED_CLKLO } s.clk hl' (by simp [hc]),
        applyEdges_setState]
      simp [risingEdges, hc, hp]
    · -- rising edge
      have e : step s.t s.cs s.clk s.data m = clockEdge s.t s.data m := by
        simp [step, hm, hc]
      rw [e, ih (clockEdge s.t s.data m) s.clk hl' (by simp [clockEdge_state, hc])]
      simp [risingEdges, hc, hp, applyEdges]
    · -- low, stays low
      have e : step s.t s.cs s.clk s.data m = m := by simp [step, hm, hs, hc]
      rw [e, ih m s.clk hl' (by simp [hm, hc])]
      simp [risingEdges, hc, hp]

theorem shiftIn_eight : ∀ d1 d2 d3 d4 d5 d6 d7 d8 : Bool,
    [d1, d2, d3, d4, d5, d6, d7, d8].foldl shiftIn 0
      = msbFirst [d1, d2, d3, d4, d5, d6, d7, d8] := by
  decide

/-- Edges in the middle of a byte only shift the data bit in. -/
theorem applyEdges_middle (es : List Sample) (m : Machine) (hb : 1 ≤ m.bitcount)
    (hk : m.bitcount + es.length ≤ 7) (hs : m.state = STATE_SELECTED_CLKHI) :
    applyEdges es m
      = { m with
          bitcount := m.bitcount + es.length
          current_byte := (es.map Sample.data).foldl shiftIn m.current_byte } := by
  induction es generalizing m with
  | nil => simp [applyEdges]
  | cons e es ih =>
    have h0 : m.bitcount ≠ 0 := by omega
    have h1 : (m.bitcount + 1) % 256 = m.bitcount + 1 := by
      simp at hk; omega
    have h2 : m.bitcount + 1 ≠ 8 := by simp at hk; omega
    have e1 : clockEdge e.t e.data m
        = { m with bitcount := m.bitcount + 1, current_byte := shiftIn m.current_byte e.data } := by
      unfold clockEdge
      simp only [h0, if_false, h1, h2]
      rw [← hs]
    have := ih { m with bitcount := m.bitcount + 1, current_byte := shiftIn m.current_byte e.data }
      (by simp) (by simp at hk ⊢; omega) hs
    simp only [applyEdges, List.foldl_cons, e1] at this ⊢
    rw [this]
    simp [Nat.add_assoc, Nat.add_comm 1]

theorem foldSamples_append (a b : List Sample) (m : Machine) :
    foldSamples (a ++ b) m = foldSamples b (foldSamples a m) := by
  simp [foldSamples, List.foldl_append]

/-- The eight clock edges of a one-byte window, applied to the machine as it is right after
CS# fell at time `t0`: a SELECT symbol up to the first edge and a DATA symbol from the first to
the eighth edge. -/
theorem applyEdges_byte (es : List Sample) (h8 : es.length = 8) (t0 : Int) (cap : SPIWaveform)
    (x : State) :
    applyEdges es ⟨x, 0, 0, t0, true, cap⟩
      = ⟨STATE_SELECTED_CLKHI, 0, 0, (es.map Sample.t).getD 7 0, false,
          emit (emit cap t0 ((es.map Sample.t).getD 0 0 - t0) ⟨TYPE_SELECT, 0⟩)
            ((es.map Sample.t).getD 0 0)
            ((es.map Sample.t).getD 7 0 - (es.map Sample.t).getD 0 0)
            ⟨TYPE_DATA, msbFirst (es.map Sample.data)⟩⟩ := by
  match es, h8 with
  | [e1, e2, e3, e4, e5, e6, e7, e8], _ =>
    have hmid := applyEdges_middle [e2, e3, e4, e5, e6, e7]
      ⟨STATE_SELECTED_CLKHI, shiftIn 0 e1.data, 1, e1.t, false,
        emit cap t0 (e1.t - t0) ⟨TYPE_SELECT, 0⟩⟩ (by simp) (by simp) rfl
    have hfirst : clockEdge e1.t e1.data ⟨x, 0, 0, t0, true, cap⟩
        = ⟨STATE_SELECTED_CLKHI, shiftIn 0 e1.data, 1, e1.t, false,
            emit cap t0 (e1.t - t0) ⟨TYPE_SELECT, 0⟩⟩ := by
      simp [clockEdge]
    have hsplit : applyEdges [e1, e2, e3, e4, e5, e6, e7, e8] ⟨x, 0, 0, t0, true, cap⟩
        = clockEdge e8.t e8.data (applyEdges [e2, e3, e4, e5, e6, e7]
            (clockEdge e1.t e1.data ⟨x, 0, 0, t0, true, cap⟩)) := by
      simp [applyEdges]
    rw [hsplit, hfirst, hmid]
    have hv := shiftIn_eight e1.data e2.data e3.data e4.data e5.data e6.data e7.data e8.data
    simp only [List.foldl_cons, List.foldl_nil, List.map_cons, List.map_nil] at hv ⊢
    simp [clockEdge, hv]

end SPIDecoder

namespace SPIDecoder
open SymbolType State

/-- `Refresh` on a capture with one chip-select window of eight clock edges, clock low at the
fall of CS# and no clock change at its rise. -/
theorem decode_oneByte (c : Capture) (h1 : c.OneByte) (h2 : c.Mode0) :
    ∃ cap, decode c = some (Output.data cap)
      ∧ cap.m_samples = [⟨TYPE_SELECT, 0⟩, ⟨TYPE_DATA, msbFirst (c.edges.map Sample.data)⟩,
          ⟨TYPE_DESELECT, 0⟩]
      ∧ cap.m_offsets = [c.fall.t, (c.edges.map Sample.t).getD 0 0,
          (c.edges.map Sample.t).getD 7 0]
      ∧ cap.m_durations = [(c.edges.map Sample.t).getD 0 0 - c.fall.t,
          (c.edges.map Sample.t).getD 7 0 - (c.edges.map Sample.t).getD 0 0,
          c.rise.t - (c.edges.map Sample.t).getD 7 0] := by
  obtain ⟨hpre, hpc, hfc, hlc, hrc, hpoc, hinc, h8⟩ := h1
  obtain ⟨hfclk, hrclk⟩ := h2
  obtain ⟨s0, pre', hp⟩ : ∃ s0 pre', c.pre = s0 :: pre' := by
    cases hc : c.pre with
    | nil => exact absurd hc hpre
    | cons a r => exact ⟨a, r, rfl⟩
  have hs0 : s0.cs = true := hpc s0 (by simp [hp])
  have hpre' : ∀ s ∈ pre', s.cs = true := fun s hs => hpc s (by simp [hp, hs])
  have hsamples : c.samples = s0 :: (pre' ++ (c.fall :: (c.low ++ (c.rise :: c.post)))) := by
    simp [Capture.samples, hp]
  have hτ : ∀ s', (pre' ++ (c.fall :: (c.low ++ (c.rise :: c.post)))).head? = some s' →
      (0 : Int) < s'.t := by
    intro s' hs'
    rw [hsamples] at hinc
    cases hx : pre' ++ (c.fall :: (c.low ++ (c.rise :: c.post))) with
    | nil => rw [hx] at hs'; simp at hs'
    | cons a r =>
      rw [hx] at hs' hinc
      simp at hs'; subst hs'
      have := hinc.1
      have := hinc.2.1
      omega
  have hloop := loop_sync c.samples hinc (c.samples.length + c.samples.length + 1) 0 0
    ⟨STATE_IDLE, 0, 0, 0, false, ⟨1, 0, 0, 0, [], [], []⟩⟩ s0
    (pre' ++ (c.fall :: (c.low ++ (c.rise :: c.post)))) (by rw [hsamples]; rfl)
    (by rw [hsamples]; simp; omega) hτ
  -- the phases
  have e1 : step 0 s0.cs s0.clk s0.data ⟨STATE_IDLE, 0, 0, 0, false, ⟨1, 0, 0, 0, [], [], []⟩⟩
      = ⟨STATE_DESELECTED, 0, 0, 0, false, ⟨1, 0, 0, 0, [], [], []⟩⟩ := by
    simp [step, hs0]
  have e2 := fold_deselected pre' ⟨STATE_DESELECTED, 0, 0, 0, false, ⟨1, 0, 0, 0, [], [], []⟩⟩
    hpre' rfl
  have e3 : step c.fall.t c.fall.cs c.fall.clk c.fall.data
      ⟨STATE_DESELECTED, 0, 0, 0, false, ⟨1, 0, 0, 0, [], [], []⟩⟩
      = ⟨STATE_SELECTED_CLKLO, 0, 0, c.fall.t, true, ⟨1, 0, 0, 0, [], [], []⟩⟩ := by
    simp [step, hfc]
  have e4 := fold_selected c.low
    ⟨STATE_SELECTED_CLKLO, 0, 0, c.fall.t, true, ⟨1, 0, 0, 0, [], [], []⟩⟩ c.fall.clk hlc
    (by simp [hfclk])
  have e5 := applyEdges_byte (risingEdges c.fall.clk c.low) h8 c.fall.t ⟨1, 0, 0, 0, [], [], []⟩
    STATE_SELECTED_CLKLO
  rw [e5] at e4
  have e6 : ∀ m : Machine, m.state
        = (if lastClk c.fall.clk c.low then STATE_SELECTED_CLKHI else STATE_SELECTED_CLKLO) →
      step c.rise.t c.rise.cs c.rise.clk c.rise.data m = deselect c.rise.t m := by
    intro m hm
    rw [hrclk, hrc]
    rcases Bool.eq_false_or_eq_true (lastClk c.fall.clk c.low) with hl | hl <;>
      simp [step, hm, hl]
  have hfold : foldSamples (pre' ++ (c.fall :: (c.low ++ (c.rise :: c.post))))
      (step 0 s0.cs s0.clk s0.data ⟨STATE_IDLE, 0, 0, 0, false, ⟨1, 0, 0, 0, [], [], []⟩⟩)
      = deselect c.rise.t (foldSamples c.low
          ⟨STATE_SELECTED_CLKLO, 0, 0, c.fall.t, true, ⟨1, 0, 0, 0, [], [], []⟩⟩) := by
    rw [e1, foldSamples_append, e2]
    have : foldSamples (c.fall :: (c.low ++ (c.rise :: c.post)))
        ⟨STATE_DESELECTED, 0, 0, 0, false, ⟨1, 0, 0, 0, [], [], []⟩⟩
        = foldSamples (c.low ++ (c.rise :: c.post))
          (step c.fall.t c.fall.cs c.fall.clk c.fall.data
            ⟨STATE_DESELECTED, 0, 0, 0, false, ⟨1, 0, 0, 0, [], [], []⟩⟩) := rfl
    rw [this, e3, foldSamples_append]
    have : ∀ m, foldSamples (c.rise :: c.post) m
        = foldSamples c.post (step c.rise.t c.rise.cs c.rise.clk c.rise.data m) := fun _ => rfl
    rw [this, e6 _ (by rw [e4]), fold_deselected c.post _ hpoc rfl]
  refine ⟨(deselect c.rise.t (foldSamples c.low
      ⟨STATE_SELECTED_CLKLO, 0, 0, c.fall.t, true, ⟨1, 0, 0, 0, [], [], []⟩⟩)).cap, ?_, ?_, ?_, ?_⟩
  · unfold decode Refresh
    simp only [Bool.not_true, Bool.false_eq_true, if_false]
    have hl : ∀ level, (channel c.samples level).m_samples.length = c.samples.length := by
      intro level; simp [channel]
    rw [hl, hl]
    have hcap : (⟨(channel c.samples Sample.clk).m_timescale,
        (channel c.samples Sample.clk).m_startTimestamp,
        (channel c.samples Sample.clk).m_startFemtoseconds,
        (channel c.samples Sample.clk).m_triggerPhase, [], [], []⟩ : SPIWaveform)
        = ⟨1, 0, 0, 0, [], [], []⟩ := rfl
    rw [hcap, hloop, hfold]
    rfl
  · rw [e4]; simp [deselect, emit, Capture.edges]
  · rw [e4]; simp [deselect, emit, Capture.edges]
  · rw [e4]; simp [deselect, emit, Capture.edges]

/-- C5 as stated fails. In `idleHighCapture` CS# is sampled high, falls, exactly 8 rising clock
edges occur while it is low and the data line carries `0xA5` at them, then CS# rises; the DATA
symbol of `Refresh` holds `0x52`: the clock is still high at the first samples after the fall of
CS#, and the decoder takes that level for a clock edge. -/
theorem C5_counterexample :
    idleHighCapture.OneByte
    ∧ msbFirst (idleHighCapture.edges.map Sample.data) = 0xA5
    ∧ (decode idleHighCapture).map (fun o => match o with
          | Output.null => []
          | Output.data cap => cap.m_samples)
        = some [⟨TYPE_SELECT, 0⟩, ⟨TYPE_DATA, 0x52⟩, ⟨TYPE_DESELECT, 0⟩] := by
  decide

/-- C5, amended. For every three-channel capture sampled at common, increasing instants in which
CS# is first sampled high, then falls while the clock is low, then exactly 8 rising clock edges
occur while CS# is low, then CS# rises at a sample where the clock does not change, `Refresh`
outputs exactly three symbols in order: one SELECT, one DATA whose value is the 8 data-line
samples taken at the rising edges assembled most significant bit first, and one DESELECT; and
the three durations sum to the time from the fall of CS# to its rise. -/
theorem C5_spi_one_byte (c : Capture) (h1 : c.OneByte) (h2 : c.Mode0) :
    ∃ cap, decode c = some (Output.data cap)
      ∧ cap.m_samples = [⟨TYPE_SELECT, 0⟩, ⟨TYPE_DATA, msbFirst (c.edges.map Sample.data)⟩,
          ⟨TYPE_DESELECT, 0⟩]
      ∧ cap.m_offsets.length = 3
      ∧ cap.m_durations.sum = c.rise.t - c.fall.t := by
  obtain ⟨cap, a, b, o, d⟩ := decode_oneByte c h1 h2
  refine ⟨cap, a, b, by rw [o]; rfl, ?_⟩
  rw [d]
  simp only [List.sum_cons, List.sum_nil]
  omega

/-- C5, amended, at `exampleCapture`. -/
theorem C5_spi_one_byte_witness :
    (exampleCapture.OneByte ∧ exampleCapture.Mode0)
    ∧ ∃ cap, decode exampleCapture = some (Output.data cap)
      ∧ cap.m_samples
          = [⟨TYPE_SELECT, 0⟩, ⟨TYPE_DATA, msbFirst (exampleCapture.edges.map Sample.data)⟩,
            ⟨TYPE_DESELECT, 0⟩]
      ∧ cap.m_offsets.length = 3
      ∧ cap.m_durations.sum = exampleCapture.rise.t - exampleCapture.fall.t :=
  ⟨⟨by decide, by decide⟩, C5_spi_one_byte exampleCapture (by decide) (by decide)⟩

end SPIDecoder

/-! ## `Ethernet10BaseTDecoder`: edge search and bit recovery on a Manchester trace -/

namespace Ethernet10BaseTDecoder
open EthernetProtocolDecoder

theorem getD_of_drop_cons (l : List ℚ) (j : Nat) (y : ℚ) (rest : List ℚ)
    (h : l.drop j = y :: rest) : l.getD j 0 = y ∧ j < l.length := by
  have h0 : (l.drop j)[0]? = some y := by rw [h]; simp
  rw [List.getElem?_drop] at h0
  simp only [Nat.add_zero] at h0
  constructor
  · rw [List.getD_eq_getElem?_getD, h0]; rfl
  · by_contra hc
    rw [List.getElem?_eq_none (by omega)] at h0
    simp at h0

theorem drop_succ_of_cons (l : List ℚ) (j : Nat) (y : ℚ) (rest : List ℚ)
    (h : l.drop j = y :: rest) : l.drop (j + 1) = rest := by
  have : l.drop (j + 1) = (l.drop j).drop 1 := by rw [List.drop_drop]
  rw [this, h]; rfl

theorem findRisingFrom_found (cap : AnalogWaveform) (pre : List ℚ) (y : ℚ) (rest : List ℚ)
    (fuel j : Nat) (h : cap.m_samples.drop j = pre ++ y :: rest)
    (hpre : ∀ x ∈ pre, ¬ x > 1) (hy : y > 1) (hf : pre.length < fuel) :
    findRisingFrom cap fuel j = some (j + pre.length) := by
  induction pre generalizing fuel j with
  | nil =>
    obtain ⟨f, rfl⟩ : ∃ f, fuel = f + 1 := ⟨fuel - 1, by simp at hf; omega⟩
    obtain ⟨e, hj⟩ := getD_of_drop_cons _ _ _ _ h
    rw [findRisingFrom, if_pos hj, e, if_pos hy]; simp
  | cons x pre ih =>
    obtain ⟨f, rfl⟩ : ∃ f, fuel = f + 1 := ⟨fuel - 1, by simp at hf; omega⟩
    obtain ⟨e, hj⟩ := getD_of_drop_cons _ _ _ _ h
    have hx : ¬ x > 1 := hpre x (by simp)
    have := ih f (j + 1) (drop_succ_of_cons _ _ _ _ h) (fun z hz => hpre z (by simp [hz]))
      (by simp at hf; omega)
    simp only [findRisingFrom, hj, e, hx, if_true, if_false, this, List.length_cons]
    congr 1; omega

theorem findFallingFrom_found (cap : AnalogWaveform) (pre : List ℚ) (y : ℚ) (rest : List ℚ)
    (fuel j : Nat) (h : cap.m_samples.drop j = pre ++ y :: rest)
    (hpre : ∀ x ∈ pre, ¬ x < -1) (hy : y < -1) (hf : pre.length < fuel) :
    findFallingFrom cap fuel j = some (j + pre.length) := by
  induction pre generalizing fuel j with
  | nil =>
    obtain ⟨f, rfl⟩ : ∃ f, fuel = f + 1 := ⟨fuel - 1, by simp at hf; omega⟩
    obtain ⟨e, hj⟩ := getD_of_drop_cons _ _ _ _ h
    rw [findFallingFrom, if_pos hj, e, if_pos hy]; simp
  | cons x pre ih =>
    obtain ⟨f, rfl⟩ : ∃ f, fuel = f + 1 := ⟨fuel - 1, by simp at hf; omega⟩
    obtain ⟨e, hj⟩ := getD_of_drop_cons _ _ _ _ h
    have hx : ¬ x < -1 := hpre x (by simp)
    have := ih f (j + 1) (drop_succ_of_cons _ _ _ _ h) (fun z hz => hpre z (by simp [hz]))
      (by simp at hf; omega)
    simp only [findFallingFrom, hj, e, hx, if_true, if_false, this, List.length_cons]
    congr 1; omega

theorem findRisingFrom_none (cap : AnalogWaveform) (fuel j : Nat)
    (h : ∀ x ∈ cap.m_samples.drop j, ¬ x > 1) : findRisingFrom cap fuel j = none := by
  induction fuel generalizing j with
  | zero => rfl
  | succ f ih =>
    simp only [findRisingFrom]
    split
    · rename_i hj
      have hx : ¬ cap.m_samples.getD j 0 > 1 := by
        apply h
        rw [List.getD_eq_getElem?_getD, List.getElem?_eq_getElem hj]
        exact List.mem_drop_iff_getElem.mpr ⟨0, by simpa using hj, by simp⟩
      rw [if_neg hx]
      apply ih
      intro x hx'
      apply h
      have : cap.m_samples.drop (j + 1) = (cap.m_samples.drop j).drop 1 := by
        rw [List.drop_drop]
      rw [this] at hx'
      exact List.mem_of_mem_drop hx'
    · rfl

theorem findFallingFrom_none (cap : AnalogWaveform) (fuel j : Nat)
    (h : ∀ x ∈ cap.m_samples.drop j, ¬ x < -1) : findFallingFrom cap fuel j = none := by
  induction fuel generalizing j with
  | zero => rfl
  | succ f ih =>
    simp only [findFallingFrom]
    split
    · rename_i hj
      have hx : ¬ cap.m_samples.getD j 0 < -1 := by
        apply h
        rw [List.getD_eq_getElem?_getD, List.getElem?_eq_getElem hj]
        exact List.mem_drop_iff_getElem.mpr ⟨0, by simpa using hj, by simp⟩
      rw [if_neg hx]
      apply ih
      intro x hx'
      apply h
      have : cap.m_samples.drop (j + 1) = (cap.m_samples.drop j).drop 1 := by
        rw [List.drop_drop]
      rw [this] at hx'
      exact List.mem_of_mem_drop hx'
    · rfl

/-- `FindEdge` returns the first sample at the level asked for. -/
theorem FindEdge_found (cap : AnalogWaveform) (pol : Bool) (pre : List ℚ) (y : ℚ)
    (rest : List ℚ) (i : Nat) (h : cap.m_samples.drop i = pre ++ y :: rest)
    (hpre : ∀ x ∈ pre, ¬ atLevel pol x) (hy : atLevel pol y) :
    FindEdge i cap pol = some (i + pre.length) := by
  have hlen : pre.length < cap.m_samples.length - i := by
    have := congrArg List.length h
    simp only [List.length_drop, List.length_append, List.length_cons] at this
    omega
  cases pol with
  | true => exact findRisingFrom_found cap pre y rest _ i h hpre hy hlen
  | false => exact findFallingFrom_found cap pre y rest _ i h hpre hy hlen

/-- `FindEdge` finds nothing when no later sample is at the level asked for. -/
theorem FindEdge_none (cap : AnalogWaveform) (pol : Bool) (i : Nat)
    (h : ∀ x ∈ cap.m_samples.drop i, ¬ atLevel pol x) : FindEdge i cap pol = none := by
  cases pol with
  | true => exact findRisingFrom_none cap _ i h
  | false => exact findFallingFrom_none cap _ i h

end Ethernet10BaseTDecoder

namespace Manchester
open Ethernet10BaseTDecoder EthernetProtocolDecoder

theorem levels_cons (k : Nat) (hi lo : ℚ) (b : Bool) (rest : List Bool) :
    levels k hi lo (b :: rest)
      = List.replicate k (firstLevel hi lo b)
        ++ (List.replicate k (secondLevel hi lo b) ++ levels k hi lo rest) := by
  cases b <;> simp [levels, halves, firstLevel, secondLevel]

theorem levels_length (k : Nat) (hi lo : ℚ) (bits : List Bool) :
    (levels k hi lo bits).length = 2 * k * bits.length := by
  induction bits with
  | nil => simp [levels]
  | cons b rest ih =>
    rw [levels_cons]
    simp only [List.length_append, List.length_replicate, ih, List.length_cons]
    ring

theorem second_atLevel (hi lo : ℚ) (hhi : 1 < hi) (hlo : lo < -1) (b : Bool) :
    atLevel b (secondLevel hi lo b) := by
  cases b <;> simp [atLevel, secondLevel, hhi, hlo]

theorem first_atLevel (hi lo : ℚ) (hhi : 1 < hi) (hlo : lo < -1) (b : Bool) :
    atLevel (!b) (firstLevel hi lo b) := by
  cases b <;> simp [atLevel, firstLevel, hhi, hlo]

theorem first_not_atLevel (hi lo : ℚ) (hhi : 1 < hi) (hlo : lo < -1) (b : Bool) :
    ¬ atLevel b (firstLevel hi lo b) := by
  cases b <;> simp [atLevel, firstLevel] <;> linarith

theorem second_not_atLevel (hi lo : ℚ) (hhi : 1 < hi) (hlo : lo < -1) (b : Bool) :
    ¬ atLevel (!b) (secondLevel hi lo b) := by
  cases b <;> simp [atLevel, secondLevel] <;> linarith

theorem zero_not_atLevel (pol : Bool) : ¬ atLevel pol 0 := by
  cases pol <;> simp [atLevel]

theorem first_eq_second_not (hi lo : ℚ) (b : Bool) :
    firstLevel hi lo (!b) = secondLevel hi lo b := by
  cases b <;> rfl

theorem offsets_traceOf (T : Int) (S : List ℚ) (j : Nat) (hj : j < S.length) :
    (traceOf T S).m_offsets.getD j 0 = (j : Int) := by
  show ((List.range S.length).map Int.ofNat).getD j 0 = (j : Int)
  rw [List.getD_eq_getElem?_getD, List.getElem?_map, List.getElem?_range hj]
  rfl

theorem timeAt_traceOf (T : Int) (S : List ℚ) (j : Nat) (hj : j < S.length) :
    timeAt (traceOf T S) j = some ((j : Int) * T) := by
  have hl : (traceOf T S).m_offsets.length = S.length := by
    show ((List.range S.length).map Int.ofNat).length = S.length
    rw [List.length_map, List.length_range]
  have ho := offsets_traceOf T S j hj
  simp only [timeAt, hl, hj, if_true, ho]
  rfl

theorem seekTarget_traceOf (T : Int) (hT : 0 < T) (S : List ℚ) (d fuel i : Nat)
    (hf : d < fuel) (hi : i + d < S.length) :
    seekTarget (traceOf T S) (((i + d : Nat) : Int) * T) fuel i = i + d := by
  induction d generalizing fuel i with
  | zero =>
    obtain ⟨f, rfl⟩ : ∃ f, fuel = f + 1 := ⟨fuel - 1, by omega⟩
    have hi' : i < (traceOf T S).m_samples.length := by simpa [traceOf] using hi
    have ho := offsets_traceOf T S i (by omega)
    have ht : (traceOf T S).m_timescale = T := rfl
    rw [seekTarget, if_pos hi', ho, ht]
    simp
  | succ d ih =>
    obtain ⟨f, rfl⟩ : ∃ f, fuel = f + 1 := ⟨fuel - 1, by omega⟩
    have hi' : i < (traceOf T S).m_samples.length := by
      have : (traceOf T S).m_samples.length = S.length := rfl
      omega
    have ho := offsets_traceOf T S i (by omega)
    have ht : (traceOf T S).m_timescale = T := rfl
    have hlt : ¬ ((i : Int) * T ≥ ((i + (d + 1) : Nat) : Int) * T) := by
      push_cast
      nlinarith
    rw [seekTarget, if_pos hi', ho, ht, if_neg hlt]
    have := ih f (i + 1) (by omega) (by omega)
    have e : i + 1 + d = i + (d + 1) := by omega
    rw [e] at this
    exact this

end Manchester

namespace Manchester
open Ethernet10BaseTDecoder EthernetProtocolDecoder

theorem shiftBit_acc (s : BitState) :
    ((shiftBit s).current_byte, (shiftBit s).bitcount, (shiftBit s).bytes)
      = accBit (s.current_byte, s.bitcount, s.bytes) (!s.current_state) := by
  unfold shiftBit accBit shiftRightIn
  simp only
  split_ifs <;> simp_all

theorem shiftBit_fields (s : BitState) :
    (shiftBit s).i = s.i ∧ (shiftBit s).current_state = s.current_state
      ∧ (shiftBit s).ui_start = s.ui_start := by
  unfold shiftBit
  simp only
  split_ifs <;> simp

/-- The timing facts of a valid sampling: half a unit interval is inside the eye, a whole one
is after it and both are far below ten unit intervals. -/
theorem timing (k : Nat) (T : Int) (hT : (k : Int) * T = 50000000) (i : Nat) :
    ((i + k : Nat) : Int) * T - (i : Int) * T = 50000000
    ∧ ((i + k + k : Nat) : Int) * T - ((i + k : Nat) : Int) * T = 50000000
    ∧ ((i + k + (k + k) : Nat) : Int) * T - ((i + k : Nat) : Int) * T = 100000000
    ∧ ((i + k : Nat) : Int) * T + ui_halfwidth = ((i + k + k : Nat) : Int) * T := by
  simp only [ui_halfwidth]
  push_cast
  refine ⟨?_, ?_, ?_, ?_⟩ <;> nlinarith

theorem timescale_pos (k : Nat) (T : Int) (hT : (k : Int) * T = 50000000) : 0 < T := by
  by_contra h
  have h1 : T ≤ 0 := by omega
  have h2 : (0 : Int) ≤ (k : Int) := Int.ofNat_nonneg k
  nlinarith

theorem replicate_pos {α : Type} (k : Nat) (hk : 1 ≤ k) (x : α) :
    List.replicate k x = x :: List.replicate (k - 1) x := by
  obtain ⟨n, rfl⟩ : ∃ n, k = n + 1 := ⟨k - 1, by omega⟩
  rfl

/-- The part of `bitStep` up to the acceptance of the edge in the middle of the bit, on a trace
that continues at sample `i` with the two halves of bit `b`. -/
theorem bitStep_accept (k : Nat) (T : Int) (hi lo : ℚ) (hk : 1 ≤ k)
    (hT : (k : Int) * T = 50000000) (hhi : 1 < hi) (hlo : lo < -1)
    (S : List ℚ) (i : Nat) (b : Bool) (tail : List ℚ) (s : BitState)
    (hS : S.drop i = List.replicate k (firstLevel hi lo b)
      ++ (List.replicate k (secondLevel hi lo b) ++ tail))
    (hsi : s.i = i) (hsu : s.ui_start = (i : Int) * T) (hsc : s.current_state = !b) :
    bitStep (traceOf T S) s
      = match FindEdge (i + k) (traceOf T S) (!b) with
        | none => .frameEnd (shiftBit { s with i := i + k }) true
        | some i2 =>
          match timeAt (traceOf T S) i2 with
          | none => .outOfRange
          | some edgepos2 =>
            if edgepos2 - ((i + k : Nat) : Int) * T > 10 * ui_width then
              .frameEnd { shiftBit { s with i := i + k } with i := i2 + 1 } false
            else if edgepos2 - ((i + k : Nat) : Int) * T > eye_end then
              match timeAt (traceOf T S)
                (seekTarget (traceOf T S) (((i + k : Nat) : Int) * T + ui_halfwidth)
                  (S.length - (i + k)) (i + k)) with
              | none => .outOfRange
              | some t =>
                .next { shiftBit { s with i := i + k } with
                  i := seekTarget (traceOf T S) (((i + k : Nat) : Int) * T + ui_halfwidth)
                    (S.length - (i + k)) (i + k)
                  current_state := b
                  ui_start := t }
            else
              .next { shiftBit { s with i := i + k } with i := i2, ui_start := edgepos2 } := by
  have hlen : i + k + k + tail.length = S.length := by
    have := congrArg List.length hS
    simp only [List.length_drop, List.length_append, List.length_replicate] at this
    omega
  have hS' : (traceOf T S).m_samples.drop i = List.replicate k (firstLevel hi lo b)
      ++ (secondLevel hi lo b :: (List.replicate (k - 1) (secondLevel hi lo b) ++ tail)) := by
    show S.drop i = _
    rw [hS, replicate_pos k hk (secondLevel hi lo b)]
    rfl
  have hfind : FindEdge i (traceOf T S) b = some (i + k) := by
    have := FindEdge_found (traceOf T S) b _ _ _ i hS'
      (fun x hx => by
        rw [List.eq_of_mem_replicate hx]
        exact first_not_atLevel hi lo hhi hlo b)
      (second_atLevel hi lo hhi hlo b)
    simpa using this
  have htime : timeAt (traceOf T S) (i + k) = some (((i + k : Nat) : Int) * T) :=
    timeAt_traceOf T S (i + k) (by omega)
  obtain ⟨t1, _, _, _⟩ := timing k T hT i
  have hd1 : ¬ (((i + k : Nat) : Int) * T - (i : Int) * T > 10 * ui_width) := by
    rw [t1]; simp [ui_width]
  have hd2 : ¬ (((i + k : Nat) : Int) * T - (i : Int) * T < eye_start
      ∨ ((i + k : Nat) : Int) * T - (i : Int) * T > eye_end) := by
    rw [t1]; simp [eye_start, eye_end, ui_halfwidth, jitter_tol]
  have hml : (traceOf T S).m_samples.length = S.length := rfl
  unfold bitStep
  simp only [hsi, hsc, Bool.not_not, hfind, htime, hsu, hd1, hd2, if_false, hml]

/-- One pass of the inner loop on a bit that is followed by another bit: the bit is shifted in
and the loop stands at the start of the next bit, expecting its edge. -/
theorem bitStep_next (k : Nat) (T : Int) (hi lo : ℚ) (hk : 1 ≤ k)
    (hT : (k : Int) * T = 50000000) (hhi : 1 < hi) (hlo : lo < -1)
    (S : List ℚ) (i : Nat) (b b' : Bool) (rest : List Bool) (tail : List ℚ) (s : BitState)
    (hS : S.drop i = levels k hi lo (b :: b' :: rest) ++ tail)
    (hsi : s.i = i) (hsu : s.ui_start = (i : Int) * T) (hsc : s.current_state = !b) :
    ∃ s', bitStep (traceOf T S) s = .next s'
      ∧ s'.i = i + k + k ∧ s'.ui_start = ((i + k + k : Nat) : Int) * T
      ∧ s'.current_state = (!b')
      ∧ (s'.current_byte, s'.bitcount, s'.bytes)
          = accBit (s.current_byte, s.bitcount, s.bytes) b := by
  have hS1 : S.drop i = List.replicate k (firstLevel hi lo b)
      ++ (List.replicate k (secondLevel hi lo b)
        ++ (List.replicate k (firstLevel hi lo b')
          ++ (List.replicate k (secondLevel hi lo b') ++ (levels k hi lo rest ++ tail)))) := by
    rw [hS, levels_cons, levels_cons]; simp
  have hlen : i + k + k + k + k ≤ S.length := by
    have := congrArg List.length hS1
    simp only [List.length_drop, List.length_append, List.length_replicate] at this
    omega
  have hacc := bitStep_accept k T hi lo hk hT hhi hlo S i b _ s hS1 hsi hsu hsc
  have hdrop : (traceOf T S).m_samples.drop (i + k)
      = List.replicate k (secondLevel hi lo b)
        ++ (List.replicate k (firstLevel hi lo b')
          ++ (List.replicate k (secondLevel hi lo b') ++ (levels k hi lo rest ++ tail))) := by
    show S.drop (i + k) = _
    have : S.drop (i + k) = (S.drop i).drop k := by rw [List.drop_drop, Nat.add_comm]
    rw [this, hS1]
    exact List.drop_left' (List.length_replicate _ _)
  obtain ⟨t1, t2, t3, t4⟩ := timing k T hT i
  have hfields := shiftBit_fields { s with i := i + k }
  have haccb : ((shiftBit { s with i := i + k }).current_byte,
      (shiftBit { s with i := i + k }).bitcount, (shiftBit { s with i := i + k }).bytes)
      = accBit (s.current_byte, s.bitcount, s.bytes) b := by
    have h := shiftBit_acc { s with i := i + k }
    have e : (!({ s with i := i + k } : BitState).current_state) = b := by simp [hsc]
    rw [e] at h
    exact h
  rcases Bool.eq_false_or_eq_true (b == b') with hbb | hbb
  · -- the next bit has the same value: the edge at the end of the bit is found
    have hb : b' = b := (beq_iff_eq.mp hbb).symm
    subst hb
    have hfind2 : FindEdge (i + k) (traceOf T S) (!b') = some (i + k + k) := by
      have h' : (traceOf T S).m_samples.drop (i + k)
          = List.replicate k (secondLevel hi lo b')
            ++ (firstLevel hi lo b' :: (List.replicate (k - 1) (firstLevel hi lo b')
              ++ (List.replicate k (secondLevel hi lo b') ++ (levels k hi lo rest ++ tail)))) := by
        rw [hdrop, replicate_pos k hk (firstLevel hi lo b')]
        rfl
      have := FindEdge_found (traceOf T S) (!b') _ _ _ (i + k) h'
        (fun x hx => by
          rw [List.eq_of_mem_replicate hx]
          exact second_not_atLevel hi lo hhi hlo b')
        (first_atLevel hi lo hhi hlo b')
      simpa using this
    have htime2 := timeAt_traceOf T S (i + k + k) (by omega)
    have hd1 : ¬ (((i + k + k : Nat) : Int) * T - ((i + k : Nat) : Int) * T > 10 * ui_width) := by
      rw [t2]; simp [ui_width]
    have hd2 : ¬ (((i + k + k : Nat) : Int) * T - ((i + k : Nat) : Int) * T > eye_end) := by
      rw [t2]; simp [eye_end, ui_halfwidth, jitter_tol]
    rw [hfind2] at hacc
    simp only [htime2, hd1, hd2, if_false] at hacc
    refine ⟨_, hacc, rfl, rfl, ?_, ?_⟩
    · exact hfields.2.1.trans hsc
    · exact haccb
  · -- the next bit differs: the next edge is in the middle of the next bit
    have hb : b' = !b := by
      have : b ≠ b' := by simpa using hbb
      cases b <;> cases b' <;> simp_all
    subst hb
    have hfind2 : FindEdge (i + k) (traceOf T S) (!b) = some (i + k + (k + k)) := by
      have h' : (traceOf T S).m_samples.drop (i + k)
          = (List.replicate k (secondLevel hi lo b) ++ List.replicate k (firstLevel hi lo (!b)))
            ++ (secondLevel hi lo (!b) :: (List.replicate (k - 1) (secondLevel hi lo (!b))
              ++ (levels k hi lo rest ++ tail))) := by
        rw [hdrop, replicate_pos k hk (secondLevel hi lo (!b))]
        simp
      have := FindEdge_found (traceOf T S) (!b) _ _ _ (i + k) h'
        (fun x hx => by
          rcases List.mem_append.mp hx with h1 | h1
          · rw [List.eq_of_mem_replicate h1]
            exact second_not_atLevel hi lo hhi hlo b
          · rw [List.eq_of_mem_replicate h1, first_eq_second_not]
            exact second_not_atLevel hi lo hhi hlo b)
        (second_atLevel hi lo hhi hlo (!b))
      simpa using this
    have htime2 := timeAt_traceOf T S (i + k + (k + k)) (by omega)
    have hd1 : ¬ (((i + k + (k + k) : Nat) : Int) * T - ((i + k : Nat) : Int) * T
        > 10 * ui_width) := by
      rw [t3]; simp [ui_width]
    have hd2 : ((i + k + (k + k) : Nat) : Int) * T - ((i + k : Nat) : Int) * T > eye_end := by
      rw [t3]; simp [eye_end, ui_halfwidth, jitter_tol]
    have hseek : seekTarget (traceOf T S) (((i + k : Nat) : Int) * T + ui_halfwidth)
        (S.length - (i + k)) (i + k) = i + k + k := by
      rw [t4]
      exact seekTarget_traceOf T (timescale_pos k T hT) S k _ (i + k) (by omega) (by omega)
    have htime3 := timeAt_traceOf T S (i + k + k) (by omega)
    rw [hfind2] at hacc
    simp only [htime2, hd1, hd2, if_false, if_true, hseek, htime3] at hacc
    refine ⟨_, hacc, rfl, rfl, ?_, ?_⟩
    · simp
    · exact haccb

/-- The pass of the inner loop on the last bit of the frame: the bit is shifted in and the
loop ends the frame because the capture holds no further edge. -/
theorem bitStep_last (k : Nat) (T : Int) (hi lo : ℚ) (hk : 1 ≤ k)
    (hT : (k : Int) * T = 50000000) (hhi : 1 < hi) (hlo : lo < -1)
    (S : List ℚ) (i : Nat) (b : Bool) (tail : List ℚ) (s : BitState)
    (hS : S.drop i = levels k hi lo [b] ++ tail) (htail : ∀ x ∈ tail, x = 0)
    (hsi : s.i = i) (hsu : s.ui_start = (i : Int) * T) (hsc : s.current_state = !b) :
    ∃ s', bitStep (traceOf T S) s = .frameEnd s' true
      ∧ (s'.current_byte, s'.bitcount, s'.bytes)
          = accBit (s.current_byte, s.bitcount, s.bytes) b := by
  have hS1 : S.drop i = List.replicate k (firstLevel hi lo b)
      ++ (List.replicate k (secondLevel hi lo b) ++ tail) := by
    rw [hS, levels_cons]; simp [levels]
  have hacc := bitStep_accept k T hi lo hk hT hhi hlo S i b _ s hS1 hsi hsu hsc
  have hdrop : (traceOf T S).m_samples.drop (i + k)
      = List.replicate k (secondLevel hi lo b) ++ tail := by
    show S.drop (i + k) = _
    have : S.drop (i + k) = (S.drop i).drop k := by rw [List.drop_drop, Nat.add_comm]
    rw [this, hS1]
    exact List.drop_left' (List.length_replicate _ _)
  have hnone : FindEdge (i + k) (traceOf T S) (!b) = none := by
    apply FindEdge_none
    intro x hx
    rw [hdrop] at hx
    rcases List.mem_append.mp hx with h1 | h1
    · rw [List.eq_of_mem_replicate h1]
      exact second_not_atLevel hi lo hhi hlo b
    · rw [htail x h1]
      exact zero_not_atLevel _
  rw [hnone] at hacc
  have haccb : ((shiftBit { s with i := i + k }).current_byte,
      (shiftBit { s with i := i + k }).bitcount, (shiftBit { s with i := i + k }).bytes)
      = accBit (s.current_byte, s.bitcount, s.bytes) b := by
    have h := shiftBit_acc { s with i := i + k }
    have e : (!({ s with i := i + k } : BitState).current_state) = b := by simp [hsc]
    rw [e] at h
    exact h
  exact ⟨_, hacc, haccb⟩

end Manchester

namespace Manchester
open Ethernet10BaseTDecoder EthernetProtocolDecoder

/-- The samples of the bits after the first one start two half bits later. -/
theorem drop_levels_cons (k : Nat) (hi lo : ℚ) (S : List ℚ) (i : Nat) (b : Bool)
    (rest : List Bool) (tail : List ℚ)
    (hS : S.drop i = levels k hi lo (b :: rest) ++ tail) :
    S.drop (i + k + k) = levels k hi lo rest ++ tail := by
  have h1 : S.drop (i + k + k) = (S.drop i).drop (k + k) := by
    rw [List.drop_drop]; congr 1; omega
  rw [h1, hS, levels_cons]
  have h2 : List.replicate k (firstLevel hi lo b)
      ++ (List.replicate k (secondLevel hi lo b) ++ levels k hi lo rest) ++ tail
      = (List.replicate k (firstLevel hi lo b) ++ List.replicate k (secondLevel hi lo b))
        ++ (levels k hi lo rest ++ tail) := by simp
  rw [h2]
  exact List.drop_left' (by simp)

/-- The inner loop on the samples of a bit sequence, started at the first sample of the first
bit with the polarity of its mid-bit edge expected: it ends the frame with `done` set, and has
shifted in every bit. -/
theorem recoverBits_levels (k : Nat) (T : Int) (hi lo : ℚ) (hk : 1 ≤ k)
    (hT : (k : Int) * T = 50000000) (hhi : 1 < hi) (hlo : lo < -1)
    (S : List ℚ) (tail : List ℚ) (htail : ∀ x ∈ tail, x = 0) :
    ∀ (bits : List Bool) (b : Bool) (i : Nat) (s : BitState) (fuel : Nat),
      S.drop i = levels k hi lo (b :: bits) ++ tail → s.i = i → s.ui_start = (i : Int) * T →
      s.current_state = (!b) → bits.length < fuel →
      ∃ s', recoverBits (traceOf T S) fuel s = .frame s' true
        ∧ (s'.current_byte, s'.bitcount, s'.bytes)
            = (b :: bits).foldl accBit (s.current_byte, s.bitcount, s.bytes) := by
  intro bits
  induction bits with
  | nil =>
    intro b i s fuel hS hsi hsu hsc hfuel
    obtain ⟨s', h1, h2⟩ := bitStep_last k T hi lo hk hT hhi hlo S i b tail s hS htail hsi hsu hsc
    have hlen : s.i < (traceOf T S).m_samples.length := by
      show s.i < S.length
      have := congrArg List.length hS
      rw [levels_cons] at this
      simp only [List.length_drop, List.length_append, List.length_replicate] at this
      omega
    obtain ⟨fuel', rfl⟩ : ∃ f, fuel = f + 1 := ⟨fuel - 1, by omega⟩
    refine ⟨s', ?_, by simpa using h2⟩
    rw [recoverBits, if_pos hlen, h1]
  | cons b' rest ih =>
    intro b i s fuel hS hsi hsu hsc hfuel
    obtain ⟨s1, h1, h2, h3, h4, h5⟩ :=
      bitStep_next k T hi lo hk hT hhi hlo S i b b' rest tail s hS hsi hsu hsc
    have hlen : s.i < (traceOf T S).m_samples.length := by
      show s.i < S.length
      have := congrArg List.length hS
      rw [levels_cons] at this
      simp only [List.length_drop, List.length_append, List.length_replicate] at this
      omega
    obtain ⟨fuel', rfl⟩ : ∃ f, fuel = f + 1 := ⟨fuel - 1, by omega⟩
    have hfuel' : rest.length < fuel' := by
      simp only [List.length_cons] at hfuel; omega
    obtain ⟨s', e1, e2⟩ := ih b' (i + k + k) s1 fuel'
      (drop_levels_cons k hi lo S i b (b' :: rest) tail hS) h2 h3 h4 hfuel'
    refine ⟨s', ?_, ?_⟩
    · rw [recoverBits, if_pos hlen, h1]
      exact e1
    · rw [e2, h5]
      rfl

/-- Eight bits shifted in from an empty partial byte give one more recovered byte. -/
theorem accBit_eight (d0 d1 d2 d3 d4 d5 d6 d7 : Bool) (acc : List Nat) :
    [d0, d1, d2, d3, d4, d5, d6, d7].foldl accBit (0, 0, acc)
      = (0, 0, acc ++ [[d0, d1, d2, d3, d4, d5, d6, d7].foldl shiftRightIn 0]) := by
  simp [accBit]

/-- The eight bits of a byte, least significant bit first, shifted in give that byte. -/
theorem shiftRightIn_byte : allBelow 256 (fun b =>
    ((List.range 8).map b.testBit).foldl shiftRightIn 0 = b) = true := by
  decide!

theorem accBit_bitsOfByte (b : Nat) (hb : b < 256) (acc : List Nat) :
    ((List.range 8).map b.testBit).foldl accBit (0, 0, acc) = (0, 0, acc ++ [b]) := by
  have h8 : (List.range 8).map b.testBit
      = [b.testBit 0, b.testBit 1, b.testBit 2, b.testBit 3, b.testBit 4, b.testBit 5,
          b.testBit 6, b.testBit 7] := rfl
  have hbyte : ((List.range 8).map b.testBit).foldl shiftRightIn 0 = b := by
    simpa using allBelow_spec shiftRightIn_byte b hb
  rw [h8] at hbyte ⊢
  rw [accBit_eight, hbyte]

/-- The bits of a byte sequence, shifted in, give the byte sequence back. -/
theorem accBit_bitsOfBytes (bytes : List Nat) (hb : ∀ x ∈ bytes, x < 256) (acc : List Nat) :
    (bitsOfBytes bytes).foldl accBit (0, 0, acc) = (0, 0, acc ++ bytes) := by
  induction bytes generalizing acc with
  | nil => simp [bitsOfBytes]
  | cons x rest ih =>
    have e : bitsOfBytes (x :: rest) = (List.range 8).map x.testBit ++ bitsOfBytes rest := by
      simp [bitsOfBytes]
    rw [e, List.foldl_append, accBit_bitsOfByte x (hb x (List.mem_cons_self _ _)),
      ih (fun y hy => hb y (List.mem_cons_of_mem _ hy))]
    simp

/-- The bits of a byte sequence that starts with a preamble byte start with a 1. -/
theorem bitsOfBytes_preamble (r : List Nat) :
    bitsOfBytes (0x55 :: r)
      = true :: ([false, true, false, true, false, true, false] ++ bitsOfBytes r) := by
  have e : (List.range 8).map (Nat.testBit 0x55)
      = [true, false, true, false, true, false, true, false] := by decide
  simp only [bitsOfBytes, List.flatMap_cons, e]
  rfl

/-- `Refresh` on the Manchester trace of a byte sequence that starts with a preamble byte
recovers the byte sequence and hands it to `BytesToFrames` once. -/
theorem Refresh_encode (env : Env) (p : Sampling) (hp : p.Valid) (r : List Nat)
    (hb : ∀ x ∈ r, x < 256) (d : Decoder) :
    ∃ starts ends, Ethernet10BaseTDecoder.Refresh env true (encode p (0x55 :: r)) d
      = .ok ⟨some (BytesToFrames env (0x55 :: r) starts ends
                (newCapture (encode p (0x55 :: r))) [] d.pcap).cap,
             (BytesToFrames env (0x55 :: r) starts ends
                (newCapture (encode p (0x55 :: r))) [] d.pcap).m_packets,
             (BytesToFrames env (0x55 :: r) starts ends
                (newCapture (encode p (0x55 :: r))) [] d.pcap).pcap⟩ := by
  obtain ⟨hk, hT, hhi, hlo⟩ := hp
  obtain ⟨bits, hbits⟩ : ∃ bits, bitsOfBytes (0x55 :: r) = true :: bits :=
    ⟨_, bitsOfBytes_preamble r⟩
  obtain ⟨S, hSdef⟩ : ∃ S, S = List.replicate p.lead 0
      ++ levels p.k p.hi p.lo (bitsOfBytes (0x55 :: r)) ++ List.replicate p.trail 0 := ⟨_, rfl⟩
  have henc : encode p (0x55 :: r) = traceOf p.timescale S := by rw [hSdef]; rfl
  have hdrop : S.drop p.lead
      = levels p.k p.hi p.lo (true :: bits) ++ List.replicate p.trail 0 := by
    rw [hSdef, hbits, List.append_assoc]
    exact List.drop_left' (List.length_replicate _ _)
  have hlen : p.lead + 2 * p.k * (bits.length + 1) + p.trail = S.length := by
    rw [hSdef, hbits]
    simp [levels_length]
    omega
  have hkk : bits.length + 1 ≤ 2 * p.k * (bits.length + 1) := by
    have : 1 * (bits.length + 1) ≤ 2 * p.k * (bits.length + 1) :=
      Nat.mul_le_mul_right _ (by omega)
    omega
  have hfind : FindFallingEdge 0 (traceOf p.timescale S) = some p.lead := by
    have h0 : (traceOf p.timescale S).m_samples.drop 0
        = List.replicate p.lead 0 ++ p.lo :: (List.replicate (p.k - 1) p.lo
          ++ (List.replicate p.k p.hi ++ levels p.k p.hi p.lo bits
            ++ List.replicate p.trail 0)) := by
      show S.drop 0 = _
      rw [List.drop_zero, hSdef, hbits, levels_cons, replicate_pos p.k hk]
      simp [firstLevel, secondLevel]
    have := FindEdge_found (traceOf p.timescale S) false _ _ _ 0 h0
      (fun x hx => by
        rw [List.eq_of_mem_replicate hx]
        exact zero_not_atLevel false)
      (by simpa [atLevel] using hlo)
    simpa [FindEdge] using this
  have htime := timeAt_traceOf p.timescale S p.lead (by omega)
  obtain ⟨s', hrec, hacc⟩ := recoverBits_levels p.k p.timescale p.hi p.lo hk hT hhi hlo S
    (List.replicate p.trail 0) (fun x hx => List.eq_of_mem_replicate hx) bits true p.lead
    ⟨p.lead, 0, 0, [], [], [], false, (p.lead : Int) * p.timescale, (p.lead : Int) * p.timescale⟩
    (S.length + 1) hdrop rfl rfl rfl (by omega)
  have hbytes : s'.bytes = 0x55 :: r := by
    have h := accBit_bitsOfBytes (0x55 :: r)
      (fun x hx => by
        rcases List.mem_cons.mp hx with h1 | h1
        · omega
        · exact hb x h1) []
    rw [hbits] at h
    rw [h] at hacc
    simpa using congrArg (fun t => t.2.2) hacc
  refine ⟨s'.starts, s'.ends, ?_⟩
  rw [henc]
  have hpos : 0 < (traceOf p.timescale S).m_samples.length := by
    show 0 < S.length
    omega
  obtain ⟨m, hm⟩ : ∃ m, (traceOf p.timescale S).m_samples.length = m + 1 :=
    ⟨(traceOf p.timescale S).m_samples.length - 1, by omega⟩
  have hlenS : (traceOf p.timescale S).m_samples.length = S.length := rfl
  unfold Ethernet10BaseTDecoder.Refresh
  simp only [Bool.not_true, Bool.false_eq_true, if_false]
  rw [frames, if_pos hpos]
  simp only [Bool.false_eq_true, if_false, hfind, htime, hlenS, hrec, hbytes]
  rw [← hlenS, hm, frames]
  by_cases h : s'.i < m + 1 <;> simp [h]

end Manchester

/-! ## `BytesToFrames` on frames with 802.1q tags -/

namespace EthernetProtocolDecoder
open SegmentType

theorem tagsFit_plain (e : Nat) (l : List Nat) (he : e ≠ 0x8100) :
    tagsFit e l = !l.isEmpty := by
  unfold tagsFit
  split <;> simp [he]

theorem fieldSymbols_plain (e : Nat) (l : List Nat) (he : e ≠ 0x8100) :
    fieldSymbols e l = l.map (fun b => ⟨TYPE_PAYLOAD, [b]⟩) := by
  unfold fieldSymbols
  split <;> simp [he]

/-- For an Ethertype other than `0x8100` the symbols are those of `frameSymbols`. -/
theorem taggedFrameSymbols_plain (f : Frame) (t : SegmentType) (he : f.ethertype ≠ 0x8100) :
    taggedFrameSymbols f t = frameSymbols f t := by
  unfold taggedFrameSymbols frameSymbols
  rw [fieldSymbols_plain _ _ he]

/-- The bytes held by the symbols after the Ethertype are the bytes after the Ethertype. -/
theorem fieldSymbols_bytes (n : Nat) : ∀ (e : Nat) (l : List Nat), l.length ≤ n →
    (fieldSymbols e l).flatMap EthernetFrameSegment.m_data = l := by
  have h : ∀ l : List Nat,
      (l.map (fun b => (⟨TYPE_PAYLOAD, [b]⟩ : EthernetFrameSegment))).flatMap
        EthernetFrameSegment.m_data = l := by
    intro l
    induction l with
    | nil => rfl
    | cons x r ih => simp [List.flatMap_cons, ih]
  induction n with
  | zero =>
    intro e l hl
    have : l = [] := List.length_eq_zero.mp (by omega)
    subst this
    rfl
  | succ n ih =>
    intro e l hl
    by_cases he : e = 0x8100
    · match l, hl with
      | t0 :: t1 :: e0 :: e1 :: rest, hl =>
        have hr : rest.length ≤ n := by simp at hl; omega
        unfold fieldSymbols
        rw [if_pos he]
        simp [List.flatMap_cons, ih _ rest hr]
      | [], _ => rfl
      | [a], _ => rfl
      | [a, b], _ => rfl
      | [a, b, c], _ => rfl
    · rw [fieldSymbols_plain _ _ he]
      exact h l

/-- The bytes held by the symbols of a frame are the bytes of the frame. -/
theorem taggedFrameSymbols_bytes (f : Frame) (t : SegmentType) :
    (taggedFrameSymbols f t).flatMap EthernetFrameSegment.m_data = f.bytes := by
  simp [taggedFrameSymbols, Frame.bytes, List.flatMap_append,
    fieldSymbols_bytes f.payload.length f.ethertype f.payload (Nat.le_refl _)]

theorem ethertype_tag_phase (env : Env) (bytes starts ends : List Nat) (i : Nat) (s : FrameState)
    (e0 e1 : Nat) (he : ((e0 <<< 8) ||| e1) % 65536 = 0x8100)
    (hs : s.segment = ⟨TYPE_ETHERTYPE, []⟩) :
    Runs env bytes starts ends [e0, e1] i s ⟨TYPE_VLAN_TAG, []⟩ [⟨TYPE_ETHERTYPE, [e0, e1]⟩] [] := by
  unfold Runs
  refine ⟨?_, ?_, ?_, ?_, ?_, ?_⟩ <;>
    simp [loop, step, hs, fixedField, pushSample, pushOffset, pushDuration, he,
      ethertypeHeaders_data]

theorem vlan_tag_phase (env : Env) (bytes starts ends : List Nat) (i : Nat) (s : FrameState)
    (t0 t1 : Nat) (hs : s.segment = ⟨TYPE_VLAN_TAG, []⟩) :
    Runs env bytes starts ends [t0, t1] i s ⟨TYPE_ETHERTYPE, []⟩ [⟨TYPE_VLAN_TAG, [t0, t1]⟩] [] := by
  unfold Runs
  refine ⟨?_, ?_, ?_, ?_, ?_, ?_⟩ <;>
    simp [loop, step, hs, fixedField, pushSample, pushOffset, pushDuration]

theorem tagsFit_tag (t0 t1 e0 e1 : Nat) (rest : List Nat) :
    tagsFit 0x8100 (t0 :: t1 :: e0 :: e1 :: rest) = tagsFit (e0 * 256 + e1) rest := by
  rw [tagsFit]; simp

theorem fieldSymbols_tag (t0 t1 e0 e1 : Nat) (rest : List Nat) :
    fieldSymbols 0x8100 (t0 :: t1 :: e0 :: e1 :: rest)
      = ⟨TYPE_VLAN_TAG, [t0, t1]⟩ :: ⟨TYPE_ETHERTYPE, [e0, e1]⟩
          :: fieldSymbols (e0 * 256 + e1) rest := by
  rw [fieldSymbols]; simp

theorem tagsFit_short (l : List Nat) (h : l.length < 4) : tagsFit 0x8100 l = false := by
  match l, h with
  | [], _ => rfl
  | [a], _ => rfl
  | [a, b], _ => rfl
  | [a, b, c], _ => rfl

/-- The tag of `vlanFrame` does not fit; those of `taggedFrame` and `doubleTaggedFrame` do, as
does the untagged `exampleFrame`. -/
theorem tagsFit_examples :
    tagsFit 0x8100 [0xaa] = false
      ∧ tagsFit taggedFrame.ethertype taggedFrame.payload = true
      ∧ tagsFit doubleTaggedFrame.ethertype doubleTaggedFrame.payload = true
      ∧ tagsFit exampleFrame.ethertype exampleFrame.payload = true
      ∧ fieldSymbols doubleTaggedFrame.ethertype doubleTaggedFrame.payload
          = [⟨TYPE_VLAN_TAG, [0x00, 0x05]⟩, ⟨TYPE_ETHERTYPE, [0x81, 0x00]⟩,
              ⟨TYPE_VLAN_TAG, [0x00, 0x07]⟩, ⟨TYPE_ETHERTYPE, [0x08, 0x06]⟩,
              ⟨TYPE_PAYLOAD, [0xaa]⟩, ⟨TYPE_PAYLOAD, [0xbb]⟩] := by
  decide

/-- The run of the loop from the Ethertype to the `return` of the check field, for bytes in
which every tag fits. -/
theorem tagged_tail_run (env : Env) (B starts ends fcs : List Nat) (hfl : fcs.length = 4)
    (hfb : ∀ x ∈ fcs, x < 256) (n : Nat) :
    ∀ (payload : List Nat) (e0 e1 i : Nat) (s : FrameState),
      payload.length ≤ n → e0 < 256 → e1 < 256 → (∀ x ∈ payload, x < 256) →
      tagsFit (e0 * 256 + e1) payload = true →
      s.segment = ⟨TYPE_ETHERTYPE, []⟩ → s.crc_actual = 0 →
      sub64 B.length 5 = i + 1 + payload.length →
      (loop env B starts ends ([e0, e1] ++ (payload ++ fcs)) i s).2 = true
        ∧ (loop env B starts ends ([e0, e1] ++ (payload ++ fcs)) i s).1.cap.m_samples
            = s.cap.m_samples ++ (⟨TYPE_ETHERTYPE, [e0, e1]⟩ :: fieldSymbols (e0 * 256 + e1) payload
                ++ [⟨if be32 fcs = env.CRC32 B s.crcstart (i + 1 + payload.length)
                      then TYPE_FCS_GOOD else TYPE_FCS_BAD, fcs⟩]) := by
  induction n with
  | zero =>
    intro payload e0 e1 i s hl h0 h1 hb ht hs hc h5
    have : payload = [] := List.length_eq_zero.mp (by omega)
    subst this
    by_cases he : e0 * 256 + e1 = 0x8100
    · rw [he, tagsFit_short _ (by simp)] at ht
      cases ht
    · rw [tagsFit_plain _ _ he] at ht
      simp at ht
  | succ n ih =>
    intro payload e0 e1 i s hl h0 h1 hb ht hs hc h5
    have chain : ∀ (xs ys : List Nat) (i j : Nat) (t : FrameState),
        (loop env B starts ends xs i t).2 = false → j = i + xs.length →
        loop env B starts ends (xs ++ ys) i t
          = loop env B starts ends ys j (loop env B starts ends xs i t).1 := by
      intro xs ys i j t h hj
      rw [hj]; exact loop_then env B starts ends xs ys i t h
    by_cases he : e0 * 256 + e1 = 0x8100
    · -- a tag and another Ethertype follow
      rw [he] at ht ⊢
      match payload, hl, hb, ht, h5 with
      | [], _, _, ht, _ => cases ht
      | [a], _, _, ht, _ => cases ht
      | [a, b], _, _, ht, _ => cases ht
      | [a, b, c], _, _, ht, _ => cases ht
      | t0 :: t1 :: f0 :: f1 :: rest, hl, hb, ht, h5 =>
        rw [tagsFit_tag] at ht
        rw [fieldSymbols_tag]
        have hcode : ((e0 <<< 8) ||| e1) % 65536 = 0x8100 := by
          rw [ethertype_code _ _ h0 h1]; exact he
        obtain ⟨a1, aa, ab, ac, ad, ae⟩ := ethertype_tag_phase env B starts ends i s e0 e1 hcode hs
        generalize ht1 : (loop env B starts ends [e0, e1] i s).1 = u1 at *
        obtain ⟨b1, ba, bb, bc, bd, be⟩ := vlan_tag_phase env B starts ends (i + 2) u1 t0 t1 aa
        generalize ht2 : (loop env B starts ends [t0, t1] (i + 2) u1).1 = u2 at *
        have hr : rest.length ≤ n := by simp at hl; omega
        obtain ⟨c1, c2⟩ := ih rest f0 f1 (i + 4) u2 hr (hb f0 (by simp)) (hb f1 (by simp))
          (fun x hx => hb x (by simp [hx])) ht ba (by rw [be, ae, hc])
          (by rw [h5]; simp; omega)
        have hrun : loop env B starts ends ([e0, e1] ++ (t0 :: t1 :: f0 :: f1 :: rest ++ fcs)) i s
            = loop env B starts ends ([f0, f1] ++ (rest ++ fcs)) (i + 4) u2 := by
          have e : [e0, e1] ++ (t0 :: t1 :: f0 :: f1 :: rest ++ fcs)
              = [e0, e1] ++ ([t0, t1] ++ ([f0, f1] ++ (rest ++ fcs))) := by simp
          rw [e, chain _ _ i (i + 2) s a1 (by simp), ht1,
            chain _ _ (i + 2) (i + 4) u1 b1 (by simp), ht2]
        have hidx : i + 4 + 1 + rest.length = i + 1 + (t0 :: t1 :: f0 :: f1 :: rest).length := by
          simp; omega
        rw [hrun]
        refine ⟨c1, ?_⟩
        rw [c2, bb, ab, bd, ad, hidx]
        simp
    · -- the payload follows
      rw [tagsFit_plain _ _ he] at ht
      rw [fieldSymbols_plain _ _ he]
      have hp : payload ≠ [] := by
        intro h; simp [h] at ht
      obtain ⟨q, last, hq⟩ : ∃ q last, payload = q ++ [last] :=
        ⟨payload.dropLast, payload.getLast hp, (List.dropLast_append_getLast hp).symm⟩
      have hpl : payload.length = q.length + 1 := by simp [hq]
      have hne : ((e0 <<< 8) ||| e1) % 65536 ≠ 0x8100 := by
        rw [ethertype_code _ _ h0 h1]; exact he
      obtain ⟨a1, aa, ab, ac, ad, ae⟩ := ethertype_phase env B starts ends i s e0 e1 hne hs
      generalize ht1 : (loop env B starts ends [e0, e1] i s).1 = u1 at *
      obtain ⟨q1, qa, qb, qc, qd, qe⟩ := payload_phase env B starts ends q (i + 2) u1
        (by rw [aa]) (fun j hj => by rw [h5]; omega)
      generalize ht2 : (loop env B starts ends q (i + 2) u1).1 = u2 at *
      obtain ⟨l1, la, lb, lc, ld, le⟩ := last_payload_step env B starts ends last
        (i + 2 + q.length) u2 qa (by rw [h5]; omega)
      generalize ht3 : (loop env B starts ends [last] (i + 2 + q.length) u2).1 = u3 at *
      have hcrc : u3.crc_actual = 0 := by rw [le, qe, ae, hc]
      obtain ⟨f1, f2, _, _⟩ := fcs_phase env B starts ends (i + 2 + q.length + 1) u3 fcs hfl hfb
        la hcrc
      have hrun : loop env B starts ends ([e0, e1] ++ (payload ++ fcs)) i s
          = loop env B starts ends fcs (i + 2 + q.length + 1) u3 := by
        have e : [e0, e1] ++ (payload ++ fcs) = [e0, e1] ++ (q ++ ([last] ++ fcs)) := by
          rw [hq]; simp
        rw [e, chain _ _ i (i + 2) s a1 (by simp), ht1,
          chain _ _ (i + 2) (i + 2 + q.length) u1 q1 rfl, ht2,
          chain _ _ (i + 2 + q.length) (i + 2 + q.length + 1) u2 l1 (by simp), ht3]
      have hlt : i + 1 + payload.length < 2 ^ 64 := by
        rw [← h5]; unfold sub64; omega
      have hidx : sub64 (i + 2 + q.length + 1) 1 = i + 1 + payload.length := by
        unfold sub64; omega
      have hcs : u3.crcstart = s.crcstart := by rw [ld, qd, ad]
      rw [hcs, hidx] at f2
      rw [hrun]
      refine ⟨f1, ?_⟩
      rw [f2, lb, qb, ab, hq]
      simp

/-- The run of the loop over a well-formed frame in which every tag fits. -/
theorem tagged_frame_run (env : Env) (f : Frame) (starts ends : List Nat) (s : FrameState)
    (hf : f.WellFormed) (ht : tagsFit f.ethertype f.payload = true)
    (hs : s.segment.m_type = TYPE_INVALID) (hc : s.crc_actual = 0) :
    (loop env f.bytes starts ends f.bytes 0 s).2 = true
      ∧ (loop env f.bytes starts ends f.bytes 0 s).1.cap.m_samples
          = s.cap.m_samples ++ taggedFrameSymbols f
              (if be32 f.fcs = env.CRC32 f.bytes (f.n + 1) (f.n + 14 + f.payload.length)
                then TYPE_FCS_GOOD else TYPE_FCS_BAD) := by
  have hlen := Frame_length f hf
  obtain ⟨hn, hd, hsr, h0, h1, hp, hfl, _, _, hpb, hfb, hL⟩ := hf
  have h5 : sub64 f.bytes.length 5 = f.n + 13 + 1 + f.payload.length := by
    unfold sub64; omega
  generalize hB : f.bytes = B at *
  have hBs : B = List.replicate f.n 0x55 ++ ([0xd5] ++ (f.dst ++ (f.src ++ ([f.e0, f.e1]
      ++ (f.payload ++ f.fcs))))) := by
    rw [← hB, Frame.bytes]
  have chain : ∀ (xs ys : List Nat) (i j : Nat) (t : FrameState),
      (loop env B starts ends xs i t).2 = false → j = i + xs.length →
      loop env B starts ends (xs ++ ys) i t
        = loop env B starts ends ys j (loop env B starts ends xs i t).1 := by
    intro xs ys i j t h hj
    rw [hj]; exact loop_then env B starts ends xs ys i t h
  -- preamble
  obtain ⟨p1, pa, pb, pc, pd, pe⟩ := preamble_phase env B starts ends f.n 0 s hn hs
  generalize ht1 : (loop env B starts ends (List.replicate f.n 0x55) 0 s).1 = t1 at *
  -- SFD
  obtain ⟨s1, s2, s3, s4, s5, s6⟩ := sfd_step env B starts ends f.n t1 _ pa
  generalize ht2 : (loop env B starts ends [0xd5] f.n t1).1 = t2 at *
  -- addresses
  obtain ⟨d1, da, db, dc, dd, de⟩ := fixed_six env B starts ends (f.n + 1) t2 f.dst hd
    TYPE_DST_MAC TYPE_SRC_MAC (Or.inl ⟨rfl, rfl⟩) s2
  generalize ht3 : (loop env B starts ends f.dst (f.n + 1) t2).1 = t3 at *
  obtain ⟨a1, aa, ab, ac, ad, ae⟩ := fixed_six env B starts ends (f.n + 7) t3 f.src hsr
    TYPE_SRC_MAC TYPE_ETHERTYPE (Or.inr ⟨rfl, rfl⟩) da
  generalize ht4 : (loop env B starts ends f.src (f.n + 7) t3).1 = t4 at *
  -- Ethertype, tags, payload and frame check
  have hcrc : t4.crc_actual = 0 := by rw [ae, de, s6, pe, hc]
  obtain ⟨r1, r2⟩ := tagged_tail_run env B starts ends f.fcs hfl hfb f.payload.length f.payload
    f.e0 f.e1 (f.n + 13) t4 (Nat.le_refl _) h0 h1 hpb ht aa hcrc h5
  have hrun' : loop env B starts ends (List.replicate f.n 0x55 ++ ([0xd5] ++ (f.dst ++ (f.src
      ++ ([f.e0, f.e1] ++ (f.payload ++ f.fcs)))))) 0 s
      = loop env B starts ends ([f.e0, f.e1] ++ (f.payload ++ f.fcs)) (f.n + 13) t4 := by
    rw [chain _ _ 0 f.n s p1 (by simp), ht1, chain _ _ f.n (f.n + 1) t1 s1 (by simp), ht2,
      chain _ _ (f.n + 1) (f.n + 7) t2 d1 (by rw [hd]), ht3,
      chain _ _ (f.n + 7) (f.n + 13) t3 a1 (by rw [hsr]), ht4]
  have hrun : loop env B starts ends B 0 s
      = loop env B starts ends ([f.e0, f.e1] ++ (f.payload ++ f.fcs)) (f.n + 13) t4 :=
    (congrArg (fun X => loop env B starts ends X 0 s) hBs).trans hrun'
  have hcs : t4.crcstart = f.n + 1 := by rw [ad, dd, s5]
  have hidx : f.n + 13 + 1 + f.payload.length = f.n + 14 + f.payload.length := by omega
  rw [hcs, hidx] at r2
  rw [hrun]
  refine ⟨r1, ?_⟩
  rw [r2, ab, db, s3, pb]
  simp [taggedFrameSymbols, Frame.ethertype]

/-- `BytesToFrames` on a well-formed frame in which every tag fits: the symbols and the
packet. -/
theorem BytesToFrames_tagged (env : Env) (f : Frame) (starts ends : List Nat)
    (cap : EthernetWaveform) (pk : List Packet) (pc : List PcapRecord)
    (hf : f.WellFormed) (ht : tagsFit f.ethertype f.payload = true) :
    (BytesToFrames env f.bytes starts ends cap pk pc).cap.m_samples
        = cap.m_samples ++ taggedFrameSymbols f
            (if be32 f.fcs = env.CRC32 f.bytes (f.n + 1) (f.n + 14 + f.payload.length)
              then TYPE_FCS_GOOD else TYPE_FCS_BAD)
      ∧ ∃ pack, (BytesToFrames env f.bytes starts ends cap pk pc).m_packets = pk ++ [pack] := by
  obtain ⟨r1, r2⟩ := tagged_frame_run env f starts ends (initState cap pc) hf ht rfl rfl
  refine ⟨r2, (loop env f.bytes starts ends f.bytes 0 (initState cap pc)).1.pack, ?_⟩
  show (if (loop env f.bytes starts ends f.bytes 0 (initState cap pc)).2 then _ else _) = _
  rw [r1]; simp

/-- A pass through the loop body that does not `return` adds no check symbol. -/
theorem step_noCheck (env : Env) (bytes starts ends : List Nat) (i b : Nat)
    (s s' : FrameState) (h : step env bytes starts ends i b s = .next s')
    (hn : NoCheck s.cap.m_samples) : NoCheck s'.cap.m_samples := by
  obtain ⟨⟨ty, data⟩, st, cs, ce, ca, pack, cap, pcap⟩ := s
  unfold NoCheck at hn ⊢
  cases ty <;> simp only [step, fixedField] at h <;> (try split_ifs at h) <;>
    (cases h
     simp_all [pushSample, pushOffset, pushDuration]
     try
       intro x hx
       rcases hx with h | h
       · exact hn x h
       · first
         | (subst h; simp; done)
         | (rcases h with h | h <;> (subst h; simp; done)))

/-- As long as the loop has not returned, the output holds no check symbol. -/
theorem loop_noCheck (env : Env) (bytes starts ends : List Nat) (xs : List Nat) (i : Nat)
    (s : FrameState) (h : (loop env bytes starts ends xs i s).2 = false)
    (hn : NoCheck s.cap.m_samples) :
    NoCheck (loop env bytes starts ends xs i s).1.cap.m_samples := by
  induction xs generalizing i s with
  | nil => exact hn
  | cons b xs ih =>
    simp only [loop] at h ⊢
    cases hs : step env bytes starts ends i b s with
    | done s' => rw [hs] at h; simp at h
    | next s' =>
      rw [hs] at h
      exact ih (i + 1) s' h (step_noCheck _ _ _ _ _ _ _ _ hs hn)

/-- From the Ethertype on, bytes in which a tag does not fit never reach the `return` of the
check field. -/
theorem short_tail_runs (env : Env) (B starts ends fcs : List Nat) (hfl : fcs.length = 4)
    (n : Nat) :
    ∀ (payload : List Nat) (e0 e1 i : Nat) (s : FrameState),
      payload.length ≤ n → e0 < 256 → e1 < 256 → (∀ x ∈ payload, x < 256) →
      tagsFit (e0 * 256 + e1) payload = false →
      s.segment = ⟨TYPE_ETHERTYPE, []⟩ →
      sub64 B.length 5 = i + 1 + payload.length →
      (loop env B starts ends ([e0, e1] ++ (payload ++ fcs)) i s).2 = false := by
  have chain : ∀ (xs ys : List Nat) (i j : Nat) (t : FrameState),
      (loop env B starts ends xs i t).2 = false → j = i + xs.length →
      loop env B starts ends (xs ++ ys) i t
        = loop env B starts ends ys j (loop env B starts ends xs i t).1 := by
    intro xs ys i j t h hj
    rw [hj]; exact loop_then env B starts ends xs ys i t h
  -- an Ethertype `0x8100` with fewer than four bytes before the check field
  have short : ∀ (payload : List Nat) (e0 e1 i : Nat) (s : FrameState),
      payload.length < 4 → ((e0 <<< 8) ||| e1) % 65536 = 0x8100 →
      s.segment = ⟨TYPE_ETHERTYPE, []⟩ →
      (loop env B starts ends ([e0, e1] ++ (payload ++ fcs)) i s).2 = false := by
    intro payload e0 e1 i s hl hcode hs
    obtain ⟨t0, t1, tail, htail, hlen⟩ : ∃ t0 t1 tail, payload ++ fcs = [t0, t1] ++ tail
        ∧ tail.length ≤ 5 := by
      match fcs, hfl with
      | [a, b, c, d], _ =>
        match payload, hl with
        | [], _ => exact ⟨a, b, [c, d], rfl, by simp⟩
        | [x], _ => exact ⟨x, a, [b, c, d], rfl, by simp⟩
        | [x, y], _ => exact ⟨x, y, [a, b, c, d], rfl, by simp⟩
        | [x, y, z], _ => exact ⟨x, y, [z, a, b, c, d], rfl, by simp⟩
    obtain ⟨a1, aa, _⟩ := ethertype_tag_phase env B starts ends i s e0 e1 hcode hs
    generalize ht1 : (loop env B starts ends [e0, e1] i s).1 = u1 at *
    obtain ⟨b1, ba, _⟩ := vlan_tag_phase env B starts ends (i + 2) u1 t0 t1 aa
    generalize ht2 : (loop env B starts ends [t0, t1] (i + 2) u1).1 = u2 at *
    rw [htail, chain _ _ i (i + 2) s a1 (by simp), ht1,
      chain _ _ (i + 2) (i + 4) u1 b1 (by simp), ht2]
    apply loop_short
    have hp : progress u2 = 14 := by simp [progress, ba]
    omega
  induction n with
  | zero =>
    intro payload e0 e1 i s hl h0 h1 hb ht hs h5
    have : payload = [] := List.length_eq_zero.mp (by omega)
    subst this
    by_cases he : e0 * 256 + e1 = 0x8100
    · exact short [] e0 e1 i s (by simp) (by rw [ethertype_code _ _ h0 h1]; exact he) hs
    · have hne : ((e0 <<< 8) ||| e1) % 65536 ≠ 0x8100 := by
        rw [ethertype_code _ _ h0 h1]; exact he
      obtain ⟨a1, aa, _⟩ := ethertype_phase env B starts ends i s e0 e1 hne hs
      rw [chain _ _ i (i + 2) s a1 (by simp)]
      simp only [List.nil_append]
      exact (payload_phase env B starts ends fcs (i + 2) _ (by rw [aa])
        (fun j hj => by rw [h5]; simp; omega)).1
  | succ n ih =>
    intro payload e0 e1 i s hl h0 h1 hb ht hs h5
    by_cases he : e0 * 256 + e1 = 0x8100
    · have hcode : ((e0 <<< 8) ||| e1) % 65536 = 0x8100 := by
        rw [ethertype_code _ _ h0 h1]; exact he
      rw [he] at ht
      match payload, hl, hb, ht, h5 with
      | [], _, _, _, _ => exact short [] e0 e1 i s (by simp) hcode hs
      | [a], _, _, _, _ => exact short [a] e0 e1 i s (by simp) hcode hs
      | [a, b], _, _, _, _ => exact short [a, b] e0 e1 i s (by simp) hcode hs
      | [a, b, c], _, _, _, _ => exact short [a, b, c] e0 e1 i s (by simp) hcode hs
      | t0 :: t1 :: f0 :: f1 :: rest, hl, hb, ht, h5 =>
        rw [tagsFit_tag] at ht
        obtain ⟨a1, aa, _⟩ := ethertype_tag_phase env B starts ends i s e0 e1 hcode hs
        generalize ht1 : (loop env B starts ends [e0, e1] i s).1 = u1 at *
        obtain ⟨b1, ba, _⟩ := vlan_tag_phase env B starts ends (i + 2) u1 t0 t1 aa
        generalize ht2 : (loop env B starts ends [t0, t1] (i + 2) u1).1 = u2 at *
        have hr : rest.length ≤ n := by simp at hl; omega
        have e : [e0, e1] ++ (t0 :: t1 :: f0 :: f1 :: rest ++ fcs)
            = [e0, e1] ++ ([t0, t1] ++ ([f0, f1] ++ (rest ++ fcs))) := by simp
        rw [e, chain _ _ i (i + 2) s a1 (by simp), ht1,
          chain _ _ (i + 2) (i + 4) u1 b1 (by simp), ht2]
        exact ih rest f0 f1 (i + 4) u2 hr (hb f0 (by simp)) (hb f1 (by simp))
          (fun x hx => hb x (by simp [hx])) ht ba (by rw [h5]; simp; omega)
    · rw [tagsFit_plain _ _ he] at ht
      have hp : payload = [] := by
        cases payload with
        | nil => rfl
        | cons a l => simp at ht
      subst hp
      have hne : ((e0 <<< 8) ||| e1) % 65536 ≠ 0x8100 := by
        rw [ethertype_code _ _ h0 h1]; exact he
      obtain ⟨a1, aa, _⟩ := ethertype_phase env B starts ends i s e0 e1 hne hs
      rw [chain _ _ i (i + 2) s a1 (by simp)]
      simp only [List.nil_append]
      exact (payload_phase env B starts ends fcs (i + 2) _ (by rw [aa])
        (fun j hj => by rw [h5]; simp; omega)).1

/-- `BytesToFrames` on a well-formed frame in which a tag does not fit: no check symbol and no
packet. -/
theorem BytesToFrames_tag_cut (env : Env) (f : Frame) (starts ends : List Nat)
    (cap : EthernetWaveform) (pk : List Packet) (pc : List PcapRecord)
    (hf : f.WellFormed) (ht : tagsFit f.ethertype f.payload = false)
    (hn : NoCheck cap.m_samples) :
    NoCheck (BytesToFrames env f.bytes starts ends cap pk pc).cap.m_samples
      ∧ (BytesToFrames env f.bytes starts ends cap pk pc).m_packets = pk := by
  have hlen := Frame_length f hf
  obtain ⟨hn1, hd, hsr, h0, h1, hp, hfl, _, _, hpb, hfb, hL⟩ := hf
  have h5 : sub64 f.bytes.length 5 = f.n + 13 + 1 + f.payload.length := by
    unfold sub64; omega
  have key : (loop env f.bytes starts ends f.bytes 0 (initState cap pc)).2 = false := by
    generalize hB : f.bytes = B at *
    generalize hs0 : initState cap pc = s at *
    have hs : s.segment.m_type = TYPE_INVALID := by rw [← hs0]; rfl
    have hBs : B = List.replicate f.n 0x55 ++ ([0xd5] ++ (f.dst ++ (f.src ++ ([f.e0, f.e1]
        ++ (f.payload ++ f.fcs))))) := by
      rw [← hB, Frame.bytes]
    have chain : ∀ (xs ys : List Nat) (i j : Nat) (t : FrameState),
        (loop env B starts ends xs i t).2 = false → j = i + xs.length →
        loop env B starts ends (xs ++ ys) i t
          = loop env B starts ends ys j (loop env B starts ends xs i t).1 := by
      intro xs ys i j t h hj
      rw [hj]; exact loop_then env B starts ends xs ys i t h
    obtain ⟨p1, pa, _⟩ := preamble_phase env B starts ends f.n 0 s hn1 hs
    generalize ht1 : (loop env B starts ends (List.replicate f.n 0x55) 0 s).1 = t1 at *
    obtain ⟨s1, s2, _⟩ := sfd_step env B starts ends f.n t1 _ pa
    generalize ht2 : (loop env B starts ends [0xd5] f.n t1).1 = t2 at *
    obtain ⟨d1, da, _⟩ := fixed_six env B starts ends (f.n + 1) t2 f.dst hd
      TYPE_DST_MAC TYPE_SRC_MAC (Or.inl ⟨rfl, rfl⟩) s2
    generalize ht3 : (loop env B starts ends f.dst (f.n + 1) t2).1 = t3 at *
    obtain ⟨a1, aa, _⟩ := fixed_six env B starts ends (f.n + 7) t3 f.src hsr
      TYPE_SRC_MAC TYPE_ETHERTYPE (Or.inr ⟨rfl, rfl⟩) da
    generalize ht4 : (loop env B starts ends f.src (f.n + 7) t3).1 = t4 at *
    have hrun' : loop env B starts ends (List.replicate f.n 0x55 ++ ([0xd5] ++ (f.dst ++ (f.src
        ++ ([f.e0, f.e1] ++ (f.payload ++ f.fcs)))))) 0 s
        = loop env B starts ends ([f.e0, f.e1] ++ (f.payload ++ f.fcs)) (f.n + 13) t4 := by
      rw [chain _ _ 0 f.n s p1 (by simp), ht1, chain _ _ f.n (f.n + 1) t1 s1 (by simp), ht2,
        chain _ _ (f.n + 1) (f.n + 7) t2 d1 (by rw [hd]), ht3,
        chain _ _ (f.n + 7) (f.n + 13) t3 a1 (by rw [hsr]), ht4]
    have hrun : loop env B starts ends B 0 s
        = loop env B starts ends ([f.e0, f.e1] ++ (f.payload ++ f.fcs)) (f.n + 13) t4 :=
      (congrArg (fun X => loop env B starts ends X 0 s) hBs).trans hrun'
    rw [hrun]
    exact short_tail_runs env B starts ends f.fcs hfl f.payload.length f.payload
      f.e0 f.e1 (f.n + 13) t4 (Nat.le_refl _) h0 h1 hpb ht aa h5
  constructor
  · exact loop_noCheck env f.bytes starts ends f.bytes 0 (initState cap pc) key hn
  · show (if (loop env f.bytes starts ends f.bytes 0 (initState cap pc)).2 then _ else _) = _
    rw [key]; simp

end EthernetProtocolDecoder

namespace Manchester
open Ethernet10BaseTDecoder EthernetProtocolDecoder SegmentType

/-- The bytes held by the symbols of a frame are the bytes of the frame. -/
theorem frameSymbols_bytes (f : Frame) (t : SegmentType) :
    (frameSymbols f t).flatMap EthernetFrameSegment.m_data = f.bytes := by
  have h : ∀ l : List Nat,
      (l.map (fun b => (⟨TYPE_PAYLOAD, [b]⟩ : EthernetFrameSegment))).flatMap
        EthernetFrameSegment.m_data = l := by
    intro l
    induction l with
    | nil => rfl
    | cons x r ih => simp [List.flatMap_cons, ih]
  simp [frameSymbols, Frame.bytes, List.flatMap_append, h]

/-- C3 as stated fails: `vlanFrame` is framed as the claim asks (one preamble byte, SFD, two
6-byte addresses, a 2-byte Ethertype, one payload byte, and four check bytes equal to the CRC32
of the bytes after the SFD), but its Ethertype is `0x8100`, so `BytesToFrames` reads the payload
byte and the check bytes as a VLAN tag, a second Ethertype and a payload byte, and the output
of `Refresh` on its Manchester trace has no check symbol at all. -/
theorem C3_counterexample :
    vlanFrame.WellFormed
    ∧ be32 vlanFrame.fcs = exampleEnv.CRC32 vlanFrame.bytes (vlanFrame.n + 1)
        (vlanFrame.n + 14 + vlanFrame.payload.length)
    ∧ exampleSampling.Valid
    ∧ symbolsOf (Ethernet10BaseTDecoder.Refresh exampleEnv true
          (encode exampleSampling vlanFrame.bytes) freshDecoder)
        = some [⟨TYPE_PREAMBLE, [0x55]⟩, ⟨TYPE_SFD, [0xd5]⟩, ⟨TYPE_DST_MAC, [1, 2, 3, 4, 5, 6]⟩,
            ⟨TYPE_SRC_MAC, [7, 8, 9, 10, 11, 12]⟩, ⟨TYPE_ETHERTYPE, [0x81, 0x00]⟩,
            ⟨TYPE_VLAN_TAG, [0xaa, 0]⟩, ⟨TYPE_ETHERTYPE, [0, 0]⟩, ⟨TYPE_PAYLOAD, [0]⟩]
    ∧ packetsOf (Ethernet10BaseTDecoder.Refresh exampleEnv true
          (encode exampleSampling vlanFrame.bytes) freshDecoder) = some [] := by
  decide!

/-- The bytes of a well-formed frame start with `0x55` and are all below 256. -/
theorem frame_bytes_preamble (f : Frame) (hf : f.WellFormed) :
    ∃ r, f.bytes = 0x55 :: r ∧ ∀ x ∈ r, x < 256 := by
  obtain ⟨m, hm⟩ : ∃ m, f.n = m + 1 := ⟨f.n - 1, by have := hf.1; omega⟩
  have hbytes : f.bytes = 0x55 :: (List.replicate m 0x55
      ++ ([0xd5] ++ (f.dst ++ (f.src ++ ([f.e0, f.e1] ++ (f.payload ++ f.fcs)))))) := by
    unfold Frame.bytes
    rw [hm]
    rfl
  refine ⟨_, hbytes, ?_⟩
  obtain ⟨_, _, _, h4, h5, _, _, h8, h9, h10, h11, _⟩ := hf
  intro x hx
  simp only [List.mem_append, List.mem_replicate, List.mem_cons, List.mem_singleton,
    List.not_mem_nil, or_false] at hx
  rcases hx with h | h | h | h | h | h | h
  · omega
  · omega
  · exact h8 x h
  · exact h9 x h
  · rcases h with h | h <;> omega
  · exact h10 x h
  · exact h11 x h

/-- The condition on the tags in C3 cannot be dropped: for every well-formed frame in which a
tag does not fit (an Ethertype `0x8100` that is not followed by a 2-byte tag, another 2-byte
Ethertype and at least one more byte before the check field) and every Manchester trace of its
bytes, the output of `Refresh` holds no check symbol and no packet, whatever the CRC32 is. -/
theorem Refresh_tag_cut (env : Env) (p : Sampling) (f : Frame) (d : Decoder)
    (hp : p.Valid) (hf : f.WellFormed) (ht : tagsFit f.ethertype f.payload = false) :
    ∃ cap pc, Ethernet10BaseTDecoder.Refresh env true (encode p f.bytes) d
        = .ok ⟨some cap, [], pc⟩
      ∧ NoCheck cap.m_samples := by
  obtain ⟨r, hbytes, hlt⟩ := frame_bytes_preamble f hf
  obtain ⟨starts, ends, hR⟩ := Refresh_encode env p hp r hlt d
  rw [← hbytes] at hR
  obtain ⟨r1, r2⟩ := BytesToFrames_tag_cut env f starts ends (newCapture (encode p f.bytes)) []
    d.pcap hf ht (fun x hx => by cases hx)
  rw [r2] at hR
  exact ⟨_, _, hR, r1⟩

/-- C3 (amended). For every well-formed frame (one or more preamble bytes `0x55`, the SFD, two
6-byte addresses, a 2-byte Ethertype, at least one payload byte and four check bytes that, read
big-endian, equal the CRC32 of the bytes from the one after the SFD to the last byte before the
check field) in which every tag fits (the bytes after an Ethertype `0x8100` are a 2-byte tag and
another 2-byte Ethertype, and at least one byte is left between the last Ethertype and the check
field; nothing is asked of a frame with another Ethertype) and every Manchester trace of its
bytes (least significant bit first, a mid-bit rising edge for a 1, `k >= 1` samples for every
half bit of 50 ns, levels above 1 V and below -1 V, any number of idle samples before and
after), `Refresh` returns with an output waveform whose symbols are exactly the symbols of the
frame (PREAMBLE, SFD, DST_MAC, SRC_MAC, ETHERTYPE, a VLAN_TAG and an ETHERTYPE for every tag,
one PAYLOAD for every remaining byte), the last one of type FCS_GOOD holding the check bytes;
the bytes of the symbols in order are the bytes of the frame, and one packet is produced. -/
theorem C3_manchester_round_trip (env : Env) (p : Sampling) (f : Frame) (d : Decoder)
    (hp : p.Valid) (hf : f.WellFormed) (ht : tagsFit f.ethertype f.payload = true)
    (hcrc : be32 f.fcs = env.CRC32 f.bytes (f.n + 1) (f.n + 14 + f.payload.length)) :
    ∃ cap pack pc, Ethernet10BaseTDecoder.Refresh env true (encode p f.bytes) d
        = .ok ⟨some cap, [pack], pc⟩
      ∧ cap.m_samples = taggedFrameSymbols f TYPE_FCS_GOOD
      ∧ cap.m_samples.getLast? = some ⟨TYPE_FCS_GOOD, f.fcs⟩
      ∧ symbolBytes cap = f.bytes := by
  obtain ⟨r, hbytes, hlt⟩ := frame_bytes_preamble f hf
  obtain ⟨starts, ends, hR⟩ := Refresh_encode env p hp r hlt d
  rw [← hbytes] at hR
  obtain ⟨r1, pack, r2⟩ := BytesToFrames_tagged env f starts ends
    (newCapture (encode p f.bytes)) [] d.pcap hf ht
  rw [if_pos hcrc] at r1
  rw [r2] at hR
  have hs : (BytesToFrames env f.bytes starts ends (newCapture (encode p f.bytes)) []
      d.pcap).cap.m_samples = taggedFrameSymbols f TYPE_FCS_GOOD := by
    rw [r1]; rfl
  refine ⟨_, pack, _, hR, hs, ?_, ?_⟩
  · rw [hs]
    unfold taggedFrameSymbols
    exact List.getLast?_concat _
  · unfold symbolBytes
    rw [hs]
    exact taggedFrameSymbols_bytes f _

/-- C3 at `taggedFrame`, a frame with one 802.1q tag, one sample for every half bit. -/
theorem C3_manchester_round_trip_witness :
    (exampleSampling.Valid ∧ taggedFrame.WellFormed
      ∧ tagsFit taggedFrame.ethertype taggedFrame.payload = true
      ∧ be32 taggedFrame.fcs = exampleEnv.CRC32 taggedFrame.bytes (taggedFrame.n + 1)
          (taggedFrame.n + 14 + taggedFrame.payload.length))
    ∧ ∃ cap pack pc, Ethernet10BaseTDecoder.Refresh exampleEnv true
          (encode exampleSampling taggedFrame.bytes) freshDecoder = .ok ⟨some cap, [pack], pc⟩
        ∧ cap.m_samples = taggedFrameSymbols taggedFrame TYPE_FCS_GOOD
        ∧ cap.m_samples.getLast? = some ⟨TYPE_FCS_GOOD, taggedFrame.fcs⟩
        ∧ symbolBytes cap = taggedFrame.bytes :=
  ⟨⟨by decide!, by decide, by decide, by decide⟩,
    C3_manchester_round_trip exampleEnv exampleSampling taggedFrame freshDecoder
      (by decide!) (by decide) (by decide) (by decide)⟩

end Manchester

namespace Ethernet10BaseTDecoder
open EthernetProtocolDecoder

theorem findRisingFrom_some (cap : AnalogWaveform) (fuel j r : Nat)
    (h : findRisingFrom cap fuel j = some r) :
    j ≤ r ∧ r < cap.m_samples.length ∧ cap.m_samples.getD r 0 > 1 := by
  induction fuel generalizing j with
  | zero => simp [findRisingFrom] at h
  | succ n ih =>
    rw [findRisingFrom] at h
    split_ifs at h with h1 h2
    · cases h
      exact ⟨Nat.le_refl _, h1, h2⟩
    · obtain ⟨a, b, c⟩ := ih (j + 1) h
      exact ⟨by omega, b, c⟩

theorem findFallingFrom_some (cap : AnalogWaveform) (fuel j r : Nat)
    (h : findFallingFrom cap fuel j = some r) :
    j ≤ r ∧ r < cap.m_samples.length ∧ cap.m_samples.getD r 0 < -1 := by
  induction fuel generalizing j with
  | zero => simp [findFallingFrom] at h
  | succ n ih =>
    rw [findFallingFrom] at h
    split_ifs at h with h1 h2
    · cases h
      exact ⟨Nat.le_refl _, h1, h2⟩
    · obtain ⟨a, b, c⟩ := ih (j + 1) h
      exact ⟨by omega, b, c⟩

/-- What `FindEdge` returns is an index from `i` on, inside the samples, of a sample at the level
asked for. -/
theorem FindEdge_some (cap : AnalogWaveform) (pol : Bool) (i r : Nat)
    (h : FindEdge i cap pol = some r) :
    i ≤ r ∧ r < cap.m_samples.length ∧ atLevel pol (cap.m_samples.getD r 0) := by
  cases pol with
  | true => exact findRisingFrom_some cap _ i r h
  | false => exact findFallingFrom_some cap _ i r h

theorem atLevel_exclusive (pol : Bool) (v : ℚ) (h1 : atLevel pol v) (h2 : atLevel (!pol) v) :
    False := by
  cases pol <;> simp [atLevel] at h1 h2 <;> linarith

theorem seekTarget_bounds (din : AnalogWaveform) (target : Int) (fuel i : Nat)
    (hi : i ≤ din.m_samples.length) :
    i ≤ seekTarget din target fuel i ∧ seekTarget din target fuel i ≤ din.m_samples.length := by
  induction fuel generalizing i with
  | zero => exact ⟨Nat.le_refl _, hi⟩
  | succ n ih =>
    rw [seekTarget]
    split_ifs with h1 h2
    · exact ⟨Nat.le_refl _, hi⟩
    · obtain ⟨a, b⟩ := ih (i + 1) h1
      exact ⟨by omega, b⟩
    · exact ⟨Nat.le_refl _, hi⟩

theorem shiftBit_bytes (s : BitState) : s.bytes <+: (shiftBit s).bytes := by
  unfold shiftBit
  simp only
  split_ifs <;> simp

/-- One pass of the inner loop: when it reaches the end of the body the index has moved forward
and is still at most the number of samples; in every case the bytes recovered before are
kept. -/
theorem bitStep_cases (din : AnalogWaveform) (s : BitState) :
    match bitStep din s with
    | .next s' => s.i < s'.i ∧ s'.i ≤ din.m_samples.length ∧ s.bytes <+: s'.bytes
    | .frameEnd s' _ => s.bytes <+: s'.bytes
    | .outOfRange => True := by
  unfold bitStep
  cases h1 : FindEdge s.i din (!s.current_state) with
  | none => exact List.prefix_refl _
  | some i1 =>
    obtain ⟨a1, b1, c1⟩ := FindEdge_some din _ _ _ h1
    simp only
    cases h2 : timeAt din i1 with
    | none => trivial
    | some edgepos =>
      simp only
      split_ifs with h3 h4
      · exact List.prefix_refl _
      · cases h5 : timeAt din (i1 + 1) with
        | none => trivial
        | some t => exact ⟨by show s.i < i1 + 1; omega, by show i1 + 1 ≤ _; omega,
            List.prefix_refl _⟩
      · have hsb := shiftBit_bytes { s with i := i1 }
        cases h6 : FindEdge i1 din s.current_state with
        | none => exact hsb
        | some i2 =>
          obtain ⟨a2, b2, c2⟩ := FindEdge_some din _ _ _ h6
          have hne : i1 ≠ i2 := by
            intro e
            rw [← e] at c2
            exact atLevel_exclusive _ _ c2 c1
          simp only
          cases h7 : timeAt din i2 with
          | none => trivial
          | some edgepos2 =>
            simp only
            split_ifs with h8 h9
            · exact hsb
            · have hpos : edgepos = din.m_offsets.getD i1 0 * din.m_timescale := by
                unfold timeAt at h2
                split_ifs at h2
                cases h2; rfl
              obtain ⟨m, hm⟩ : ∃ m, din.m_samples.length - i1 = m + 1 :=
                ⟨din.m_samples.length - i1 - 1, by omega⟩
              have hseek : i1 + 1 ≤ seekTarget din (edgepos + ui_halfwidth)
                    (din.m_samples.length - i1) i1
                  ∧ seekTarget din (edgepos + ui_halfwidth) (din.m_samples.length - i1) i1
                    ≤ din.m_samples.length := by
                rw [hm, seekTarget, if_pos b1]
                have : ¬ (din.m_offsets.getD i1 0 * din.m_timescale ≥ edgepos + ui_halfwidth) := by
                  rw [← hpos]; simp [ui_halfwidth]
                rw [if_neg this]
                exact seekTarget_bounds din _ m (i1 + 1) (by omega)
              cases h10 : timeAt din (seekTarget din (edgepos + ui_halfwidth)
                  (din.m_samples.length - i1) i1) with
              | none => trivial
              | some t => exact ⟨by show s.i < seekTarget _ _ _ _; omega, hseek.2, hsb⟩
            · exact ⟨by show s.i < i2; omega, by show i2 ≤ _; omega, hsb⟩

/-- The inner loop with enough fuel ends the frame or reads past the end of the offsets; the
bytes recovered before are kept. -/
theorem recoverBits_keeps (din : AnalogWaveform) :
    ∀ (fuel : Nat) (s : BitState), s.i ≤ din.m_samples.length →
      din.m_samples.length + 1 ≤ s.i + fuel →
      recoverBits din fuel s = .outOfRange
        ∨ ∃ s' d, recoverBits din fuel s = .frame s' d ∧ s.bytes <+: s'.bytes := by
  intro fuel
  induction fuel with
  | zero => intro s h1 h2; omega
  | succ n ih =>
    intro s h1 h2
    rw [recoverBits]
    split_ifs with h3
    · have hc := bitStep_cases din s
      cases hb : bitStep din s with
      | next s' =>
        rw [hb] at hc
        simp only
        rcases ih s' hc.2.1 (by omega) with h | ⟨s'', d, e1, e2⟩
        · exact Or.inl h
        · exact Or.inr ⟨s'', d, e1, hc.2.2.trans e2⟩
      | frameEnd s' d =>
        rw [hb] at hc
        exact Or.inr ⟨s', d, rfl, hc⟩
      | outOfRange => exact Or.inl rfl
    · exact Or.inr ⟨s, false, rfl, List.prefix_refl _⟩

end Ethernet10BaseTDecoder

namespace Manchester
open Ethernet10BaseTDecoder EthernetProtocolDecoder

/-- One pass of the inner loop on a well-placed bit, whatever follows it: the bit is shifted in
unless the pass reads past the end of the offsets. -/
theorem bitStep_accept_acc (k : Nat) (T : Int) (hi lo : ℚ) (hk : 1 ≤ k)
    (hT : (k : Int) * T = 50000000) (hhi : 1 < hi) (hlo : lo < -1)
    (S : List ℚ) (i : Nat) (b : Bool) (tail : List ℚ) (s : BitState)
    (hS : S.drop i = levels k hi lo [b] ++ tail)
    (hsi : s.i = i) (hsu : s.ui_start = (i : Int) * T) (hsc : s.current_state = !b) :
    match bitStep (traceOf T S) s with
    | .next s' => (s'.current_byte, s'.bitcount, s'.bytes)
        = accBit (s.current_byte, s.bitcount, s.bytes) b
    | .frameEnd s' _ => (s'.current_byte, s'.bitcount, s'.bytes)
        = accBit (s.current_byte, s.bitcount, s.bytes) b
    | .outOfRange => True := by
  have hS1 : S.drop i = List.replicate k (firstLevel hi lo b)
      ++ (List.replicate k (secondLevel hi lo b) ++ tail) := by
    rw [hS, levels_cons]; simp [levels]
  have haccb : ((shiftBit { s with i := i + k }).current_byte,
      (shiftBit { s with i := i + k }).bitcount, (shiftBit { s with i := i + k }).bytes)
      = accBit (s.current_byte, s.bitcount, s.bytes) b := by
    have h := shiftBit_acc { s with i := i + k }
    have e : (!({ s with i := i + k } : BitState).current_state) = b := by simp [hsc]
    rw [e] at h
    exact h
  rw [bitStep_accept k T hi lo hk hT hhi hlo S i b _ s hS1 hsi hsu hsc]
  cases FindEdge (i + k) (traceOf T S) (!b) with
  | none => exact haccb
  | some i2 =>
    simp only
    cases timeAt (traceOf T S) i2 with
    | none => trivial
    | some edgepos2 =>
      simp only
      split_ifs
      · exact haccb
      · cases timeAt (traceOf T S) (seekTarget (traceOf T S)
            (((i + k : Nat) : Int) * T + ui_halfwidth) (S.length - (i + k)) (i + k)) with
        | none => trivial
        | some t => exact haccb
      · exact haccb

theorem accBit_bytes (a : Nat × Nat × List Nat) (bit : Bool) : a.2.2 <+: (accBit a bit).2.2 := by
  unfold accBit
  simp only
  split_ifs <;> simp

theorem foldl_accBit_bytes (bits : List Bool) (a : Nat × Nat × List Nat) :
    a.2.2 <+: (bits.foldl accBit a).2.2 := by
  induction bits generalizing a with
  | nil => exact List.prefix_refl _
  | cons b rest ih => exact (accBit_bytes a b).trans (ih _)

/-- The inner loop on the samples of a bit sequence followed by any samples at all: unless it
reads past the end of the offsets, it ends the frame, and the bytes recovered start with the
bytes that the bits of the sequence complete. -/
theorem recoverBits_prefix (k : Nat) (T : Int) (hi lo : ℚ) (hk : 1 ≤ k)
    (hT : (k : Int) * T = 50000000) (hhi : 1 < hi) (hlo : lo < -1)
    (S : List ℚ) (tail : List ℚ) :
    ∀ (bits : List Bool) (b : Bool) (i : Nat) (s : BitState) (fuel : Nat),
      S.drop i = levels k hi lo (b :: bits) ++ tail → s.i = i → s.ui_start = (i : Int) * T →
      s.current_state = (!b) → S.length + 1 ≤ i + fuel →
      recoverBits (traceOf T S) fuel s = .outOfRange
        ∨ ∃ s' d, recoverBits (traceOf T S) fuel s = .frame s' d
          ∧ ((b :: bits).foldl accBit (s.current_byte, s.bitcount, s.bytes)).2.2
              <+: s'.bytes := by
  intro bits
  induction bits with
  | nil =>
    intro b i s fuel hS hsi hsu hsc hfuel
    have hlen : s.i < (traceOf T S).m_samples.length := by
      show s.i < S.length
      have := congrArg List.length hS
      rw [levels_cons] at this
      simp only [List.length_drop, List.length_append, List.length_replicate] at this
      omega
    have hlenS : (traceOf T S).m_samples.length = S.length := rfl
    obtain ⟨fuel', rfl⟩ : ∃ f, fuel = f + 1 := ⟨fuel - 1, by omega⟩
    have hacc := bitStep_accept_acc k T hi lo hk hT hhi hlo S i b tail s hS hsi hsu hsc
    have hc := bitStep_cases (traceOf T S) s
    rw [recoverBits, if_pos hlen]
    cases hb : bitStep (traceOf T S) s with
    | next s1 =>
      rw [hb] at hacc hc
      simp only at hacc hc ⊢
      have e : s1.bytes = (accBit (s.current_byte, s.bitcount, s.bytes) b).2.2 := by
        rw [← hacc]
      obtain ⟨c1, c2, _⟩ := hc
      rcases recoverBits_keeps (traceOf T S) fuel' s1 c2 (by rw [hlenS]; omega) with
        h | ⟨s', d, e1, e2⟩
      · exact Or.inl h
      · refine Or.inr ⟨s', d, e1, ?_⟩
        simp only [List.foldl]
        rw [← e]
        exact e2
    | frameEnd s1 d =>
      rw [hb] at hacc
      simp only at hacc ⊢
      refine Or.inr ⟨s1, d, rfl, ?_⟩
      simp only [List.foldl]
      rw [← hacc]
    | outOfRange => exact Or.inl rfl
  | cons b' rest ih =>
    intro b i s fuel hS hsi hsu hsc hfuel
    obtain ⟨s1, h1, h2, h3, h4, h5⟩ :=
      bitStep_next k T hi lo hk hT hhi hlo S i b b' rest tail s hS hsi hsu hsc
    have hlen : s.i < (traceOf T S).m_samples.length := by
      show s.i < S.length
      have := congrArg List.length hS
      rw [levels_cons] at this
      simp only [List.length_drop, List.length_append, List.length_replicate] at this
      omega
    have hlenS : (traceOf T S).m_samples.length = S.length := rfl
    obtain ⟨fuel', rfl⟩ : ∃ f, fuel = f + 1 := ⟨fuel - 1, by omega⟩
    rcases ih b' (i + k + k) s1 fuel'
      (drop_levels_cons k hi lo S i b (b' :: rest) tail hS) h2 h3 h4 (by omega) with
      h | ⟨s', d, e1, e2⟩
    · left
      rw [recoverBits, if_pos hlen, h1]
      exact h
    · right
      refine ⟨s', d, ?_, ?_⟩
      · rw [recoverBits, if_pos hlen, h1]
        exact e1
      · rw [h5] at e2
        exact e2

end Manchester

namespace Manchester
open Ethernet10BaseTDecoder EthernetProtocolDecoder SegmentType

/-- A pass of the inner loop that finds the mid-bit edge outside the eye (and less than ten
unit intervals away) on an evenly sampled trace: the loop goes on one sample after the edge,
with the unit interval restarted there and the expected polarity flipped; nothing else
changes. -/
theorem bitStep_resync (T : Int) (S : List ℚ) (s : BitState) (pre : List ℚ) (y : ℚ)
    (rest : List ℚ) (hS : S.drop s.i = pre ++ y :: rest)
    (hpre : ∀ x ∈ pre, ¬ atLevel (!s.current_state) x) (hy : atLevel (!s.current_state) y)
    (h10 : ¬ (((s.i + pre.length : Nat) : Int) * T - s.ui_start > 10 * ui_width))
    (heye : ((s.i + pre.length : Nat) : Int) * T - s.ui_start < eye_start
      ∨ ((s.i + pre.length : Nat) : Int) * T - s.ui_start > eye_end)
    (hrest : rest ≠ []) :
    bitStep (traceOf T S) s
      = .next { s with
          i := s.i + pre.length + 1
          ui_start := ((s.i + pre.length + 1 : Nat) : Int) * T
          current_state := !s.current_state } := by
  have hlen : s.i + pre.length + 1 + rest.length = S.length := by
    have := congrArg List.length hS
    simp only [List.length_drop, List.length_append, List.length_cons] at this
    omega
  have hr : 0 < rest.length := List.length_pos.mpr hrest
  have hfind := FindEdge_found (traceOf T S) (!s.current_state) pre y rest s.i hS hpre hy
  have ht1 := timeAt_traceOf T S (s.i + pre.length) (by omega)
  have ht2 := timeAt_traceOf T S (s.i + pre.length + 1) (by omega)
  unfold bitStep
  simp only [hfind, ht1, ht2, h10, heye, if_false, if_true]

/-- A pass of the inner loop that finds the mid-bit edge inside the eye and the next edge at
most 60 ns later, on an evenly sampled trace: the bit is shifted in and the loop goes on at the
second edge. -/
theorem bitStep_locked (T : Int) (S : List ℚ) (s : BitState) (pre : List ℚ) (y : ℚ)
    (pre2 : List ℚ) (y2 : ℚ) (rest : List ℚ)
    (hS : S.drop s.i = pre ++ (y :: pre2 ++ y2 :: rest))
    (hpre : ∀ x ∈ pre, ¬ atLevel (!s.current_state) x) (hy : atLevel (!s.current_state) y)
    (hpre2 : ∀ x ∈ pre2, ¬ atLevel s.current_state x) (hy2 : atLevel s.current_state y2)
    (h10 : ¬ (((s.i + pre.length : Nat) : Int) * T - s.ui_start > 10 * ui_width))
    (heye : ¬ (((s.i + pre.length : Nat) : Int) * T - s.ui_start < eye_start
      ∨ ((s.i + pre.length : Nat) : Int) * T - s.ui_start > eye_end))
    (h10b : ¬ (((s.i + pre.length + (pre2.length + 1) : Nat) : Int) * T
      - ((s.i + pre.length : Nat) : Int) * T > 10 * ui_width))
    (hend : ¬ (((s.i + pre.length + (pre2.length + 1) : Nat) : Int) * T
      - ((s.i + pre.length : Nat) : Int) * T > eye_end)) :
    bitStep (traceOf T S) s
      = .next { shiftBit { s with i := s.i + pre.length } with
          i := s.i + pre.length + (pre2.length + 1)
          ui_start := ((s.i + pre.length + (pre2.length + 1) : Nat) : Int) * T } := by
  have hlen : s.i + pre.length + 1 + pre2.length + 1 + rest.length = S.length := by
    have := congrArg List.length hS
    simp only [List.length_drop, List.length_append, List.length_cons] at this
    omega
  have hfind := FindEdge_found (traceOf T S) (!s.current_state) pre y (pre2 ++ y2 :: rest) s.i
    hS hpre hy
  have hS2 : (traceOf T S).m_samples.drop (s.i + pre.length) = (y :: pre2) ++ y2 :: rest := by
    show S.drop (s.i + pre.length) = _
    have : S.drop (s.i + pre.length) = (S.drop s.i).drop pre.length := by
      rw [List.drop_drop, Nat.add_comm]
    rw [this, hS, List.drop_left]
  have hfind2 := FindEdge_found (traceOf T S) s.current_state (y :: pre2) y2 rest
    (s.i + pre.length) hS2
    (fun x hx => by
      rcases List.mem_cons.mp hx with h | h
      · rw [h]
        intro h'
        exact atLevel_exclusive _ _ h' hy
      · exact hpre2 x h)
    hy2
  rw [List.length_cons] at hfind2
  have ht1 := timeAt_traceOf T S (s.i + pre.length) (by omega)
  have ht2 := timeAt_traceOf T S (s.i + pre.length + (pre2.length + 1)) (by omega)
  unfold bitStep
  simp only [hfind, ht1, h10, heye, if_false, hfind2, ht2, h10b, hend]

/-- The inner loop on the samples of a bit sequence, up to the start of its last bit. -/
theorem recoverBits_run (k : Nat) (T : Int) (hi lo : ℚ) (hk : 1 ≤ k)
    (hT : (k : Int) * T = 50000000) (hhi : 1 < hi) (hlo : lo < -1)
    (S : List ℚ) (tail : List ℚ) :
    ∀ (bits : List Bool) (b last : Bool) (i : Nat) (s : BitState) (fuel : Nat),
      S.drop i = levels k hi lo (b :: (bits ++ [last])) ++ tail → s.i = i →
      s.ui_start = (i : Int) * T → s.current_state = (!b) →
      ∃ s', recoverBits (traceOf T S) (fuel + (bits.length + 1)) s
          = recoverBits (traceOf T S) fuel s'
        ∧ s'.i = i + 2 * k * (bits.length + 1)
        ∧ s'.ui_start = (s'.i : Int) * T
        ∧ s'.current_state = (!last)
        ∧ (s'.current_byte, s'.bitcount, s'.bytes)
            = (b :: bits).foldl accBit (s.current_byte, s.bitcount, s.bytes)
        ∧ S.drop s'.i = levels k hi lo [last] ++ tail := by
  intro bits
  induction bits with
  | nil =>
    intro b last i s fuel hS hsi hsu hsc
    obtain ⟨s1, h1, h2, h3, h4, h5⟩ :=
      bitStep_next k T hi lo hk hT hhi hlo S i b last [] tail s hS hsi hsu hsc
    have hlen : s.i < (traceOf T S).m_samples.length := by
      show s.i < S.length
      have := congrArg List.length hS
      rw [levels_cons] at this
      simp only [List.length_drop, List.length_append, List.length_replicate] at this
      omega
    refine ⟨s1, ?_, ?_, ?_, h4, ?_, ?_⟩
    · show recoverBits (traceOf T S) (fuel + 1) s = _
      rw [recoverBits, if_pos hlen, h1]
    · rw [h2]; simp only [List.length_nil]; omega
    · rw [h3, h2]
    · rw [h5]; rfl
    · rw [h2]
      exact drop_levels_cons k hi lo S i b [last] tail hS
  | cons b' rest ih =>
    intro b last i s fuel hS hsi hsu hsc
    obtain ⟨s1, h1, h2, h3, h4, h5⟩ :=
      bitStep_next k T hi lo hk hT hhi hlo S i b b' (rest ++ [last]) tail s hS hsi hsu hsc
    have hlen : s.i < (traceOf T S).m_samples.length := by
      show s.i < S.length
      have := congrArg List.length hS
      rw [levels_cons] at this
      simp only [List.length_drop, List.length_append, List.length_replicate] at this
      omega
    obtain ⟨s', e1, e2, e3, e4, e5, e6⟩ := ih b' last (i + k + k) s1 fuel
      (drop_levels_cons k hi lo S i b (b' :: (rest ++ [last])) tail hS) h2 h3 h4
    refine ⟨s', ?_, ?_, e3, e4, ?_, e6⟩
    · show recoverBits (traceOf T S) (fuel + (rest.length + 1) + 1) s = _
      rw [recoverBits, if_pos hlen, h1]
      exact e1
    · rw [e2]; simp only [List.length_cons]; ring
    · rw [e5, h5]; rfl

/-- The inner loop at a bit 0 whose mid-bit edge comes 20 ns late (sampled every 10 ns), followed
by two bits 0: the late edge and the next edge are skipped, the loop locks again on the mid-bit
edge of the second bit and shifts that bit in; the first bit is never shifted in. -/
theorem recoverBits_late (S : List ℚ) (rest : List ℚ) (i : Nat) (s : BitState) (fuel : Nat)
    (hS : S.drop i = List.replicate 7 2 ++ (List.replicate 3 (-2)
      ++ (List.replicate 5 2 ++ (List.replicate 5 (-2) ++ (2 :: rest)))))
    (hsi : s.i = i) (hsu : s.ui_start = (i : Int) * 10000000) (hsc : s.current_state = true) :
    ∃ s', recoverBits (traceOf 10000000 S) (fuel + 3) s = recoverBits (traceOf 10000000 S) fuel s'
      ∧ s'.i = i + 20 ∧ s'.ui_start = ((i + 20 : Nat) : Int) * 10000000
      ∧ s'.current_state = true
      ∧ (s'.current_byte, s'.bitcount, s'.bytes)
          = accBit (s.current_byte, s.bitcount, s.bytes) false := by
  have hlenS : (traceOf 10000000 S).m_samples.length = S.length := rfl
  have hlen : i + 21 + rest.length = S.length := by
    have := congrArg List.length hS
    simp only [List.length_drop, List.length_append, List.length_replicate,
      List.length_cons] at this
    omega
  have hdrop : ∀ n, S.drop (i + n) = (S.drop i).drop n := by
    intro n; rw [List.drop_drop, Nat.add_comm]
  -- first pass: the late edge, 70 ns after the start of the unit interval
  obtain ⟨s1, hs1⟩ : ∃ s1 : BitState, s1 = { s with
      i := i + 8, ui_start := ((i + 8 : Nat) : Int) * 10000000, current_state := false } :=
    ⟨_, rfl⟩
  have p1 : bitStep (traceOf 10000000 S) s = .next s1 := by
    have h := bitStep_resync 10000000 S s (List.replicate 7 2) (-2)
      (List.replicate 2 (-2) ++ (List.replicate 5 2 ++ (List.replicate 5 (-2) ++ (2 :: rest))))
      (by rw [hsi, hS]; rfl)
      (fun x hx => by rw [List.eq_of_mem_replicate hx, hsc]; norm_num [atLevel])
      (by rw [hsc]; norm_num [atLevel])
      (by rw [hsi, hsu]; simp only [List.length_replicate, ui_width]; push_cast; omega)
      (by
        right
        rw [hsi, hsu]
        simp only [List.length_replicate, eye_end, ui_halfwidth, jitter_tol]
        push_cast; omega)
      (by simp)
    rw [h, hs1]
    simp [hsi, hsc]
    omega
  -- second pass: the edge at the end of the late bit, 20 ns after the restart
  obtain ⟨s2, hs2⟩ : ∃ s2 : BitState, s2 = { s1 with
      i := i + 11, ui_start := ((i + 11 : Nat) : Int) * 10000000, current_state := true } :=
    ⟨_, rfl⟩
  have s1i : s1.i = i + 8 := by rw [hs1]
  have s1c : s1.current_state = false := by rw [hs1]
  have s1u : s1.ui_start = ((i + 8 : Nat) : Int) * 10000000 := by rw [hs1]
  have p2 : bitStep (traceOf 10000000 S) s1 = .next s2 := by
    have h := bitStep_resync 10000000 S s1 (List.replicate 2 (-2)) 2
      (List.replicate 4 2 ++ (List.replicate 5 (-2) ++ (2 :: rest)))
      (by rw [s1i, hdrop, hS]; rfl)
      (fun x hx => by rw [List.eq_of_mem_replicate hx, s1c]; norm_num [atLevel])
      (by rw [s1c]; norm_num [atLevel])
      (by rw [s1i, s1u]; simp only [List.length_replicate, ui_width]; push_cast; omega)
      (by
        left
        rw [s1i, s1u]
        simp only [List.length_replicate, eye_start, ui_halfwidth, jitter_tol]
        push_cast; omega)
      (by simp)
    rw [h, hs2]
    simp [s1i, s1c]
    omega
  -- third pass: the mid-bit edge of the next bit, 40 ns after the restart
  have s2i : s2.i = i + 11 := by rw [hs2]
  have s2c : s2.current_state = true := by rw [hs2]
  have s2u : s2.ui_start = ((i + 11 : Nat) : Int) * 10000000 := by rw [hs2]
  have s2a : (s2.current_byte, s2.bitcount, s2.bytes) = (s.current_byte, s.bitcount, s.bytes) := by
    rw [hs2, hs1]
  obtain ⟨s3, hs3⟩ : ∃ s3 : BitState, s3 = { shiftBit { s2 with i := i + 15 } with
      i := i + 20, ui_start := ((i + 20 : Nat) : Int) * 10000000 } := ⟨_, rfl⟩
  have p3 : bitStep (traceOf 10000000 S) s2 = .next s3 := by
    have h := bitStep_locked 10000000 S s2 (List.replicate 4 2) (-2) (List.replicate 4 (-2)) 2
      rest
      (by rw [s2i, hdrop, hS]; rfl)
      (fun x hx => by rw [List.eq_of_mem_replicate hx, s2c]; norm_num [atLevel])
      (by rw [s2c]; norm_num [atLevel])
      (fun x hx => by rw [List.eq_of_mem_replicate hx, s2c]; norm_num [atLevel])
      (by rw [s2c]; norm_num [atLevel])
      (by rw [s2i, s2u]; simp only [List.length_replicate, ui_width]; push_cast; omega)
      (by
        rw [s2i, s2u]
        simp only [List.length_replicate, eye_start, eye_end, ui_halfwidth, jitter_tol]
        push_cast; omega)
      (by rw [s2i]; simp only [List.length_replicate, ui_width]; push_cast; omega)
      (by
        rw [s2i]
        simp only [List.length_replicate, eye_end, ui_halfwidth, jitter_tol]
        push_cast; omega)
    rw [h, hs3]
    simp [s2i]
    omega
  refine ⟨s3, ?_, by rw [hs3], by rw [hs3], ?_, ?_⟩
  · show recoverBits (traceOf 10000000 S) (fuel + 1 + 1 + 1) s = _
    rw [recoverBits, if_pos (by rw [hlenS, hsi]; omega), p1]
    simp only
    rw [recoverBits, if_pos (by rw [hlenS, s1i]; omega), p2]
    simp only
    rw [recoverBits, if_pos (by rw [hlenS, s2i]; omega), p3]
  · rw [hs3]
    exact (shiftBit_fields { s2 with i := i + 15 }).2.1.trans s2c
  · have h := shiftBit_acc { s2 with i := i + 15 }
    have e : (!({ s2 with i := i + 15 } : BitState).current_state) = false := by simp [s2c]
    rw [e] at h
    rw [hs3]
    exact h.trans (by rw [← s2a])

end Manchester

namespace Manchester
open Ethernet10BaseTDecoder EthernetProtocolDecoder SegmentType

/-- `Refresh` on a waveform in which the first run of the inner loop ends with `done` set: the
recovered bytes go to `BytesToFrames` once. -/
theorem Refresh_single (env : Env) (din : AnalogWaveform) (d : Decoder) (i0 : Nat) (u : Int)
    (s' : BitState) (h1 : FindFallingEdge 0 din = some i0) (h2 : timeAt din i0 = some u)
    (h3 : recoverBits din (din.m_samples.length + 1) (startState i0 u) = .frame s' true) :
    Ethernet10BaseTDecoder.Refresh env true din d
      = .ok ⟨some (BytesToFrames env s'.bytes s'.starts s'.ends (newCapture din) [] d.pcap).cap,
             (BytesToFrames env s'.bytes s'.starts s'.ends (newCapture din) [] d.pcap).m_packets,
             (BytesToFrames env s'.bytes s'.starts s'.ends (newCapture din) [] d.pcap).pcap⟩ := by
  have hpos : 0 < din.m_samples.length := by
    have := (findFallingFrom_some din _ 0 i0 h1).2.1
    omega
  obtain ⟨m, hm⟩ : ∃ m, din.m_samples.length = m + 1 := ⟨din.m_samples.length - 1, by omega⟩
  unfold startState at h3
  unfold Ethernet10BaseTDecoder.Refresh
  simp only [Bool.not_true, Bool.false_eq_true, if_false]
  rw [frames, if_pos hpos]
  simp only [Bool.false_eq_true, if_false, h1, h2, h3]
  rw [hm, frames]
  by_cases h : s'.i < m + 1 <;> simp [h]

/-- The inner loop on the trace of the bits `1 :: front`, a bit 0, a bit 0 whose mid-bit edge
comes 20 ns late, two bits 0 and the bits `back` (sampled every 10 ns, levels 2 V and -2 V):
every bit but the late one is shifted in. -/
theorem recoverBits_lateTrace (front back : List Bool) (S : List ℚ)
    (hS : S = levels 5 2 (-2) (true :: (front ++ [false]))
      ++ (lateBit 5 2 2 (-2) false ++ levels 5 2 (-2) (false :: false :: back))) :
    ∃ s', recoverBits (traceOf 10000000 S) (S.length + 1) (startState 0 0) = .frame s' true
      ∧ (s'.current_byte, s'.bitcount, s'.bytes)
          = ((true :: front) ++ false :: false :: false :: back).foldl accBit (0, 0, []) := by
  have hT : ((5 : Nat) : Int) * 10000000 = 50000000 := by norm_num
  have hhi : (1 : ℚ) < 2 := by norm_num
  have hlo : (-2 : ℚ) < -1 := by norm_num
  have hlen : S.length = 10 * (front.length + 2) + 10 + 10 * (back.length + 2) := by
    rw [hS]
    simp only [List.length_append, levels_length, lateBit, List.length_replicate,
      List.length_cons, List.length_nil]
    omega
  obtain ⟨fuel3, hf3⟩ : ∃ f, S.length + 1 = f + 3 + 1 + (front.length + 1) :=
    ⟨S.length + 1 - 3 - 1 - (front.length + 1), by omega⟩
  -- the bits before the late one
  obtain ⟨sa, a1, a2, a3, a4, a5, a6⟩ := recoverBits_run 5 10000000 2 (-2) (by norm_num) hT hhi hlo
    S (lateBit 5 2 2 (-2) false ++ levels 5 2 (-2) (false :: false :: back)) front true false 0
    (startState 0 0) (fuel3 + 3 + 1) (by rw [List.drop_zero, hS]) rfl (by simp [startState]) rfl
  have hSa : S.drop sa.i = List.replicate 5 2 ++ ((-2) :: List.replicate 4 (-2) ++ 2 ::
      (List.replicate 6 2 ++ (List.replicate 3 (-2)
        ++ levels 5 2 (-2) (false :: false :: back)))) := by
    rw [a6, levels_cons]
    simp [levels, lateBit, firstLevel, secondLevel, List.replicate]
  have hlenT : (traceOf 10000000 S).m_samples.length = S.length := rfl
  have sai : sa.i = 10 * (front.length + 1) := by rw [a2]; omega
  obtain ⟨sb, hsb⟩ : ∃ sb : BitState, sb = { shiftBit { sa with i := sa.i + 5 } with
      i := sa.i + 10, ui_start := ((sa.i + 10 : Nat) : Int) * 10000000 } := ⟨_, rfl⟩
  have pb : bitStep (traceOf 10000000 S) sa = .next sb := by
    have h := bitStep_locked 10000000 S sa (List.replicate 5 2) (-2) (List.replicate 4 (-2)) 2 _
      hSa
      (fun x hx => by rw [List.eq_of_mem_replicate hx, a4]; norm_num [atLevel])
      (by rw [a4]; norm_num [atLevel])
      (fun x hx => by rw [List.eq_of_mem_replicate hx, a4]; norm_num [atLevel])
      (by rw [a4]; norm_num [atLevel])
      (by rw [a3]; simp only [List.length_replicate, ui_width]; push_cast; omega)
      (by
        rw [a3]
        simp only [List.length_replicate, eye_start, eye_end, ui_halfwidth, jitter_tol]
        push_cast; omega)
      (by simp only [List.length_replicate, ui_width]; push_cast; omega)
      (by
        simp only [List.length_replicate, eye_end, ui_halfwidth, jitter_tol]
        push_cast; omega)
    rw [h, hsb]
    simp
    omega
  have sbc : sb.current_state = true := by
    rw [hsb]
    exact (shiftBit_fields { sa with i := sa.i + 5 }).2.1.trans a4
  have sba : (sb.current_byte, sb.bitcount, sb.bytes)
      = accBit (sa.current_byte, sa.bitcount, sa.bytes) false := by
    have h := shiftBit_acc { sa with i := sa.i + 5 }
    have e : (!({ sa with i := sa.i + 5 } : BitState).current_state) = false := by simp [a4]
    rw [e] at h
    rw [hsb]
    exact h
  -- the late bit and the bit after it
  have hSb : S.drop (sa.i + 10) = List.replicate 7 2 ++ (List.replicate 3 (-2)
      ++ (List.replicate 5 2 ++ (List.replicate 5 (-2)
        ++ (2 :: (List.replicate 4 2 ++ (List.replicate 5 (-2) ++ levels 5 2 (-2) back)))))) := by
    have : S.drop (sa.i + 10) = (S.drop sa.i).drop 10 := by rw [List.drop_drop, Nat.add_comm]
    rw [this, a6, levels_cons, levels_cons, levels_cons]
    simp [levels, lateBit, firstLevel, secondLevel, List.replicate]
  obtain ⟨sc, c1, c2, c3, c4, c5⟩ := recoverBits_late S _ (sa.i + 10) sb fuel3 hSb
    (by rw [hsb]) (by rw [hsb]) sbc
  -- the bits after
  have hSc : S.drop (sa.i + 10 + 20) = levels 5 2 (-2) (false :: back) ++ [] := by
    have : S.drop (sa.i + 10 + 20) = (S.drop (sa.i + 10)).drop 20 := by
      rw [List.drop_drop, Nat.add_comm]
    rw [this, hSb, levels_cons]
    simp [firstLevel, secondLevel, List.replicate]
  obtain ⟨s', d1, d2⟩ := recoverBits_levels 5 10000000 2 (-2) (by norm_num) hT hhi hlo S []
    (fun x hx => by simp at hx) back false (sa.i + 10 + 20) sc fuel3 hSc c2 c3 c4 (by omega)
  refine ⟨s', ?_, ?_⟩
  · rw [hf3, a1]
    show recoverBits (traceOf 10000000 S) (fuel3 + 3 + 1) sa = _
    rw [recoverBits, if_pos (by rw [hlenT]; omega), pb]
    simp only
    rw [c1]
    exact d1
  · rw [d2, c5, sba, a5]
    simp [List.foldl_append, startState]

/-- C4 as stated fails. In the trace of `exampleFrame` sampled every 10 ns, the mid-bit edge of
bit 129 (the second bit of the second Ethertype byte) comes 20 ns late, at 70 ns after the start
of its unit interval; every other edge is in place. The three payload bytes `aa bb cc`, sent
wholly after that bit, are decoded as `d5 5d 66`: the loop skips the late bit without counting
it, so every later byte is assembled one bit off. -/
theorem C4_counterexample :
    fineSampling.Valid ∧ exampleFrame.WellFormed
    ∧ be32 exampleFrame.fcs = exampleEnv.CRC32 exampleFrame.bytes (exampleFrame.n + 1)
        (exampleFrame.n + 14 + exampleFrame.payload.length)
    ∧ exampleFrame.bytes.drop 17 = [0xaa, 0xbb, 0xcc, 0, 0, 0, 0]
    ∧ symbolsOf (Ethernet10BaseTDecoder.Refresh exampleEnv true
          (lateTrace fineSampling 2 exampleFrame.bytes 129) freshDecoder)
        = some [⟨TYPE_PREAMBLE, [0x55, 0x55]⟩, ⟨TYPE_SFD, [0xd5]⟩,
            ⟨TYPE_DST_MAC, [1, 2, 3, 4, 5, 6]⟩, ⟨TYPE_SRC_MAC, [7, 8, 9, 10, 11, 12]⟩,
            ⟨TYPE_ETHERTYPE, [0x08, 0x00]⟩, ⟨TYPE_PAYLOAD, [0xd5]⟩, ⟨TYPE_PAYLOAD, [0x5d]⟩,
            ⟨TYPE_FCS_BAD, [0x66, 0, 0, 0]⟩] := by
  refine ⟨by decide!, by decide, by decide, by decide, ?_⟩
  obtain ⟨bits, hbits⟩ : ∃ bits, bits = bitsOfBytes exampleFrame.bytes := ⟨_, rfl⟩
  have hb1 : bits.take 129 = true :: ((bits.take 128).tail ++ [false]) := by
    rw [hbits]; decide
  have hb2 : bits.getD 129 false = false := by rw [hbits]; decide
  have hb3 : bits.drop 130 = false :: false :: bits.drop 132 := by rw [hbits]; decide
  obtain ⟨S, hSdef⟩ : ∃ S, S = levels 5 2 (-2) (true :: ((bits.take 128).tail ++ [false]))
      ++ (lateBit 5 2 2 (-2) false ++ levels 5 2 (-2) (false :: false :: bits.drop 132)) :=
    ⟨_, rfl⟩
  have htrace : lateTrace fineSampling 2 exampleFrame.bytes 129 = traceOf 10000000 S := by
    unfold lateTrace
    rw [← hbits, hb1, hb2, hb3, hSdef]
    simp [fineSampling]
  obtain ⟨s', r1, r2⟩ := recoverBits_lateTrace _ _ S hSdef
  have hacc : ((true :: (bits.take 128).tail) ++ false :: false :: false :: bits.drop 132).foldl
      accBit (0, 0, [])
      = (0x00, 7, [0x55, 0x55, 0xd5, 1, 2, 3, 4, 5, 6, 7, 8, 9, 10, 11, 12, 0x08, 0x00, 0xd5, 0x5d,
          0x66, 0, 0, 0]) := by
    rw [hbits]; decide!
  rw [hacc] at r2
  have hbytes : s'.bytes = (⟨2, [1, 2, 3, 4, 5, 6], [7, 8, 9, 10, 11, 12], 0x08, 0x00,
      [0xd5, 0x5d], [0x66, 0, 0, 0]⟩ : Frame).bytes := by
    have := congrArg (fun t => t.2.2) r2
    simp only at this
    rw [this]
    rfl
  have hfind : FindFallingEdge 0 (traceOf 10000000 S) = some 0 := by
    have h0 : (traceOf 10000000 S).m_samples.drop 0
        = [] ++ (-2) :: (List.replicate 4 (-2) ++ (List.replicate 5 2
          ++ levels 5 2 (-2) ((bits.take 128).tail ++ [false])
          ++ (lateBit 5 2 2 (-2) false
            ++ levels 5 2 (-2) (false :: false :: bits.drop 132)))) := by
      show S.drop 0 = _
      rw [List.drop_zero, hSdef, levels_cons]
      simp [firstLevel, secondLevel, List.replicate]
    have := FindEdge_found (traceOf 10000000 S) false _ _ _ 0 h0 (fun x hx => by simp at hx)
      (by norm_num [atLevel])
    simpa [FindEdge] using this
  have hpos : 0 < S.length := by
    rw [hSdef, levels_cons]
    simp
  have htime := timeAt_traceOf 10000000 S 0 hpos
  have hR := Refresh_single exampleEnv (traceOf 10000000 S) freshDecoder 0 _ s' hfind htime
    (by simpa using r1)
  rw [htrace, hR, hbytes]
  obtain ⟨q1, _⟩ := BytesToFrames_frame exampleEnv
    ⟨2, [1, 2, 3, 4, 5, 6], [7, 8, 9, 10, 11, 12], 0x08, 0x00, [0xd5, 0x5d], [0x66, 0, 0, 0]⟩
    s'.starts s'.ends (newCapture (traceOf 10000000 S)) [] freshDecoder.pcap
    (by decide) (by decide)
  rw [if_neg (by decide)] at q1
  show some _ = _
  rw [q1]
  rfl

/-- C4 (amended). For every trace that begins as the Manchester trace of a byte sequence
starting with a preamble byte (`k >= 1` samples for every half bit of 50 ns, levels above 1 V
and below -1 V, idle samples before) and goes on with any samples at all, so with any missing
or misplaced edge after those bytes: `Refresh` finds the start of the frame, and its inner loop
either reads `m_offsets` past its end or ends the frame with those bytes recovered exactly, in
order, as the first bytes of the frame. At an edge outside the eye and at most ten unit
intervals after the start of the unit interval, a pass of the loop does not end the frame: it
goes on at the sample after the edge, restarts the unit interval there, flips the expected
polarity and keeps the bit count, the partial byte and the bytes recovered so far. -/
theorem C4_resync_keeps_earlier_bytes (p : Sampling) (A : List Nat) (X : List ℚ)
    (hp : p.Valid) (hA : ∀ x ∈ A, x < 256) :
    let din := traceOf p.timescale
      (List.replicate p.lead 0 ++ levels p.k p.hi p.lo (bitsOfBytes (0x55 :: A)) ++ X)
    let s0 := startState p.lead ((p.lead : Int) * p.timescale)
    (FindFallingEdge 0 din = some p.lead
      ∧ timeAt din p.lead = some ((p.lead : Int) * p.timescale)
      ∧ (recoverBits din (din.m_samples.length + 1) s0 = .outOfRange
          ∨ ∃ s' d, recoverBits din (din.m_samples.length + 1) s0 = .frame s' d
              ∧ (0x55 :: A) <+: s'.bytes))
    ∧ ∀ (s : BitState) (i1 : Nat) (edgepos t : Int),
        FindEdge s.i din (!s.current_state) = some i1 → timeAt din i1 = some edgepos →
        ¬ (edgepos - s.ui_start > 10 * ui_width) →
        (edgepos - s.ui_start < eye_start ∨ edgepos - s.ui_start > eye_end) →
        timeAt din (i1 + 1) = some t →
        bitStep din s
          = .next { s with i := i1 + 1, ui_start := t, current_state := !s.current_state } := by
  intro din s0
  obtain ⟨hk, hT, hhi, hlo⟩ := hp
  obtain ⟨bits, hbits⟩ : ∃ bits, bitsOfBytes (0x55 :: A) = true :: bits :=
    ⟨_, bitsOfBytes_preamble A⟩
  obtain ⟨S, hSdef⟩ : ∃ S, S = List.replicate p.lead 0
      ++ levels p.k p.hi p.lo (bitsOfBytes (0x55 :: A)) ++ X := ⟨_, rfl⟩
  have hdin : din = traceOf p.timescale S := by rw [hSdef]
  have hdrop : S.drop p.lead = levels p.k p.hi p.lo (true :: bits) ++ X := by
    rw [hSdef, hbits, List.append_assoc]
    exact List.drop_left' (List.length_replicate _ _)
  have hlen : p.lead + 2 * p.k * (bits.length + 1) + X.length = S.length := by
    rw [hSdef, hbits]
    simp [levels_length]
    omega
  have hkk : 1 ≤ 2 * p.k * (bits.length + 1) := Nat.mul_pos (by omega) (by omega)
  have hfind : FindFallingEdge 0 (traceOf p.timescale S) = some p.lead := by
    have h0 : (traceOf p.timescale S).m_samples.drop 0
        = List.replicate p.lead 0 ++ p.lo :: (List.replicate (p.k - 1) p.lo
          ++ (List.replicate p.k p.hi ++ levels p.k p.hi p.lo bits ++ X)) := by
      show S.drop 0 = _
      rw [List.drop_zero, hSdef, hbits, levels_cons, replicate_pos p.k hk]
      simp [firstLevel, secondLevel]
    have := FindEdge_found (traceOf p.timescale S) false _ _ _ 0 h0
      (fun x hx => by
        rw [List.eq_of_mem_replicate hx]
        exact zero_not_atLevel false)
      (by simpa [atLevel] using hlo)
    simpa [FindEdge] using this
  have htime := timeAt_traceOf p.timescale S p.lead (by omega)
  have hpre := recoverBits_prefix p.k p.timescale p.hi p.lo hk hT hhi hlo S X bits true p.lead
    (startState p.lead ((p.lead : Int) * p.timescale)) (S.length + 1) hdrop rfl rfl rfl
    (by omega)
  have hfold : ((true :: bits).foldl accBit (0, 0, [])).2.2 = 0x55 :: A := by
    have h := accBit_bitsOfBytes (0x55 :: A)
      (fun x hx => by
        rcases List.mem_cons.mp hx with h1 | h1
        · omega
        · exact hA x h1) []
    rw [hbits] at h
    rw [h]
    rfl
  have hfold' : ((true :: bits).foldl accBit
      ((startState p.lead ((p.lead : Int) * p.timescale)).current_byte,
        (startState p.lead ((p.lead : Int) * p.timescale)).bitcount,
        (startState p.lead ((p.lead : Int) * p.timescale)).bytes)).2.2 = 0x55 :: A := hfold
  rw [hfold'] at hpre
  refine ⟨⟨?_, ?_, ?_⟩, ?_⟩
  · rw [hdin]; exact hfind
  · rw [hdin]; exact htime
  · rw [hdin]; exact hpre
  · intro s i1 edgepos t h1 h2 h3 h4 h5
    unfold bitStep
    simp only [h1, h2, h3, h4, h5, if_false, if_true]

/-- C4 at a trace sampled every 10 ns: a preamble byte and an SFD, then two samples. -/
theorem C4_resync_keeps_earlier_bytes_witness :
    (fineSampling.Valid ∧ ∀ x ∈ [0xd5], x < 256)
    ∧ FindFallingEdge 0 (traceOf fineSampling.timescale
        (List.replicate fineSampling.lead 0
          ++ levels fineSampling.k fineSampling.hi fineSampling.lo (bitsOfBytes (0x55 :: [0xd5]))
          ++ [2, 2])) = some fineSampling.lead :=
  ⟨⟨by decide!, by decide⟩,
    (C4_resync_keeps_earlier_bytes fineSampling [0xd5] [2, 2] (by decide!) (by decide)).1.1⟩

end Manchester

/-! ## `USB2PacketDecoder::Refresh` -/

namespace USB2PacketDecoder
open SymbolType State

/-- C10. `Refresh` with invalid input (`VerifyAllInputsOK()` false) sets a null output and
returns with the packet list as it was: the packets of earlier runs are still there (here the
one packet of `usedDecoder`). With valid input the packet list afterwards does not depend on
the list before. -/
theorem C10_invalid_input_keeps_prior_packets :
    (∀ (din : USB2PCSWaveform) (d : Decoder),
      Refresh false din d = .ok { data := none, m_packets := d.m_packets })
    ∧ Refresh false shortDataPacket usedDecoder
        = .ok ⟨none, [{ newPacket with m_headers := [("Type", "SOF")] }]⟩
    ∧ ∀ (din : USB2PCSWaveform) (d d' : Decoder), Refresh true din d = Refresh true din d' := by
  refine ⟨fun din d => rfl, rfl, fun din d d' => rfl⟩

/-- C15. The framing loop on SYNC, DATA(0xC3), EOP: at the EOP the output waveform holds one
symbol (the PID), so `m_samples.size() - 2` wraps around and `cap->m_samples[firstoff]` is read
out of range. With one data byte after the PID (and an earlier symbol in the output) the index
is in range and the second `packet_data.pop_back()` is on an empty vector. -/
theorem C15_short_data_packet_out_of_range :
    framing (entries shortDataPacket) (initMachine shortDataPacket) = .outOfRange
    ∧ Refresh true shortDataPacket ⟨none, []⟩ = .outOfRange
    ∧ framing (entries oneByteDataPacket) (initMachine oneByteDataPacket) = .popEmpty := by
  decide

/-- The check of the code on a PID byte is the one of the USB specification. -/
theorem pidCheck_eq : allBelow 256 (fun b =>
    decide ((b >>> 4 ≠ 0xf &&& (2 ^ 32 - 1 - b)) ↔ ¬ PidCheckOk b)) = true := by
  decide!

/-- C20. In `STATE_PID`: an input symbol that is not `TYPE_DATA`, or a data byte whose high
nibble is not the complement of its low nibble, adds exactly one `TYPE_ERROR` symbol with the
offset and the duration of the input symbol and sets the state to `STATE_IDLE`; a data byte
whose high nibble is the complement of its low nibble adds exactly one `TYPE_PID` symbol holding
that byte, with the offset and the duration of the input symbol. -/
theorem C20_pid_validation (m : Machine) (sin : USB2PCSSymbol) (off dur : Int)
    (hs : m.state = STATE_PID) (hb : sin.m_data < 256) :
    ((sin.m_type ≠ PCSType.TYPE_DATA ∨ ¬ PidCheckOk sin.m_data) →
      step sin off dur m
        = .ok { m with cap := emit m.cap off dur TYPE_ERROR 0, state := STATE_IDLE })
    ∧ ((sin.m_type = PCSType.TYPE_DATA ∧ PidCheckOk sin.m_data) →
      ∃ m', step sin off dur m = .ok m'
        ∧ m'.cap = emit m.cap off dur TYPE_PID sin.m_data) := by
  have hc := allBelow_spec pidCheck_eq sin.m_data hb
  simp only [decide_eq_true_eq] at hc
  constructor
  · intro h
    unfold step
    rw [hs]
    simp only
    by_cases ht : sin.m_type ≠ PCSType.TYPE_DATA
    · rw [if_pos ht]
    · rw [if_neg ht]
      have h2 : ¬ PidCheckOk sin.m_data := by
        rcases h with h | h
        · exact absurd h ht
        · exact h
      rw [if_pos (hc.mpr h2)]
  · intro ⟨ht, hp⟩
    unfold step
    rw [hs]
    simp only
    have h1 : ¬ (sin.m_type ≠ PCSType.TYPE_DATA) := by simp [ht]
    have h2 : ¬ (sin.m_data >>> 4 ≠ 0xf &&& (2 ^ 32 - 1 - sin.m_data)) := by
      intro h
      exact (hc.mp h) hp
    rw [if_neg h1, if_neg h2]
    refine ⟨_, rfl, ?_⟩
    unfold afterEop afterPid
    simp only [ht]
    split_ifs <;> rfl

/-- C20 at the byte `0xC3` and at the byte `0xC4`, from a machine in `STATE_PID`. -/
theorem C20_pid_validation_witness :
    (pidMachine.state = STATE_PID ∧ (0xc4 : Nat) < 256)
    ∧ step ⟨PCSType.TYPE_DATA, 0xc4⟩ 8 8 pidMachine
        = .ok { pidMachine with
            cap := emit pidMachine.cap 8 8 TYPE_ERROR 0, state := STATE_IDLE } :=
  ⟨⟨rfl, by decide⟩,
    (C20_pid_validation pidMachine ⟨PCSType.TYPE_DATA, 0xc4⟩ 8 8 rfl (by decide)).1
      (Or.inr (by decide))⟩

theorem afterPid_token (pid : Nat) (m : Machine)
    (h : pid = PID_IN ∨ pid = PID_OUT ∨ pid = PID_SETUP ∨ pid = PID_PING ∨ pid = PID_SPLIT) :
    afterPid pid m = { m with state := STATE_TOKEN_0 } := by
  rcases h with h | h | h | h | h <;> subst h <;> rfl

theorem afterPid_data (pid : Nat) (m : Machine)
    (h : pid = PID_DATA0 ∨ pid = PID_DATA1 ∨ pid = PID_DATA2 ∨ pid = PID_MDATA) :
    afterPid pid m = { m with state := STATE_DATA, packet_data := [] } := by
  rcases h with h | h | h | h <;> subst h <;> rfl

/-- The step of `STATE_PID` on a data byte that passes the check. -/
theorem step_pid_ok (m : Machine) (p : Nat) (off dur : Int) (hs : m.state = STATE_PID)
    (hp : p < 256) (hpid : PidCheckOk p) :
    step ⟨PCSType.TYPE_DATA, p⟩ off dur m
      = .ok (afterPid (p &&& 0xf) { m with cap := emit m.cap off dur TYPE_PID p }) := by
  have hc := allBelow_spec pidCheck_eq p hp
  simp only [decide_eq_true_eq] at hc
  have h2 : ¬ (p >>> 4 ≠ 0xf &&& (2 ^ 32 - 1 - p)) := fun h => (hc.mp h) hpid
  unfold step
  rw [hs]
  simp only [ne_eq, not_true_eq_false, if_false]
  rw [if_neg h2]
  rfl

/-- The token word split into its fields, on the bytes as the code does it. -/
theorem token_fields (b0 b1 : Nat) (hb0 : b0 < 256) (hb1 : b1 < 256) :
    b0 &&& 0x7f = (b0 ||| (b1 <<< 8)) &&& 0x7f
    ∧ (b0 >>> 7) ||| ((b1 &&& 0x7) <<< 1) = ((b0 ||| (b1 <<< 8)) >>> 7) &&& 0xf
    ∧ b1 >>> 3 = (b0 ||| (b1 <<< 8)) >>> 11 := by
  have hw : b0 ||| (b1 <<< 8) = 256 * b1 + b0 := by
    rw [Nat.or_comm, Nat.shiftLeft_eq, Nat.mul_comm]
    exact (Nat.mul_add_lt_is_or (show b0 < 2 ^ 8 by simpa using hb0) b1).symm
  have h7f : ∀ x : Nat, x &&& 0x7f = x % 128 := fun x => Nat.and_pow_two_sub_one_eq_mod x 7
  have hf : ∀ x : Nat, x &&& 0xf = x % 16 := fun x => Nat.and_pow_two_sub_one_eq_mod x 4
  have h7 : ∀ x : Nat, x &&& 0x7 = x % 8 := fun x => Nat.and_pow_two_sub_one_eq_mod x 3
  have hor : (b0 >>> 7) ||| ((b1 &&& 0x7) <<< 1) = 2 * (b1 % 8) + b0 / 128 := by
    rw [Nat.or_comm, h7, Nat.shiftLeft_eq, Nat.mul_comm, Nat.shiftRight_eq_div_pow]
    have hlt : b0 / 2 ^ 7 < 2 ^ 1 := by
      have : b0 / 2 ^ 7 = b0 / 128 := rfl
      omega
    exact (Nat.mul_add_lt_is_or hlt (b1 % 8)).symm
  refine ⟨?_, ?_, ?_⟩
  · rw [hw, h7f, h7f]; omega
  · rw [hor, hw, hf, Nat.shiftRight_eq_div_pow]
    have : (256 * b1 + b0) / 2 ^ 7 = (256 * b1 + b0) / 128 := rfl
    omega
  · rw [hw, Nat.shiftRight_eq_div_pow, Nat.shiftRight_eq_div_pow]
    have h1 : b1 / 2 ^ 3 = b1 / 8 := rfl
    have h2 : (256 * b1 + b0) / 2 ^ 11 = (256 * b1 + b0) / 2048 := rfl
    omega

/-- C19. For every token packet: from `STATE_PID`, a PID byte that passes the check and is IN,
OUT, SETUP, PING or SPLIT, followed by the data bytes `b0` and `b1`, with
`w = b0 | (b1 << 8)`: the loop adds the PID symbol, an ADDR symbol with value `w[6:0]`, an ENDP
symbol with value `w[10:7]` and one CRC5 symbol with value `w[15:11]`, which is `CRC5_GOOD`
exactly when `VerifyCRC5(b0, b1)` is true and `CRC5_BAD` otherwise. -/
theorem C19_token_fields (m : Machine) (p b0 b1 : Nat) (o d o0 d0 o1 d1 : Int)
    (hs : m.state = STATE_PID) (hp : p < 256) (hpid : PidCheckOk p)
    (htok : p &&& 0xf = PID_IN ∨ p &&& 0xf = PID_OUT ∨ p &&& 0xf = PID_SETUP
      ∨ p &&& 0xf = PID_PING ∨ p &&& 0xf = PID_SPLIT)
    (hb0 : b0 < 256) (hb1 : b1 < 256) :
    ∃ m', framing [dataEntry p o d, dataEntry b0 o0 d0, dataEntry b1 o1 d1] m = .ok m'
      ∧ m'.cap.m_samples = m.cap.m_samples ++
          [⟨TYPE_PID, p⟩,
           ⟨TYPE_ADDR, (b0 ||| (b1 <<< 8)) &&& 0x7f⟩,
           ⟨TYPE_ENDP, ((b0 ||| (b1 <<< 8)) >>> 7) &&& 0xf⟩,
           ⟨if VerifyCRC5 b0 b1 then TYPE_CRC5_GOOD else TYPE_CRC5_BAD,
             (b0 ||| (b1 <<< 8)) >>> 11⟩]
      ∧ m'.state = STATE_END := by
  obtain ⟨f1, f2, f3⟩ := token_fields b0 b1 hb0 hb1
  rw [← f1, ← f2, ← f3]
  have s1 := step_pid_ok m p o d hs hp hpid
  rw [afterPid_token _ _ htok] at s1
  refine ⟨{ m with
      state := STATE_END
      last := b0
      crc5_in0 := b0
      crc5_in1 := b1
      packet_crc5 := b1 >>> 3
      cap := emit (emit (emit (emit m.cap o d TYPE_PID p) o0 d0 TYPE_ADDR (b0 &&& 0x7f))
          o1 (Int.tdiv d1 2) TYPE_ENDP ((b0 >>> 7) ||| ((b1 &&& 0x7) <<< 1)))
        (o1 + Int.tdiv d1 2) (Int.tdiv d1 2)
        (if VerifyCRC5 b0 b1 then TYPE_CRC5_GOOD else TYPE_CRC5_BAD) (b1 >>> 3) }, ?_, ?_, rfl⟩
  · simp only [framing, dataEntry, s1]
    simp [step, afterEop, crc5Symbol]
  · simp [emit]

/-- C19 at the token `0x69 0x01 0xE8` (IN, address 1, endpoint 0). -/
theorem C19_token_fields_witness :
    (pidMachine.state = STATE_PID ∧ (0x69 : Nat) < 256 ∧ PidCheckOk 0x69
      ∧ (0x69 &&& 0xf = PID_IN ∨ 0x69 &&& 0xf = PID_OUT ∨ 0x69 &&& 0xf = PID_SETUP
        ∨ 0x69 &&& 0xf = PID_PING ∨ 0x69 &&& 0xf = PID_SPLIT)
      ∧ (0x01 : Nat) < 256 ∧ (0xe8 : Nat) < 256)
    ∧ ∃ m', framing [dataEntry 0x69 0 8, dataEntry 0x01 8 8, dataEntry 0xe8 16 8] pidMachine
        = .ok m'
      ∧ m'.cap.m_samples = pidMachine.cap.m_samples ++
          [⟨TYPE_PID, 0x69⟩,
           ⟨TYPE_ADDR, (0x01 ||| (0xe8 <<< 8)) &&& 0x7f⟩,
           ⟨TYPE_ENDP, ((0x01 ||| (0xe8 <<< 8)) >>> 7) &&& 0xf⟩,
           ⟨if VerifyCRC5 0x01 0xe8 then TYPE_CRC5_GOOD else TYPE_CRC5_BAD,
             (0x01 ||| (0xe8 <<< 8)) >>> 11⟩]
      ∧ m'.state = STATE_END :=
  ⟨⟨rfl, by decide, by decide, by decide, by decide, by decide⟩,
    C19_token_fields pidMachine 0x69 0x01 0xe8 0 8 8 8 16 8 rfl (by decide) (by decide)
      (by decide) (by decide) (by decide)⟩

theorem getD_append_two {α : Type} (X : List α) (a b d : α) :
    (X ++ [a, b]).getD X.length d = a ∧ (X ++ [a, b]).getD (X.length + 1) d = b := by
  induction X with
  | nil => exact ⟨rfl, rfl⟩
  | cons x r ih => simpa using ih

theorem set_take_append_two {α : Type} (X : List α) (a b c : α) :
    ((X ++ [a, b]).set X.length c).take (X.length + 1) = X ++ [c]
    ∧ (X ++ [a, b]).take (X.length + 1) = X ++ [a] := by
  induction X with
  | nil => exact ⟨rfl, rfl⟩
  | cons x r ih => simpa using ih

/-- The step of `STATE_DATA` on a data symbol. -/
theorem step_data (m : Machine) (e : Entry) (hs : m.state = STATE_DATA)
    (ht : e.sym.m_type = PCSType.TYPE_DATA) :
    step e.sym e.off e.dur m
      = .ok { m with
          cap := emit m.cap e.off e.dur TYPE_DATA e.sym.m_data
          packet_data := m.packet_data ++ [e.sym.m_data] } := by
  unfold step
  rw [hs]
  simp only [ht, if_true, afterEop, reduceCtorEq, if_false]

/-- The loop in `STATE_DATA` over data symbols: every one is emitted as a `TYPE_DATA` symbol and
pushed to `packet_data`. -/
theorem framing_data (body rest : List Entry) (m : Machine) (hs : m.state = STATE_DATA)
    (hb : ∀ e ∈ body, e.sym.m_type = PCSType.TYPE_DATA) :
    framing (body ++ rest) m
      = framing rest { m with
          cap := { m.cap with
            m_offsets := m.cap.m_offsets ++ body.map Entry.off
            m_durations := m.cap.m_durations ++ body.map Entry.dur
            m_samples := m.cap.m_samples ++ dataSymbols body }
          packet_data := m.packet_data ++ body.map fun e => e.sym.m_data } := by
  induction body generalizing m with
  | nil => simp [dataSymbols]
  | cons e r ih =>
    have h1 := step_data m e hs (hb e (List.mem_cons_self _ _))
    show framing (e :: (r ++ rest)) m = _
    rw [framing, h1]
    simp only
    rw [ih { m with
        cap := emit m.cap e.off e.dur TYPE_DATA e.sym.m_data
        packet_data := m.packet_data ++ [e.sym.m_data] } hs
      (fun x hx => hb x (List.mem_cons_of_mem _ hx))]
    simp [emit, dataSymbols]

/-- The merge of the last two symbols when the vectors end with two entries and `packet_data`
with two bytes. -/
theorem mergeCrc16_two (m : Machine) (X : List USB2PacketSymbol) (s1 s2 : USB2PacketSymbol)
    (O D : List Int) (o1 o2 d1 d2 : Int) (P : List Nat) (x y : Nat)
    (hX : m.cap.m_samples = X ++ [s1, s2]) (hO : m.cap.m_offsets = O ++ [o1, o2])
    (hD : m.cap.m_durations = D ++ [d1, d2]) (hP : m.packet_data = P ++ [x, y])
    (hlO : O.length = X.length) (hlD : D.length = X.length) :
    mergeCrc16 m
      = .ok { m with
          packet_data := P
          cap := { m.cap with
            m_offsets := O ++ [o1]
            m_durations := D ++ [d1 + d2]
            m_samples := X ++ [⟨if ((s1.m_data <<< 8) ||| s2.m_data) % 65536 = CalculateCRC16 P
              then TYPE_CRC16_GOOD else TYPE_CRC16_BAD,
              ((s1.m_data <<< 8) ||| s2.m_data) % 65536⟩] } } := by
  have hlen : m.cap.m_samples.length = X.length + 2 := by rw [hX]; simp
  have g1 := getD_append_two X s1 s2 ⟨TYPE_ERROR, 0⟩
  have g2 := getD_append_two D d1 d2 0
  rw [hlD] at g2
  have hdrop : (P ++ [x, y]).dropLast.dropLast = P := by
    have : P ++ [x, y] = (P ++ [x]) ++ [y] := by simp
    rw [this, List.dropLast_concat, List.dropLast_concat]
  unfold mergeCrc16
  have e1 : m.cap.m_samples.length - 2 = X.length := by omega
  have e2 : m.cap.m_samples.length - 1 = X.length + 1 := by omega
  have hn : ¬ (m.cap.m_samples.length < 2) := by omega
  have hp : ¬ (m.packet_data.length < 2) := by rw [hP]; simp
  simp only [hn, hp, if_false, e1, e2]
  rw [hX, hO, hD, hP, hdrop, g1.1, g1.2, g2.1, g2.2]
  have t1 := set_take_append_two X s1 s2
    ⟨if ((s1.m_data <<< 8) ||| s2.m_data) % 65536 = CalculateCRC16 P
      then TYPE_CRC16_GOOD else TYPE_CRC16_BAD, ((s1.m_data <<< 8) ||| s2.m_data) % 65536⟩
  have t2 := set_take_append_two D d1 d2 (d1 + d2)
  have t3 := set_take_append_two O o1 o2 o1
  rw [hlD] at t2
  rw [hlO] at t3
  rw [t1.1, t2.1, t3.2]

theorem crc16_word_lt (a b : Nat) (ha : a < 256) (hb : b < 256) :
    ((a <<< 8) ||| b) % 65536 = (a <<< 8) ||| b := by
  apply Nat.mod_eq_of_lt
  have h1 : a <<< 8 < 2 ^ 16 := by
    rw [Nat.shiftLeft_eq]
    omega
  have h2 : b < 2 ^ 16 := by omega
  have := Nat.or_lt_two_pow h1 h2
  simpa using this

/-- C18. For every data packet: from `STATE_PID`, a PID byte that passes the check and is DATA0,
DATA1, DATA2 or MDATA, then `k >= 2` data bytes (the bytes of `front`, then `e1` and `e2`), then
an EOP. Before the EOP the output ends with the `k` `TYPE_DATA` symbols. After it, the last two
are replaced by one CRC16 symbol with the offset of the first, the sum of the two durations and
the value `(first << 8) | second`, of type `CRC16_GOOD` exactly when that value equals
`CalculateCRC16` of the `k - 2` bytes before, and `CRC16_BAD` otherwise; everything emitted
before is as it was, and the state is `STATE_IDLE`. -/
theorem C18_crc16_retype (m : Machine) (p : Nat) (o d : Int) (front : List Entry)
    (e1 e2 eop : Entry) (hs : m.state = STATE_PID) (hpar : Parallel m.cap) (hp : p < 256)
    (hpid : PidCheckOk p)
    (hdat : p &&& 0xf = PID_DATA0 ∨ p &&& 0xf = PID_DATA1 ∨ p &&& 0xf = PID_DATA2
      ∨ p &&& 0xf = PID_MDATA)
    (hbody : ∀ e ∈ front ++ [e1, e2], e.sym.m_type = PCSType.TYPE_DATA ∧ e.sym.m_data < 256)
    (heop : eop.sym.m_type = PCSType.TYPE_EOP) :
    (∃ mb, framing (dataEntry p o d :: (front ++ [e1, e2])) m = .ok mb
      ∧ mb.cap.m_samples = m.cap.m_samples ++ [⟨TYPE_PID, p⟩] ++ dataSymbols front
          ++ [⟨TYPE_DATA, e1.sym.m_data⟩, ⟨TYPE_DATA, e2.sym.m_data⟩]
      ∧ mb.cap.m_offsets = m.cap.m_offsets ++ [o] ++ front.map Entry.off ++ [e1.off, e2.off]
      ∧ mb.cap.m_durations = m.cap.m_durations ++ [d] ++ front.map Entry.dur
          ++ [e1.dur, e2.dur])
    ∧ ∃ m', framing (dataEntry p o d :: (front ++ [e1, e2] ++ [eop])) m = .ok m'
      ∧ m'.cap.m_samples = m.cap.m_samples ++ [⟨TYPE_PID, p⟩] ++ dataSymbols front
          ++ [⟨if (e1.sym.m_data <<< 8) ||| e2.sym.m_data
                  = CalculateCRC16 (front.map fun e => e.sym.m_data)
                then TYPE_CRC16_GOOD else TYPE_CRC16_BAD,
              (e1.sym.m_data <<< 8) ||| e2.sym.m_data⟩]
      ∧ m'.cap.m_offsets = m.cap.m_offsets ++ [o] ++ front.map Entry.off ++ [e1.off]
      ∧ m'.cap.m_durations = m.cap.m_durations ++ [d] ++ front.map Entry.dur
          ++ [e1.dur + e2.dur]
      ∧ m'.state = STATE_IDLE := by
  have s1 := step_pid_ok m p o d hs hp hpid
  rw [afterPid_data _ _ hdat] at s1
  obtain ⟨m1, hm1⟩ : ∃ m1 : Machine, m1 = { m with
      cap := emit m.cap o d TYPE_PID p, state := STATE_DATA, packet_data := [] } := ⟨_, rfl⟩
  have s1' : step (dataEntry p o d).sym (dataEntry p o d).off (dataEntry p o d).dur m
      = .ok m1 := by
    rw [hm1]; exact s1
  have hty : ∀ e ∈ front ++ [e1, e2], e.sym.m_type = PCSType.TYPE_DATA :=
    fun e he => (hbody e he).1
  have m1s : m1.state = STATE_DATA := by rw [hm1]
  obtain ⟨m2, hm2⟩ : ∃ m2 : Machine, m2 = { m1 with
      cap := { m1.cap with
        m_offsets := m1.cap.m_offsets ++ (front ++ [e1, e2]).map Entry.off
        m_durations := m1.cap.m_durations ++ (front ++ [e1, e2]).map Entry.dur
        m_samples := m1.cap.m_samples ++ dataSymbols (front ++ [e1, e2]) }
      packet_data := m1.packet_data ++ (front ++ [e1, e2]).map fun e => e.sym.m_data } :=
    ⟨_, rfl⟩
  have hX : m2.cap.m_samples = (m.cap.m_samples ++ [⟨TYPE_PID, p⟩] ++ dataSymbols front)
      ++ [⟨TYPE_DATA, e1.sym.m_data⟩, ⟨TYPE_DATA, e2.sym.m_data⟩] := by
    rw [hm2, hm1]; simp [emit, dataSymbols]
  have hO : m2.cap.m_offsets = (m.cap.m_offsets ++ [o] ++ front.map Entry.off)
      ++ [e1.off, e2.off] := by
    rw [hm2, hm1]; simp [emit]
  have hD : m2.cap.m_durations = (m.cap.m_durations ++ [d] ++ front.map Entry.dur)
      ++ [e1.dur, e2.dur] := by
    rw [hm2, hm1]; simp [emit]
  have hP : m2.packet_data = (front.map fun e => e.sym.m_data)
      ++ [e1.sym.m_data, e2.sym.m_data] := by
    rw [hm2, hm1]; simp
  constructor
  · refine ⟨m2, ?_, hX, hO, hD⟩
    rw [framing, s1']
    simp only
    have := framing_data (front ++ [e1, e2]) [] m1 m1s hty
    rw [List.append_nil] at this
    rw [this, hm2]
    rfl
  · have hmerge := mergeCrc16_two m2 _ _ _ _ _ _ _ _ _ _ _ _ hX hO hD hP
      (by simp [hpar.1, dataSymbols]) (by simp [hpar.2, dataSymbols])
    have hw := crc16_word_lt e1.sym.m_data e2.sym.m_data
      (hbody e1 (by simp)).2 (hbody e2 (by simp)).2
    simp only [hw] at hmerge
    obtain ⟨m3, hm3, hs3, ho3, hd3⟩ : ∃ m3, mergeCrc16 m2 = .ok m3
        ∧ m3.cap.m_samples = m.cap.m_samples ++ [⟨TYPE_PID, p⟩] ++ dataSymbols front
            ++ [⟨if (e1.sym.m_data <<< 8) ||| e2.sym.m_data
                    = CalculateCRC16 (front.map fun e => e.sym.m_data)
                  then TYPE_CRC16_GOOD else TYPE_CRC16_BAD,
                (e1.sym.m_data <<< 8) ||| e2.sym.m_data⟩]
        ∧ m3.cap.m_offsets = m.cap.m_offsets ++ [o] ++ front.map Entry.off ++ [e1.off]
        ∧ m3.cap.m_durations = m.cap.m_durations ++ [d] ++ front.map Entry.dur
            ++ [e1.dur + e2.dur] := ⟨_, hmerge, rfl, rfl, rfl⟩
    have m2s : m2.state = STATE_DATA := by rw [hm2]; exact m1s
    have hstep : step eop.sym eop.off eop.dur m2 = .ok (afterEop eop.sym m3) := by
      unfold step
      rw [m2s]
      simp only [heop, reduceCtorEq, if_false, if_true, hm3]
    refine ⟨afterEop eop.sym m3, ?_, ?_, ?_, ?_, ?_⟩
    · rw [framing, s1']
      simp only
      rw [framing_data (front ++ [e1, e2]) [eop] m1 m1s hty, ← hm2, framing, hstep]
      rfl
    · simp [afterEop, heop, hs3]
    · simp [afterEop, heop, ho3]
    · simp [afterEop, heop, hd3]
    · simp [afterEop, heop]

/-- C18 at the data packet `0xC3 0x12 0x34 0x56 0x78`, EOP. -/
theorem C18_crc16_retype_witness :
    (pidMachine.state = STATE_PID ∧ Parallel pidMachine.cap ∧ (0xc3 : Nat) < 256
      ∧ PidCheckOk 0xc3
      ∧ (0xc3 &&& 0xf = PID_DATA0 ∨ 0xc3 &&& 0xf = PID_DATA1 ∨ 0xc3 &&& 0xf = PID_DATA2
        ∨ 0xc3 &&& 0xf = PID_MDATA)
      ∧ (∀ e ∈ [dataEntry 0x12 8 8, dataEntry 0x34 16 8] ++ [dataEntry 0x56 24 8,
          dataEntry 0x78 32 8], e.sym.m_type = PCSType.TYPE_DATA ∧ e.sym.m_data < 256)
      ∧ (⟨⟨PCSType.TYPE_EOP, 0⟩, 40, 8⟩ : Entry).sym.m_type = PCSType.TYPE_EOP)
    ∧ ∃ mb, framing (dataEntry 0xc3 0 8 :: ([dataEntry 0x12 8 8, dataEntry 0x34 16 8]
          ++ [dataEntry 0x56 24 8, dataEntry 0x78 32 8])) pidMachine = .ok mb
      ∧ mb.cap.m_samples = pidMachine.cap.m_samples ++ [⟨TYPE_PID, 0xc3⟩]
          ++ dataSymbols [dataEntry 0x12 8 8, dataEntry 0x34 16 8]
          ++ [⟨TYPE_DATA, (dataEntry 0x56 24 8).sym.m_data⟩,
              ⟨TYPE_DATA, (dataEntry 0x78 32 8).sym.m_data⟩]
      ∧ mb.cap.m_offsets = pidMachine.cap.m_offsets ++ [0]
          ++ [dataEntry 0x12 8 8, dataEntry 0x34 16 8].map Entry.off
          ++ [(dataEntry 0x56 24 8).off, (dataEntry 0x78 32 8).off]
      ∧ mb.cap.m_durations = pidMachine.cap.m_durations ++ [8]
          ++ [dataEntry 0x12 8 8, dataEntry 0x34 16 8].map Entry.dur
          ++ [(dataEntry 0x56 24 8).dur, (dataEntry 0x78 32 8).dur] :=
  ⟨⟨rfl, by decide, by decide, by decide, by decide, by decide, rfl⟩,
    (C18_crc16_retype pidMachine 0xc3 0 8 [dataEntry 0x12 8 8, dataEntry 0x34 16 8]
      (dataEntry 0x56 24 8) (dataEntry 0x78 32 8) ⟨⟨PCSType.TYPE_EOP, 0⟩, 40, 8⟩
      rfl (by decide) (by decide) (by decide) (by decide) (by decide) rfl).1⟩

end USB2PacketDecoder

namespace Ethernet10BaseTDecoder
open EthernetProtocolDecoder

theorem findFallingFrom_spec (cap : AnalogWaveform) (fuel j : Nat)
    (hf : cap.m_samples.length ≤ j + fuel) :
    match findFallingFrom cap fuel j with
    | some r => j ≤ r ∧ r < cap.m_samples.length ∧ cap.m_samples.getD r 0 < -1
        ∧ ∀ j', j ≤ j' → j' < r → ¬ (cap.m_samples.getD j' 0 < -1)
    | none => ∀ j', j ≤ j' → j' < cap.m_samples.length → ¬ (cap.m_samples.getD j' 0 < -1) := by
  induction fuel generalizing j with
  | zero =>
    rw [findFallingFrom]
    intro j' h1 h2
    omega
  | succ n ih =>
    rw [findFallingFrom]
    split_ifs with h1 h2
    · exact ⟨Nat.le_refl _, h1, h2, fun j' a b => by omega⟩
    · have h := ih (j + 1) (by omega)
      cases hr : findFallingFrom cap n (j + 1) with
      | none =>
        rw [hr] at h
        intro j' a b
        rcases Nat.eq_or_lt_of_le a with e | e
        · rw [← e]; exact h2
        · exact h j' e b
      | some r =>
        rw [hr] at h
        obtain ⟨a, b, c, d⟩ := h
        refine ⟨by omega, b, c, fun j' x y => ?_⟩
        rcases Nat.eq_or_lt_of_le x with e | e
        · rw [← e]; exact h2
        · exact d j' e y
    · intro j' a b
      omega

theorem findRisingFrom_spec (cap : AnalogWaveform) (fuel j : Nat)
    (hf : cap.m_samples.length ≤ j + fuel) :
    match findRisingFrom cap fuel j with
    | some r => j ≤ r ∧ r < cap.m_samples.length ∧ cap.m_samples.getD r 0 > 1
        ∧ ∀ j', j ≤ j' → j' < r → ¬ (cap.m_samples.getD j' 0 > 1)
    | none => ∀ j', j ≤ j' → j' < cap.m_samples.length → ¬ (cap.m_samples.getD j' 0 > 1) := by
  induction fuel generalizing j with
  | zero =>
    rw [findRisingFrom]
    intro j' h1 h2
    omega
  | succ n ih =>
    rw [findRisingFrom]
    split_ifs with h1 h2
    · exact ⟨Nat.le_refl _, h1, h2, fun j' a b => by omega⟩
    · have h := ih (j + 1) (by omega)
      cases hr : findRisingFrom cap n (j + 1) with
      | none =>
        rw [hr] at h
        intro j' a b
        rcases Nat.eq_or_lt_of_le a with e | e
        · rw [← e]; exact h2
        · exact h j' e b
      | some r =>
        rw [hr] at h
        obtain ⟨a, b, c, d⟩ := h
        refine ⟨by omega, b, c, fun j' x y => ?_⟩
        rcases Nat.eq_or_lt_of_le x with e | e
        · rw [← e]; exact h2
        · exact d j' e y
    · intro j' a b
      omega

/-- C14. For every analog waveform `w` and cursor `i`: `FindFallingEdge(i, w)` returns true with
the cursor set to the least index `j >= i` whose sample is below -1 (the model's `some j`) when
there is such an index, and otherwise returns false and leaves the cursor as it was (`none`);
`FindRisingEdge` does the same for samples above +1. The cursor never moves back. -/
theorem C14_edge_locator (i : Nat) (w : AnalogWaveform) :
    (match FindFallingEdge i w with
      | some j => i ≤ j ∧ j < w.m_samples.length ∧ w.m_samples.getD j 0 < -1
          ∧ ∀ j', i ≤ j' → j' < j → ¬ (w.m_samples.getD j' 0 < -1)
      | none => ∀ j, i ≤ j → j < w.m_samples.length → ¬ (w.m_samples.getD j 0 < -1))
    ∧ (match FindRisingEdge i w with
      | some j => i ≤ j ∧ j < w.m_samples.length ∧ w.m_samples.getD j 0 > 1
          ∧ ∀ j', i ≤ j' → j' < j → ¬ (w.m_samples.getD j' 0 > 1)
      | none => ∀ j, i ≤ j → j < w.m_samples.length → ¬ (w.m_samples.getD j 0 > 1)) :=
  ⟨findFallingFrom_spec w _ i (by omega), findRisingFrom_spec w _ i (by omega)⟩

end Ethernet10BaseTDecoder

namespace Manchester
open Ethernet10BaseTDecoder EthernetProtocolDecoder

/-- C16. On `lateEdgeAtEnd` (8 samples, the last one an edge 70 ns after the start of the unit
interval) the inner loop of `Refresh` finds the edge at index 7 outside the eye, increments the
index and reads `m_offsets[8]`, past the end of the 8 offsets. A trace that ends 20 ns after a
mid-bit edge is decoded without such a read. -/
theorem C16_late_edge_at_end_reads_past_end :
    lateEdgeAtEnd.m_samples.length = 8 ∧ lateEdgeAtEnd.m_offsets.length = 8
    ∧ FindFallingEdge 0 lateEdgeAtEnd = some 0
    ∧ FindEdge 0 lateEdgeAtEnd true = some 7
    ∧ timeAt lateEdgeAtEnd 7 = some 70000000
    ∧ timeAt lateEdgeAtEnd 8 = none
    ∧ (∀ (env : Env) (d : Decoder),
        Ethernet10BaseTDecoder.Refresh env true lateEdgeAtEnd d = .outOfRange)
    ∧ readsPastEnd (Ethernet10BaseTDecoder.Refresh exampleEnv true endsAfterMidBit freshDecoder)
        = false := by
  refine ⟨by decide, by decide, by decide!, by decide!, by decide!, by decide!, ?_, by decide!⟩
  intro env d
  have h : frames env lateEdgeAtEnd 9 0 false (newCapture lateEdgeAtEnd) [] d.pcap
      = .outOfRange := by
    have h1 : FindFallingEdge 0 lateEdgeAtEnd = some 0 := by decide!
    have h2 : timeAt lateEdgeAtEnd 0 = some 0 := by decide!
    have h3 : recoverBits lateEdgeAtEnd (lateEdgeAtEnd.m_samples.length + 1)
        ⟨0, 0, 0, [], [], [], false, 0, 0⟩ = .outOfRange := by decide!
    have h4 : (0 : Nat) < lateEdgeAtEnd.m_samples.length := by decide
    rw [frames, if_pos h4]
    simp only [Bool.false_eq_true, if_false, h1, h2, h3]
  exact h

end Manchester

/-! ## The capture-file record of `BytesToFrames` -/

namespace EthernetProtocolDecoder
open SegmentType

/-- After the SFD the loop never writes to the capture file and never goes back to the states
before the SFD. -/
theorem step_post_pcap (env : Env) (bytes starts ends : List Nat) (i b : Nat)
    (s s' : FrameState)
    (h : step env bytes starts ends i b s = .next s' ∨ step env bytes starts ends i b s = .done s')
    (hs : s.segment.m_type ≠ TYPE_INVALID ∧ s.segment.m_type ≠ TYPE_PREAMBLE) :
    s'.pcap = s.pcap
      ∧ s'.segment.m_type ≠ TYPE_INVALID ∧ s'.segment.m_type ≠ TYPE_PREAMBLE := by
  obtain ⟨⟨ty, data⟩, st, cs, ce, ca, pack, cap, pcap⟩ := s
  rcases h with h | h <;>
  cases ty <;> simp only [step, fixedField] at h <;> (try split_ifs at h) <;>
    first
    | (cases h; simp_all; done)
    | (simp at hs; done)
    | (cases h; done)

/-- Before the SFD a pass that stays before the SFD does not write to the capture file. -/
theorem step_pre_pcap (env : Env) (bytes starts ends : List Nat) (i b : Nat)
    (s s' : FrameState) (h : step env bytes starts ends i b s = .next s')
    (hs' : s'.segment.m_type = TYPE_INVALID ∨ s'.segment.m_type = TYPE_PREAMBLE) :
    s'.pcap = s.pcap
      ∧ (s.segment.m_type = TYPE_INVALID ∨ s.segment.m_type = TYPE_PREAMBLE) := by
  obtain ⟨⟨ty, data⟩, st, cs, ce, ca, pack, cap, pcap⟩ := s
  cases ty <;> simp only [step, fixedField] at h <;> (try split_ifs at h) <;>
    first
    | (cases h; simp_all; done)
    | (cases h; simp at hs'; done)
    | (cases h; done)

/-- No pass of the loop changes the start time of the output waveform. -/
theorem step_cap_times (env : Env) (bytes starts ends : List Nat) (i b : Nat)
    (s s' : FrameState)
    (h : step env bytes starts ends i b s = .next s' ∨ step env bytes starts ends i b s = .done s') :
    s'.cap.m_startTimestamp = s.cap.m_startTimestamp
      ∧ s'.cap.m_startFemtoseconds = s.cap.m_startFemtoseconds := by
  obtain ⟨⟨ty, data⟩, st, cs, ce, ca, pack, cap, pcap⟩ := s
  rcases h with h | h <;>
  cases ty <;> simp only [step, fixedField] at h <;> (try split_ifs at h) <;>
    first
    | (cases h; simp_all [pushSample, pushOffset, pushDuration]; done)
    | (cases h; done)

theorem loop_post_pcap (env : Env) (bytes starts ends : List Nat) (xs : List Nat) (i : Nat)
    (s : FrameState)
    (hs : s.segment.m_type ≠ TYPE_INVALID ∧ s.segment.m_type ≠ TYPE_PREAMBLE) :
    (loop env bytes starts ends xs i s).1.pcap = s.pcap := by
  induction xs generalizing i s with
  | nil => rfl
  | cons b xs ih =>
    simp only [loop]
    cases h : step env bytes starts ends i b s with
    | done s' => exact (step_post_pcap env bytes starts ends i b s s' (Or.inr h) hs).1
    | next s' =>
      obtain ⟨h1, h2⟩ := step_post_pcap env bytes starts ends i b s s' (Or.inl h) hs
      simp only
      rw [ih (i + 1) s' h2, h1]

/-- While the loop is before the SFD nothing has been written to the capture file; the start
time of the output waveform never changes. -/
theorem stateAfter_pcap (env : Env) (bytes starts ends : List Nat) (s0 : FrameState) (k : Nat)
    (hk : k ≤ bytes.length) (h : (stateAfter env bytes starts ends s0 k).2 = false) :
    (((stateAfter env bytes starts ends s0 k).1.segment.m_type = TYPE_INVALID
        ∨ (stateAfter env bytes starts ends s0 k).1.segment.m_type = TYPE_PREAMBLE) →
      (stateAfter env bytes starts ends s0 k).1.pcap = s0.pcap)
    ∧ (stateAfter env bytes starts ends s0 k).1.cap.m_startTimestamp = s0.cap.m_startTimestamp
    ∧ (stateAfter env bytes starts ends s0 k).1.cap.m_startFemtoseconds
        = s0.cap.m_startFemtoseconds := by
  induction k with
  | zero =>
    have e : stateAfter env bytes starts ends s0 0 = (s0, false) := by
      simp [stateAfter, loop]
    rw [e]
    exact ⟨fun _ => rfl, rfl, rfl⟩
  | succ k ih =>
    have hrun := stateAfter_running env bytes starts ends s0 (k + 1) k hk (by omega) h
    obtain ⟨i1, i2, i3⟩ := ih (by omega) hrun
    have hsucc := stateAfter_succ env bytes starts ends s0 k (by omega) hrun
    cases hst : step env bytes starts ends k (bytes.getD k 0)
        (stateAfter env bytes starts ends s0 k).1 with
    | done s' =>
      rw [hst] at hsucc
      rw [hsucc] at h
      simp at h
    | next s' =>
      rw [hst] at hsucc
      simp only at hsucc
      rw [hsucc]
      simp only
      obtain ⟨t1, t2⟩ := step_cap_times env bytes starts ends k _ _ s' (Or.inl hst)
      refine ⟨fun hp => ?_, t1.trans i2, t2.trans i3⟩
      obtain ⟨p1, p2⟩ := step_pre_pcap env bytes starts ends k _ _ s' hst hp
      rw [p1]
      exact i1 p2

/-- The fields of the record written at the SFD, for a start time whose femtoseconds are not
negative and do not overflow. -/
theorem pcapRecord_fields (env : Env) (bytes : List Nat) (i : Nat) (cap : EthernetWaveform)
    (start : Nat) (hfs : env.FS_PER_SECOND = 10 ^ 15) (h0 : 0 ≤ cap.m_startFemtoseconds)
    (hT : cap.m_startFemtoseconds + (start : Int) < 2 ^ 63) (hi : i < bytes.length)
    (hlen : bytes.length < 2 ^ 32) :
    (pcapRecord env bytes i cap start).sec
        = ((cap.m_startTimestamp + (cap.m_startFemtoseconds + (start : Int)) / 10 ^ 15)
            % 2 ^ 32).toNat
    ∧ ((pcapRecord env bytes i cap start).us : Int)
        = (cap.m_startFemtoseconds + (start : Int)) % 10 ^ 15 / 10 ^ 9
    ∧ (pcapRecord env bytes i cap start).us < 1000000
    ∧ (pcapRecord env bytes i cap start).caplen = bytes.length - (i + 1)
    ∧ (pcapRecord env bytes i cap start).origlen = bytes.length - (i + 1)
    ∧ (pcapRecord env bytes i cap start).data = bytes.drop (i + 1) := by
  obtain ⟨T, hTdef⟩ : ∃ T : Int, T = cap.m_startFemtoseconds + (start : Int) := ⟨_, rfl⟩
  have hT0 : 0 ≤ T := by rw [hTdef]; omega
  have hT1 : T < 2 ^ 63 := by rw [hTdef]; exact hT
  have hfs0 : toInt64 (toUInt64 cap.m_startFemtoseconds + start) = T := by
    have e1 : toUInt64 cap.m_startFemtoseconds + start = T.toNat := by
      unfold toUInt64
      rw [hTdef]
      have : cap.m_startFemtoseconds % 2 ^ 64 = cap.m_startFemtoseconds :=
        Int.emod_eq_of_lt h0 (by omega)
      rw [this]
      omega
    rw [e1]
    unfold toInt64
    have e2 : T.toNat % 2 ^ 64 = T.toNat := Nat.mod_eq_of_lt (by omega)
    rw [e2]
    have e3 : T.toNat < 2 ^ 63 := by omega
    rw [if_pos e3]
    omega
  have hlenE : (bytes.length + 2 ^ 32 - (i + 1) % 2 ^ 32) % 2 ^ 32 = bytes.length - (i + 1) := by
    have : (i + 1) % 2 ^ 32 = i + 1 := Nat.mod_eq_of_lt (by omega)
    rw [this]
    omega
  have hus : T % 10 ^ 15 / 10 ^ 9 < 1000000 ∧ 0 ≤ T % 10 ^ 15 / 10 ^ 9 := by
    have := Int.emod_lt_of_pos T (show (0 : Int) < 10 ^ 15 by norm_num)
    have := Int.emod_nonneg T (show (10 : Int) ^ 15 ≠ 0 by norm_num)
    omega
  have hfields : (if decide (T ≥ ((10 ^ 15 : Nat) : Int))
        then cap.m_startTimestamp + Int.tdiv T ((10 ^ 15 : Nat) : Int)
        else cap.m_startTimestamp) = cap.m_startTimestamp + T / 10 ^ 15
      ∧ (if decide (T ≥ ((10 ^ 15 : Nat) : Int)) then Int.tmod T ((10 ^ 15 : Nat) : Int) else T)
        = T % 10 ^ 15 := by
    have hd : Int.tdiv T ((10 ^ 15 : Nat) : Int) = T / 10 ^ 15 := by
      rw [Int.tdiv_eq_ediv hT0 (by norm_num)]; norm_num
    have hm : Int.tmod T ((10 ^ 15 : Nat) : Int) = T % 10 ^ 15 := by
      rw [Int.tmod_eq_emod hT0 (by norm_num)]; norm_num
    by_cases hc : T ≥ ((10 ^ 15 : Nat) : Int)
    · simp only [hc, decide_True, if_true]
      exact ⟨by rw [hd], hm⟩
    · simp only [hc, decide_False, if_false, Bool.false_eq_true]
      have hlt : T < 10 ^ 15 := by
        have : ((10 ^ 15 : Nat) : Int) = 10 ^ 15 := by norm_num
        omega
      constructor
      · rw [Int.ediv_eq_zero_of_lt hT0 hlt]; simp
      · rw [Int.emod_eq_of_lt hT0 hlt]
  have hustd : Int.tdiv (T % 10 ^ 15) 1000000000 = T % 10 ^ 15 / 10 ^ 9 := by
    rw [Int.tdiv_eq_ediv (Int.emod_nonneg T (by norm_num)) (by norm_num)]; norm_num
  have hrec : pcapRecord env bytes i cap start
      = ⟨((cap.m_startTimestamp + T / 10 ^ 15) % 2 ^ 32).toNat,
         ((T % 10 ^ 15 / 10 ^ 9) % 2 ^ 32).toNat,
         bytes.length - (i + 1), bytes.length - (i + 1),
         (bytes.drop (i + 1)).take (bytes.length - (i + 1))⟩ := by
    unfold pcapRecord
    simp only [hfs0, hfs, hfields.1, hfields.2, hlenE, hustd]
  have hmod : (T % 10 ^ 15 / 10 ^ 9 % 2 ^ 32) = T % 10 ^ 15 / 10 ^ 9 :=
    Int.emod_eq_of_lt hus.2 (by omega)
  rw [hrec, ← hTdef]
  refine ⟨rfl, ?_, ?_, rfl, rfl, ?_⟩
  · show (((T % 10 ^ 15 / 10 ^ 9) % 2 ^ 32).toNat : Int) = _
    rw [hmod]
    exact Int.toNat_of_nonneg hus.2
  · show ((T % 10 ^ 15 / 10 ^ 9) % 2 ^ 32).toNat < 1000000
    rw [hmod]
    omega
  · show (bytes.drop (i + 1)).take (bytes.length - (i + 1)) = _
    apply List.take_of_length_le
    rw [List.length_drop]

/-- The pass of the loop that consumes the SFD. -/
theorem step_sfd_pcap (env : Env) (bytes starts ends : List Nat) (i : Nat) (s : FrameState)
    (hs : s.segment.m_type = TYPE_PREAMBLE) :
    ∃ s', step env bytes starts ends i 0xd5 s = .next s'
      ∧ s'.segment.m_type = TYPE_DST_MAC
      ∧ s'.pcap = (if env.fileOpen then
          s.pcap ++ [pcapRecord env bytes i s'.cap (starts.getD i 0)] else s.pcap)
      ∧ s'.cap.m_startTimestamp = s.cap.m_startTimestamp
      ∧ s'.cap.m_startFemtoseconds = s.cap.m_startFemtoseconds := by
  obtain ⟨⟨ty, data⟩, st, cs, ce, ca, pack, cap, pcap⟩ := s
  simp only at hs
  subst hs
  simp only [step, if_true]
  exact ⟨_, rfl, rfl, rfl, rfl, rfl⟩

/-- C13. When the capture file is open (and `FS_PER_SECOND` is `10^15`), for every byte
sequence of fewer than `2^32` bytes in which `BytesToFrames` recognises an SFD at index `s`,
and a start time whose femtoseconds are not negative and, with the start of the SFD added, fit
an `int64_t`: exactly one record is appended to the file; its seconds field is the capture
start time plus `floor((startFemtoseconds + SFD start) / 10^15)` (as a 32-bit value), its
microseconds field is `((startFemtoseconds + SFD start) mod 10^15) / 10^9`, below 1,000,000,
its captured length and its original length are the number of bytes after index `s`, and its
data are exactly those bytes. -/
theorem C13_pcap_record (env : Env) (bytes starts ends : List Nat) (cap : EthernetWaveform)
    (pk : List Packet) (pc : List PcapRecord) (s : Nat)
    (hopen : env.fileOpen = true) (hfs : env.FS_PER_SECOND = 10 ^ 15)
    (hsfd : SfdAt env bytes starts ends (initState cap pc) s) (hs : s < bytes.length)
    (hlen : bytes.length < 2 ^ 32) (h0 : 0 ≤ cap.m_startFemtoseconds)
    (hT : cap.m_startFemtoseconds + (starts.getD s 0 : Int) < 2 ^ 63) :
    ∃ r, (BytesToFrames env bytes starts ends cap pk pc).pcap = pc ++ [r]
      ∧ r.sec = ((cap.m_startTimestamp
          + (cap.m_startFemtoseconds + (starts.getD s 0 : Int)) / 10 ^ 15) % 2 ^ 32).toNat
      ∧ (r.us : Int) = (cap.m_startFemtoseconds + (starts.getD s 0 : Int)) % 10 ^ 15 / 10 ^ 9
      ∧ r.us < 1000000
      ∧ r.caplen = bytes.length - (s + 1)
      ∧ r.origlen = bytes.length - (s + 1)
      ∧ r.data = bytes.drop (s + 1) := by
  obtain ⟨hrun, hpre, hbyte⟩ := hsfd
  obtain ⟨i1, i2, i3⟩ := stateAfter_pcap env bytes starts ends (initState cap pc) s
    (by omega) hrun
  have ipc := i1 (Or.inr hpre)
  obtain ⟨s', e1, e2, e3, e4, e5⟩ := step_sfd_pcap env bytes starts ends s
    (stateAfter env bytes starts ends (initState cap pc) s).1 hpre
  rw [hopen, if_pos rfl, ipc] at e3
  have hsplit : bytes = bytes.take s ++ (0xd5 :: bytes.drop (s + 1)) := by
    have h1 : bytes.drop s = bytes.getD s 0 :: bytes.drop (s + 1) := by
      rw [List.getD_eq_getElem?_getD, List.getElem?_eq_getElem hs]
      exact List.drop_eq_getElem_cons hs
    rw [← hbyte, ← h1, List.take_append_drop]
  have hloop : loop env bytes starts ends bytes 0 (initState cap pc)
      = loop env bytes starts ends (bytes.drop (s + 1)) (s + 1) s' := by
    have ht : (bytes.take s).length = s := by rw [List.length_take]; omega
    have := loop_then env bytes starts ends (bytes.take s) (0xd5 :: bytes.drop (s + 1)) 0
      (initState cap pc) hrun
    rw [← hsplit, ht, Nat.zero_add] at this
    rw [this]
    show loop env bytes starts ends (0xd5 :: bytes.drop (s + 1)) s
      (stateAfter env bytes starts ends (initState cap pc) s).1 = _
    rw [loop, e1]
  have hpost := loop_post_pcap env bytes starts ends (bytes.drop (s + 1)) (s + 1) s'
    (by rw [e2]; simp)
  have hfem : s'.cap.m_startFemtoseconds = cap.m_startFemtoseconds := e5.trans i3
  have hts : s'.cap.m_startTimestamp = cap.m_startTimestamp := e4.trans i2
  obtain ⟨f1, f2, f3, f4, f5, f6⟩ := pcapRecord_fields env bytes s s'.cap (starts.getD s 0) hfs
    (by rw [hfem]; exact h0) (by rw [hfem]; exact hT) hs hlen
  rw [hfem, hts] at f1
  rw [hfem] at f2
  refine ⟨pcapRecord env bytes s s'.cap (starts.getD s 0), ?_, f1, f2, f3, f4, f5, f6⟩
  show (loop env bytes starts ends bytes 0 (initState cap pc)).1.pcap = _
  rw [hloop, hpost, e3]
  rfl

/-- C13 at `exampleFrame`, whose SFD is at index 2 and starts 2 µs after the start of the
capture: the record is stamped one second and one microsecond after the start time. -/
theorem C13_pcap_record_witness :
    (openEnv.fileOpen = true ∧ openEnv.FS_PER_SECOND = 10 ^ 15
      ∧ SfdAt openEnv exampleFrame.bytes [0, 1000000000, 2000000000] [] (initState timedCap []) 2
      ∧ 2 < exampleFrame.bytes.length ∧ exampleFrame.bytes.length < 2 ^ 32
      ∧ 0 ≤ timedCap.m_startFemtoseconds
      ∧ timedCap.m_startFemtoseconds
          + (([0, 1000000000, 2000000000] : List Nat).getD 2 0 : Int) < 2 ^ 63)
    ∧ ∃ r, (BytesToFrames openEnv exampleFrame.bytes [0, 1000000000, 2000000000] [] timedCap
          [] []).pcap = [] ++ [r]
      ∧ r.sec = ((timedCap.m_startTimestamp + (timedCap.m_startFemtoseconds
          + (([0, 1000000000, 2000000000] : List Nat).getD 2 0 : Int)) / 10 ^ 15) % 2 ^ 32).toNat
      ∧ (r.us : Int) = (timedCap.m_startFemtoseconds
          + (([0, 1000000000, 2000000000] : List Nat).getD 2 0 : Int)) % 10 ^ 15 / 10 ^ 9
      ∧ r.us < 1000000
      ∧ r.caplen = exampleFrame.bytes.length - (2 + 1)
      ∧ r.origlen = exampleFrame.bytes.length - (2 + 1)
      ∧ r.data = exampleFrame.bytes.drop (2 + 1) :=
  ⟨⟨rfl, rfl, ⟨by decide, by decide, by decide⟩, by decide, by decide, by decide, by decide⟩,
    C13_pcap_record openEnv exampleFrame.bytes [0, 1000000000, 2000000000] [] timedCap [] [] 2
      rfl rfl ⟨by decide, by decide, by decide⟩ (by decide) (by decide) (by decide)
      (by decide)⟩

end EthernetProtocolDecoder

/-! ## `EyePattern::RecalculateUIWidth` -/

namespace EyePattern

theorem foldl_window (f : Nat → Int) (l : List Nat) (a : Int) (c : Nat) :
    l.foldl (fun acc i => (acc.1 + f i, acc.2 + 1)) (a, c) = (a + (l.map f).sum, c + l.length) := by
  induction l generalizing a c with
  | nil => simp
  | cons x r ih =>
    simp only [List.foldl_cons, List.map_cons, List.sum_cons, List.length_cons]
    rw [ih]
    congr 1
    · ring
    · omega

theorem map_getD_range' (l : List Int) (m k : Nat) (h : k + m ≤ l.length) :
    (List.range' k m).map (fun i => l.getD i 0) = (l.drop k).take m := by
  induction m generalizing k with
  | zero => simp
  | succ m ih =>
    have hk : k < l.length := by omega
    rw [List.range'_succ, List.map_cons, ih (k + 1) (by omega), List.drop_eq_getElem_cons hk,
      List.take_succ_cons, List.getD_eq_getElem?_getD, List.getElem?_eq_getElem hk]
    rfl

/-- The loop over the window of the sorted deltas: the sum and the number of the deltas with
indices `nuis/10` to `nuis*9/10`. -/
theorem sumWindow_eq (l : List Int) (h : 10 < l.length) :
    sumWindow l l.length
      = (((l.drop (l.length / 10)).take (l.length * 9 / 10 + 1 - l.length / 10)).sum,
          l.length * 9 / 10 + 1 - l.length / 10) := by
  unfold sumWindow
  rw [foldl_window (fun i => l.getD i 0), map_getD_range' l _ _ (by omega)]
  simp

theorem uiWidths_eq_deltas (edges : List Int) : uiWidths edges = deltas edges := by
  unfold uiWidths deltas
  apply List.ext_getElem?
  intro i
  simp only [List.getElem?_map, List.getElem?_zipWith]
  by_cases hi : i < edges.length - 1
  · have h1 : i < edges.length := by omega
    have h2 : i + 1 < edges.length := by omega
    have h3 : i < edges.tail.length := by rw [List.length_tail]; exact hi
    rw [List.getElem?_range hi]
    simp [List.getD_eq_getElem?_getD, List.getElem?_eq_getElem, h1, h2, h3]
  · have h3 : ¬ i < edges.tail.length := by rw [List.length_tail]; exact hi
    rw [List.getElem?_eq_none (by rw [List.length_range]; omega)]
    rw [List.getElem?_eq_none (l := edges.tail) (by omega)]
    cases edges[i]? <;> rfl

theorem deltas_length (edges : List Int) : (deltas edges).length = edges.length - 1 := by
  unfold deltas
  rw [List.length_zipWith, List.length_tail]
  omega

/-- C11 as stated fails. With ten edges (nine deltas, all 10) the automatic mode leaves the
width as it was (here 0), although the trimmed mean of the deltas is 10: the window is only
averaged for more than ten deltas. With 21 edges (deltas 1 to 20) the two lowest deltas and
only the one highest are discarded: the width is 11, and the mean without the two lowest and
the two highest is 21/2. -/
theorem C11_counterexample :
    tenEdges.length = 10
    ∧ RecalculateUIWidth (10 ^ 15) ⟨RateMode.MODE_AUTO, 1000, some tenEdges⟩ 0 = 0
    ∧ trimmedMean (deltas tenEdges) ((deltas tenEdges).length / 10) = 10
    ∧ twentyOneEdges.length = 21
    ∧ RecalculateUIWidth (10 ^ 15) ⟨RateMode.MODE_AUTO, 1000, some twentyOneEdges⟩ 0 = 11
    ∧ trimmedMean (deltas twentyOneEdges) ((deltas twentyOneEdges).length / 10) = 21 / 2 := by
  decide!

/-- C11 (amended). In automatic rate mode, whenever the clock input has more than eleven edges,
so more than ten inter-edge deltas, and the number `n` of deltas is not a multiple of ten,
`RecalculateUIWidth` sets the unit-interval width to the trimmed mean of the deltas: the deltas
are sorted, the lowest `n/10` and the highest `n/10` (rounded down) are discarded, and the
width is the exact average of the remaining deltas. -/
theorem C11_trimmed_mean (fs : Nat) (rate : Int) (edges : List Int) (w : ℚ)
    (hn : 10 < edges.length - 1) (hm : (edges.length - 1) % 10 ≠ 0) :
    RecalculateUIWidth fs ⟨RateMode.MODE_AUTO, rate, some edges⟩ w
      = trimmedMean (deltas edges) ((edges.length - 1) / 10) := by
  have hne : edges.isEmpty = false := by
    cases edges with
    | nil => simp at hn
    | cons a r => rfl
  have hlen : (uiWidths edges).length = edges.length - 1 := by
    rw [uiWidths_eq_deltas, deltas_length]
  have hsl : ((uiWidths edges).insertionSort (· ≤ ·)).length = edges.length - 1 := by
    rw [List.length_insertionSort, hlen]
  unfold RecalculateUIWidth trimmedMean
  simp only [reduceCtorEq, if_false, hne, Bool.false_eq_true, hlen, hn, if_true]
  have hw := sumWindow_eq ((uiWidths edges).insertionSort (· ≤ ·)) (by rw [hsl]; exact hn)
  rw [hsl] at hw
  rw [hw, ← uiWidths_eq_deltas, hlen]
  have hcount : (edges.length - 1) * 9 / 10 + 1 - (edges.length - 1) / 10
      = edges.length - 1 - 2 * ((edges.length - 1) / 10) := by omega
  rw [hcount]
  have hkl : ((((uiWidths edges).insertionSort (· ≤ ·)).drop ((edges.length - 1) / 10)).take
      (edges.length - 1 - 2 * ((edges.length - 1) / 10))).length
      = edges.length - 1 - 2 * ((edges.length - 1) / 10) := by
    rw [List.length_take, List.length_drop, hsl]
    omega
  simp only [hkl]

/-- C11 at twelve edges with the deltas 1 to 11: the width is the mean of 2 to 10. -/
theorem C11_trimmed_mean_witness :
    (10 < twelveEdges.length - 1 ∧ (twelveEdges.length - 1) % 10 ≠ 0)
    ∧ RecalculateUIWidth (10 ^ 15) ⟨RateMode.MODE_AUTO, 1000, some twelveEdges⟩ 0
        = trimmedMean (deltas twelveEdges) ((twelveEdges.length - 1) / 10) :=
  ⟨⟨by decide, by decide⟩,
    C11_trimmed_mean (10 ^ 15) 1000 twelveEdges 0 (by decide) (by decide)⟩

/-- C12 as stated fails. In automatic mode with five edges the width stays as it was (here 7);
the configured rate (1000, which would give `10^12`) is not used. -/
theorem C12_counterexample :
    RecalculateUIWidth (10 ^ 15) ⟨RateMode.MODE_AUTO, 1000, some [0, 10, 20, 30, 40]⟩ 7 = 7
    ∧ RecalculateUIWidth (10 ^ 15) ⟨RateMode.MODE_FIXED, 1000, some [0, 10, 20, 30, 40]⟩ 7
        = 10 ^ 12 := by
  decide!

/-- C12 (amended). In automatic rate mode, when the clock input has fewer than 10 edges (indeed
at most 11), `RecalculateUIWidth` leaves the unit-interval width as it was; the configured bit
rate is used in fixed mode only, where the width is `FS_PER_SECOND` divided by it. -/
theorem C12_few_edges_keep_width (fs : Nat) (rate : Int) (edges : List Int) (w : ℚ)
    (hn : edges.length ≤ 11) :
    RecalculateUIWidth fs ⟨RateMode.MODE_AUTO, rate, some edges⟩ w = w
    ∧ RecalculateUIWidth fs ⟨RateMode.MODE_FIXED, rate, some edges⟩ w = (fs : ℚ) / (rate : ℚ) := by
  constructor
  · have hlen : (uiWidths edges).length = edges.length - 1 := by
      rw [uiWidths_eq_deltas, deltas_length]
    have h10 : ¬ (edges.length - 1 > 10) := by omega
    unfold RecalculateUIWidth
    simp only [reduceCtorEq, if_false, hlen, h10]
    split_ifs <;> rfl
  · rfl

/-- C12 at five edges. -/
theorem C12_few_edges_keep_width_witness :
    ([0, 10, 20, 30, 40] : List Int).length ≤ 11
    ∧ RecalculateUIWidth (10 ^ 15) ⟨RateMode.MODE_AUTO, 1000, some [0, 10, 20, 30, 40]⟩ 7 = 7 :=
  ⟨by decide, (C12_few_edges_keep_width (10 ^ 15) 1000 [0, 10, 20, 30, 40] 7 (by decide)).1⟩

end EyePattern

/-! ## `DeEmbedFilter::MainLoop` and `DeEmbedFilter::MainLoopAVX2` -/

namespace DeEmbedFilter

/-- The vectorised function on eight bins, for every contents of the buffer and of the two
tables: every bin is rotated as the formula says. -/
theorem MainLoopAVX2_block (r0 i0 r1 i1 r2 i2 r3 i3 r4 i4 r5 i5 r6 i6 r7 i7 : ℚ)
    (s0 s1 s2 s3 s4 s5 s6 s7 c0 c1 c2 c3 c4 c5 c6 c7 : ℚ) :
    (MainLoopAVX2 8 ⟨[r0, i0, r1, i1, r2, i2, r3, i3, r4, i4, r5, i5, r6, i6, r7, i7],
        [s0, s1, s2, s3, s4, s5, s6, s7], [c0, c1, c2, c3, c4, c5, c6, c7]⟩).m_forwardOutBuf
      = [r0 * c0 - i0 * s0, r0 * s0 + i0 * c0, r1 * c1 - i1 * s1, r1 * s1 + i1 * c1,
         r2 * c2 - i2 * s2, r2 * s2 + i2 * c2, r3 * c3 - i3 * s3, r3 * s3 + i3 * c3,
         r4 * c4 - i4 * s4, r4 * s4 + i4 * c4, r5 * c5 - i5 * s5, r5 * s5 + i5 * c5,
         r6 * c6 - i6 * s6, r6 * s6 + i6 * c6, r7 * c7 - i7 * s7, r7 * s7 + i7 * c7] := by
  rfl

/-- C17. The two loops differ. For every bin `(re, im)` with table entries `s` (sine) and `c`
(cosine), `MainLoopAVX2` (its leftover loop) leaves `(re*c - im*s, re*s + im*c)`, the formula of
the claim, and the scalar `MainLoop` leaves `(re*s - im*c, re*c + im*s)`: its body reads
`cosval` from `m_resampledSparamSines` and `sinval` from `m_resampledSparamCosines`. On the bin
`(1, 0)` with sine 0 and cosine 1 that is `(1, 0)` against `(0, 1)`. On nine bins (one vector
block and one leftover) `MainLoopAVX2` gives the buffer of the formula and `MainLoop` does
not. -/
theorem C17_scalar_loop_swaps_tables :
    (MainLoop 1 oneBin).m_forwardOutBuf = [0, 1]
    ∧ (MainLoopAVX2 1 oneBin).m_forwardOutBuf = [1, 0]
    ∧ rotated 1 oneBin = [1, 0]
    ∧ (MainLoopAVX2 9 nineBins).m_forwardOutBuf = rotated 9 nineBins
    ∧ (MainLoop 9 nineBins).m_forwardOutBuf ≠ rotated 9 nineBins
    ∧ (∀ re im s c : ℚ,
        (MainLoop 1 ⟨[re, im], [s], [c]⟩).m_forwardOutBuf = [re * s - im * c, re * c + im * s])
    ∧ (∀ re im s c : ℚ,
        (MainLoopAVX2 1 ⟨[re, im], [s], [c]⟩).m_forwardOutBuf
          = [re * c - im * s, re * s + im * c])
    ∧ ∀ (buf sines cosines : List ℚ) (i : Nat),
        (mainStep ⟨buf, sines, cosines⟩ i).m_forwardOutBuf
          = (leftoverStep ⟨buf, cosines, sines⟩ i).m_forwardOutBuf := by
  refine ⟨by decide!, by decide!, by decide!, by decide!, by decide!, ?_, ?_, ?_⟩
  · intro re im s c
    rfl
  · intro re im s c
    rfl
  · intro buf sines cosines i
    rfl

end DeEmbedFilter

/-! ## `DramRowColumnLatencyMeasurement::Refresh` -/

namespace DramRowColumnLatencyMeasurement
open SType

/-- With the 8-entry table, a pass of the loop leaves the table exactly for bank number 8 on an
activate, read or write. -/
theorem step_outOfRange_iff (a0 a1 a2 a3 a4 a5 a6 a7 tlast : Int) (O D S : List Int)
    (timescale off : Int) (sample : SDRAMSymbol) :
    (∃ k, step timescale sample off ⟨[a0, a1, a2, a3, a4, a5, a6, a7], tlast, O, D, S⟩
        = .outOfRange k)
      ↔ sample.m_bank = 8 ∧ (sample.m_stype = TYPE_ACT ∨ sample.m_stype = TYPE_WR
          ∨ sample.m_stype = TYPE_WRA ∨ sample.m_stype = TYPE_RD ∨ sample.m_stype = TYPE_RDA) := by
  obtain ⟨ty, bank⟩ := sample
  by_cases h0 : bank < 0
  · have : bank ≠ 8 := by omega
    simp [step, h0, this]
  by_cases h8 : bank > 8
  · have : bank ≠ 8 := by omega
    simp [step, h8, this]
  by_cases he : bank = 8
  · subst he
    cases ty <;> simp [step, readAct, writeAct]
  · have hb : 0 ≤ bank ∧ bank < 8 := by omega
    have hc : bank = 0 ∨ bank = 1 ∨ bank = 2 ∨ bank = 3 ∨ bank = 4 ∨ bank = 5 ∨ bank = 6
        ∨ bank = 7 := by omega
    rcases hc with h | h | h | h | h | h | h | h <;> subst h <;>
      cases ty <;> simp [step, readAct, writeAct] <;> split_ifs <;> simp

/-- C30. The guard of `Refresh` is `(m_bank < 0) || (m_bank > 8)`: a sample with bank
number 8 is not discarded. An activate on bank 8 writes `lastAct[8]` and a read or write on
bank 8 reads `lastAct[8]`, outside the 8 entries of the table, whatever the state of the loop.
Bank numbers 9 and -1 are discarded, and on banks 0 to 7 the latency is measured; bank 8 on an
activate, read or write is the only way a pass of the loop leaves the table. -/
theorem C30_bank_eight_passes_the_guard :
    Refresh true (commands [⟨TYPE_ACT, 8⟩]) = .outOfRange 8
    ∧ Refresh true (commands [⟨TYPE_ACT, 7⟩, ⟨TYPE_RD, 8⟩]) = .outOfRange 8
    ∧ (∀ (timescale off : Int) (s : LoopState),
        step timescale ⟨TYPE_ACT, 8⟩ off s = .outOfRange 8
        ∧ step timescale ⟨TYPE_RD, 8⟩ off s = .outOfRange 8
        ∧ step timescale ⟨TYPE_WR, 8⟩ off s = .outOfRange 8
        ∧ step timescale ⟨TYPE_ACT, 9⟩ off s = .ok s
        ∧ step timescale ⟨TYPE_ACT, -1⟩ off s = .ok s)
    ∧ (∀ (a0 a1 a2 a3 a4 a5 a6 a7 tlast : Int) (O D S : List Int) (timescale off : Int)
        (sample : SDRAMSymbol),
        (∃ k, step timescale sample off ⟨[a0, a1, a2, a3, a4, a5, a6, a7], tlast, O, D, S⟩
            = .outOfRange k)
          ↔ sample.m_bank = 8 ∧ (sample.m_stype = TYPE_ACT ∨ sample.m_stype = TYPE_WR
              ∨ sample.m_stype = TYPE_WRA ∨ sample.m_stype = TYPE_RD
              ∨ sample.m_stype = TYPE_RDA))
    ∧ Refresh true (commands [⟨TYPE_ACT, 9⟩, ⟨TYPE_ACT, -1⟩]) = .ok none
    ∧ Refresh true (commands [⟨TYPE_PRE, 7⟩, ⟨TYPE_ACT, 7⟩, ⟨TYPE_RD, 7⟩])
        = .ok (some ⟨1, 0, 0, [0], [20], [10]⟩) := by
  refine ⟨by decide, by decide, fun timescale off s => ⟨rfl, rfl, rfl, rfl, rfl⟩,
    step_outOfRange_iff, by decide, by decide⟩

end DramRowColumnLatencyMeasurement

/-! ## `PRBSGeneratorFilter::Refresh` -/

namespace PRBSGeneratorFilter
open Polynomials

/-- The data bit of pass `n` is the bit `next` of the register after `n` passes. -/
theorem dataBits_getD (poly : Polynomials) (depth prbs n : Nat) (h : n < depth) :
    (dataBits poly depth prbs).getD n false = decide (nextBit poly (registerAt poly prbs n) ≠ 0) := by
  induction depth generalizing prbs n with
  | zero => omega
  | succ d ih =>
    cases n with
    | zero => simp [dataBits, registerAt]
    | succ m =>
      simp only [dataBits, registerAt, List.getD_cons_succ]
      exact ih _ m (by omega)

theorem registerAt_succ (poly : Polynomials) (prbs n : Nat) :
    registerAt poly prbs (n + 1)
      = shiftIn (registerAt poly prbs n) (nextBit poly (registerAt poly prbs n)) := by
  induction n generalizing prbs with
  | zero => rfl
  | succ m ih =>
    rw [registerAt, ih]
    rfl

theorem nextBit_lt (poly : Polynomials) (prbs : Nat) : nextBit poly prbs < 2 := by
  cases poly <;> simp only [nextBit, Nat.and_one_is_mod] <;> omega

/-- The cut to 32 bits leaves the bits below 32 as they are. -/
theorem shiftIn_testBit (prbs next j : Nat) (hj : j < 32) :
    (shiftIn prbs next).testBit j = ((prbs <<< 1) ||| next).testBit j := by
  unfold shiftIn
  rw [Nat.testBit_mod_two_pow]
  simp [hj]

/-- The new bit enters the register at bit 0. -/
theorem shiftIn_testBit_zero (prbs next : Nat) (h : next < 2) :
    (shiftIn prbs next).testBit 0 = decide (next ≠ 0) := by
  have h1 : next = 0 ∨ next = 1 := by omega
  rw [shiftIn_testBit _ _ _ (by omega)]
  rcases h1 with h1 | h1 <;> subst h1 <;> simp [Nat.testBit_or, Nat.testBit_shiftLeft]

/-- The other bits of the register move up by one place. -/
theorem shiftIn_testBit_succ (prbs next j : Nat) (h : next < 2) (hj : j + 1 < 32) :
    (shiftIn prbs next).testBit (j + 1) = prbs.testBit j := by
  have h1 : next = 0 ∨ next = 1 := by omega
  have e1 : Nat.testBit 1 (j + 1) = false := by
    rw [Nat.testBit_succ]; simp
  rw [shiftIn_testBit _ _ _ hj]
  rcases h1 with h1 | h1 <;> subst h1 <;> simp [Nat.testBit_or, Nat.testBit_shiftLeft, e1]

/-- The bit `next` of PRBS-7 is bit 7 of the register added to bit 6. -/
theorem nextBit_prbs7 (prbs : Nat) :
    decide (nextBit POLY_PRBS7 prbs ≠ 0) = xor (prbs.testBit 7) (prbs.testBit 6) := by
  have e : nextBit POLY_PRBS7 prbs = (((prbs >>> 7) ^^^ (prbs >>> 6)).testBit 0).toNat := by
    simp only [nextBit, Nat.and_one_is_mod, Nat.testBit_zero]
    rcases Nat.mod_two_eq_zero_or_one ((prbs >>> 7) ^^^ (prbs >>> 6)) with h | h <;> simp [h]
  rw [e, Nat.testBit_xor, Nat.testBit_shiftRight, Nat.testBit_shiftRight]
  cases prbs.testBit (7 + 0) <;> cases prbs.testBit (6 + 0) <;> rfl

/-- Bit `j` of the register after `n + j + 1` passes is the data bit of pass `n`. -/
theorem registerAt_testBit (poly : Polynomials) (prbs n j : Nat) (hj : j < 32) :
    (registerAt poly prbs (n + j + 1)).testBit j
      = decide (nextBit poly (registerAt poly prbs n) ≠ 0) := by
  induction j with
  | zero =>
    rw [Nat.add_zero, registerAt_succ, shiftIn_testBit_zero _ _ (nextBit_lt _ _)]
  | succ k ih =>
    have e : n + (k + 1) + 1 = (n + k + 1) + 1 := by omega
    rw [e, registerAt_succ, shiftIn_testBit_succ _ _ _ (nextBit_lt _ _) hj]
    exact ih (by omega)

/-- The recurrence of the generated bits with the PRBS-7 setting. -/
theorem prbs7_recurrence (depth prbs n : Nat) (h8 : 8 ≤ n) (hn : n < depth) :
    (dataBits POLY_PRBS7 depth prbs).getD n false
      = xor ((dataBits POLY_PRBS7 depth prbs).getD (n - 8) false)
          ((dataBits POLY_PRBS7 depth prbs).getD (n - 7) false) := by
  rw [dataBits_getD _ _ _ _ hn, dataBits_getD _ _ _ (n - 8) (by omega),
    dataBits_getD _ _ _ (n - 7) (by omega), nextBit_prbs7]
  have e7 : n = (n - 8) + 7 + 1 := by omega
  have e6 : n = (n - 7) + 6 + 1 := by omega
  have a := registerAt_testBit POLY_PRBS7 prbs (n - 8) 7 (by omega)
  have b := registerAt_testBit POLY_PRBS7 prbs (n - 7) 6 (by omega)
  rw [← e7] at a
  rw [← e6] at b
  rw [a, b]

/-- C29. With the PRBS-7 setting the loop of `Refresh` takes bit 7 and bit 6 of the register
(`(prbs >> 7) ^ (prbs >> 6)`), one place above the taps of `x^7 + x^6 + 1`. For the seed 1 the
bits are 0 0 0 0 0 0 1 1 0 0 0 0 0 1 0 1: `s[7] = 1` where `s[1] XOR s[0] = 0`, and
`s[12] = 0` where `s[6] XOR s[5] = 1`. For every seed and every `n` from 8 on, below the depth,
the bits satisfy `s[n] = s[n-7] XOR s[n-8]`, the recurrence of `x^8 + x^7 + 1`. -/
theorem C29_prbs7_taps_one_place_up :
    (Refresh (10 ^ 15) 16 10312500000 POLY_PRBS7 1).1.m_samples
      = [false, false, false, false, false, false, true, true, false, false, false, false,
          false, true, false, true]
    ∧ prbs7Bit 16 1 7 ≠ xor (prbs7Bit 16 1 (7 - 6)) (prbs7Bit 16 1 (7 - 7))
    ∧ prbs7Bit 16 1 12 ≠ xor (prbs7Bit 16 1 (12 - 6)) (prbs7Bit 16 1 (12 - 7))
    ∧ ∀ depth seed n : Nat, 8 ≤ n → n < depth →
        prbs7Bit depth seed n
          = xor (prbs7Bit depth seed (n - 7)) (prbs7Bit depth seed (n - 8)) := by
  refine ⟨by decide, by decide, by decide, fun depth seed n h8 hn => ?_⟩
  simp only [prbs7Bit, Refresh]
  rw [prbs7_recurrence depth _ n h8 hn, Bool.xor_comm]

/-- C29, for the seed 1 at `n = 12`: `s[12] = s[5] XOR s[4]`. -/
theorem C29_prbs7_taps_one_place_up_witness :
    (8 ≤ 12 ∧ 12 < 16)
    ∧ prbs7Bit 16 1 12 = xor (prbs7Bit 16 1 (12 - 7)) (prbs7Bit 16 1 (12 - 8)) :=
  ⟨by decide, C29_prbs7_taps_one_place_up.2.2.2 16 1 12 (by decide) (by decide)⟩

end PRBSGeneratorFilter

/-! ## `USB2PacketDecoder::VerifyCRC5` and single-bit errors -/

namespace USB2PacketDecoder

/-- A residual of 6 does not survive a flipped bit of the byte looked up. -/
theorem crc5Lookup_flip (x j : Nat) (hx : x < 256) (hj : j < 8) (h : crc5Lookup x = 6) :
    crc5Lookup (x ^^^ 2 ^ j) ≠ 6 := by
  have key : allBelow 256 (fun x => allBelow 8 fun j =>
      !(crc5Lookup x == 6) || !(crc5Lookup (x ^^^ 2 ^ j) == 6)) = true := by decide!
  have := allBelow_spec (allBelow_spec key x hx) j hj
  simpa [h] using this

/-- The table lookup is additive in a single bit. -/
theorem crc5Lookup_xor_bit (y j : Nat) (hy : y < 256) (hj : j < 8) :
    crc5Lookup (y ^^^ 2 ^ j) = crc5Lookup y ^^^ crc5Lookup (2 ^ j) := by
  have key : allBelow 256 (fun y => allBelow 8 fun j =>
      crc5Lookup (y ^^^ 2 ^ j) == crc5Lookup y ^^^ crc5Lookup (2 ^ j)) = true := by decide!
  have := allBelow_spec (allBelow_spec key y hy) j hj
  simpa using this

/-- A residual of 6 does not survive the change a flipped bit of the first byte makes to the
register. -/
theorem crc5Lookup_flip_first (x j : Nat) (hx : x < 256) (hj : j < 8) (h : crc5Lookup x = 6) :
    crc5Lookup (x ^^^ crc5Lookup (2 ^ j)) ≠ 6 := by
  have key : allBelow 256 (fun x => allBelow 8 fun j =>
      !(crc5Lookup x == 6) || !(crc5Lookup (x ^^^ crc5Lookup (2 ^ j)) == 6)) = true := by decide!
  have := allBelow_spec (allBelow_spec key x hx) j hj
  simpa [h] using this

theorem xor_lt_256 (a b : Nat) (ha : a < 256) (hb : b < 256) : a ^^^ b < 256 := by
  have : a ^^^ b < 2 ^ 8 := Nat.xor_lt_two_pow (by norm_num; omega) (by norm_num; omega)
  simpa using this

theorem crc5Lookup_lt (b : Nat) : crc5Lookup b < 256 := by
  unfold crc5Lookup
  exact Nat.mod_lt _ (by norm_num)

theorem bit_lt_256 (j : Nat) (hj : j < 8) : 2 ^ j < 256 := by
  have : 2 ^ j < 2 ^ 8 := Nat.pow_lt_pow_right (by norm_num) hj
  simpa using this

/-- C28. For all bytes `b0`, `b1` that `VerifyCRC5` accepts and every `k < 16`, the pair with
bit `k` flipped (bits 0 to 7 in `b0`, bits 8 to 15 in `b1`) is rejected. -/
theorem C28_single_bit_error_detected (b0 b1 k : Nat) (h0 : b0 < 256) (h1 : b1 < 256)
    (hk : k < 16) (hacc : VerifyCRC5 b0 b1 = true) :
    VerifyCRC5 (flipBit (b0, b1) k).1 (flipBit (b0, b1) k).2 = false := by
  simp only [VerifyCRC5, crc5Update, beq_iff_eq] at hacc
  have hy : b0 ^^^ 0x1f < 256 := xor_lt_256 _ _ h0 (by norm_num)
  rw [Nat.mod_eq_of_lt hy] at hacc
  have hx : b1 ^^^ crc5Lookup (b0 ^^^ 0x1f) < 256 := xor_lt_256 _ _ h1 (crc5Lookup_lt _)
  rw [Nat.mod_eq_of_lt hx] at hacc
  by_cases hk8 : k < 8
  · have hb : 2 ^ k < 256 := bit_lt_256 k hk8
    have hy' : (b0 ^^^ 2 ^ k) ^^^ 0x1f < 256 := xor_lt_256 _ _ (xor_lt_256 _ _ h0 hb) (by norm_num)
    have e1 : (b0 ^^^ 2 ^ k) ^^^ 0x1f = (b0 ^^^ 0x1f) ^^^ 2 ^ k := by
      rw [Nat.xor_assoc, Nat.xor_comm (2 ^ k), ← Nat.xor_assoc]
    have hx' : b1 ^^^ crc5Lookup ((b0 ^^^ 0x1f) ^^^ 2 ^ k) < 256 :=
      xor_lt_256 _ _ h1 (crc5Lookup_lt _)
    have e2 : b1 ^^^ crc5Lookup ((b0 ^^^ 0x1f) ^^^ 2 ^ k)
        = (b1 ^^^ crc5Lookup (b0 ^^^ 0x1f)) ^^^ crc5Lookup (2 ^ k) := by
      rw [crc5Lookup_xor_bit _ _ hy hk8, Nat.xor_assoc]
    have := crc5Lookup_flip_first _ k hx hk8 hacc
    simp only [flipBit, hk8, if_true, VerifyCRC5, crc5Update]
    rw [Nat.mod_eq_of_lt hy', e1, Nat.mod_eq_of_lt hx', e2]
    simpa using this
  · have hj : k - 8 < 8 := by omega
    have hb : 2 ^ (k - 8) < 256 := bit_lt_256 _ hj
    have hx' : (b1 ^^^ 2 ^ (k - 8)) ^^^ crc5Lookup (b0 ^^^ 0x1f) < 256 :=
      xor_lt_256 _ _ (xor_lt_256 _ _ h1 hb) (crc5Lookup_lt _)
    have e1 : (b1 ^^^ 2 ^ (k - 8)) ^^^ crc5Lookup (b0 ^^^ 0x1f)
        = (b1 ^^^ crc5Lookup (b0 ^^^ 0x1f)) ^^^ 2 ^ (k - 8) := by
      rw [Nat.xor_assoc, Nat.xor_comm (2 ^ (k - 8)), ← Nat.xor_assoc]
    have := crc5Lookup_flip _ _ hx hj hacc
    simp only [flipBit, hk8, if_false, VerifyCRC5, crc5Update]
    rw [Nat.mod_eq_of_lt hy, Nat.mod_eq_of_lt hx', e1]
    simpa using this

/-- C28, at the SOF token of frame 1 (`0x01 0xE8`, accepted) with bit 0 flipped: `0x00 0xE8` is
rejected. -/
theorem C28_single_bit_error_detected_witness :
    (1 < 256 ∧ 0xE8 < 256 ∧ 0 < 16 ∧ VerifyCRC5 0x01 0xE8 = true)
      ∧ VerifyCRC5 (flipBit (0x01, 0xE8) 0).1 (flipBit (0x01, 0xE8) 0).2 = false :=
  ⟨by decide, C28_single_bit_error_detected 0x01 0xE8 0 (by decide) (by decide) (by decide)
    (by decide)⟩

end USB2PacketDecoder

/-! ## `USB2PacketDecoder`: truncated tokens and NAKed transactions -/

namespace USB2PacketDecoder
open SymbolType State

/-- C21. In the four states that expect a byte of a token or of a frame number the loop of
`Refresh` does not look at the type of the input symbol: whatever the symbol is (an EOP
included), the pass ends normally and adds `ADDR` (`STATE_TOKEN_0`), `ENDP` and a CRC5 symbol
(`STATE_TOKEN_1`), nothing (`STATE_SOF_0`) or `NFRAME` and a CRC5 symbol (`STATE_SOF_1`), all
computed from the `m_data` of that symbol, and never an `ERROR` symbol. On SYNC, PID `IN`, EOP
the output is PID, ADDR; on SYNC, PID `SOF`, one byte, EOP it is PID, NFRAME, CRC5. -/
theorem C21_token_states_take_any_symbol (sin : USB2PCSSymbol) (off dur : Int) (m : Machine)
    (h : ExpectsTokenByte m.state) :
    (∃ m1 added, step sin off dur m = .ok m1
      ∧ m1.cap.m_samples = m.cap.m_samples ++ added
      ∧ (∀ s ∈ added, s.m_type ≠ TYPE_ERROR)
      ∧ (m.state = STATE_TOKEN_0 → added = [⟨TYPE_ADDR, sin.m_data &&& 0x7f⟩])
      ∧ (m.state = STATE_TOKEN_1 → ∃ t, (t = TYPE_CRC5_GOOD ∨ t = TYPE_CRC5_BAD)
          ∧ added = [⟨TYPE_ENDP, (m.last >>> 7) ||| ((sin.m_data &&& 0x7) <<< 1)⟩,
              ⟨t, sin.m_data >>> 3⟩])
      ∧ (m.state = STATE_SOF_0 → added = [])
      ∧ (m.state = STATE_SOF_1 → ∃ t, (t = TYPE_CRC5_GOOD ∨ t = TYPE_CRC5_BAD)
          ∧ added = [⟨TYPE_NFRAME, ((sin.m_data &&& 0x7) <<< 8) ||| m.last⟩,
              ⟨t, sin.m_data >>> 3⟩]))
    ∧ framedSymbols truncatedToken = some [⟨TYPE_PID, 0x69⟩, ⟨TYPE_ADDR, 0⟩]
    ∧ framedSymbols truncatedTokenSecond
        = some [⟨TYPE_PID, 0x69⟩, ⟨TYPE_ADDR, 0x15⟩, ⟨TYPE_ENDP, 0⟩, ⟨TYPE_CRC5_BAD, 0⟩]
    ∧ framedSymbols truncatedSof
        = some [⟨TYPE_PID, 0xa5⟩, ⟨TYPE_NFRAME, 1⟩, ⟨TYPE_CRC5_BAD, 0⟩] := by
  refine ⟨?_, by decide, by decide, by decide⟩
  have hcrc : ∀ x : Machine, crc5Symbol x = TYPE_CRC5_GOOD ∨ crc5Symbol x = TYPE_CRC5_BAD := by
    intro x
    unfold crc5Symbol
    split_ifs <;> simp
  have heop : ∀ x : Machine, (afterEop sin x).cap = x.cap := by
    intro x
    unfold afterEop
    split_ifs <;> rfl
  rcases h with h | h | h | h <;> simp only [step, h]
  · refine ⟨_, [⟨TYPE_ADDR, sin.m_data &&& 0x7f⟩], rfl, ?_, ?_⟩
    · rw [heop]; rfl
    · simp [h]
  · refine ⟨_, [⟨TYPE_ENDP, (m.last >>> 7) ||| ((sin.m_data &&& 0x7) <<< 1)⟩,
        ⟨crc5Symbol { m with crc5_in1 := sin.m_data, packet_crc5 := sin.m_data >>> 3 },
          sin.m_data >>> 3⟩], rfl, ?_, ?_⟩
    · rw [heop]; simp [emit, crc5Symbol]
    · have := hcrc { m with crc5_in1 := sin.m_data, packet_crc5 := sin.m_data >>> 3 }
      refine ⟨?_, by simp [h], fun _ => ⟨_, this, rfl⟩, by simp [h], by simp [h]⟩
      intro s hs
      simp only [List.mem_cons, List.mem_singleton, List.not_mem_nil, or_false] at hs
      rcases hs with hs | hs <;> subst hs
      · simp
      · rcases this with e | e <;> simp [e]
  · refine ⟨_, [], rfl, ?_, ?_⟩
    · rw [heop]; simp
    · simp [h]
  · refine ⟨_, [⟨TYPE_NFRAME, ((sin.m_data &&& 0x7) <<< 8) ||| m.last⟩,
        ⟨crc5Symbol { m with crc5_in1 := sin.m_data, packet_crc5 := sin.m_data >>> 3 },
          sin.m_data >>> 3⟩], rfl, ?_, ?_⟩
    · rw [heop]; simp [emit, crc5Symbol]
    · have := hcrc { m with crc5_in1 := sin.m_data, packet_crc5 := sin.m_data >>> 3 }
      refine ⟨?_, by simp [h], by simp [h], by simp [h], fun _ => ⟨_, this, rfl⟩⟩
      intro s hs
      simp only [List.mem_cons, List.mem_singleton, List.not_mem_nil, or_false] at hs
      rcases hs with hs | hs <;> subst hs
      · simp
      · rcases this with e | e <;> simp [e]

/-- C21, at the EOP of SYNC, PID `IN`, EOP: the machine is in `STATE_TOKEN_0` and the pass adds
an `ADDR` symbol with the value 0 of the EOP. -/
theorem C21_token_states_take_any_symbol_witness :
    ExpectsTokenByte tokenMachine.state
    ∧ ∃ m1 added, step ⟨PCSType.TYPE_EOP, 0⟩ 16 8 tokenMachine = .ok m1
        ∧ m1.cap.m_samples = tokenMachine.cap.m_samples ++ added
        ∧ (∀ s ∈ added, s.m_type ≠ TYPE_ERROR)
        ∧ added = [⟨TYPE_ADDR, 0⟩] := by
  have h := (C21_token_states_take_any_symbol ⟨PCSType.TYPE_EOP, 0⟩ 16 8 tokenMachine
    (Or.inl rfl)).1
  obtain ⟨m1, added, h1, h2, h3, h4, _⟩ := h
  exact ⟨by decide, m1, added, h1, h2, h3, h4 rfl⟩

end USB2PacketDecoder

/-! ## `USB2PacketDecoder::DecodeData`: the NAKed transaction -/

namespace USB2PacketDecoder
open SymbolType State

/-- `DecodeData` on a token followed by a NAK PID: the cursor is moved past the NAK before the
end time is read, so the vectors are read at the index after the NAK. -/
theorem DecodeData_nak (cap : USB2PacketWaveform) (istart : Nat) (pk : List Packet)
    (spid saddr sendp scrc snak : USB2PacketSymbol) (o0 : Int)
    (h0 : cap.m_samples[istart]? = some spid)
    (h1 : cap.m_samples[istart + 1]? = some saddr) (ha : saddr.m_type = TYPE_ADDR)
    (h2 : cap.m_samples[istart + 2]? = some sendp) (he : sendp.m_type = TYPE_ENDP)
    (h3 : cap.m_samples[istart + 3]? = some scrc) (hc : scrc.m_type = TYPE_CRC5_GOOD)
    (h4 : cap.m_samples[istart + 4]? = some snak) (hp : snak.m_type = TYPE_PID)
    (hn : snak.m_data &&& 0xf = PID_NAK)
    (ho : cap.m_offsets[istart]? = some o0) :
    DecodeData cap istart (istart + 1) pk =
      match cap.m_offsets[istart + 5]?, cap.m_durations[istart + 5]? with
      | some oi, some di =>
        some (istart + 5, pk ++ [{ tokenPacket (o0 * cap.m_timescale) spid.m_data saddr sendp with
          m_headers := setHeader "Details" "NAK"
            (tokenPacket (o0 * cap.m_timescale) spid.m_data saddr sendp).m_headers
          m_len := (oi + di) * cap.m_timescale - o0 * cap.m_timescale }])
      | _, _ => none := by
  have hlen : istart + 4 < cap.m_samples.length := by
    by_contra hcon
    rw [List.getElem?_eq_none (by omega)] at h4
    cases h4
  have e1 : istart + 1 + 1 = istart + 2 := rfl
  have e2 : istart + 1 + 2 = istart + 3 := rfl
  have e3 : istart + 1 + 3 = istart + 4 := rfl
  have e4 : istart + 4 + 1 = istart + 5 := rfl
  have g1 : ¬ (istart + 1 + 2 ≥ cap.m_samples.length) := by omega
  have g2 : ¬ (istart + 4 ≥ cap.m_samples.length) := by omega
  have hsof : ¬ (snak.m_data &&& 0xf = PID_SOF) := by rw [hn]; decide
  unfold DecodeData
  rw [if_neg g1]
  simp only [e1, e2, e3, e4, h1, h2, h3, h4, h0, ho, ha, he, hc, hp, hn, ne_eq, not_true_eq_false,
    if_false, g2, hsof, if_true]
  cases cap.m_offsets[istart + 5]? <;> cases cap.m_durations[istart + 5]? <;> rfl

/-- C24. For every symbol list in which an IN or OUT token (PID, ADDR, ENDP, CRC5_GOOD from
index `istart`) is followed by a NAK PID and one more symbol, `DecodeData` appends a packet
that starts at the start of the token PID and ends at the end of the symbol after the NAK (the
cursor `i` is incremented before `m_offsets[i] + m_durations[i]` is read). In `nakTransaction`
the NAK ends at 48 000 and the packet of `FindPackets` ends at 108 000, the end of the next
PID. -/
theorem C24_nak_packet_ends_after_next_symbol (cap : USB2PacketWaveform) (istart : Nat)
    (pk : List Packet) (spid saddr sendp scrc snak : USB2PacketSymbol) (o0 o5 d5 : Int)
    (h0 : cap.m_samples[istart]? = some spid)
    (h1 : cap.m_samples[istart + 1]? = some saddr) (ha : saddr.m_type = TYPE_ADDR)
    (h2 : cap.m_samples[istart + 2]? = some sendp) (he : sendp.m_type = TYPE_ENDP)
    (h3 : cap.m_samples[istart + 3]? = some scrc) (hc : scrc.m_type = TYPE_CRC5_GOOD)
    (h4 : cap.m_samples[istart + 4]? = some snak) (hp : snak.m_type = TYPE_PID)
    (hn : snak.m_data &&& 0xf = PID_NAK)
    (ho : cap.m_offsets[istart]? = some o0)
    (ho5 : cap.m_offsets[istart + 5]? = some o5) (hd5 : cap.m_durations[istart + 5]? = some d5) :
    (∃ p, DecodeData cap istart (istart + 1) pk = some (istart + 5, pk ++ [p])
      ∧ p.m_offset = o0 * cap.m_timescale
      ∧ p.m_offset + p.m_len = (o5 + d5) * cap.m_timescale)
    ∧ (firstPacket (FindPackets nakTransaction)).map (fun p => (p.m_offset, p.m_offset + p.m_len))
        = some (0, 108000)
    ∧ (nakTransaction.m_offsets.getD 4 0 + nakTransaction.m_durations.getD 4 0)
        * nakTransaction.m_timescale = 48000 := by
  refine ⟨?_, by decide, by decide⟩
  rw [DecodeData_nak cap istart pk spid saddr sendp scrc snak o0 h0 h1 ha h2 he h3 hc h4 hp hn ho,
    ho5, hd5]
  refine ⟨_, rfl, rfl, ?_⟩
  show o0 * cap.m_timescale + ((o5 + d5) * cap.m_timescale - o0 * cap.m_timescale)
    = (o5 + d5) * cap.m_timescale
  ring

/-- C24, on `nakTransaction` (token at index 0, NAK at index 4, one more symbol at index 5). -/
theorem C24_nak_packet_ends_after_next_symbol_witness :
    ∃ p, DecodeData nakTransaction 0 1 [] = some (5, [p])
      ∧ p.m_offset = 0 ∧ p.m_offset + p.m_len = 108000 := by
  obtain ⟨p, h1, h2, h3⟩ := (C24_nak_packet_ends_after_next_symbol nakTransaction 0 []
    ⟨TYPE_PID, 0x69⟩ ⟨TYPE_ADDR, 5⟩ ⟨TYPE_ENDP, 1⟩ ⟨TYPE_CRC5_GOOD, 0x1d⟩ ⟨TYPE_PID, 0x5a⟩ 0 100 8
    rfl rfl rfl rfl rfl rfl rfl rfl rfl (by decide) rfl rfl rfl).1
  exact ⟨p, h1, h2, h3⟩

/-- A pass of the loop of `FindPackets` at an IN or OUT token on which `DecodeData` reads out of
range. -/
theorem findLoop_token (cap : USB2PacketWaveform) (fuel i : Nat) (pk : List Packet)
    (psample : USB2PacketSymbol) (hi : i < cap.m_samples.length - 2)
    (hs : cap.m_samples[i]? = some psample) (ht : psample.m_type = TYPE_PID)
    (hp : (psample.m_data &&& 0xf) % 256 = PID_IN ∨ (psample.m_data &&& 0xf) % 256 = PID_OUT)
    (hd : DecodeData cap i (i + 1) pk = none) :
    findLoop cap (fuel + 1) i pk = .outOfRange := by
  have h1 : ¬ ((psample.m_data &&& 0xf) % 256 = PID_SOF) := by
    rcases hp with e | e <;> rw [e] <;> decide
  have h2 : ¬ ((psample.m_data &&& 0xf) % 256 = PID_SETUP) := by
    rcases hp with e | e <;> rw [e] <;> decide
  unfold findLoop
  simp only [hi, if_true, hs, ht, ne_eq, not_true_eq_false, if_false, h1, h2, hp, hd]

/-- Five symbols, an IN or OUT token and a NAK PID: `FindPackets` reads past the end. -/
theorem FindPackets_nak_at_end (ts o0 o1 o2 o3 o4 d0 d1 d2 d3 d4 : Int) (pid a e c : Nat)
    (hp : (pid &&& 0xf) % 256 = PID_IN ∨ (pid &&& 0xf) % 256 = PID_OUT) :
    FindPackets (packetTrace ts [o0, o1, o2, o3, o4] [d0, d1, d2, d3, d4]
      [⟨TYPE_PID, pid⟩, ⟨TYPE_ADDR, a⟩, ⟨TYPE_ENDP, e⟩, ⟨TYPE_CRC5_GOOD, c⟩, ⟨TYPE_PID, 0x5a⟩])
      = .outOfRange := by
  show findLoop (packetTrace ts [o0, o1, o2, o3, o4] [d0, d1, d2, d3, d4]
      [⟨TYPE_PID, pid⟩, ⟨TYPE_ADDR, a⟩, ⟨TYPE_ENDP, e⟩, ⟨TYPE_CRC5_GOOD, c⟩, ⟨TYPE_PID, 0x5a⟩])
      (5 + 1) 0 [] = .outOfRange
  exact findLoop_token (packetTrace ts [o0, o1, o2, o3, o4] [d0, d1, d2, d3, d4]
      [⟨TYPE_PID, pid⟩, ⟨TYPE_ADDR, a⟩, ⟨TYPE_ENDP, e⟩, ⟨TYPE_CRC5_GOOD, c⟩, ⟨TYPE_PID, 0x5a⟩])
    5 0 [] ⟨TYPE_PID, pid⟩ (by simp [packetTrace]) rfl rfl hp
    (DecodeData_nak (packetTrace ts [o0, o1, o2, o3, o4] [d0, d1, d2, d3, d4]
      [⟨TYPE_PID, pid⟩, ⟨TYPE_ADDR, a⟩, ⟨TYPE_ENDP, e⟩, ⟨TYPE_CRC5_GOOD, c⟩, ⟨TYPE_PID, 0x5a⟩])
      0 [] ⟨TYPE_PID, pid⟩ ⟨TYPE_ADDR, a⟩ ⟨TYPE_ENDP, e⟩ ⟨TYPE_CRC5_GOOD, c⟩
        ⟨TYPE_PID, 0x5a⟩ o0 rfl rfl rfl rfl rfl rfl rfl rfl rfl (by decide) rfl)

/-- C27. `FindPackets` on a symbol list that ends with a NAK PID right after an IN token, and
on one in which a SOF PID follows an IN token one symbol before the end: both read a vector at
an index that is not below its size. In the first, `DecodeData` increments `i` past the NAK,
the last symbol, and reads `m_offsets[i]`; in the second, `DecodeSof` is entered with `i` at
the SOF PID, moves `i` two symbols on, and `DecodeData` then reads `m_samples[i]`. The first
holds whatever the values, offsets and durations of the five symbols are, for IN and for OUT.
With one more symbol after the NAK the list is read in range. -/
theorem C27_nak_at_end_reads_past_end :
    FindPackets nakAtEnd = .outOfRange
    ∧ FindPackets sofBeforeEnd = .outOfRange
    ∧ DecodeData nakAtEnd 0 1 [] = none
    ∧ DecodeSof sofBeforeEnd 4 4 [] = some (6, [])
    ∧ sofBeforeEnd.m_samples.length = 6
    ∧ (∀ (ts o0 o1 o2 o3 o4 d0 d1 d2 d3 d4 : Int) (a e c : Nat),
        FindPackets (packetTrace ts [o0, o1, o2, o3, o4] [d0, d1, d2, d3, d4]
          [⟨TYPE_PID, 0x69⟩, ⟨TYPE_ADDR, a⟩, ⟨TYPE_ENDP, e⟩, ⟨TYPE_CRC5_GOOD, c⟩, ⟨TYPE_PID, 0x5a⟩])
          = .outOfRange
        ∧ FindPackets (packetTrace ts [o0, o1, o2, o3, o4] [d0, d1, d2, d3, d4]
          [⟨TYPE_PID, 0xe1⟩, ⟨TYPE_ADDR, a⟩, ⟨TYPE_ENDP, e⟩, ⟨TYPE_CRC5_GOOD, c⟩, ⟨TYPE_PID, 0x5a⟩])
          = .outOfRange)
    ∧ FindPackets nakTransaction ≠ .outOfRange := by
  refine ⟨by decide, by decide, by decide, by decide, by decide, ?_, by decide⟩
  intro ts o0 o1 o2 o3 o4 d0 d1 d2 d3 d4 a e c
  exact ⟨FindPackets_nak_at_end ts o0 o1 o2 o3 o4 d0 d1 d2 d3 d4 0x69 a e c (Or.inl (by decide)),
    FindPackets_nak_at_end ts o0 o1 o2 o3 o4 d0 d1 d2 d3 d4 0xe1 a e c (Or.inr (by decide))⟩

end USB2PacketDecoder

/-! ## `BytesToFrames`: every symbol is a field with the time stamps of its bytes -/

namespace EthernetProtocolDecoder
open SegmentType

theorem slice_single (bytes : List Nat) (i : Nat) (h : i < bytes.length) :
    slice bytes i i = [bytes.getD i 0] := by
  unfold slice
  have e : i + 1 - i = 1 := by omega
  rw [e, List.getD_eq_getElem?_getD, List.getElem?_eq_getElem h]
  rw [List.drop_eq_getElem_cons h]
  rfl

theorem slice_snoc (bytes : List Nat) (f i : Nat) (hf : f < i) (h : i < bytes.length) :
    slice bytes f i = slice bytes f (i - 1) ++ [bytes.getD i 0] := by
  unfold slice
  have e1 : i + 1 - f = (i - f) + 1 := by omega
  have e2 : i - 1 + 1 - f = i - f := by omega
  have hl : i - f < (bytes.drop f).length := by rw [List.length_drop]; omega
  rw [e1, e2, List.take_succ, List.getElem?_eq_getElem hl, List.getElem_drop,
    List.getD_eq_getElem?_getD]
  have e3 : f + (i - f) = i := by omega
  simp only [e3, List.getElem?_eq_getElem h]
  rfl

theorem fields_lengths {bytes starts ends : List Nat} {ts : Int} {O D : List Int}
    {S : List EthernetFrameSegment} (h : Fields bytes starts ends ts O D S) :
    O.length = S.length ∧ D.length = S.length := by
  induction h with
  | nil => exact ⟨rfl, rfl⟩
  | snoc _ _ ih => simp [ih.1, ih.2]

theorem fields_getD {bytes starts ends : List Nat} {ts : Int} {O D : List Int}
    {S : List EthernetFrameSegment} (h : Fields bytes starts ends ts O D S) (k : Nat)
    (hk : k < S.length) :
    IsField bytes starts ends ts (O.getD k 0) (D.getD k 0) (S.getD k ⟨TYPE_INVALID, []⟩) := by
  induction h with
  | nil => simp at hk
  | @snoc O D S o d seg hF hf ih =>
    obtain ⟨l1, l2⟩ := fields_lengths hF
    by_cases hlt : k < S.length
    · rw [List.getD_append _ _ _ _ (by omega), List.getD_append _ _ _ _ (by omega),
        List.getD_append _ _ _ _ hlt]
      exact ih hlt
    · have hk' : k = S.length := by simp at hk; omega
      subst hk'
      rw [List.getD_append_right _ _ _ _ (by omega), List.getD_append_right _ _ _ _ (by omega),
        List.getD_append_right _ _ _ _ (le_refl _)]
      simpa [l1, l2] using hf


theorem capInv_offset {bytes starts ends : List Nat} {cap0 cap : EthernetWaveform} (x : Nat)
    (h : CapInv bytes starts ends cap0 cap []) :
    CapInv bytes starts ends cap0 (pushOffset cap (scaled cap x)) [ticks cap0.m_timescale x] := by
  obtain ⟨hts, O, D, S, hF, ho, hd, hs⟩ := h
  refine ⟨hts, O, D, S, hF, ?_, hd, hs⟩
  simp only [pushOffset, scaled, ticks, hts, ho, List.append_nil]

theorem capInv_emit {bytes starts ends : List Nat} {cap0 cap : EthernetWaveform} {o : Int}
    (y : Nat) (seg : EthernetFrameSegment)
    (h : CapInv bytes starts ends cap0 cap [o])
    (hf : IsField bytes starts ends cap0.m_timescale o (ticks cap0.m_timescale y) seg) :
    CapInv bytes starts ends cap0 (pushSample (pushDuration cap (scaled cap y)) seg) [] := by
  obtain ⟨hts, O, D, S, hF, ho, hd, hs⟩ := h
  refine ⟨hts, O ++ [o], D ++ [ticks cap0.m_timescale y], S ++ [seg], Fields.snoc hF hf, ?_, ?_, ?_⟩
  · simp only [pushSample, pushDuration, ho, List.append_nil, List.append_assoc]
  · simp only [pushSample, pushDuration, scaled, ticks, hts, hd, List.append_assoc]
  · simp only [pushSample, pushDuration, hs, List.append_assoc]

theorem isField_plain {bytes starts ends : List Nat} {ts : Int} {o d : Int}
    {seg : EthernetFrameSegment} (f l : Nat) (hfl : f ≤ l) (hl : l < bytes.length)
    (ho : o = ticks ts (starts.getD f 0)) (ht : seg.m_type ≠ TYPE_PREAMBLE)
    (hdat : seg.m_data = slice bytes f l)
    (hd : d = ticks ts (sub64 (ends.getD l 0) (starts.getD f 0))) :
    IsField bytes starts ends ts o d seg :=
  ⟨f, l, hfl, hl, ho, by rw [if_neg ht]; exact ⟨hdat, hd⟩⟩

theorem isField_preamble {bytes starts ends : List Nat} {ts : Int} {o d : Int}
    {seg : EthernetFrameSegment} (f l : Nat) (hfl : f ≤ l) (hl : l + 1 < bytes.length)
    (ho : o = ticks ts (starts.getD f 0)) (ht : seg.m_type = TYPE_PREAMBLE)
    (h55 : bytes.getD f 0 = 0x55) (hd5 : bytes.getD (l + 1) 0 = 0xd5)
    (hno : ∀ j, f ≤ j → j ≤ l → bytes.getD j 0 ≠ 0xd5)
    (hd : d = ticks ts (sub64 (starts.getD (l + 1) 0) (starts.getD f 0))) :
    IsField bytes starts ends ts o d seg :=
  ⟨f, l, hfl, by omega, ho, by rw [if_pos ht]; exact ⟨hl, h55, hd5, hno, hd⟩⟩

theorem isFixed_ne_preamble {t : SegmentType} (h : isFixed t = true) : t ≠ TYPE_PREAMBLE := by
  intro e; subst e; simp [isFixed] at h

theorem fixedField_inv (bytes starts ends : List Nat) (cap0 : EthernetWaveform) (i size : Nat)
    (s : FrameState) (finish : List Nat → FrameState → FrameState)
    (hi : i < bytes.length) (hfix : isFixed s.segment.m_type = true)
    (hinv : Inv bytes starts ends cap0 i s)
    (hfin : ∀ d s1, (finish d s1).cap = s1.cap ∧ (finish d s1).segment.m_data = []
      ∧ (finish d s1).segment.m_type ≠ TYPE_PREAMBLE) :
    Inv bytes starts ends cap0 (i + 1)
      (fixedField starts ends i (bytes.getD i 0) size s finish) := by
  -- the state after the start of the field has been recorded
  have key : ∃ s1 : FrameState, s1.segment = s.segment
      ∧ (if s.segment.m_data.isEmpty then
          { s with start := starts.getD i 0,
                   cap := pushOffset s.cap (scaled s.cap (starts.getD i 0)) } else s) = s1
      ∧ CapInv bytes starts ends cap0 s1.cap [ticks cap0.m_timescale s1.start]
      ∧ ∃ f, f ≤ i ∧ s1.start = starts.getD f 0
          ∧ s.segment.m_data ++ [bytes.getD i 0] = slice bytes f i := by
    by_cases he : s.segment.m_data = []
    · have hp : ¬ Pending s := fun h => h.2 he
      have hc := hinv.cap
      simp only [pendingOffsets, hp, if_false] at hc
      refine ⟨{ s with start := starts.getD i 0,
                       cap := pushOffset s.cap (scaled s.cap (starts.getD i 0)) }, rfl, ?_,
        capInv_offset _ hc, i, le_refl _, rfl, ?_⟩
      · simp [he]
      · rw [he, slice_single bytes i hi]; rfl
    · have hp : Pending s := ⟨hfix, he⟩
      have hc := hinv.cap
      simp only [pendingOffsets, hp, if_true] at hc
      obtain ⟨f, hf, hst, hdat⟩ := hinv.pending hp
      have hne : s.segment.m_data.isEmpty = false := by
        cases hd : s.segment.m_data with
        | nil => exact absurd hd he
        | cons a l => rfl
      refine ⟨s, rfl, by simp [hne], hc, f, by omega, hst, ?_⟩
      rw [hdat, slice_snoc bytes f i hf hi]
  obtain ⟨s1, hseg, hs1, hcap, f, hf, hst, hdat⟩ := key
  have hty : s.segment.m_type ≠ TYPE_PREAMBLE := isFixed_ne_preamble hfix
  simp only [fixedField, hs1]
  by_cases hdone : (s1.segment.m_data ++ [bytes.getD i 0]).length = size
  · rw [if_pos hdone]
    obtain ⟨f1, f2, f3⟩ := hfin ({ s1.segment with m_data := s1.segment.m_data ++ [bytes.getD i 0] } : EthernetFrameSegment).m_data
      { s1 with
        segment := { s1.segment with m_data := s1.segment.m_data ++ [bytes.getD i 0] }
        cap := pushSample (pushDuration s1.cap (scaled s1.cap (sub64 (ends.getD i 0) s1.start)))
          { s1.segment with m_data := s1.segment.m_data ++ [bytes.getD i 0] } }
    have hnp : ∀ x : FrameState, x.segment.m_data = [] → ¬ Pending x := fun x hx h => h.2 hx
    refine ⟨?_, fun h => absurd h (hnp _ f2), fun h => absurd h f3⟩
    simp only [pendingOffsets, hnp _ f2, if_false, f1]
    apply capInv_emit _ _ hcap
    refine isField_plain f i hf hi (by rw [hst]) ?_ ?_ (by rw [hst])
    · show s1.segment.m_type ≠ TYPE_PREAMBLE
      rw [hseg]; exact hty
    · show s1.segment.m_data ++ [bytes.getD i 0] = slice bytes f i
      rw [hseg, hdat]
  · rw [if_neg hdone]
    have hp : Pending ({ s1 with segment :=
        { s1.segment with m_data := s1.segment.m_data ++ [bytes.getD i 0] } } : FrameState) := by
      refine ⟨?_, by simp⟩
      show isFixed s1.segment.m_type = true
      rw [hseg]; exact hfix
    refine ⟨?_, fun _ => ⟨f, by omega, hst, ?_⟩, fun h => ?_⟩
    · simp only [pendingOffsets, hp, if_true]
      exact hcap
    · show s1.segment.m_data ++ [bytes.getD i 0] = slice bytes f (i + 1 - 1)
      rw [hseg, hdat]; rfl
    · exfalso
      have : s1.segment.m_type = TYPE_PREAMBLE := h
      rw [hseg] at this
      exact hty this


theorem inv_cap_idle {bytes starts ends : List Nat} {cap0 : EthernetWaveform} {i : Nat}
    {s : FrameState} (h : Inv bytes starts ends cap0 i s) (hp : ¬ Pending s) :
    CapInv bytes starts ends cap0 s.cap [] := by
  have hc := h.cap
  simpa only [pendingOffsets, hp, if_false] using hc

theorem inv_idle {bytes starts ends : List Nat} {cap0 : EthernetWaveform} (j : Nat)
    {s : FrameState} (hc : CapInv bytes starts ends cap0 s.cap [])
    (hp : ¬ Pending s) (hnp : s.segment.m_type ≠ TYPE_PREAMBLE) :
    Inv bytes starts ends cap0 j s := by
  refine ⟨?_, fun h => absurd h hp, fun h => absurd h hnp⟩
  simpa only [pendingOffsets, hp, if_false] using hc

/-- The start of a field whose offset is pushed at its first byte. -/
theorem field_start (bytes starts ends : List Nat) (cap0 : EthernetWaveform) (i : Nat)
    (s : FrameState) (hi : i < bytes.length) (hfix : isFixed s.segment.m_type = true)
    (hinv : Inv bytes starts ends cap0 i s) :
    CapInv bytes starts ends cap0
        (if s.segment.m_data.isEmpty then pushOffset s.cap (scaled s.cap (starts.getD i 0))
          else s.cap)
        [ticks cap0.m_timescale (if s.segment.m_data.isEmpty then starts.getD i 0 else s.start)]
      ∧ ∃ f, f ≤ i
          ∧ (if s.segment.m_data.isEmpty then starts.getD i 0 else s.start) = starts.getD f 0
          ∧ s.segment.m_data ++ [bytes.getD i 0] = slice bytes f i := by
  by_cases he : s.segment.m_data = []
  · have hp : ¬ Pending s := fun h => h.2 he
    have hc := inv_cap_idle hinv hp
    have hem : s.segment.m_data.isEmpty = true := by rw [he]; rfl
    simp only [hem, if_true]
    refine ⟨capInv_offset _ hc, i, le_refl _, rfl, ?_⟩
    rw [he, slice_single bytes i hi]; rfl
  · have hp : Pending s := ⟨hfix, he⟩
    have hc := hinv.cap
    simp only [pendingOffsets, hp, if_true] at hc
    obtain ⟨f, hf, hst, hdat⟩ := hinv.pending hp
    have hne : s.segment.m_data.isEmpty = false := by
      cases hd : s.segment.m_data with
      | nil => exact absurd hd he
      | cons a l => rfl
    simp only [hne, Bool.false_eq_true, if_false]
    refine ⟨hc, f, by omega, hst, ?_⟩
    rw [hdat, slice_snoc bytes f i hf hi]

theorem not_pending_of_type {s : FrameState} (h : isFixed s.segment.m_type = false) :
    ¬ Pending s := by
  intro hp
  rw [hp.1] at h
  cases h

theorem not_pending_of_data {s : FrameState} (h : s.segment.m_data = []) : ¬ Pending s :=
  fun hp => hp.2 h

theorem pendingOffsets_idle (ts : Int) {s : FrameState} (h : ¬ Pending s) :
    pendingOffsets ts s = [] := if_neg h

theorem pendingOffsets_pending (ts : Int) {s : FrameState} (h : Pending s) :
    pendingOffsets ts s = [ticks ts s.start] := if_pos h

/-- One pass of the loop keeps the invariant; a pass that returns leaves no offset without
its duration and symbol. -/
theorem step_inv (env : Env) (bytes starts ends : List Nat) (cap0 : EthernetWaveform) (i : Nat)
    (s : FrameState) (hi : i < bytes.length) (hinv : Inv bytes starts ends cap0 i s) :
    (∀ s', step env bytes starts ends i (bytes.getD i 0) s = .next s' →
        Inv bytes starts ends cap0 (i + 1) s')
    ∧ (∀ s', step env bytes starts ends i (bytes.getD i 0) s = .done s' →
        CapInv bytes starts ends cap0 s'.cap []) := by
  cases hty : s.segment.m_type
  case TYPE_INVALID =>
    have hp : ¬ Pending s := not_pending_of_type (by rw [hty]; rfl)
    have hc := inv_cap_idle hinv hp
    by_cases hb : bytes.getD i 0 ≠ 0x55
    · constructor
      · intro s' h
        simp only [step, hty, if_pos hb, Step.next.injEq] at h
        subst h
        exact inv_idle _ hc hp (by rw [hty]; simp)
      · intro s' h
        simp only [step, hty, if_pos hb] at h
        cases h
    · constructor
      · intro s' h
        simp only [step, hty, if_neg hb, Step.next.injEq] at h
        subst h
        refine ⟨?_, fun hq => absurd hq (not_pending_of_type rfl),
          fun _ => ⟨i, by omega, rfl, ?_, ?_⟩⟩
        · rw [pendingOffsets_idle]
          · exact hc
          · exact not_pending_of_type rfl
        · simpa using hb
        · intro j h1 h2
          have : j = i := by omega
          subst this
          have hb' : bytes.getD j 0 = 0x55 := by simpa using hb
          rw [hb']; decide
      · intro s' h
        simp only [step, hty, if_neg hb] at h
        cases h
  case TYPE_PREAMBLE =>
    have hp : ¬ Pending s := not_pending_of_type (by rw [hty]; rfl)
    have hc := inv_cap_idle hinv hp
    obtain ⟨f, hf, hst, hb55, hno⟩ := hinv.preamble hty
    by_cases hb : bytes.getD i 0 = 0xd5
    · constructor
      · intro s' h
        simp only [step, hty, if_pos hb, Step.next.injEq] at h
        subst h
        apply inv_idle _ _ (not_pending_of_data rfl) (by simp)
        apply capInv_emit _ _ (capInv_offset _ (capInv_emit _ _ (capInv_offset _ hc) _))
        · exact isField_plain i i (le_refl _) hi rfl (by simp)
            (by rw [slice_single bytes i hi, hb]) rfl
        · have e : i - 1 + 1 = i := by omega
          exact isField_preamble f (i - 1) (by omega) (by omega) (by rw [hst]) hty hb55
            (by rw [e]; exact hb) (fun j h1 h2 => hno j h1 (by omega)) (by rw [e, hst])
      · intro s' h
        simp only [step, hty, if_pos hb] at h
        cases h
    · by_cases hb2 : bytes.getD i 0 = 0x55
      · constructor
        · intro s' h
          simp only [step, hty, if_neg hb, if_pos hb2, Step.next.injEq] at h
          subst h
          refine ⟨?_, fun hq => absurd hq (not_pending_of_type (by simp [hty]; rfl)),
            fun _ => ⟨f, by omega, hst, hb55, ?_⟩⟩
          · rw [pendingOffsets_idle]
            · exact hc
            · exact not_pending_of_type (by simp [hty]; rfl)
          · intro j h1 h2
            by_cases hj : j = i
            · subst hj; exact hb
            · exact hno j h1 (by omega)
        · intro s' h
          simp only [step, hty, if_neg hb, if_pos hb2] at h
          cases h
      · constructor
        · intro s' h
          simp only [step, hty, if_neg hb, if_neg hb2, Step.next.injEq] at h
          subst h
          refine ⟨hinv.cap, fun hq => absurd hq hp, fun _ => ⟨f, by omega, hst, hb55, ?_⟩⟩
          intro j h1 h2
          by_cases hj : j = i
          · subst hj; exact hb
          · exact hno j h1 (by omega)
        · intro s' h
          simp only [step, hty, if_neg hb, if_neg hb2] at h
          cases h
  case TYPE_DST_MAC =>
    constructor
    · intro s' h
      simp only [step, hty, Step.next.injEq] at h
      subst h
      exact fixedField_inv bytes starts ends cap0 i 6 s _ hi (by rw [hty]; rfl) hinv
        (fun d s1 => ⟨rfl, rfl, by simp⟩)
    · intro s' h
      simp only [step, hty] at h
      cases h
  case TYPE_SRC_MAC =>
    constructor
    · intro s' h
      simp only [step, hty, Step.next.injEq] at h
      subst h
      exact fixedField_inv bytes starts ends cap0 i 6 s _ hi (by rw [hty]; rfl) hinv
        (fun d s1 => ⟨rfl, rfl, by simp⟩)
    · intro s' h
      simp only [step, hty] at h
      cases h
  case TYPE_ETHERTYPE =>
    constructor
    · intro s' h
      simp only [step, hty, Step.next.injEq] at h
      subst h
      exact fixedField_inv bytes starts ends cap0 i 2 s _ hi (by rw [hty]; rfl) hinv
        (fun d s1 => ⟨rfl, rfl, by simp only; split_ifs <;> simp⟩)
    · intro s' h
      simp only [step, hty] at h
      cases h
  case TYPE_VLAN_TAG =>
    constructor
    · intro s' h
      simp only [step, hty, Step.next.injEq] at h
      subst h
      exact fixedField_inv bytes starts ends cap0 i 2 s _ hi (by rw [hty]; rfl) hinv
        (fun d s1 => ⟨rfl, rfl, by simp⟩)
    · intro s' h
      simp only [step, hty] at h
      cases h
  case TYPE_PAYLOAD =>
    have hp : ¬ Pending s := not_pending_of_type (by rw [hty]; rfl)
    have hc := inv_cap_idle hinv hp
    have hemit : CapInv bytes starts ends cap0
        (pushSample (pushDuration (pushOffset s.cap (scaled s.cap (starts.getD i 0)))
          (scaled (pushOffset s.cap (scaled s.cap (starts.getD i 0)))
            (sub64 (ends.getD i 0) (starts.getD i 0)))) ⟨TYPE_PAYLOAD, [bytes.getD i 0]⟩) [] := by
      apply capInv_emit _ _ (capInv_offset _ hc)
      exact isField_plain i i (le_refl _) hi rfl (by simp) (by rw [slice_single bytes i hi]) rfl
    by_cases hl : i = sub64 bytes.length 5
    · constructor
      · intro s' h
        simp only [step, hty, if_pos hl, Step.next.injEq] at h
        subst h
        exact inv_idle _ hemit (not_pending_of_data rfl) (by simp)
      · intro s' h
        simp only [step, hty, if_pos hl] at h
        cases h
    · constructor
      · intro s' h
        simp only [step, hty, if_neg hl, Step.next.injEq] at h
        subst h
        exact inv_idle _ hemit (not_pending_of_type rfl) (by simp)
      · intro s' h
        simp only [step, hty, if_neg hl] at h
        cases h
  case TYPE_FCS_GOOD =>
    obtain ⟨hcap, f, hf, hst, hdat⟩ :=
      field_start bytes starts ends cap0 i s hi (by rw [hty]; rfl) hinv
    by_cases he : s.segment.m_data.isEmpty = true
    · simp only [he, if_true] at hcap hst
      by_cases hl : (s.segment.m_data ++ [bytes.getD i 0]).length = 4
      · constructor
        · intro s' h
          simp only [step, hty, he, if_true, if_pos hl] at h
          cases h
        · intro s' h
          simp only [step, hty, he, if_true, if_pos hl, Step.done.injEq] at h
          subst h
          apply capInv_emit _ _ hcap
          exact isField_plain f i hf hi (by rw [hst]) (by simp only; split_ifs <;> simp) hdat
            (by rw [hst])
      · constructor
        · intro s' h
          simp only [step, hty, he, if_true, if_neg hl, Step.next.injEq] at h
          subst h
          refine ⟨?_, fun _ => ⟨f, by omega, hst, hdat⟩, fun hq => by simp at hq⟩
          rw [pendingOffsets_pending]
          · exact hcap
          · exact ⟨rfl, by simp⟩
        · intro s' h
          simp only [step, hty, he, if_true, if_neg hl] at h
          cases h
    · have he' : s.segment.m_data.isEmpty = false := by simpa using he
      simp only [he', Bool.false_eq_true, if_false] at hcap hst
      by_cases hl : (s.segment.m_data ++ [bytes.getD i 0]).length = 4
      · constructor
        · intro s' h
          simp only [step, hty, he', Bool.false_eq_true, if_false, if_pos hl] at h
          cases h
        · intro s' h
          simp only [step, hty, he', Bool.false_eq_true, if_false, if_pos hl, Step.done.injEq] at h
          subst h
          apply capInv_emit _ _ hcap
          exact isField_plain f i hf hi (by rw [hst]) (by simp only; split_ifs <;> simp) hdat
            (by rw [hst])
      · constructor
        · intro s' h
          simp only [step, hty, he', Bool.false_eq_true, if_false, if_neg hl, Step.next.injEq] at h
          subst h
          refine ⟨?_, fun _ => ⟨f, by omega, hst, hdat⟩, fun hq => by simp at hq⟩
          rw [pendingOffsets_pending]
          · exact hcap
          · exact ⟨rfl, by simp⟩
        · intro s' h
          simp only [step, hty, he', Bool.false_eq_true, if_false, if_neg hl] at h
          cases h
  all_goals
    have hp : ¬ Pending s := not_pending_of_type (by rw [hty]; rfl)
    constructor
    · intro s' h
      simp only [step, hty, Step.next.injEq] at h
      subst h
      exact inv_idle _ (inv_cap_idle hinv hp) hp (by rw [hty]; simp)
    · intro s' h
      simp only [step, hty] at h
      cases h


/-- The invariant along the loop: when the loop returns no offset is left without its duration
and symbol; when it runs to the end of the bytes the invariant holds there. -/
theorem loop_inv (env : Env) (bytes starts ends : List Nat) (cap0 : EthernetWaveform)
    (rest : List Nat) (i : Nat) (s : FrameState) (hrest : bytes.drop i = rest)
    (hi : i ≤ bytes.length) (hinv : Inv bytes starts ends cap0 i s) :
    ((loop env bytes starts ends rest i s).2 = true →
        CapInv bytes starts ends cap0 (loop env bytes starts ends rest i s).1.cap [])
    ∧ ((loop env bytes starts ends rest i s).2 = false →
        Inv bytes starts ends cap0 bytes.length (loop env bytes starts ends rest i s).1) := by
  induction rest generalizing i s with
  | nil =>
    have hlen : i = bytes.length := by
      have := congrArg List.length hrest
      simp at this
      omega
    subst hlen
    exact ⟨fun h => absurd h (by simp [loop]), fun _ => hinv⟩
  | cons b rest ih =>
    have hlt : i < bytes.length := by
      by_contra hc
      rw [List.drop_eq_nil_of_le (by omega)] at hrest
      cases hrest
    have hb : bytes.getD i 0 = b := by
      rw [List.drop_eq_getElem_cons hlt] at hrest
      rw [List.getD_eq_getElem?_getD, List.getElem?_eq_getElem hlt]
      exact (List.cons.inj hrest).1
    have hrest' : bytes.drop (i + 1) = rest := by
      rw [List.drop_eq_getElem_cons hlt] at hrest
      exact (List.cons.inj hrest).2
    obtain ⟨h1, h2⟩ := step_inv env bytes starts ends cap0 i s hlt hinv
    rw [hb] at h1 h2
    simp only [loop]
    cases hs : step env bytes starts ends i b s with
    | done s' =>
      simp only
      exact ⟨fun _ => h2 s' hs, fun h => by cases h⟩
    | next s' =>
      simp only
      exact ih (i + 1) s' hrest' (by omega) (h1 s' hs)

theorem initState_inv (bytes starts ends : List Nat) (cap : EthernetWaveform)
    (pcap : List PcapRecord) : Inv bytes starts ends cap 0 (initState cap pcap) := by
  refine inv_idle 0 ?_ ?_ ?_
  · exact ⟨rfl, [], [], [], Fields.nil, by simp [initState], by simp [initState],
      by simp [initState]⟩
  · exact not_pending_of_type rfl
  · simp [initState]

/-- What `BytesToFrames` appends to the output waveform: a sequence of fields and, when the
bytes end inside a field whose offset is pushed first, the offset of that field. -/
theorem BytesToFrames_fields (env : Env) (bytes starts ends : List Nat) (cap : EthernetWaveform)
    (pk : List Packet) (pc : List PcapRecord) :
    ∃ O D S pend,
      Fields bytes starts ends cap.m_timescale O D S
      ∧ (BytesToFrames env bytes starts ends cap pk pc).cap.m_offsets = cap.m_offsets ++ O ++ pend
      ∧ (BytesToFrames env bytes starts ends cap pk pc).cap.m_durations = cap.m_durations ++ D
      ∧ (BytesToFrames env bytes starts ends cap pk pc).cap.m_samples = cap.m_samples ++ S
      ∧ pend = (if (loop env bytes starts ends bytes 0 (initState cap pc)).2 = false
          ∧ Pending (loop env bytes starts ends bytes 0 (initState cap pc)).1
          then [ticks cap.m_timescale (loop env bytes starts ends bytes 0 (initState cap pc)).1.start]
          else []) := by
  obtain ⟨h1, h2⟩ := loop_inv env bytes starts ends cap bytes 0 (initState cap pc) rfl
    (Nat.zero_le _) (initState_inv bytes starts ends cap pc)
  cases hr : (loop env bytes starts ends bytes 0 (initState cap pc)).2 with
  | true =>
    obtain ⟨_, O, D, S, hF, ho, hd, hs⟩ := h1 hr
    exact ⟨O, D, S, [], hF, ho, hd, hs, by simp⟩
  | false =>
    obtain ⟨_, O, D, S, hF, ho, hd, hs⟩ := (h2 hr).cap
    refine ⟨O, D, S, _, hF, ho, hd, hs, ?_⟩
    simp [pendingOffsets]


/-- In range, the quotient pushed on the vectors is the integer quotient. -/
theorem ticks_eq (ts : Int) (x : Nat) (h0 : 0 < ts) (h1 : ts < 2 ^ 63) (hx : x < 2 ^ 63) :
    ticks ts x = (x : Int) / ts := by
  unfold ticks toUInt64 toInt64
  have e1 : ts % 2 ^ 64 = ts := Int.emod_eq_of_lt (by omega) (by omega)
  have hle : x / ts.toNat ≤ x := Nat.div_le_self _ _
  have e2 : x / ts.toNat % 2 ^ 64 = x / ts.toNat := Nat.mod_eq_of_lt (by omega)
  rw [e1, e2, if_pos (by omega)]
  rw [Int.natCast_div, Int.toNat_of_nonneg (by omega)]

/-- In range, the difference of two `uint64_t` time stamps is the difference. -/
theorem sub64_eq (x y : Nat) (hxy : x ≤ y) (hy : y < 2 ^ 64) : sub64 y x = y - x := by
  unfold sub64
  omega

/-- C23. When the three vectors of the output waveform have the same length before
`BytesToFrames`, every symbol it emits (index `k` from the old length on) is a field made of
input bytes `f..l` (`IsField`): its offset is `starts[f] / timescale`; a PREAMBLE runs from a
byte `0x55` at `f` to the byte before the first `0xD5` and its duration is
`(starts[l+1] - starts[f]) / timescale`, the start of the SFD byte taking the place of the end;
every other symbol holds exactly the bytes `f..l` and its duration is
`(ends[l] - starts[f]) / timescale`. The quotients and differences are those of the code
(`uint64_t`); for a positive time scale and time stamps in order and below `2^63` they are the
integer quotient and the difference. -/
theorem C23_field_timestamps (env : Env) (bytes starts ends : List Nat) (cap : EthernetWaveform)
    (pk : List Packet) (pc : List PcapRecord)
    (h1 : cap.m_offsets.length = cap.m_samples.length)
    (h2 : cap.m_durations.length = cap.m_samples.length) (k : Nat)
    (hk0 : cap.m_samples.length ≤ k)
    (hk : k < (BytesToFrames env bytes starts ends cap pk pc).cap.m_samples.length) :
    IsField bytes starts ends cap.m_timescale
        ((BytesToFrames env bytes starts ends cap pk pc).cap.m_offsets.getD k 0)
        ((BytesToFrames env bytes starts ends cap pk pc).cap.m_durations.getD k 0)
        ((BytesToFrames env bytes starts ends cap pk pc).cap.m_samples.getD k ⟨TYPE_INVALID, []⟩)
    ∧ ∀ (ts : Int) (x y : Nat), 0 < ts → ts < 2 ^ 63 → x ≤ y → y < 2 ^ 63 →
        ticks ts x = (x : Int) / ts ∧ ticks ts (sub64 y x) = ((y : Int) - x) / ts := by
  constructor
  · obtain ⟨O, D, S, pend, hF, ho, hd, hs, _⟩ :=
      BytesToFrames_fields env bytes starts ends cap pk pc
    obtain ⟨l1, l2⟩ := fields_lengths hF
    rw [hs, List.length_append] at hk
    have e : k = cap.m_samples.length + (k - cap.m_samples.length) := by omega
    have hk' : k - cap.m_samples.length < S.length := by omega
    have := fields_getD hF (k - cap.m_samples.length) hk'
    have eo : (BytesToFrames env bytes starts ends cap pk pc).cap.m_offsets.getD k 0
        = O.getD (k - cap.m_samples.length) 0 := by
      rw [ho, List.append_assoc, List.getD_append_right _ _ _ _ (by omega), h1,
        List.getD_append _ _ _ _ (by omega)]
    have ed : (BytesToFrames env bytes starts ends cap pk pc).cap.m_durations.getD k 0
        = D.getD (k - cap.m_samples.length) 0 := by
      rw [hd, List.getD_append_right _ _ _ _ (by omega), h2]
    have es : (BytesToFrames env bytes starts ends cap pk pc).cap.m_samples.getD k
        ⟨TYPE_INVALID, []⟩ = S.getD (k - cap.m_samples.length) ⟨TYPE_INVALID, []⟩ := by
      rw [hs, List.getD_append_right _ _ _ _ (by omega)]
    rw [eo, ed, es]
    exact this
  · intro ts x y h0 h1 hxy hy
    refine ⟨ticks_eq ts x h0 h1 (by omega), ?_⟩
    rw [sub64_eq x y hxy (by omega), ticks_eq ts (y - x) h0 h1 (by omega)]
    congr 1
    omega

/-- C23, at the SFD of `cutInField` (bytes `55 D5 01` of 800 fs each, time scale 100): the
symbol at index 1 is a field. -/
theorem C23_field_timestamps_witness :
    (coarseCap.m_offsets.length = coarseCap.m_samples.length
      ∧ coarseCap.m_durations.length = coarseCap.m_samples.length
      ∧ coarseCap.m_samples.length ≤ 1
      ∧ 1 < (BytesToFrames exampleEnv cutInField [0, 800, 1600] [800, 1600, 2400] coarseCap
          [] []).cap.m_samples.length)
    ∧ IsField cutInField [0, 800, 1600] [800, 1600, 2400] coarseCap.m_timescale
        ((BytesToFrames exampleEnv cutInField [0, 800, 1600] [800, 1600, 2400] coarseCap
          [] []).cap.m_offsets.getD 1 0)
        ((BytesToFrames exampleEnv cutInField [0, 800, 1600] [800, 1600, 2400] coarseCap
          [] []).cap.m_durations.getD 1 0)
        ((BytesToFrames exampleEnv cutInField [0, 800, 1600] [800, 1600, 2400] coarseCap
          [] []).cap.m_samples.getD 1 ⟨TYPE_INVALID, []⟩)
    ∧ ((0 : Int) < 100 ∧ (100 : Int) < 2 ^ 63 ∧ 800 ≤ 1600 ∧ 1600 < 2 ^ 63)
    ∧ ticks 100 800 = ((800 : Nat) : Int) / 100
    ∧ ticks 100 (sub64 1600 800) = (((1600 : Nat) : Int) - ((800 : Nat) : Int)) / 100 :=
  ⟨by decide, (C23_field_timestamps exampleEnv cutInField [0, 800, 1600] [800, 1600, 2400]
    coarseCap [] [] (by decide) (by decide) 1 (by decide) (by decide)).1, by decide,
    (C23_field_timestamps exampleEnv cutInField [0, 800, 1600] [800, 1600, 2400]
      coarseCap [] [] (by decide) (by decide) 1 (by decide) (by decide)).2 100 800 1600
      (by decide) (by decide) (by decide) (by decide)⟩

/-- C25. On the bytes `55 D5 01` (a frame cut short inside the destination address) and an
empty output waveform, `BytesToFrames` leaves 3 offsets, 2 durations and 2 samples: the offset
of the address was pushed at its first byte, its duration and symbol are pushed at its sixth
byte only. For every byte sequence and every waveform whose three vectors have the same length
before the call, afterwards there are as many durations as samples, and as many offsets, plus
one exactly when the loop ends, without returning, inside a field of the kind whose offset is
pushed first (destination, source, Ethertype, VLAN tag, check field). -/
theorem C25_truncated_field_leaves_offset (env : Env) (bytes starts ends : List Nat)
    (cap : EthernetWaveform) (pk : List Packet) (pc : List PcapRecord)
    (h1 : cap.m_offsets.length = cap.m_samples.length)
    (h2 : cap.m_durations.length = cap.m_samples.length) :
    ((BytesToFrames env bytes starts ends cap pk pc).cap.m_durations.length
        = (BytesToFrames env bytes starts ends cap pk pc).cap.m_samples.length
      ∧ (BytesToFrames env bytes starts ends cap pk pc).cap.m_offsets.length
        = (BytesToFrames env bytes starts ends cap pk pc).cap.m_samples.length
          + (if (loop env bytes starts ends bytes 0 (initState cap pc)).2 = false
              ∧ Pending (loop env bytes starts ends bytes 0 (initState cap pc)).1
            then 1 else 0))
    ∧ lengths exampleCap = (0, 0, 0)
    ∧ lengths (BytesToFrames exampleEnv cutInField [0, 800, 1600] [800, 1600, 2400] exampleCap
        [] []).cap = (3, 2, 2) := by
  refine ⟨?_, by decide, by decide⟩
  obtain ⟨O, D, S, pend, hF, ho, hd, hs, hp⟩ :=
    BytesToFrames_fields env bytes starts ends cap pk pc
  obtain ⟨l1, l2⟩ := fields_lengths hF
  rw [ho, hd, hs, hp]
  simp only [List.length_append]
  constructor
  · omega
  · split_ifs <;> simp <;> omega

/-- C25, on the bytes `55 D5 01` and an empty waveform: the loop ends inside the destination
address and there is one offset more than samples. -/
theorem C25_truncated_field_leaves_offset_witness :
    (exampleCap.m_offsets.length = exampleCap.m_samples.length
      ∧ exampleCap.m_durations.length = exampleCap.m_samples.length)
    ∧ (BytesToFrames exampleEnv cutInField [0, 800, 1600] [800, 1600, 2400] exampleCap
        [] []).cap.m_offsets.length
      = (BytesToFrames exampleEnv cutInField [0, 800, 1600] [800, 1600, 2400] exampleCap
        [] []).cap.m_samples.length + 1 := by
  have h := (C25_truncated_field_leaves_offset exampleEnv cutInField [0, 800, 1600]
    [800, 1600, 2400] exampleCap [] [] (by decide) (by decide)).1.2
  exact ⟨by decide, by rw [h]; decide⟩

end EthernetProtocolDecoder

/-! ## `Ethernet10BaseTDecoder::Refresh`: bytes assembled from the decoded bits -/

namespace Ethernet10BaseTDecoder
open EthernetProtocolDecoder

theorem shiftBit_byteFields (s : BitState) :
    byteFields (shiftBit s) = shiftFields (byteFields s) (!s.current_state, s.ui_start) := by
  unfold shiftBit shiftFields byteFields Manchester.shiftRightIn
  simp only
  split_ifs <;> simp_all

/-- One pass of the inner loop changes the byte variables exactly when it decodes a bit, and
then as `shiftBit` does. -/
theorem bitStep_byteFields (din : AnalogWaveform) (s : BitState) :
    match bitStep din s with
    | .next s' => byteFields s'
        = if decodesBit din s then shiftFields (byteFields s) (!s.current_state, s.ui_start)
          else byteFields s
    | .frameEnd s' _ => byteFields s'
        = if decodesBit din s then shiftFields (byteFields s) (!s.current_state, s.ui_start)
          else byteFields s
    | .outOfRange => True := by
  generalize hX : (if decodesBit din s then
    shiftFields (byteFields s) (!s.current_state, s.ui_start) else byteFields s) = X
  unfold bitStep
  cases h1 : FindEdge s.i din (!s.current_state) with
  | none =>
    simp only [decodesBit, h1, Bool.false_eq_true, if_false] at hX
    exact hX
  | some i1 =>
    simp only
    cases h2 : timeAt din i1 with
    | none => trivial
    | some edgepos =>
      simp only
      by_cases h3 : edgepos - s.ui_start > 10 * ui_width
      · simp only [decodesBit, h1, h2, h3, decide_True, Bool.not_true, Bool.false_and,
          Bool.false_eq_true, if_false] at hX
        rw [if_pos h3]
        exact hX
      · by_cases h4 : edgepos - s.ui_start < eye_start ∨ edgepos - s.ui_start > eye_end
        · simp only [decodesBit, h1, h2, h3, h4, decide_True, decide_False, Bool.not_true,
            Bool.not_false, Bool.and_false, Bool.false_eq_true, if_false] at hX
          rw [if_neg h3, if_pos h4]
          cases h5 : timeAt din (i1 + 1) with
          | none => trivial
          | some t => exact hX
        · simp only [decodesBit, h1, h2, h3, h4, decide_False, Bool.not_false, Bool.and_self,
            if_true] at hX
          rw [if_neg h3, if_neg h4]
          have hsb : byteFields (shiftBit { s with i := i1 }) = X := by
            rw [shiftBit_byteFields]
            exact hX
          cases h6 : FindEdge i1 din s.current_state with
          | none => exact hsb
          | some i2 =>
            simp only
            cases h7 : timeAt din i2 with
            | none => trivial
            | some edgepos2 =>
              simp only
              split_ifs with h8 h9
              · exact hsb
              · cases h10 : timeAt din (seekTarget din (edgepos + ui_halfwidth)
                    (din.m_samples.length - i1) i1) with
                | none => trivial
                | some t => exact hsb
              · exact hsb

/-- The byte variables at the end of the inner loop are those at its start with the decoded
bits shifted in one after the other. -/
theorem recoverBits_byteFields (din : AnalogWaveform) (fuel : Nat) (s s' : BitState) (d : Bool)
    (h : recoverBits din fuel s = .frame s' d) :
    byteFields s' = (decodedBits din fuel s).foldl shiftFields (byteFields s) := by
  induction fuel generalizing s with
  | zero => simp [recoverBits] at h
  | succ n ih =>
    rw [recoverBits] at h
    rw [decodedBits]
    by_cases h1 : s.i < din.m_samples.length
    · rw [if_pos h1] at h ⊢
      have hb := bitStep_byteFields din s
      cases hs : bitStep din s with
      | next s1 =>
        rw [hs] at hb h
        simp only at hb h ⊢
        rw [List.foldl_append, ih s1 h, hb]
        split_ifs <;> rfl
      | frameEnd s1 d1 =>
        rw [hs] at hb h
        simp only at hb h ⊢
        cases h
        rw [hb]
        split_ifs <;> rfl
      | outOfRange =>
        rw [hs] at h
        cases h
    · rw [if_neg h1] at h ⊢
      cases h
      rfl

/-- Eight bits shifted into an empty partial byte give the byte with those bits, least
significant first. -/
theorem shiftRightIn_pack : ∀ d0 d1 d2 d3 d4 d5 d6 d7 : Bool,
    [d0, d1, d2, d3, d4, d5, d6, d7].foldl Manchester.shiftRightIn 0
      = UsbSpec.packLsbFirst [d0, d1, d2, d3, d4, d5, d6, d7] := by
  decide

theorem shiftFields_eight (b0 b1 b2 b3 b4 b5 b6 b7 : Bool × Int) (t : Int)
    (B S E : List Nat) :
    [b0, b1, b2, b3, b4, b5, b6, b7].foldl shiftFields (0, 0, t, B, S, E)
      = (0, 0, b0.2,
          B ++ [UsbSpec.packLsbFirst [b0.1, b1.1, b2.1, b3.1, b4.1, b5.1, b6.1, b7.1]],
          S ++ [toUInt64 b0.2], E ++ [toUInt64 (b7.2 + ui_width)]) := by
  rw [← shiftRightIn_pack]
  simp [shiftFields]

theorem shiftFields_short (l : List (Bool × Int)) (cb bc : Nat) (t : Int) (B S E : List Nat)
    (h : bc + l.length < 8) :
    ∃ cb' t', l.foldl shiftFields (cb, bc, t, B, S, E) = (cb', bc + l.length, t', B, S, E) := by
  induction l generalizing cb bc t with
  | nil => exact ⟨cb, t, rfl⟩
  | cons b rest ih =>
    simp only [List.length_cons] at h
    have hne : ¬ (bc + 1 = 8) := by omega
    obtain ⟨cb', t', e⟩ := ih (Manchester.shiftRightIn cb b.1) (bc + 1)
      (if bc = 0 then b.2 else t) (by omega)
    refine ⟨cb', t', ?_⟩
    rw [List.foldl_cons]
    have e1 : shiftFields (cb, bc, t, B, S, E) b
        = (Manchester.shiftRightIn cb b.1, bc + 1, if bc = 0 then b.2 else t, B, S, E) := by
      simp [shiftFields, hne]
    rw [e1, e, List.length_cons]
    congr 2
    omega

theorem assemble_short (l : List (Bool × Int)) (h : l.length < 8) : assemble l = [] := by
  rcases l with _ | ⟨b0, _ | ⟨b1, _ | ⟨b2, _ | ⟨b3, _ | ⟨b4, _ | ⟨b5, _ | ⟨b6, _ | ⟨b7, rest⟩⟩⟩⟩⟩⟩⟩⟩
  all_goals first | rfl | (simp at h; omega)

/-- The decoded bits shifted in from an empty partial byte: one byte for every 8 bits, the
rest left in the partial byte. -/
theorem foldl_shiftFields (n : Nat) : ∀ (bits : List (Bool × Int)) (t : Int) (B S E : List Nat),
    bits.length ≤ n →
    ∃ cb t', bits.foldl shiftFields (0, 0, t, B, S, E)
      = (cb, bits.length % 8, t', B ++ (assemble bits).map ByteSpan.value,
          S ++ (assemble bits).map ByteSpan.first, E ++ (assemble bits).map ByteSpan.last)
      ∧ (assemble bits).length = bits.length / 8 := by
  induction n using Nat.strong_induction_on with
  | _ n ih =>
    intro bits t B S E hn
    by_cases hlen : bits.length < 8
    · obtain ⟨cb', t', e⟩ := shiftFields_short bits 0 0 t B S E (by omega)
      refine ⟨cb', t', ?_, ?_⟩
      · rw [e, assemble_short bits hlen, Nat.mod_eq_of_lt hlen]
        simp
      · rw [assemble_short bits hlen]
        simp
        omega
    · rcases bits with _ | ⟨b0, _ | ⟨b1, _ | ⟨b2, _ | ⟨b3, _ | ⟨b4, _ | ⟨b5, _ | ⟨b6, _ |
        ⟨b7, rest⟩⟩⟩⟩⟩⟩⟩⟩
      all_goals try (simp at hlen; done)
      have hr : rest.length < n := by simp at hn; omega
      obtain ⟨cb, t', e, el⟩ := ih rest.length hr rest b0.2
        (B ++ [UsbSpec.packLsbFirst [b0.1, b1.1, b2.1, b3.1, b4.1, b5.1, b6.1, b7.1]])
        (S ++ [toUInt64 b0.2]) (E ++ [toUInt64 (b7.2 + ui_width)]) (le_refl _)
      refine ⟨cb, t', ?_, ?_⟩
      · have split : b0 :: b1 :: b2 :: b3 :: b4 :: b5 :: b6 :: b7 :: rest
            = [b0, b1, b2, b3, b4, b5, b6, b7] ++ rest := rfl
        rw [split, List.foldl_append, shiftFields_eight, e]
        have hm : ([b0, b1, b2, b3, b4, b5, b6, b7] ++ rest).length % 8 = rest.length % 8 := by
          rw [List.length_append]
          show (8 + rest.length) % 8 = rest.length % 8
          omega
        rw [hm]
        simp only [assemble, List.map_cons, List.append_assoc, List.singleton_append]
        rfl
      · simp only [assemble, List.length_cons, el]
        omega

end Ethernet10BaseTDecoder

namespace Manchester
open Ethernet10BaseTDecoder EthernetProtocolDecoder

/-- Bit `k` of the packed value is the `k`-th bit of the list. -/
theorem packLsbFirst_testBit (l : List Bool) (k : Nat) :
    (UsbSpec.packLsbFirst l).testBit k = l.getD k false := by
  induction l generalizing k with
  | nil => simp [UsbSpec.packLsbFirst]
  | cons b bs ih =>
    cases k with
    | zero =>
      rw [Nat.testBit_zero, UsbSpec.packLsbFirst]
      cases b <;> simp <;> omega
    | succ m =>
      rw [Nat.testBit_succ, UsbSpec.packLsbFirst, List.getD_cons_succ, ← ih m]
      congr 1
      cases b <;> simp
      omega

/-- C22 fails on the code as worded. The byte `0x55`, Manchester coded with a 100 ns unit
interval from time 0, is recovered with `starts = [0]` and `ends = [800 000 000]` (femtoseconds):
the byte ends one unit interval after the start of its eighth bit, 800 ns after the byte
start, not one unit interval (100 ns) after the byte start. In the output of `Refresh` on
`55 D5 01` the SFD symbol accordingly lasts 16 samples of 50 ns. -/
theorem C22_counterexample :
    recovered oneByteTrace = some ([0x55], [0], [800000000])
    ∧ toUInt64 (0 + ui_width) = 100000000
    ∧ (match Refresh exampleEnv true (encode exampleSampling [0x55, 0xd5, 0x01]) freshDecoder with
        | .ok ⟨some cap, _, _⟩ => some (cap.m_offsets, cap.m_durations, symbolTypes cap)
        | _ => none)
      = some ([0, 16, 32], [16, 16], [SegmentType.TYPE_PREAMBLE, SegmentType.TYPE_SFD]) := by
  refine ⟨by decide!, by decide!, by decide!⟩

/-- C22, as the code has it. From the falling edge that starts a frame (index `i0`, time
`t0`), the inner loop of `Refresh` either reads `m_offsets` past its end or ends the frame,
and then the vectors `bytes`, `starts` and `ends` are those of `assemble` applied to the bits
decoded in the frame: one byte for every 8 decoded bits, least significant bit first (bit `k`
of the byte is the `k`-th of the 8 bits), from the start of the unit interval of the first of
the 8 bits to the start of the unit interval of the eighth plus one unit interval of 100 ns;
the bits left over (fewer than 8) stay in the partial byte and give no byte. -/
theorem C22_byte_assembly (din : AnalogWaveform) (i0 : Nat) (t0 : Int)
    (h : i0 ≤ din.m_samples.length) :
    (recoverBits din (din.m_samples.length + 1) (frameStart i0 t0) = .outOfRange
      ∨ ∃ s d, recoverBits din (din.m_samples.length + 1) (frameStart i0 t0) = .frame s d
        ∧ s.bytes
          = (assemble (decodedBits din (din.m_samples.length + 1) (frameStart i0 t0))).map
              ByteSpan.value
        ∧ s.starts
          = (assemble (decodedBits din (din.m_samples.length + 1) (frameStart i0 t0))).map
              ByteSpan.first
        ∧ s.ends
          = (assemble (decodedBits din (din.m_samples.length + 1) (frameStart i0 t0))).map
              ByteSpan.last
        ∧ s.bitcount
          = (decodedBits din (din.m_samples.length + 1) (frameStart i0 t0)).length % 8
        ∧ (assemble (decodedBits din (din.m_samples.length + 1) (frameStart i0 t0))).length
          = (decodedBits din (din.m_samples.length + 1) (frameStart i0 t0)).length / 8)
    ∧ (∀ (l : List Bool) (k : Nat), (UsbSpec.packLsbFirst l).testBit k = l.getD k false)
    ∧ ui_width = 100000000 := by
  refine ⟨?_, packLsbFirst_testBit, rfl⟩
  rcases recoverBits_keeps din (din.m_samples.length + 1) (frameStart i0 t0) h
    (by show _ ≤ i0 + _; omega) with hr | ⟨s, d, hr, _⟩
  · exact Or.inl hr
  · right
    have hf := recoverBits_byteFields din _ _ s d hr
    obtain ⟨cb, t', e, el⟩ := foldl_shiftFields _
      (decodedBits din (din.m_samples.length + 1) (frameStart i0 t0)) t0 [] [] [] (le_refl _)
    have hf' : byteFields s = _ := hf.trans e
    simp only [byteFields, Prod.mk.injEq, List.nil_append] at hf'
    exact ⟨s, d, hr, hf'.2.2.2.1, hf'.2.2.2.2.1, hf'.2.2.2.2.2, hf'.2.1, el⟩

/-- C22 on `oneByteTrace`, entered at its first sample. -/
theorem C22_byte_assembly_witness :
    0 ≤ oneByteTrace.m_samples.length
    ∧ (recoverBits oneByteTrace (oneByteTrace.m_samples.length + 1) (frameStart 0 0) = .outOfRange
      ∨ ∃ s d, recoverBits oneByteTrace (oneByteTrace.m_samples.length + 1) (frameStart 0 0)
          = .frame s d
        ∧ s.bytes = (assemble (decodedBits oneByteTrace (oneByteTrace.m_samples.length + 1)
            (frameStart 0 0))).map ByteSpan.value
        ∧ s.starts = (assemble (decodedBits oneByteTrace (oneByteTrace.m_samples.length + 1)
            (frameStart 0 0))).map ByteSpan.first
        ∧ s.ends = (assemble (decodedBits oneByteTrace (oneByteTrace.m_samples.length + 1)
            (frameStart 0 0))).map ByteSpan.last
        ∧ s.bitcount = (decodedBits oneByteTrace (oneByteTrace.m_samples.length + 1)
            (frameStart 0 0)).length % 8
        ∧ (assemble (decodedBits oneByteTrace (oneByteTrace.m_samples.length + 1)
            (frameStart 0 0))).length
          = (decodedBits oneByteTrace (oneByteTrace.m_samples.length + 1)
            (frameStart 0 0)).length / 8)
    ∧ assemble (decodedBits oneByteTrace (oneByteTrace.m_samples.length + 1) (frameStart 0 0))
      = [⟨0x55, 0, 800000000⟩] :=
  ⟨Nat.zero_le _, (C22_byte_assembly oneByteTrace 0 0 (Nat.zero_le _)).1, by decide!⟩

end Manchester

/-! ## `SPIDecoder::Refresh`: the output is in time order -/

namespace SPIDecoder
open SymbolType State

theorem getD_snoc_lt {α : Type} (l : List α) (a d : α) (k : Nat) (h : k < l.length) :
    (l ++ [a]).getD k d = l.getD k d := List.getD_append _ _ _ _ h

theorem getD_snoc_eq {α : Type} (l : List α) (a d : α) (k : Nat) (h : k = l.length) :
    (l ++ [a]).getD k d = a := by
  subst h
  rw [List.getD_append_right _ _ _ _ (le_refl _)]
  simp

/-- Appending a symbol that starts where the waveform ends (or later, after a
`TYPE_DESELECT`) keeps the waveform ordered. -/
theorem ordered_emit (cap : SPIWaveform) (o d : Int) (s : SPISymbol) (h : Ordered cap)
    (hd : 0 ≤ d)
    (hl : cap.m_samples.length = 0
      ∨ (lastEnd cap ≤ o ∧ (lastType cap ≠ TYPE_DESELECT → lastEnd cap = o))) :
    Ordered (emit cap o d s) ∧ lastEnd (emit cap o d s) = o + d
      ∧ lastType (emit cap o d s) = s.m_stype
      ∧ 0 < (emit cap o d s).m_samples.length := by
  obtain ⟨l1, l2, h3, h4⟩ := h
  have hn : (emit cap o d s).m_samples.length = cap.m_samples.length + 1 := by
    simp [emit]
  refine ⟨⟨by simp [emit, l1], by simp [emit, l2], ?_, ?_⟩, ?_, ?_, by omega⟩
  · intro k hk
    rw [hn] at hk
    show 0 ≤ (cap.m_durations ++ [d]).getD k 0
    by_cases hlt : k < cap.m_samples.length
    · rw [getD_snoc_lt cap.m_durations d 0 k (by omega)]
      exact h3 k hlt
    · rw [getD_snoc_eq cap.m_durations d 0 k (by omega)]
      exact hd
  · intro k hk
    rw [hn] at hk
    show (cap.m_offsets ++ [o]).getD k 0 + (cap.m_durations ++ [d]).getD k 0
        ≤ (cap.m_offsets ++ [o]).getD (k + 1) 0
      ∧ (((cap.m_samples ++ [s]).getD k ⟨TYPE_ERROR, 0⟩).m_stype ≠ TYPE_DESELECT →
        (cap.m_offsets ++ [o]).getD k 0 + (cap.m_durations ++ [d]).getD k 0
          = (cap.m_offsets ++ [o]).getD (k + 1) 0)
    rw [getD_snoc_lt cap.m_offsets o 0 k (by omega),
      getD_snoc_lt cap.m_durations d 0 k (by omega),
      getD_snoc_lt cap.m_samples s ⟨TYPE_ERROR, 0⟩ k (by omega)]
    by_cases hlt : k + 1 < cap.m_samples.length
    · rw [getD_snoc_lt cap.m_offsets o 0 (k + 1) (by omega)]
      exact h4 k hlt
    · rw [getD_snoc_eq cap.m_offsets o 0 (k + 1) (by omega)]
      have hk' : k = cap.m_samples.length - 1 := by omega
      rcases hl with hl | ⟨a, b⟩
      · omega
      · rw [hk']
        exact ⟨a, b⟩
  · show (cap.m_offsets ++ [o]).getD ((cap.m_samples ++ [s]).length - 1) 0
        + (cap.m_durations ++ [d]).getD ((cap.m_samples ++ [s]).length - 1) 0 = o + d
    rw [getD_snoc_eq cap.m_offsets o 0 _ (by simp [l1]),
      getD_snoc_eq cap.m_durations d 0 _ (by simp [l2])]
  · show ((cap.m_samples ++ [s]).getD ((cap.m_samples ++ [s]).length - 1) ⟨TYPE_ERROR, 0⟩).m_stype
      = s.m_stype
    rw [getD_snoc_eq cap.m_samples s _ _ (by simp)]

theorem getD_set_eq (l : List Int) (k : Nat) (v d : Int) (h : k < l.length) :
    (l.set k v).getD k d = v := by
  rw [List.getD_eq_getElem?_getD, List.getElem?_set_self h]
  rfl

theorem getD_set_ne (l : List Int) (k j : Nat) (v d : Int) (h : k ≠ j) :
    (l.set k v).getD j d = l.getD j d := by
  rw [List.getD_eq_getElem?_getD, List.getD_eq_getElem?_getD, List.getElem?_set_ne h]

/-- Extending the last symbol, a `TYPE_DATA`, to the time `t` keeps the waveform ordered. -/
theorem ordered_extendLast (cap : SPIWaveform) (t : Int) (h : Ordered cap)
    (hn : 0 < cap.m_samples.length) (hty : lastType cap = TYPE_DATA)
    (ht : cap.m_offsets.getD (cap.m_samples.length - 1) 0 ≤ t) :
    Ordered (extendLast cap t) ∧ lastEnd (extendLast cap t) = t
      ∧ lastType (extendLast cap t) = TYPE_DATA
      ∧ 0 < (extendLast cap t).m_samples.length := by
  obtain ⟨l1, l2, h3, h4⟩ := h
  have hne : cap.m_samples.isEmpty = false := by
    cases hs : cap.m_samples with
    | nil => rw [hs] at hn; simp at hn
    | cons a l => rfl
  have hty' : (cap.m_samples.getD (cap.m_samples.length - 1) ⟨TYPE_ERROR, 0⟩).m_stype = TYPE_DATA :=
    hty
  have e : (extendLast cap t).m_offsets = cap.m_offsets
      ∧ (extendLast cap t).m_samples = cap.m_samples
      ∧ (extendLast cap t).m_durations = cap.m_durations.set (cap.m_samples.length - 1)
          (t - cap.m_offsets.getD (cap.m_samples.length - 1) 0) := by
    unfold extendLast
    simp only [hne, Bool.false_eq_true, if_false, hty', if_true]
    refine ⟨?_, ?_, ?_⟩ <;> first | trivial | rfl
  obtain ⟨e1, e2, e3⟩ := e
  unfold Ordered lastEnd lastType
  rw [e1, e2, e3]
  refine ⟨⟨l1, by simp [l2], ?_, ?_⟩, ?_, hty, hn⟩
  · intro k hk
    by_cases hk' : cap.m_samples.length - 1 = k
    · rw [← hk', getD_set_eq _ _ _ _ (by omega)]
      omega
    · rw [getD_set_ne _ _ _ _ _ hk']
      exact h3 k hk
  · intro k hk
    have hk' : cap.m_samples.length - 1 ≠ k := by
      have : k + 1 < cap.m_samples.length := hk
      omega
    rw [getD_set_ne _ _ _ _ _ hk']
    exact h4 k hk
  · rw [getD_set_eq _ _ _ _ (by omega)]
    omega

theorem closed_mono (cap : SPIWaveform) (t t' : Int) (h : Closed cap t) (ht : t ≤ t') :
    Closed cap t' := by
  rcases h with h | ⟨a, b⟩
  · exact Or.inl h
  · exact Or.inr ⟨by omega, b⟩

theorem clockEdge_split (t : Int) (d : Bool) (m : Machine) :
    clockEdge t d m = edgeTail t d (edgeHead t m) := rfl

/-- After the block `if(bitcount == 0)` at a clock edge the waveform ends at `bytestart`. -/
theorem edgeHead_inv (m : Machine) (t t' : Int) (ho : Ordered m.cap) (hs : Selected m t)
    (ht : t ≤ t') :
    Ordered (edgeHead t' m).cap ∧ (edgeHead t' m).first = false
      ∧ 0 < (edgeHead t' m).cap.m_samples.length
      ∧ lastEnd (edgeHead t' m).cap = (edgeHead t' m).bytestart
      ∧ (edgeHead t' m).bytestart ≤ t' ∧ (edgeHead t' m).bitcount = m.bitcount := by
  obtain ⟨hb, hc, hf⟩ := hs
  unfold edgeHead
  by_cases h0 : m.bitcount = 0
  · rw [if_pos h0]
    by_cases h1 : m.first = true
    · rw [if_pos h1]
      rw [if_pos h1] at hf
      have hl : m.cap.m_samples.length = 0
          ∨ (lastEnd m.cap ≤ m.bytestart
            ∧ (lastType m.cap ≠ TYPE_DESELECT → lastEnd m.cap = m.bytestart)) := by
        rcases hf.2 with h | ⟨a, b⟩
        · exact Or.inl h
        · exact Or.inr ⟨a, fun hne => absurd b hne⟩
      obtain ⟨e1, e2, _, e4⟩ := ordered_emit m.cap m.bytestart (t' - m.bytestart)
        ⟨TYPE_SELECT, 0⟩ ho (by omega) hl
      refine ⟨e1, rfl, e4, ?_, le_refl _, rfl⟩
      show lastEnd (emit m.cap m.bytestart (t' - m.bytestart) ⟨TYPE_SELECT, 0⟩) = t'
      rw [e2]
      omega
    · rw [if_neg h1]
      rw [if_neg h1] at hf
      obtain ⟨hn, hle, hty⟩ := hf
      have hoff : m.cap.m_offsets.getD (m.cap.m_samples.length - 1) 0 ≤ t' := by
        have hd := ho.2.2.1 (m.cap.m_samples.length - 1) (by omega)
        unfold lastEnd at hle
        omega
      obtain ⟨e1, e2, _, e4⟩ := ordered_extendLast m.cap t' ho hn (hty h0) hoff
      exact ⟨e1, by simpa using h1, e4, e2, le_refl _, rfl⟩
  · rw [if_neg h0]
    have h1 : ¬ (m.first = true) := by
      intro h1
      rw [if_pos h1] at hf
      exact h0 hf.1
    rw [if_neg h1] at hf
    exact ⟨ho, by simpa using h1, hf.1, hf.2.1, by omega, rfl⟩

/-- A clock edge at a time not before the last one keeps the invariant. -/
theorem clockEdge_inv (m : Machine) (t t' : Int) (d : Bool) (ho : Ordered m.cap)
    (hs : Selected m t) (ht : t ≤ t') : MInv (clockEdge t' d m) t' := by
  obtain ⟨e1, e2, e3, e4, e5, e6⟩ := edgeHead_inv m t t' ho hs ht
  have hc : (edgeHead t' m).bitcount < 8 := by rw [e6]; exact hs.2.1
  rw [clockEdge_split]
  generalize edgeHead t' m = m1 at e1 e2 e3 e4 e5 hc
  unfold edgeTail
  have hmod : (m1.bitcount + 1) % 256 = m1.bitcount + 1 := Nat.mod_eq_of_lt (by omega)
  simp only [hmod]
  by_cases h8 : m1.bitcount + 1 = 8
  · rw [if_pos h8]
    obtain ⟨f1, f2, f3, f4⟩ := ordered_emit m1.cap m1.bytestart (t' - m1.bytestart)
      ⟨TYPE_DATA, shiftIn m1.current_byte d⟩ e1 (by omega) (Or.inr ⟨by omega, fun _ => e4⟩)
    refine ⟨f1, le_refl _, by show 0 < 8; omega, ?_⟩
    show (if m1.first = true then _ else _)
    rw [e2]
    simp only [Bool.false_eq_true, if_false]
    refine ⟨f4, ?_, fun _ => f3⟩
    show lastEnd (emit m1.cap m1.bytestart (t' - m1.bytestart) _) = t'
    rw [f2]
    omega
  · rw [if_neg h8]
    refine ⟨e1, e5, by show m1.bitcount + 1 < 8; omega, ?_⟩
    show (if m1.first = true then _ else _)
    rw [e2]
    simp only [Bool.false_eq_true, if_false]
    exact ⟨e3, e4, fun h => absurd h (Nat.succ_ne_zero _)⟩

/-- The end of a chip-select window at a time not before the last one keeps the invariant. -/
theorem deselect_inv (m : Machine) (t t' : Int) (ho : Ordered m.cap) (hs : Selected m t)
    (ht : t ≤ t') : MInv (deselect t' m) t' := by
  obtain ⟨hb, hc, hf⟩ := hs
  have hl : m.cap.m_samples.length = 0
      ∨ (lastEnd m.cap ≤ m.bytestart
        ∧ (lastType m.cap ≠ TYPE_DESELECT → lastEnd m.cap = m.bytestart)) := by
    by_cases h1 : m.first = true
    · rw [if_pos h1] at hf
      rcases hf.2 with h | ⟨a, b⟩
      · exact Or.inl h
      · exact Or.inr ⟨a, fun hne => absurd b hne⟩
    · rw [if_neg h1] at hf
      exact Or.inr ⟨by omega, fun _ => hf.2.1⟩
  obtain ⟨e1, e2, e3, e4⟩ := ordered_emit m.cap m.bytestart (t' - m.bytestart)
    ⟨TYPE_DESELECT, 0⟩ ho (by omega) hl
  refine ⟨e1, Or.inr ⟨?_, e3⟩⟩
  show lastEnd (emit m.cap m.bytestart (t' - m.bytestart) ⟨TYPE_DESELECT, 0⟩) ≤ t'
  rw [e2]
  omega

theorem selected_mono (m : Machine) (t t' : Int) (h : Selected m t) (ht : t ≤ t') :
    Selected m t' := ⟨by have := h.1; omega, h.2⟩

/-- The `switch` at a time not before the last one keeps the invariant. -/
theorem step_minv (m : Machine) (t t' : Int) (cs clk d : Bool) (h : MInv m t) (ht : t ≤ t') :
    MInv (step t' cs clk d m) t' := by
  obtain ⟨ho, hst⟩ := h
  cases hs : m.state
  · rw [hs] at hst
    simp only [step, hs]
    split_ifs
    · exact ⟨ho, closed_mono _ _ _ hst ht⟩
    · refine ⟨ho, ?_⟩
      rw [hs]
      exact closed_mono _ _ _ hst ht
  · rw [hs] at hst
    simp only [step, hs]
    split_ifs
    · refine ⟨ho, le_refl _, by show 0 < 8; omega, ?_⟩
      show (if true = true then _ else _)
      rw [if_pos rfl]
      exact ⟨rfl, closed_mono _ _ _ hst ht⟩
    · refine ⟨ho, ?_⟩
      rw [hs]
      exact closed_mono _ _ _ hst ht
  · rw [hs] at hst
    simp only [step, hs]
    split_ifs
    · exact clockEdge_inv m t t' d ho hst ht
    · exact deselect_inv m t t' ho hst ht
    · refine ⟨ho, ?_⟩
      rw [hs]
      exact selected_mono _ _ _ hst ht
  · rw [hs] at hst
    simp only [step, hs]
    split_ifs
    · exact ⟨ho, selected_mono _ _ _ hst ht⟩
    · exact deselect_inv m t t' ho hst ht
    · refine ⟨ho, ?_⟩
      rw [hs]
      exact selected_mono _ _ _ hst ht

theorem advance_ge (w : DigitalWaveform) (len : Nat) (t : Int) (fuel i : Nat) :
    i ≤ AdvanceToTimestamp w len t fuel i := by
  induction fuel generalizing i with
  | zero => exact le_refl _
  | succ n ih =>
    rw [AdvanceToTimestamp]
    split_ifs
    · exact le_trans (Nat.le_succ i) (ih (i + 1))
    · exact le_refl _

/-- With enough passes the cursor stops at the last sample that starts at or before `t`. -/
theorem advance_cursor (w : DigitalWaveform) (len : Nat) (t : Int) (fuel i : Nat)
    (h : len ≤ i + fuel) : CursorAt w len (AdvanceToTimestamp w len t fuel i) t := by
  induction fuel generalizing i with
  | zero =>
    intro hlt
    rw [AdvanceToTimestamp] at hlt
    omega
  | succ n ih =>
    rw [AdvanceToTimestamp]
    split_ifs with hc
    · exact ih (i + 1) (by omega)
    · intro hlt
      by_contra hle
      exact hc ⟨hlt, by omega⟩

/-- The cursor moves on when the next sample starts at or before `t`. -/
theorem advance_progress (w : DigitalWaveform) (len : Nat) (t : Int) (fuel i : Nat)
    (h1 : i + 1 < len) (h2 : w.m_offsets.getD (i + 1) 0 ≤ t) :
    i + 1 ≤ AdvanceToTimestamp w len t (fuel + 1) i := by
  rw [AdvanceToTimestamp, if_pos ⟨h1, h2⟩]
  exact advance_ge w len t fuel (i + 1)

theorem next_ge (w : DigitalWaveform) (len i : Nat) (t : Int) (h : CursorAt w len i t) :
    t ≤ GetNextEventTimestamp w i len t := by
  unfold GetNextEventTimestamp
  split_ifs with hc
  · exact le_of_lt (h hc)
  · exact le_refl _

/-- The loop of `Refresh` from a pass on whose cursors are at the time stamp: the output is
ordered when the loop ends. -/
theorem loop_ordered (clk csn data : DigitalWaveform) (fuel : Nat) :
    ∀ (c : Cursor) (m mf : Machine) (t : Int),
      CursorAt csn csn.m_samples.length c.ics c.timestamp →
      CursorAt clk clk.m_samples.length c.iclk c.timestamp →
      t ≤ c.timestamp → MInv m t →
      loop clk csn data fuel c m = some mf → Ordered mf.cap := by
  induction fuel with
  | zero =>
    intro c m mf t _ _ _ _ h
    simp [loop] at h
  | succ n ih =>
    intro c m mf t hcs hclk ht hm h
    have hstep := step_minv m t c.timestamp (csn.m_samples.getD c.ics false)
      (clk.m_samples.getD c.iclk false) (data.m_samples.getD c.idata false) hm ht
    rw [loop] at h
    split_ifs at h with hbreak
    · cases h
      exact hstep.1
    · have h1 := next_ge csn csn.m_samples.length c.ics c.timestamp hcs
      have h2 := next_ge clk clk.m_samples.length c.iclk c.timestamp hclk
      have hlt : c.timestamp ≤ min
          (GetNextEventTimestamp clk c.iclk clk.m_samples.length c.timestamp)
          (GetNextEventTimestamp csn c.ics csn.m_samples.length c.timestamp) := le_min h2 h1
      exact ih _ _ mf c.timestamp
        (advance_cursor csn _ _ _ _ (by omega)) (advance_cursor clk _ _ _ _ (by omega))
        hlt hstep h

/-- A pass that does not leave the loop moves the cursor of the clock or of the chip
select. -/
theorem loop_total (clk csn data : DigitalWaveform) (fuel : Nat) :
    ∀ (c : Cursor) (m : Machine),
      (csn.m_samples.length - 1 - c.ics) + (clk.m_samples.length - 1 - c.iclk) < fuel →
      ∃ mf, loop clk csn data fuel c m = some mf := by
  induction fuel with
  | zero => intro c m h; omega
  | succ n ih =>
    intro c m h
    rw [loop]
    split_ifs with hbreak
    · exact ⟨_, rfl⟩
    · apply ih
      have g1 := advance_ge csn csn.m_samples.length (min
          (GetNextEventTimestamp clk c.iclk clk.m_samples.length c.timestamp)
          (GetNextEventTimestamp csn c.ics csn.m_samples.length c.timestamp))
          csn.m_samples.length c.ics
      have g2 := advance_ge clk clk.m_samples.length (min
          (GetNextEventTimestamp clk c.iclk clk.m_samples.length c.timestamp)
          (GetNextEventTimestamp csn c.ics csn.m_samples.length c.timestamp))
          clk.m_samples.length c.iclk
      rcases min_choice (GetNextEventTimestamp clk c.iclk clk.m_samples.length c.timestamp)
          (GetNextEventTimestamp csn c.ics csn.m_samples.length c.timestamp) with hm | hm
      · rw [hm] at hbreak g1 g2 ⊢
        have hin : c.iclk + 1 < clk.m_samples.length := by
          by_contra hc
          exact hbreak (by unfold GetNextEventTimestamp; rw [if_neg hc])
        obtain ⟨k, hk⟩ : ∃ k, clk.m_samples.length = k + 1 := ⟨clk.m_samples.length - 1, by omega⟩
        have hp : c.iclk + 1 ≤ AdvanceToTimestamp clk clk.m_samples.length
            (GetNextEventTimestamp clk c.iclk clk.m_samples.length c.timestamp)
            clk.m_samples.length c.iclk := by
          have := advance_progress clk clk.m_samples.length
            (GetNextEventTimestamp clk c.iclk clk.m_samples.length c.timestamp) k c.iclk hin
            (by unfold GetNextEventTimestamp; rw [if_pos hin])
          rw [← hk] at this
          exact this
        show _ - 1 - AdvanceToTimestamp csn _ _ _ _ + (_ - 1 - AdvanceToTimestamp clk _ _ _ _) < n
        omega
      · rw [hm] at hbreak g1 g2 ⊢
        have hin : c.ics + 1 < csn.m_samples.length := by
          by_contra hc
          exact hbreak (by unfold GetNextEventTimestamp; rw [if_neg hc])
        obtain ⟨k, hk⟩ : ∃ k, csn.m_samples.length = k + 1 := ⟨csn.m_samples.length - 1, by omega⟩
        have hp : c.ics + 1 ≤ AdvanceToTimestamp csn csn.m_samples.length
            (GetNextEventTimestamp csn c.ics csn.m_samples.length c.timestamp)
            csn.m_samples.length c.ics := by
          have := advance_progress csn csn.m_samples.length
            (GetNextEventTimestamp csn c.ics csn.m_samples.length c.timestamp) k c.ics hin
            (by unfold GetNextEventTimestamp; rw [if_pos hin])
          rw [← hk] at this
          exact this
        show _ - 1 - AdvanceToTimestamp csn _ _ _ _ + (_ - 1 - AdvanceToTimestamp clk _ _ _ _) < n
        omega

theorem ordered_empty (a b c d : Int) : Ordered ⟨a, b, c, d, [], [], []⟩ :=
  ⟨rfl, rfl, fun k hk => absurd hk (Nat.not_lt_zero _), fun k hk => absurd hk (Nat.not_lt_zero _)⟩

/-- The `switch` applied at time stamps that never decrease keeps the invariant. -/
theorem foldSamples_minv (l : List Sample) :
    ∀ (m : Machine) (t : Int), MInv m t → (∀ x ∈ l.head?, t ≤ x.t) →
      NonDecreasing l → ∃ t', MInv (foldSamples l m) t' := by
  induction l with
  | nil => intro m t h _ _; exact ⟨t, h⟩
  | cons a rest ih =>
    intro m t h hhead hchain
    have hta : t ≤ a.t := hhead a (by simp)
    have hstep := step_minv m t a.t a.cs a.clk a.data h hta
    cases rest with
    | nil => exact ⟨a.t, hstep⟩
    | cons b r =>
      refine ih _ a.t hstep ?_ hchain.2
      intro x hx
      simp only [List.head?_cons, Option.mem_def, Option.some.injEq] at hx
      subst hx
      exact hchain.1

/-- C26. For every three-channel capture (whatever its offsets), `SPIDecoder::Refresh` with
valid inputs ends and the symbols of its output are in time order and do not overlap: the
three vectors have the same length, every duration is at least 0, every symbol ends at or
before the start of the next one, and exactly at its start unless it is a `TYPE_DESELECT`,
the last symbol of its chip-select window. (After the first pass the time stamp of the loop
strictly increases, because the cursors are advanced past every sample at or before it.) The
same holds of the `switch` of `Refresh` alone, run from the initial state at any sequence of
time stamps that never decrease. -/
theorem C26_output_in_time_order (clk csn data : DigitalWaveform) :
    (∃ cap, Refresh true clk csn data = some (Output.data cap) ∧ Ordered cap)
    ∧ ∀ (l : List Sample) (cap : SPIWaveform), cap.m_samples = [] → cap.m_offsets = [] →
        cap.m_durations = [] → NonDecreasing l →
        Ordered (foldSamples l ⟨STATE_IDLE, 0, 0, 0, false, cap⟩).cap := by
  constructor
  swap
  · intro l cap h1 h2 h3 hchain
    have h0 : MInv ⟨STATE_IDLE, 0, 0, 0, false, cap⟩ (match l.head? with
        | some x => x.t
        | none => 0) := by
      refine ⟨⟨by simp [h1, h2], by simp [h1, h3], ?_, ?_⟩, Or.inl (by simp [h1])⟩
      · intro k hk; simp [h1] at hk
      · intro k hk; simp [h1] at hk
    obtain ⟨t', ht'⟩ := foldSamples_minv l _ _ h0 (by
      intro x hx
      simp only [Option.mem_def] at hx
      rw [hx]) hchain
    exact ht'.1
  obtain ⟨mf, hmf⟩ := loop_total clk csn data (csn.m_samples.length + clk.m_samples.length + 1)
    ⟨0, 0, 0, 0⟩ ⟨STATE_IDLE, 0, 0, 0, false,
      ⟨clk.m_timescale, clk.m_startTimestamp, clk.m_startFemtoseconds, clk.m_triggerPhase,
        [], [], []⟩⟩ (by show _ - 1 - 0 + (_ - 1 - 0) < _; omega)
  refine ⟨mf.cap, ?_, ?_⟩
  · show Option.map _ (loop clk csn data _ _ _) = _
    rw [hmf]
    rfl
  · have hm0 : ∀ (cs : Bool) (t : Int), MInv (step 0 cs (clk.m_samples.getD 0 false)
        (data.m_samples.getD 0 false) ⟨STATE_IDLE, 0, 0, 0, false,
          ⟨clk.m_timescale, clk.m_startTimestamp, clk.m_startFemtoseconds, clk.m_triggerPhase,
            [], [], []⟩⟩) t := by
      intro cs t
      cases cs
      · exact ⟨ordered_empty _ _ _ _, Or.inl rfl⟩
      · exact ⟨ordered_empty _ _ _ _, Or.inl rfl⟩
    rw [loop] at hmf
    split_ifs at hmf with hbreak
    · cases hmf
      exact (hm0 _ 0).1
    · exact loop_ordered clk csn data _ _ _ mf _
        (advance_cursor csn _ _ _ _ (by omega)) (advance_cursor clk _ _ _ _ (by omega))
        (le_refl _) (hm0 _ _) hmf

/-- C26 on `exampleCapture`: the sampling instants never decrease and the three symbols of the
output (SELECT, DATA, DESELECT) are ordered. -/
theorem C26_output_in_time_order_witness :
    NonDecreasing exampleCapture.samples
    ∧ Ordered (foldSamples exampleCapture.samples
        ⟨STATE_IDLE, 0, 0, 0, false, ⟨1, 0, 0, 0, [], [], []⟩⟩).cap
    ∧ (foldSamples exampleCapture.samples
        ⟨STATE_IDLE, 0, 0, 0, false, ⟨1, 0, 0, 0, [], [], []⟩⟩).cap.m_samples.map SPISymbol.m_stype
      = [TYPE_SELECT, TYPE_DATA, TYPE_DESELECT] :=
  ⟨by decide,
    (C26_output_in_time_order (channel exampleCapture.samples Sample.clk)
      (channel exampleCapture.samples Sample.cs) (channel exampleCapture.samples Sample.data)).2
      exampleCapture.samples ⟨1, 0, 0, 0, [], [], []⟩ rfl rfl rfl (by decide),
    by decide⟩

end SPIDecoder

